import Mathlib

/-! # lifeEngine: ImGUI draw-data ring buffer and render command hand-off

Shallow embedding of `Engine/UI/Source/ImGUI/ImGUIEngine.cpp`.

The constant `IMGUI_DRAWBUFFERS_COUNT` is declared in a header that is not part
of the sources at hand; it is the parameter `N` throughout.
-/

namespace LifeEngine

/-! ## The slot search of `ImGUIWindow::Tick` (lines 79-90)

The loops only read the `isFree` flag of slots.  The flag is shared with the
rendering thread, so a read is modelled by an observation `obs t i`: the value
`drawDataBuffers[i]->IsFree()` returns at the `t`-th read.  A ring that nobody
touches during the search is the constant observation. -/

/-- Local state of the slot search: `time` counts the `IsFree()` reads done so
far, `currentBuffer` is the index of the slot the local pointer refers to, and
`visited` logs the slots read by the `for` loop (ghost). -/
structure ScanState where
  time : Nat
  indexCurrentBuffer : Nat
  currentBuffer : Nat
  visited : List Nat
  deriving DecidableEq, Repr

/-- The inner `for` loop of `Tick`; the first argument is the number of
iterations left (`IMGUI_DRAWBUFFERS_COUNT - index`).  A free slot breaks out
before the increment expression runs. -/
def forLoop (N : Nat) (obs : Nat → Nat → Bool) : Nat → ScanState → ScanState
  | 0, s => s
  | r + 1, s =>
    let s1 : ScanState :=
      { time := s.time + 1
        indexCurrentBuffer := s.indexCurrentBuffer
        currentBuffer := s.indexCurrentBuffer
        visited := s.visited ++ [s.indexCurrentBuffer] }
    if obs s.time s.indexCurrentBuffer then s1
    else forLoop N obs r { s1 with indexCurrentBuffer := (s.indexCurrentBuffer + 1) % N }

/-- The outer `while ( !currentBuffer->IsFree() )` loop; `fuel` bounds the
number of times its body runs.  On success the returned state has `time` equal
to the read that saw the slot free. -/
def whileLoop (N : Nat) (obs : Nat → Nat → Bool) : Nat → ScanState → Option ScanState
  | 0, s => if obs s.time s.currentBuffer then some s else none
  | fuel + 1, s =>
    if obs s.time s.currentBuffer then some s
    else whileLoop N obs fuel (forLoop N obs N { s with time := s.time + 1 })

/-- Lines 79-90 of `Tick`: `currentBuffer = drawDataBuffers[ indexCurrentBuffer ]`
followed by the search loops. -/
def acquire (N : Nat) (obs : Nat → Nat → Bool) (fuel cursor : Nat) : Option ScanState :=
  whileLoop N obs fuel
    { time := 0, indexCurrentBuffer := cursor, currentBuffer := cursor, visited := [] }

/-- Observation of a ring that is not modified during the search. -/
def frozen (flags : List Bool) : Nat → Nat → Bool :=
  fun _ i => flags.getD i false

/-- Line 93: `indexCurrentBuffer = ++indexCurrentBuffer % IMGUI_DRAWBUFFERS_COUNT`. -/
def advance (N cursor : Nat) : Nat := (cursor + 1) % N

/-! ## Memory

`CImGUIDrawData` owns heap objects: an array of `ImDrawList*` and the cloned
draw lists it points to.  The heap is a finite map from addresses to objects;
`operator new` is a parameter `alloc` that picks the address of the next
object. -/

abbrev Addr := Nat

/-- Content of an ImGui draw list.  The three buffers and `Flags` are the
output of the list; `scratch` stands for the building state (clip and path
stacks) that is not part of the output. -/
structure ImDrawList where
  CmdBuffer : List Nat
  IdxBuffer : List Nat
  VtxBuffer : List Nat
  Flags : Nat
  scratch : List Nat
  deriving DecidableEq, Repr

/-- Modelled from the spec: `ImDrawList::CloneOutput` is a function of the ImGui
library, whose sources are not at hand.  The snapshot is a deep copy of the
draw list's output: the clone is a new list with the same output buffers and
flags and an empty building state. -/
def ImDrawList.CloneOutput (l : ImDrawList) : ImDrawList :=
  { CmdBuffer := l.CmdBuffer, IdxBuffer := l.IdxBuffer, VtxBuffer := l.VtxBuffer
    Flags := l.Flags, scratch := [] }

/-- Objects on the heap: a draw list (`new ImDrawList`) or an array of draw-list
pointers (`new ImDrawList*[n]`); a `none` entry is a null or not yet assigned
pointer. -/
inductive HeapObj where
  | drawList (l : ImDrawList)
  | listArray (ptrs : List (Option Addr))
  deriving DecidableEq, Repr

/-- The heap: the most recent binding of an address is the first in the list. -/
structure Heap where
  cells : List (Addr × HeapObj)
  deriving DecidableEq, Repr

/-- Object stored at an address, `none` when the address is not allocated. -/
def Heap.read (h : Heap) (a : Addr) : Option HeapObj :=
  match h.cells.find? (fun c => c.1 == a) with
  | some c => some c.2
  | none => none

/-- Store an object at an address. -/
def Heap.write (h : Heap) (a : Addr) (o : HeapObj) : Heap :=
  { cells := (a, o) :: h.cells }

/-- Release an address. -/
def Heap.free (h : Heap) (a : Addr) : Heap :=
  { cells := h.cells.filter (fun c => !(c.1 == a)) }

/-- The `(uint32)` cast of an `int`. -/
def toUInt32 (i : Int) : Nat := (i % 4294967296).toNat

/-- The fields of `ImDrawData` that `drawData = *InDrawData` copies; `CmdLists`
is the pointer to the array of lists (`none` is `nullptr`). -/
structure ImDrawData where
  Valid : Bool
  CmdLists : Option Addr
  CmdListsCount : Int
  TotalIdxCount : Int
  TotalVtxCount : Int
  deriving DecidableEq, Repr

/-- Modelled from the spec: `ImDrawData::Clear` is a function of the ImGui
library; it leaves an empty draw data (every field zero, `CmdLists` null). -/
def ImDrawData.Clear : ImDrawData :=
  { Valid := false, CmdLists := none, CmdListsCount := 0, TotalIdxCount := 0, TotalVtxCount := 0 }

/-- One draw-data slot of the ring. -/
structure CImGUIDrawData where
  isFree : Bool
  drawData : ImDrawData
  deriving DecidableEq, Repr

/-- The constructor `CImGUIDrawData::CImGUIDrawData` (lines 20-24). -/
def CImGUIDrawData.new : CImGUIDrawData :=
  { isFree := true, drawData := ImDrawData.Clear }

/-- Modelled from the spec: `CImGUIDrawData::IsFree` is declared in a header
that is not at hand; it reads the slot's Free/Busy state. -/
def CImGUIDrawData.IsFree (d : CImGUIDrawData) : Bool := d.isFree

/-- Modelled from the spec: `CImGUIDrawData::MarkFree` is declared in a header
that is not at hand; the consumer "marks the slot Free". -/
def CImGUIDrawData.MarkFree (d : CImGUIDrawData) : CImGUIDrawData :=
  { d with isFree := true }

/-- The loop of `CImGUIDrawData::Clear` (lines 36-39): `delete
drawData.CmdLists[ index ]` for `index` up to the count.  Reading past the
array or deleting something that is not a live draw list has no defined
result. -/
def CImGUIDrawData.Clear.loop (arr : Addr) : Nat → Nat → Heap → Option Heap
  | 0, _, h => some h
  | r + 1, index, h =>
    match h.read arr with
    | some (HeapObj.listArray ptrs) =>
      match ptrs.get? index with
      | none => none
      | some none => CImGUIDrawData.Clear.loop arr r (index + 1) h
      | some (some p) =>
        match h.read p with
        | some (HeapObj.drawList _) => CImGUIDrawData.Clear.loop arr r (index + 1) (h.free p)
        | _ => none
    | _ => none

/-- `CImGUIDrawData::Clear` (lines 31-46).  A failed `check` aborts: `none`. -/
def CImGUIDrawData.Clear (h : Heap) (d : CImGUIDrawData) : Option (Heap × CImGUIDrawData) :=
  if d.isFree then
    match d.drawData.CmdLists with
    | some arr =>
      match CImGUIDrawData.Clear.loop arr (toUInt32 d.drawData.CmdListsCount) 0 h with
      | some h1 =>
        match h1.read arr with
        | some (HeapObj.listArray _) =>
          some (h1.free arr, { d with drawData := ImDrawData.Clear })
        | _ => none
      | none => none
    | none => some (h, { d with drawData := ImDrawData.Clear })
  else none

/-- The loop of `CImGUIDrawData::SetDrawData` (lines 57-60):
`drawData.CmdLists[ index ] = InDrawData->CmdLists[ index ]->CloneOutput()`,
where `src` is `InDrawData->CmdLists` and `dst` the new array. -/
def CImGUIDrawData.SetDrawData.loop (alloc : Heap → Addr) (src : Option Addr) (dst : Addr) :
    Nat → Nat → Heap → Option Heap
  | 0, _, h => some h
  | r + 1, index, h =>
    match src with
    | none => none
    | some sa =>
      match h.read sa with
      | some (HeapObj.listArray sptrs) =>
        match sptrs.get? index with
        | some (some p) =>
          match h.read p with
          | some (HeapObj.drawList l) =>
            let q := alloc h
            let h1 := h.write q (HeapObj.drawList l.CloneOutput)
            match h1.read dst with
            | some (HeapObj.listArray dptrs) =>
              if index < dptrs.length then
                CImGUIDrawData.SetDrawData.loop alloc src dst r (index + 1)
                  (h1.write dst (HeapObj.listArray (dptrs.set index (some q))))
              else none
            | _ => none
          | _ => none
        | _ => none
      | _ => none

/-- `CImGUIDrawData::SetDrawData` (lines 48-61); `InDrawData` is the value of
the pointed-to struct at the call, `none` for a null pointer.  A negative
count makes `new[]` throw. -/
def CImGUIDrawData.SetDrawData (alloc : Heap → Addr) (h : Heap) (d : CImGUIDrawData)
    (InDrawData : Option ImDrawData) : Option (Heap × CImGUIDrawData) :=
  match InDrawData with
  | none => none
  | some src =>
    if d.isFree && src.Valid then
      match d.Clear h with
      | none => none
      | some (h1, _) =>
        if src.CmdListsCount < 0 then none
        else
          let arr := alloc h1
          let h2 := h1.write arr (HeapObj.listArray (List.replicate src.CmdListsCount.toNat none))
          match CImGUIDrawData.SetDrawData.loop alloc src.CmdLists arr
              (toUInt32 src.CmdListsCount) 0 h2 with
          | none => none
          | some h3 =>
            some (h3, { isFree := false, drawData := { src with CmdLists := some arr } })
    else none

/-- Reading `count` draw lists through `CmdLists`, the way a renderer walks a
draw data: `CmdLists[ index ]` for each index, then the list it points to.
The first argument is the heap, the third the number of lists left. -/
def ImDrawData.readLoop (h : Heap) (arr : Option Addr) : Nat → Nat → Option (List ImDrawList)
  | 0, _ => some []
  | r + 1, index =>
    match arr with
    | none => none
    | some a =>
      match h.read a with
      | some (HeapObj.listArray ptrs) =>
        match ptrs.get? index with
        | some (some p) =>
          match h.read p with
          | some (HeapObj.drawList l) =>
            match ImDrawData.readLoop h arr r (index + 1) with
            | some ls => some (l :: ls)
            | none => none
          | _ => none
        | _ => none
      | _ => none

/-- The draw lists of a draw data, in order; `none` when a pointer dangles. -/
def ImDrawData.readLists (h : Heap) (dd : ImDrawData) : Option (List ImDrawList) :=
  ImDrawData.readLoop h dd.CmdLists (toUInt32 dd.CmdListsCount) 0

/-- What the consumer reads through `GetDrawData()`: the draw lists of the
slot's draw data. -/
def CImGUIDrawData.readPayload (h : Heap) (d : CImGUIDrawData) : Option (List ImDrawList) :=
  d.drawData.readLists h

/-- The addresses a draw data occupies: its array of list pointers, when there
is one, and the lists the first `CmdListsCount` entries point to. -/
def ImDrawData.addrs (h : Heap) (dd : ImDrawData) : List Addr :=
  match dd.CmdLists with
  | none => []
  | some a =>
    match h.read a with
    | some (HeapObj.listArray ptrs) =>
      a :: (ptrs.take (toUInt32 dd.CmdListsCount)).filterMap id
    | _ => []

/-! ## Windows, render commands and `Tick` -/

/-- The fields of `ImGuiViewport` the engine reads; `DrawData` is the value
behind the pointer (`none` for `nullptr`), `ViewportRHI` the RHI viewport
handle (`none` for the main window). -/
structure ImGuiViewport where
  Flags : Nat
  DrawData : Option ImDrawData
  ViewportRHI : Option Nat
  deriving DecidableEq, Repr

/-- An `ImGUIWindow`: the ring `drawDataBuffers` and its cursor. -/
structure ImGUIWindow where
  imguiViewport : ImGuiViewport
  drawDataBuffers : List CImGUIDrawData
  indexCurrentBuffer : Nat
  deriving DecidableEq, Repr

/-- The constructor `ImGUIWindow::ImGUIWindow` (lines 67-75). -/
def ImGUIWindow.new (N : Nat) (InViewport : ImGuiViewport) : ImGUIWindow :=
  { imguiViewport := InViewport
    drawDataBuffers := List.replicate N CImGUIDrawData.new
    indexCurrentBuffer := 0 }

/-- The `isFree` flags of a window's ring. -/
def ImGUIWindow.flags (w : ImGUIWindow) : List Bool :=
  w.drawDataBuffers.map CImGUIDrawData.IsFree

/-- A `TRefCountPtr< CImGUIDrawData >`: the slot `drawDataBuffers[ index ]` of
the window `window` (its position in the engine's `windows`). -/
structure SlotRef where
  window : Nat
  index : Nat
  deriving DecidableEq, Repr

/-- The two render commands `Tick` creates, with their captured parameters. -/
inductive RenderCommand where
  | MainWindow_DrawImGUICommand (imGuiDrawData : SlotRef)
  | ChildWindow_DrawImGUICommand (imGuiDrawData : SlotRef) (viewportRHI : Nat)
      (isNeedClear : Bool)
  deriving DecidableEq, Repr

/-- The slot a command holds. -/
def RenderCommand.slot : RenderCommand → SlotRef
  | MainWindow_DrawImGUICommand r => r
  | ChildWindow_DrawImGUICommand r _ _ => r

/-- State shared by the main and the rendering thread: the heap, the engine's
`windows` and the render commands that are enqueued and not yet executed,
oldest first. -/
structure EngineState where
  heap : Heap
  windows : List ImGUIWindow
  queue : List RenderCommand
  deriving DecidableEq, Repr

/-- The command `Tick` enqueues for the slot `currentBuffer` (lines 95-124):
the main-window command when `ViewportRHI` is null, else the child-window
command with `isNeedClear = !( Flags & ImGuiViewportFlags_NoRendererClear )`. -/
def ImGUIWindow.drawCommand (noClear : Nat) (w : ImGUIWindow) (currentBuffer : SlotRef) :
    RenderCommand :=
  match w.imguiViewport.ViewportRHI with
  | none => RenderCommand.MainWindow_DrawImGUICommand currentBuffer
  | some viewportRHI =>
    RenderCommand.ChildWindow_DrawImGUICommand currentBuffer viewportRHI
      (w.imguiViewport.Flags &&& noClear == 0)

/-- `ImGUIWindow::Tick` (lines 77-125) for the window at position `this`, on a
ring that the rendering thread leaves alone during the call.  `noClear` is the
constant `ImGuiViewportFlags_NoRendererClear`. -/
def ImGUIWindow.Tick (N : Nat) (alloc : Heap → Addr) (noClear : Nat) (fuel this : Nat)
    (st : EngineState) : Option EngineState :=
  match st.windows.get? this with
  | none => none
  | some w =>
    match acquire N (frozen w.flags) fuel w.indexCurrentBuffer with
    | none => none
    | some s =>
      match w.drawDataBuffers.get? s.currentBuffer with
      | none => none
      | some currentBuffer =>
        match currentBuffer.SetDrawData alloc st.heap w.imguiViewport.DrawData with
        | none => none
        | some (heap1, filled) =>
          let w1 : ImGUIWindow :=
            { w with
              drawDataBuffers := w.drawDataBuffers.set s.currentBuffer filled
              indexCurrentBuffer := advance N s.indexCurrentBuffer }
          some { heap := heap1, windows := st.windows.set this w1
                 queue := st.queue ++ [ImGUIWindow.drawCommand noClear w ⟨this, s.currentBuffer⟩] }

/-- Successive `Tick` calls of one window with nothing executed in between;
the list gives the fuel of each call. -/
def ImGUIWindow.tickRepeat (N : Nat) (alloc : Heap → Addr) (noClear this : Nat) :
    List Nat → EngineState → Option EngineState
  | [], st => some st
  | fuel :: rest, st =>
    match ImGUIWindow.Tick N alloc noClear fuel this st with
    | none => none
    | some st1 => ImGUIWindow.tickRepeat N alloc noClear this rest st1

/-- Colours passed to `ClearSurface`. -/
inductive Color where
  | black
  | rgba (value : Nat)
  deriving DecidableEq, Repr

/-- What a draw command does, in program order: the calls on the graphics
context and the release of the slot.  `ClearSurface v c` clears
`v->GetSurface()`; `DrawImGUI` records the slot whose `GetDrawData()` is drawn
and the draw lists read through it. -/
inductive RHICall where
  | BeginDrawingViewport (viewportRHI : Nat)
  | ClearSurface (viewportRHI : Nat) (color : Color)
  | DrawImGUI (slot : SlotRef) (drawData : ImDrawData) (payload : Option (List ImDrawList))
  | EndDrawingViewport (viewportRHI : Nat) (isPresent lockToVsync : Bool)
  | MarkFree (slot : SlotRef)
  deriving DecidableEq, Repr

/-- Slot behind a reference. -/
def EngineState.slotAt (st : EngineState) (r : SlotRef) : Option CImGUIDrawData :=
  match st.windows.get? r.window with
  | none => none
  | some w => w.drawDataBuffers.get? r.index

/-- `imGuiDrawData->MarkFree()` through a reference. -/
def EngineState.markFree (st : EngineState) (r : SlotRef) : EngineState :=
  match st.windows.get? r.window with
  | none => st
  | some w =>
    match w.drawDataBuffers.get? r.index with
    | none => st
    | some d =>
      { st with
        windows := st.windows.set r.window
          { w with drawDataBuffers := w.drawDataBuffers.set r.index d.MarkFree } }

/-- Body of the render commands (lines 100-103 and 111-123), run by the
rendering thread: the actions performed and the state afterwards. -/
def RenderCommand.Execute (cmd : RenderCommand) (st : EngineState) :
    Option (List RHICall × EngineState) :=
  match cmd with
  | MainWindow_DrawImGUICommand imGuiDrawData =>
    match st.slotAt imGuiDrawData with
    | none => none
    | some d =>
      some ([RHICall.DrawImGUI imGuiDrawData d.drawData (d.readPayload st.heap),
             RHICall.MarkFree imGuiDrawData],
            st.markFree imGuiDrawData)
  | ChildWindow_DrawImGUICommand imGuiDrawData viewportRHI isNeedClear =>
    match st.slotAt imGuiDrawData with
    | none => none
    | some d =>
      some ([RHICall.BeginDrawingViewport viewportRHI]
              ++ (if isNeedClear then [RHICall.ClearSurface viewportRHI Color.black] else [])
              ++ [RHICall.DrawImGUI imGuiDrawData d.drawData (d.readPayload st.heap),
                  RHICall.EndDrawingViewport viewportRHI true false,
                  RHICall.MarkFree imGuiDrawData],
            st.markFree imGuiDrawData)

/-! ## `Tick` while the rendering thread runs

`Tick` runs on the main thread while the rendering thread executes the queued
commands.  The two threads meet at the `isFree` flags: `Tick` reads them, a
command sets the flag of its slot at its end.  A `Tick` is therefore described
together with a schedule `done`: `done t` is the number of commands the
rendering thread has finished, counted from the entry of `Tick`, when `Tick`
does its `t`-th `IsFree()` read.  Commands that finish between the last read
and the return of `Tick` touch neither the slot being filled (it is Free, so
no queued command holds it) nor the tail of the queue; they are counted as
finished after the call. -/

/-- The rendering thread executes the oldest queued command; with nothing
queued it waits and the state stays. -/
def EngineState.consume (st : EngineState) : Option EngineState :=
  match st.queue with
  | [] => some st
  | cmd :: rest =>
    match cmd.Execute { st with queue := rest } with
    | none => none
    | some (_, st1) => some st1

/-- The rendering thread executes the `n` oldest queued commands. -/
def EngineState.consumeN : Nat → EngineState → Option EngineState
  | 0, st => some st
  | n + 1, st =>
    match st.consume with
    | none => none
    | some st1 => EngineState.consumeN n st1

/-- What the `t`-th `IsFree()` read of a `Tick` of the window `this` returns
for slot `i`, when the call was entered in `st` and the rendering thread
follows the schedule `done`. -/
def ImGUIWindow.observe (this : Nat) (done : Nat → Nat) (st : EngineState) : Nat → Nat → Bool :=
  fun t i =>
    match st.consumeN (done t) with
    | none => false
    | some st1 =>
      match st1.windows.get? this with
      | none => false
      | some w => w.flags.getD i false

/-- Lines 92-124 of `Tick`, after the search has left its local state `s`:
`currentBuffer->SetDrawData( imguiViewport->DrawData )`, the step of the cursor
and the render command for `currentBuffer`. -/
def ImGUIWindow.fill (N : Nat) (alloc : Heap → Addr) (noClear this : Nat) (s : ScanState)
    (st : EngineState) : Option EngineState :=
  match st.windows.get? this with
  | none => none
  | some w =>
    match w.drawDataBuffers.get? s.currentBuffer with
    | none => none
    | some currentBuffer =>
      match currentBuffer.SetDrawData alloc st.heap w.imguiViewport.DrawData with
      | none => none
      | some (heap1, filled) =>
        let w1 : ImGUIWindow :=
          { w with
            drawDataBuffers := w.drawDataBuffers.set s.currentBuffer filled
            indexCurrentBuffer := advance N s.indexCurrentBuffer }
        some { heap := heap1, windows := st.windows.set this w1
               queue := st.queue ++ [ImGUIWindow.drawCommand noClear w ⟨this, s.currentBuffer⟩] }

/-- `ImGUIWindow::Tick` (lines 77-125) for the window at position `this` while
the rendering thread follows the schedule `done`: the search reads the flags
as the rendering thread leaves them, and the slot is filled in the state the
last read saw.  There is no result while the search has not ended within
`fuel` runs of the `while` body. -/
def ImGUIWindow.TickConcurrent (N : Nat) (alloc : Heap → Addr) (noClear : Nat)
    (done : Nat → Nat) (fuel this : Nat) (st : EngineState) : Option EngineState :=
  match st.windows.get? this with
  | none => none
  | some w =>
    match acquire N (ImGUIWindow.observe this done st) fuel w.indexCurrentBuffer with
    | none => none
    | some s =>
      match st.consumeN (done s.time) with
      | none => none
      | some st1 => ImGUIWindow.fill N alloc noClear this s st1

/-- The loop of `ImGUIEngine::EndDraw` (lines 244-247); the first argument is
`count - index`.  `pace index` is the schedule of the rendering thread during
the `Tick` of `windows[ index ]`. -/
def ImGUIEngine.EndDraw.loop (N : Nat) (alloc : Heap → Addr) (noClear fuel : Nat)
    (pace : Nat → Nat → Nat) : Nat → Nat → EngineState → Option EngineState
  | 0, _, st => some st
  | r + 1, index, st =>
    match ImGUIWindow.TickConcurrent N alloc noClear (pace index) fuel index st with
    | none => none
    | some st1 => ImGUIEngine.EndDraw.loop N alloc noClear fuel pace r (index + 1) st1

/-- `ImGUIEngine::EndDraw` (lines 234-248) while the rendering thread runs.
`imguiRender` stands for the calls into ImGui and the platform layer that come
before the loop (`ImGui::Render`, `appImGUIEndDrawing`,
`ImGui::UpdatePlatformWindows`). -/
def ImGUIEngine.EndDraw (N : Nat) (alloc : Heap → Addr) (noClear fuel : Nat)
    (pace : Nat → Nat → Nat) (imguiRender : EngineState → EngineState) (st : EngineState) :
    Option EngineState :=
  let st0 := imguiRender st
  ImGUIEngine.EndDraw.loop N alloc noClear fuel pace st0.windows.length 0 st0

/-! ## Producer and consumer steps -/

/-- One step of the system: the main thread completes a `Tick` of some window
while the rendering thread executes commands at any pace, the rendering thread
executes the oldest queued command, or ImGui builds a new frame (it changes
viewports and the heap, not the rings or the queue). -/
inductive Step (N : Nat) (alloc : Heap → Addr) (noClear : Nat) :
    EngineState → EngineState → Prop where
  | produce (done : Nat → Nat) (hdone : ∀ t, done t ≤ done (t + 1)) (fuel this : Nat)
      (st st1 : EngineState)
      (h : ImGUIWindow.TickConcurrent N alloc noClear done fuel this st = some st1) :
      Step N alloc noClear st st1
  | consume (cmd : RenderCommand) (rest : List RenderCommand) (trace : List RHICall)
      (st st1 : EngineState) (hq : st.queue = cmd :: rest)
      (h : cmd.Execute { st with queue := rest } = some (trace, st1)) : Step N alloc noClear st st1
  | frame (st st1 : EngineState) (hq : st1.queue = st.queue)
      (hw : st1.windows.map (fun w => (w.drawDataBuffers, w.indexCurrentBuffer))
        = st.windows.map (fun w => (w.drawDataBuffers, w.indexCurrentBuffer))) :
      Step N alloc noClear st st1

/-- States reachable from freshly constructed windows and an empty queue. -/
inductive Reachable (N : Nat) (alloc : Heap → Addr) (noClear : Nat) : EngineState → Prop where
  | init (heap : Heap) (viewports : List ImGuiViewport) :
      Reachable N alloc noClear
        { heap := heap, windows := viewports.map (ImGUIWindow.new N), queue := [] }
  | step (st st1 : EngineState) (hr : Reachable N alloc noClear st)
      (hs : Step N alloc noClear st st1) : Reachable N alloc noClear st1

/-- Number of queued commands that hold the slot `r`. -/
def refCount (queue : List RenderCommand) (r : SlotRef) : Nat :=
  (queue.map RenderCommand.slot).count r

/-- The bookkeeping between the rings and the queue: a slot is Busy exactly
when one queued command holds it, no slot is held by two queued commands, and
no queued command holds a slot that does not exist. -/
def RingInvariant (st : EngineState) : Prop :=
  (∀ r d, st.slotAt r = some d →
    (d.isFree = false ↔ refCount st.queue r = 1) ∧ refCount st.queue r ≤ 1) ∧
  (∀ r, st.slotAt r = none → refCount st.queue r = 0)

/-! ## The render command queue -/

/-- Modelled from the spec: the render command queue and the rendering thread
(`Render/RenderingThread.h` and its implementation) are not among the sources
at hand.  The spec's `CommandQueue` is "an ordered sequence of Command, FIFO";
`queue` holds the commands not yet executed, head first, and `executed` records
the `execute()` calls of the rendering thread in the order they happen. -/
structure RenderThread (Cmd : Type) where
  queue : List Cmd
  executed : List Cmd

/-- Modelled from the spec: the pipeline after `init()`, nothing enqueued and
nothing executed. -/
def RenderThread.start (Cmd : Type) : RenderThread Cmd :=
  { queue := [], executed := [] }

/-- Modelled from the spec: `enqueue(command)` "appends to the tail". -/
def RenderThread.enqueue {Cmd : Type} (rt : RenderThread Cmd) (command : Cmd) :
    RenderThread Cmd :=
  { rt with queue := rt.queue ++ [command] }

/-- Modelled from the spec: one turn of the body of `drain_and_execute()`, which
"pops the head command, invokes its `execute()`"; on an empty queue the thread
waits and nothing happens. -/
def RenderThread.executeNext {Cmd : Type} (rt : RenderThread Cmd) : RenderThread Cmd :=
  match rt.queue with
  | [] => rt
  | command :: rest => { queue := rest, executed := rt.executed ++ [command] }

/-- Modelled from the spec: `drain_and_execute()` "repeats until the queue is
empty"; the first argument bounds the number of turns. -/
def RenderThread.drainLoop {Cmd : Type} : Nat → RenderThread Cmd → RenderThread Cmd
  | 0, rt => rt
  | fuel + 1, rt =>
    match rt.queue with
    | [] => rt
    | _ :: _ => RenderThread.drainLoop fuel rt.executeNext

/-- Modelled from the spec: `drain_and_execute()`, with one turn per queued
command. -/
def RenderThread.drain_and_execute {Cmd : Type} (rt : RenderThread Cmd) : RenderThread Cmd :=
  RenderThread.drainLoop rt.queue.length rt

/-- What happens on the queue: the producer enqueues a command or the rendering
thread runs one turn of its loop. -/
inductive QueueEvent (Cmd : Type) where
  | enqueue (command : Cmd)
  | execute

/-- The commands a sequence of events enqueues, in order. -/
def QueueEvent.enqueued {Cmd : Type} : List (QueueEvent Cmd) → List Cmd
  | [] => []
  | QueueEvent.enqueue command :: rest => command :: QueueEvent.enqueued rest
  | QueueEvent.execute :: rest => QueueEvent.enqueued rest

/-- The state after a sequence of events, oldest first. -/
def RenderThread.run {Cmd : Type} : List (QueueEvent Cmd) → RenderThread Cmd → RenderThread Cmd
  | [], rt => rt
  | QueueEvent.enqueue command :: rest, rt => RenderThread.run rest (rt.enqueue command)
  | QueueEvent.execute :: rest, rt => RenderThread.run rest rt.executeNext

/-! ## Sample inputs -/

/-- An allocator that never hands out an address twice: one past the largest
address bound so far. -/
def Heap.fresh (h : Heap) : Addr := (h.cells.map Prod.fst).foldr max 0 + 1

/-- A valid draw data without draw lists. -/
def emptyFrame : ImDrawData :=
  { Valid := true, CmdLists := none, CmdListsCount := 0, TotalIdxCount := 0, TotalVtxCount := 0 }

/-- A Busy slot with nothing in it. -/
def busySlot : CImGUIDrawData := { isFree := false, drawData := ImDrawData.Clear }

/-- A main window with a ring of three slots, the cursor on slot 0, slot 0 Busy
and slots 1 and 2 Free. -/
def skipWindow : ImGUIWindow :=
  { imguiViewport := { Flags := 0, DrawData := some emptyFrame, ViewportRHI := none }
    drawDataBuffers := [busySlot, CImGUIDrawData.new, CImGUIDrawData.new]
    indexCurrentBuffer := 0 }

/-- The window `skipWindow` alone, nothing queued. -/
def skipState : EngineState :=
  { heap := { cells := [] }, windows := [skipWindow], queue := [] }

/-- The state `skipState` after one `Tick` of its window. -/
def skipStateAfter : EngineState :=
  { heap := { cells := [(1, HeapObj.listArray [])] }
    windows :=
      [{ imguiViewport := { Flags := 0, DrawData := some emptyFrame, ViewportRHI := none }
         drawDataBuffers :=
           [busySlot,
            { isFree := false, drawData := { emptyFrame with CmdLists := some 1 } },
            CImGUIDrawData.new]
         indexCurrentBuffer := 2 }]
    queue := [RenderCommand.MainWindow_DrawImGUICommand ⟨0, 1⟩] }

/-- Reads of a ring of three Busy slots while the rendering thread executes the
two oldest commands after the second read: slot 0 and then slot 1 become Free
and stay so. -/
def fifoRelease : Nat → Nat → Bool :=
  fun t i => decide (2 ≤ t) && decide (i ≤ 1)

/-- The main viewport showing an empty frame. -/
def mainViewport : ImGuiViewport :=
  { Flags := 0, DrawData := some emptyFrame, ViewportRHI := none }

/-- One freshly constructed main window with two slots, nothing queued. -/
def freshState : EngineState :=
  { heap := { cells := [] }, windows := [mainViewport].map (ImGUIWindow.new 2), queue := [] }

/-- The state `freshState` after one `Tick` of its window. -/
def tickedState : EngineState :=
  { heap := { cells := [(1, HeapObj.listArray [])] }
    windows :=
      [{ imguiViewport := mainViewport
         drawDataBuffers :=
           [{ isFree := false, drawData := { emptyFrame with CmdLists := some 1 } },
            CImGUIDrawData.new]
         indexCurrentBuffer := 1 }]
    queue := [RenderCommand.MainWindow_DrawImGUICommand ⟨0, 0⟩] }

/-- A child viewport with RHI viewport 7 and no flags set. -/
def childViewport : ImGuiViewport :=
  { Flags := 0, DrawData := some emptyFrame, ViewportRHI := some 7 }

/-- A child window whose slot 0 is Busy with an empty frame, and the command
that draws it. -/
def childState : EngineState :=
  { heap := { cells := [(1, HeapObj.listArray [])] }
    windows :=
      [{ imguiViewport := childViewport
         drawDataBuffers :=
           [{ isFree := false, drawData := { emptyFrame with CmdLists := some 1 } },
            CImGUIDrawData.new]
         indexCurrentBuffer := 1 }]
    queue := [] }

/-- A draw list with one command, three indices and three vertices. -/
def sourceList : ImDrawList :=
  { CmdBuffer := [1], IdxBuffer := [0, 1, 2], VtxBuffer := [5, 6, 7], Flags := 3, scratch := [9] }

/-- A heap with a draw data of one list: the array at address 10 and the list
at address 11. -/
def sourceHeap : Heap :=
  { cells := [(10, HeapObj.listArray [some 11]), (11, HeapObj.drawList sourceList)] }

/-- The draw data stored in `sourceHeap`. -/
def sourceFrame : ImDrawData :=
  { Valid := true, CmdLists := some 10, CmdListsCount := 1, TotalIdxCount := 3
    TotalVtxCount := 3 }

/-! ## Flush and shutdown -/

/-- Modelled from the spec: the kinds of command on the queue.  An ordinary
command carries deferred work; a `FlushBarrier` is "a one-shot marker Command
whose execution signals a condition observed by the blocked producer" (the
ticket tells one flush from another); a shutdown request "is itself delivered
as a terminal Command appended to the queue". -/
inductive Command (α : Type) where
  | ordinary (body : α)
  | barrier (ticket : Nat)
  | terminal
  deriving DecidableEq, Repr

/-- Modelled from the spec: the wait of `flush()`: the producer stays blocked
while the rendering thread takes its turns, until the turn that executes the
barrier; the first argument bounds the number of turns.  On an empty queue the
barrier can no longer arrive and there is no result. -/
def RenderThread.flushLoop {α : Type} [DecidableEq α] (ticket : Nat) :
    Nat → RenderThread (Command α) → Option (RenderThread (Command α))
  | 0, _ => none
  | fuel + 1, rt =>
    match rt.queue with
    | [] => none
    | command :: _ =>
      if command = Command.barrier ticket then some rt.executeNext
      else RenderThread.flushLoop ticket fuel rt.executeNext

/-- Modelled from the spec: `flush()` "enqueues a barrier command, then blocks
the calling producer thread until that barrier's execution is observed". -/
def RenderThread.flush {α : Type} [DecidableEq α] (fuel ticket : Nat)
    (rt : RenderThread (Command α)) : Option (RenderThread (Command α)) :=
  RenderThread.flushLoop ticket fuel (rt.enqueue (Command.barrier ticket))

/-- A counter that every ordinary command increments when it executes: the
number of ordinary commands executed so far. -/
def RenderThread.counter {α : Type} (rt : RenderThread (Command α)) : Nat :=
  (rt.executed.filter fun command =>
    match command with
    | Command.ordinary _ => true
    | _ => false).length

/-- Modelled from the spec: the loop of the rendering thread; it "processes all
commands ahead of" the terminal command, "then exits its loop after observing
the terminal marker".  The result is the state at exit; there is none while the
thread is still waiting for work.  The first argument bounds the number of
turns. -/
def RenderThread.threadLoop {α : Type} :
    Nat → RenderThread (Command α) → Option (RenderThread (Command α))
  | 0, _ => none
  | fuel + 1, rt =>
    match rt.queue with
    | [] => none
    | Command.terminal :: rest => some { queue := rest, executed := rt.executed }
    | command :: rest =>
      RenderThread.threadLoop fuel { queue := rest, executed := rt.executed ++ [command] }

/-- Modelled from the spec: `shutdown()` "enqueues the terminal command". -/
def RenderThread.shutdown {α : Type} (rt : RenderThread (Command α)) :
    RenderThread (Command α) :=
  rt.enqueue Command.terminal

/-! ## The world (`Engine/Source/System/World.cpp`) -/

/-- An `ActorRef_t`: the identity of an actor object. -/
abbrev ActorRef := Nat

/-- The state of an actor that the world reads: `IsPendingKill()`,
`IsPlaying()` and `IsSelected()`. -/
structure AActor where
  isPendingKill : Bool
  isPlaying : Bool
  isSelected : Bool
  deriving DecidableEq, Repr

/-- The actor objects, by identity. -/
abbrev ActorStore := ActorRef → AActor

/-- The virtual methods of actors the world calls, as their effect on the actor
objects (the classes of actors are not part of `World.cpp`). -/
structure ActorMethods where
  Tick : ActorRef → ActorStore → ActorStore
  SyncPhysics : ActorRef → ActorStore → ActorStore
  Destroyed : ActorRef → ActorStore → ActorStore
  EndPlay : ActorRef → ActorStore → ActorStore
  TermPhysics : ActorRef → ActorStore → ActorStore

/-- What the world does, in program order: calls on actors, on the camera
manager, the physics scene, the scene and the editor delegates, the flush of
the rendering commands, and the clearing of its own lists. -/
inductive WorldEvent where
  | ActorEndPlay (actor : ActorRef)
  | ActorTermPhysics (actor : ActorRef)
  | CameraManagerEndPlay
  | ActorTick (actor : ActorRef)
  | ActorSyncPhysics (actor : ActorRef)
  | ActorDestroyed (actor : ActorRef)
  | FlushRenderingCommands
  | onActorsDestroyed (actors : List ActorRef)
  | onActorsSelected (actors : List ActorRef)
  | onActorsUnselected (actors : List ActorRef)
  | MarkDirty
  | RemoveAllBodies
  | SceneClear
  | actorsClear
  | actorsToDestroyClear
  deriving DecidableEq, Repr

/-- The fields of `CWorld`, the actor objects and the record of what the world
has done so far. -/
structure CWorld where
  isBeginPlay : Bool
  actors : List ActorRef
  actorsToDestroy : List ActorRef
  selectedActors : List ActorRef
  bDirty : Bool
  filePath : String
  name : String
  objects : ActorStore
  log : List WorldEvent

/-- A counted loop `for ( index = first; index < first + count; ++index )`: the
first argument is the body, the second the number of iterations left. -/
def forIndex {σ : Type} (body : Nat → σ → σ) : Nat → Nat → σ → σ
  | 0, _, s => s
  | r + 1, index, s => forIndex body r (index + 1) (body index s)

/-- The body of the loop of `CWorld::EndPlay` (lines 85-87): `actor->EndPlay()`
and `actor->TermPhysics()`. -/
def CWorld.endPlayActor (m : ActorMethods) (actor : ActorRef) (w : CWorld) : CWorld :=
  { w with
    objects := m.TermPhysics actor (m.EndPlay actor w.objects)
    log := w.log ++ [WorldEvent.ActorEndPlay actor, WorldEvent.ActorTermPhysics actor] }

/-- `CWorld::EndPlay` (lines 74-92). -/
def CWorld.EndPlay (m : ActorMethods) (w : CWorld) : CWorld :=
  if !w.isBeginPlay then w
  else
    let w1 := forIndex (fun index (w : CWorld) =>
      match w.actors.get? index with
      | none => w
      | some actor => w.endPlayActor m actor)
      w.actors.length 0 w
    { w1 with log := w1.log ++ [WorldEvent.CameraManagerEndPlay], isBeginPlay := false }

/-- `CWorld::UnselectActor` (lines 357-376); `SetSelected` sets the actor's
flag, the loop erases the first occurrence of the actor. -/
def CWorld.UnselectActor (w : CWorld) (InActor : ActorRef) : CWorld :=
  if !(w.objects InActor).isSelected then w
  else
    { w with
      objects := Function.update w.objects InActor { w.objects InActor with isSelected := false }
      selectedActors := w.selectedActors.erase InActor
      log := w.log ++ [WorldEvent.onActorsUnselected [InActor]] }

/-- `CWorld::DestroyActor` (lines 271-315); `WITH_EDITOR` is the build flag.
The last loop erases the first occurrence of the actor in `actors`. -/
def CWorld.DestroyActor (m : ActorMethods) (WITH_EDITOR : Bool) (w : CWorld)
    (InActor : ActorRef) (InIsIgnorePlaying : Bool) : CWorld :=
  if (w.objects InActor).isPendingKill then w
  else if !InIsIgnorePlaying && (w.objects InActor).isPlaying then
    { w with actorsToDestroy := w.actorsToDestroy ++ [InActor] }
  else
    let w1 :=
      if WITH_EDITOR then
        let w0 := if (w.objects InActor).isSelected then w.UnselectActor InActor else w
        { w0 with
          log := w0.log ++ [WorldEvent.onActorsDestroyed [InActor], WorldEvent.MarkDirty]
          bDirty := true }
      else w
    { w1 with
      objects := m.Destroyed InActor w1.objects
      log := w1.log ++ [WorldEvent.ActorDestroyed InActor]
      actors := w1.actors.erase InActor }

/-- The body of the first loop of `CWorld::Tick` (lines 104-106):
`actor->Tick( InDeltaTime )` and `actor->SyncPhysics()`. -/
def CWorld.tickActor (m : ActorMethods) (actor : ActorRef) (w : CWorld) : CWorld :=
  { w with
    objects := m.SyncPhysics actor (m.Tick actor w.objects)
    log := w.log ++ [WorldEvent.ActorTick actor, WorldEvent.ActorSyncPhysics actor] }

/-- `CWorld::Tick` (lines 99-118); the delta time only reaches the actors'
`Tick`. -/
def CWorld.Tick (m : ActorMethods) (WITH_EDITOR : Bool) (w : CWorld) : CWorld :=
  let w1 := forIndex (fun index (w : CWorld) =>
    match w.actors.get? index with
    | none => w
    | some actor => w.tickActor m actor)
    w.actors.length 0 w
  if w1.actorsToDestroy.isEmpty then w1
  else
    let w2 := forIndex (fun index (w : CWorld) =>
      match w.actorsToDestroy.get? index with
      | none => w
      | some actor => w.DestroyActor m WITH_EDITOR actor true)
      w1.actorsToDestroy.length 0 w1
    { w2 with actorsToDestroy := [] }

/-- The body of the loop of `CWorld::CleanupWorld` (line 200):
`actors[ index ]->Destroyed()`. -/
def CWorld.destroyedActor (m : ActorMethods) (actor : ActorRef) (w : CWorld) : CWorld :=
  { w with
    objects := m.Destroyed actor w.objects
    log := w.log ++ [WorldEvent.ActorDestroyed actor] }

/-- Lines 194-221 of `CWorld::CleanupWorld`: everything after the `EndPlay`. -/
def CWorld.CleanupWorld.afterEndPlay (m : ActorMethods) (WITH_EDITOR : Bool) (w1 : CWorld) :
    CWorld :=
  let w2 := { w1 with log := w1.log ++ [WorldEvent.FlushRenderingCommands] }
  let w3 := forIndex (fun index (w : CWorld) =>
    match w.actors.get? index with
    | none => w
    | some actor => w.destroyedActor m actor)
    w2.actors.length 0 w2
  let w4 :=
    if WITH_EDITOR && !w3.actors.isEmpty then
      { w3 with log := w3.log ++ [WorldEvent.onActorsDestroyed w3.actors] }
    else w3
  let w5 :=
    { w4 with
      log := w4.log ++ [WorldEvent.RemoveAllBodies, WorldEvent.SceneClear,
        WorldEvent.actorsClear, WorldEvent.actorsToDestroyClear]
      actors := []
      actorsToDestroy := [] }
  if WITH_EDITOR then
    { w5 with bDirty := false, selectedActors := [], filePath := "", name := "Unknown" }
  else w5

/-- `CWorld::CleanupWorld` (lines 186-222). -/
def CWorld.CleanupWorld (m : ActorMethods) (WITH_EDITOR : Bool) (w : CWorld) : CWorld :=
  CWorld.CleanupWorld.afterEndPlay m WITH_EDITOR (if w.isBeginPlay then w.EndPlay m else w)

/-- Actor methods for the sample worlds: `Destroyed` marks the actor pending
kill, the others leave the flags alone. -/
def sampleMethods : ActorMethods :=
  { Tick := fun _ s => s
    SyncPhysics := fun _ s => s
    Destroyed := fun a s => Function.update s a { s a with isPendingKill := true }
    EndPlay := fun a s => Function.update s a { s a with isPlaying := false }
    TermPhysics := fun _ s => s }

/-- A playing world with the actors 1, 2 and 3, none selected or pending kill. -/
def sampleWorld : CWorld :=
  { isBeginPlay := true
    actors := [1, 2, 3]
    actorsToDestroy := []
    selectedActors := []
    bDirty := false
    filePath := ""
    name := "Unknown"
    objects := fun _ => { isPendingKill := false, isPlaying := true, isSelected := false }
    log := [] }

/-! ## The level viewport window (`WorldEd/Source/Windows/LevelViewportWindow.cpp`) -/

/-- The values of `SWindowEvent::type` that `ProcessEvent` tells apart. -/
inductive EventType where
  | T_MouseReleased
  | T_KeyReleased
  | other (code : Nat)
  deriving DecidableEq, Repr

/-- The button codes that `ProcessEvent` tells apart. -/
inductive ButtonCode where
  | BC_MouseLeft
  | BC_KeyEscape
  | other (code : Nat)
  deriving DecidableEq, Repr

/-- The fields of `SWindowEvent` that `ProcessEvent` reads. -/
structure SWindowEvent where
  type : EventType
  mouseButtonCode : ButtonCode
  keyCode : ButtonCode
  deriving DecidableEq, Repr

/-- What `ProcessEvent` reads from its surroundings: the build flag
`ENABLE_HITPROXY`, whether the widget is hovered once it has seen the event,
`bGuizmoUsing`, the hit proxy under the cursor (`none` when it is not valid,
else its index), the two control keys and `IsSelected()` of the actors. -/
structure ViewportInput where
  ENABLE_HITPROXY : Bool
  isHovered : Bool
  bGuizmoUsing : Bool
  hitProxyIndex : Option Nat
  isLControlDown : Bool
  isRControlDown : Bool
  isSelected : Nat → Bool

/-- The calls `ProcessEvent` makes, in program order; the actor of a selection
call is given by its index in the world (`GWorld->GetActor( index )`). -/
inductive ViewportCall where
  | viewportWidgetProcessEvent
  | viewportClientProcessEvent
  | UpdateHitProxiesId
  | DrawHitProxies
  | FlushRenderingCommands
  | GetHitProxyId
  | UnselectAllActors
  | UnselectActor (actorIndex : Nat)
  | SelectActor (actorIndex : Nat)
  | LE_LOG (actorIndex : Nat)
  deriving DecidableEq, Repr

/-- Lines 373-408 of `ProcessEvent`: the handling of a released mouse button. -/
def CLevelViewportWindow.ProcessEvent.mouseReleased (input : ViewportInput)
    (InWindowEvent : SWindowEvent) : List ViewportCall :=
  if input.ENABLE_HITPROXY && (!input.bGuizmoUsing
      && InWindowEvent.mouseButtonCode == ButtonCode.BC_MouseLeft) then
    let bControlDown := input.isLControlDown || input.isRControlDown
    [ViewportCall.UpdateHitProxiesId, ViewportCall.DrawHitProxies,
      ViewportCall.FlushRenderingCommands, ViewportCall.GetHitProxyId]
    ++ (if !bControlDown then [ViewportCall.UnselectAllActors] else [])
    ++ (match input.hitProxyIndex with
        | none => []
        | some index =>
          let actor := if index > 0 then index - 1 else index
          if bControlDown && input.isSelected actor then
            [ViewportCall.UnselectActor actor, ViewportCall.LE_LOG actor]
          else
            [ViewportCall.SelectActor actor, ViewportCall.LE_LOG actor])
  else []

/-- `CLevelViewportWindow::ProcessEvent` (lines 357-424). -/
def CLevelViewportWindow.ProcessEvent (input : ViewportInput) (InWindowEvent : SWindowEvent) :
    List ViewportCall :=
  [ViewportCall.viewportWidgetProcessEvent]
  ++ (if input.isHovered then
        [ViewportCall.viewportClientProcessEvent]
        ++ (match InWindowEvent.type with
            | EventType.T_MouseReleased =>
              CLevelViewportWindow.ProcessEvent.mouseReleased input InWindowEvent
            | EventType.T_KeyReleased =>
              if InWindowEvent.keyCode == ButtonCode.BC_KeyEscape then
                [ViewportCall.UnselectAllActors]
              else []
            | EventType.other _ => [])
      else [])

/-- A left mouse button release over a hovered viewport, control not held, the
hit proxy of the second actor under the cursor. -/
def sampleClick : ViewportInput :=
  { ENABLE_HITPROXY := true, isHovered := true, bGuizmoUsing := false
    hitProxyIndex := some 2, isLControlDown := false, isRControlDown := false
    isSelected := fun _ => false }

/-- The destructor `CImGUIDrawData::~CImGUIDrawData` (lines 26-29): `Clear()`,
after which the slot object is gone; the result is the heap left. -/
def CImGUIDrawData.Destructor (h : Heap) (d : CImGUIDrawData) : Option Heap :=
  match d.Clear h with
  | none => none
  | some (h1, _) => some h1

/-- A slot holding a clone of `sourceList`: the array at address 20, the list at
address 21; and the heap it lives in. -/
def filledSlot : CImGUIDrawData :=
  { isFree := true
    drawData :=
      { Valid := true, CmdLists := some 20, CmdListsCount := 1, TotalIdxCount := 3
        TotalVtxCount := 3 } }

/-- The heap of `filledSlot`. -/
def filledHeap : Heap :=
  { cells :=
      [(20, HeapObj.listArray [some 21]), (21, HeapObj.drawList sourceList.CloneOutput)] }

/-! ## File names (`BaseFileSystem.cpp`) -/

/-- A `std::wstring`: its characters in order. -/
abbrev WString := List Char

/-- `std::wstring::find_last_of( chars )`: the greatest position that holds one
of the characters of `chars`; `none` is `npos`. -/
def WString.find_last_of : WString → WString → Option Nat
  | [], _ => none
  | c :: s, chars =>
    match WString.find_last_of s chars with
    | some i => some (i + 1)
    | none => if c ∈ chars then some 0 else none

/-- `std::wstring::erase( pos, count )`: removes `count` characters from `pos`
on, or up to the end when fewer are left.  Every call in `BaseFileSystem.cpp`
has `pos` at most the size, so the `out_of_range` exit is never taken. -/
def WString.erase (s : WString) (pos count : Nat) : WString :=
  s.take pos ++ s.drop (pos + count)

/-- The class `CFilename`: the stored path. -/
structure CFilename where
  path : WString
  deriving DecidableEq, Repr

/-- `CFilename::GetExtension` (lines 28-39). -/
def CFilename.GetExtension (f : CFilename) (InIsIncludeDot : Bool) : WString :=
  let result := f.path
  match WString.find_last_of result ['.'] with
  | none => []
  | some dotPos => WString.erase result 0 (dotPos + (if InIsIncludeDot then 0 else 1))

/-- `CFilename::GetBaseFilename` (lines 46-62); `PATH_SEPARATOR` is a macro
defined outside the sources at hand. -/
def CFilename.GetBaseFilename (PATH_SEPARATOR : WString) (f : CFilename) : WString :=
  let result := f.path
  let result :=
    match WString.find_last_of result PATH_SEPARATOR with
    | some lastSlashPos => WString.erase result 0 (lastSlashPos + 1)
    | none => result
  match WString.find_last_of result ['.'] with
  | some dotPos => WString.erase result dotPos result.length
  | none => result

/-- `CFilename::GetPath` (lines 69-87). -/
def CFilename.GetPath (PATH_SEPARATOR : WString) (f : CFilename) : WString :=
  let result := f.path
  match WString.find_last_of result PATH_SEPARATOR with
  | some lastSlashPos =>
    WString.erase result (if lastSlashPos < result.length then lastSlashPos + 1 else lastSlashPos)
      result.length
  | none =>
    match WString.find_last_of result ['.'] with
    | some dotPos => WString.erase result dotPos result.length
    | none => result

/-- `CFilename::GetLocalizedFilename` (lines 94-121). -/
def CFilename.GetLocalizedFilename (PATH_SEPARATOR : WString) (f : CFilename)
    (InLanguage : WString) : WString :=
  let language := if InLanguage.isEmpty then ['I', 'N', 'T'] else InLanguage
  let localizedPath := f.GetPath PATH_SEPARATOR
  let localizedPath :=
    if !localizedPath.isEmpty then localizedPath ++ PATH_SEPARATOR else localizedPath
  let localizedPath := localizedPath ++ (f.GetBaseFilename PATH_SEPARATOR ++ ['_'] ++ language)
  let extension := f.GetExtension true
  if !extension.isEmpty then localizedPath ++ extension else localizedPath

/-- The file name `a/b.txt`. -/
def sampleFilename : CFilename := { path := ['a', '/', 'b', '.', 't', 'x', 't'] }

/-! ## Math (`Math.h`): `GridSnap` in `float` arithmetic

The finite values of a `float` (IEEE 754 binary32) are the rationals
`m * 2 ^ e` with `|m| < 2 ^ 24` and `-149 ≤ e ≤ 104`.  Every arithmetic
operation on `float`s returns the exact result rounded to the nearest such
value, ties to the even significand; a result that rounds to `2 ^ 128` or
beyond is an infinity and has no value here.  Arguments are finite; the sign of
a zero is not kept (`0.f == -0.f`). -/

/-- `Math::Floor` (lines 694-697): `floorf`; the floor of a `float` is a
`float`, so nothing is rounded. -/
def Math.Floor (InA : ℚ) : ℚ := (Int.floor InA : ℚ)

/-- Rounding to the nearest whole number, ties to the even one. -/
def roundHalfEven (x : ℚ) : ℤ :=
  if x - ⌊x⌋ < 1 / 2 then ⌊x⌋
  else if 1 / 2 < x - ⌊x⌋ then ⌊x⌋ + 1
  else if ⌊x⌋ % 2 = 0 then ⌊x⌋ else ⌊x⌋ + 1

/-- The unit in the last place of the `float`s around `x`: `2 ^ (e - 23)` for
`2 ^ e ≤ |x| < 2 ^ (e + 1)`, and `2 ^ -149` in the subnormal range. -/
def ulp32 (x : ℚ) : ℚ := 2 ^ (max (Int.log 2 |x|) (-126) - 23)

/-- The `float` an exact result `x` is rounded to; `none` on overflow. -/
def fl32 (x : ℚ) : Option ℚ :=
  let r : ℚ := roundHalfEven (x / ulp32 x) * ulp32 x
  if |r| < 2 ^ 128 then some r else none

/-- `Math::GridSnap( float, float )` (lines 754-764): each of the four
operations of `Floor( ( InValue + 0.5f * InGrid ) / InGrid ) * InGrid` rounds
its result to a `float`. -/
def Math.GridSnap (InValue InGrid : ℚ) : Option ℚ :=
  if InGrid = 0 then some InValue
  else
    match fl32 (0.5 * InGrid) with
    | none => none
    | some half =>
      match fl32 (InValue + half) with
      | none => none
      | some sum =>
        match fl32 (sum / InGrid) with
        | none => none
        | some quotient => fl32 (Math.Floor quotient * InGrid)

/-! ## Math (`Math.h`), in exact arithmetic

A `float` is a rational number; the functions below are the source's
expressions evaluated without rounding. -/

/-- The macro `PI` (line 33). -/
def PI : ℚ := 3.1415926535897932

/-- The type `Vector` (`glm::vec3`). -/
structure Vector where
  x : ℚ
  y : ℚ
  z : ℚ
  deriving DecidableEq

/-- The type `Vector4D` (`glm::vec4`). -/
structure Vector4D where
  x : ℚ
  y : ℚ
  z : ℚ
  w : ℚ
  deriving DecidableEq

/-- The type `Quaternion` (`glm::quat`). -/
structure Quaternion where
  x : ℚ
  y : ℚ
  z : ℚ
  w : ℚ
  deriving DecidableEq

/-- The type `Matrix` (`glm::mat4`): four columns, `M[ i ]` is column `i`. -/
structure Matrix where
  col0 : Vector4D
  col1 : Vector4D
  col2 : Vector4D
  col3 : Vector4D
  deriving DecidableEq

/-- The library functions `Math` forwards to and whose values are not computed
here: `asinf`, `atan2f` and `glm::degrees`. -/
structure CMath where
  asinf : ℚ → ℚ
  atan2f : ℚ → ℚ → ℚ
  degrees : ℚ → ℚ

/-- `Math::ASin` (lines 652-655). -/
def Math.ASin (lib : CMath) (InA : ℚ) : ℚ := lib.asinf InA

/-- `Math::ATan2` (lines 673-676). -/
def Math.ATan2 (lib : CMath) (InY InX : ℚ) : ℚ := lib.atan2f InY InX

/-- `Math::RadiansToDegrees` (lines 230-233). -/
def Math.RadiansToDegrees (lib : CMath) (InRadians : ℚ) : ℚ := lib.degrees InRadians

/-- `Math::QuaternionToAngles` (lines 173-211).  `Pow( a, 2.f )` is the square.
The three locals `pitch`, `yaw`, `roll` are the triple chosen by the branches. -/
def Math.QuaternionToAngles (lib : CMath) (InQuaternion : Quaternion) : Vector :=
  let quatSquareW := InQuaternion.w ^ 2
  let quatSquareX := InQuaternion.x ^ 2
  let quatSquareY := InQuaternion.y ^ 2
  let quatSquareZ := InQuaternion.z ^ 2
  let normalizeFactor := quatSquareX + quatSquareY + quatSquareZ + quatSquareW
  let singularityTest := InQuaternion.x * InQuaternion.y + InQuaternion.z * InQuaternion.w
  let SINGULARITY_THRESHOLD : ℚ := 0.4999995
  let angles : ℚ × ℚ × ℚ :=
    if singularityTest > SINGULARITY_THRESHOLD * normalizeFactor then
      (0, 2 * Math.ATan2 lib InQuaternion.x InQuaternion.w, PI / 2)
    else if singularityTest < -SINGULARITY_THRESHOLD * normalizeFactor then
      (0, -2 * Math.ATan2 lib InQuaternion.x InQuaternion.w, -PI / 2)
    else
      (Math.ATan2 lib
          (2 * InQuaternion.x * InQuaternion.w - 2 * InQuaternion.y * InQuaternion.z)
          (-quatSquareX + quatSquareY - quatSquareZ + quatSquareW),
        Math.ATan2 lib
          (2 * InQuaternion.y * InQuaternion.w - 2 * InQuaternion.x * InQuaternion.z)
          (quatSquareX - quatSquareY - quatSquareZ + quatSquareW),
        Math.ASin lib (2 * singularityTest / normalizeFactor))
  { x := Math.RadiansToDegrees lib angles.1
    y := Math.RadiansToDegrees lib angles.2.1
    z := Math.RadiansToDegrees lib angles.2.2 }

/-- A library whose `degrees` multiplies by the number of degrees in a radian,
as `glm::degrees` does; the two inverse trigonometric functions are not needed
at the poles and return 0. -/
def poleLib : CMath :=
  { asinf := fun _ => 0
    atan2f := fun _ _ => 0
    degrees := fun r => r * 57.295779513082320876798154814105 }

/-- The unit quaternion with all four components `1/2`: it lies in the
north-pole case. -/
def poleQuaternion : Quaternion := { x := 1 / 2, y := 1 / 2, z := 1 / 2, w := 1 / 2 }

/-- `Math::IdentityMatrix()` (lines 260-263): `glm::identity< Matrix >()`. -/
def Math.IdentityMatrix : Matrix :=
  { col0 := { x := 1, y := 0, z := 0, w := 0 }
    col1 := { x := 0, y := 1, z := 0, w := 0 }
    col2 := { x := 0, y := 0, z := 1, w := 0 }
    col3 := { x := 0, y := 0, z := 0, w := 1 } }

/-- `Math::TranslateMatrix( const Vector&, Matrix& )` (lines 270-275); the
result is `OutResult` after the call. -/
def Math.TranslateMatrix (InLocation : Vector) (OutResult : Matrix) : Matrix :=
  { OutResult with
    col3 := { OutResult.col3 with x := InLocation.x, y := InLocation.y, z := InLocation.z } }

/-- `Math::GetOriginMatrix( const Matrix&, Vector& )` (lines 436-441); the
result is `OutOrigin` after the call. -/
def Math.GetOriginMatrix (InMatrix : Matrix) (OutOrigin : Vector) : Vector :=
  { OutOrigin with x := InMatrix.col3.x, y := InMatrix.col3.y, z := InMatrix.col3.z }

/-- The translation matrix of a location as the specification words it: the
identity matrix with its fourth column set to `(x, y, z, 1)`. -/
def translationMatrixSpec (InLocation : Vector) : Matrix :=
  { Math.IdentityMatrix with
    col3 := { x := InLocation.x, y := InLocation.y, z := InLocation.z, w := 1 } }

/-- The matrix with every cell 0. -/
def zeroMatrix : Matrix :=
  { col0 := { x := 0, y := 0, z := 0, w := 0 }
    col1 := { x := 0, y := 0, z := 0, w := 0 }
    col2 := { x := 0, y := 0, z := 0, w := 0 }
    col3 := { x := 0, y := 0, z := 0, w := 0 } }

/-! ## File dialogs (`WindowsPlatform.cpp`) -/

/-- The terminator of a C string, the `tchar` 0. -/
def NUL : Char := Char.ofNat 0

/-- `std::wstring( pStart )`: the characters from `pStart` up to the first
terminator. -/
def cstring (buf : List Char) (pStart : Nat) : WString :=
  (buf.drop pStart).takeWhile (fun c => c != NUL)

/-- The loop `while ( true )` that parses the file names (lines 402-420 and
545-563, the same text); `buf` is the memory behind `fileNameBuffer.data()`
and the pointers are positions in it.  Reading behind the memory has no
defined result. -/
def parseFileNames.loop (buf : List Char) : Nat → Nat → Nat → List WString → Option (List WString)
  | 0, _, _, _ => none
  | fuel + 1, pPos, pStart, parts =>
    match buf.get? pPos with
    | none => none
    | some c =>
      if c = NUL then
        if pPos = pStart then some parts
        else parseFileNames.loop buf fuel (pPos + 1) (pPos + 1) (parts ++ [cstring buf pStart])
      else parseFileNames.loop buf fuel (pPos + 1) pStart parts

/-- The block `Parse file names`: both pointers start at `fileNameBuffer.data()`.
Every iteration but the last moves `pPos` forward, so the loop ends within
`buf.length + 1` iterations. -/
def parseFileNames (buf : List Char) : Option (List WString) :=
  parseFileNames.loop buf (buf.length + 1) 0 0 []

/-- The body of the loop over `parts` (lines 438 and 581):
`OutResult.files.push_back( basePath + PATH_SEPARATOR + parts[index] )`. -/
def pushFile (PATH_SEPARATOR : WString) (parts : List WString) (index : Nat)
    (files : List WString) : List WString :=
  files ++ [parts.headD [] ++ PATH_SEPARATOR ++ parts.getD index []]

/-- The block `if ( !parts.empty() )` (lines 422-441 and 565-584): the files
pushed on `OutResult.files`. -/
def pushFiles (PATH_SEPARATOR : WString) (parts : List WString) (files : List WString) :
    List WString :=
  if !parts.isEmpty then
    if parts.length = 1 then files ++ [parts.headD []]
    else forIndex (pushFile PATH_SEPARATOR parts) (parts.length - 1) 1 files
  else files

/-- The field of `OpenFileDialogResult` the function writes. -/
structure OpenFileDialogResult where
  files : List WString
  deriving DecidableEq

/-- The type `CFileDialogSetup::FileNameFilter`. -/
structure FileNameFilter where
  description : WString
  filter : WString
  deriving DecidableEq

/-- The fields of `SaveFileDialogResult` the function writes. -/
structure SaveFileDialogResult where
  files : List WString
  selectedFormat : FileNameFilter
  deriving DecidableEq

/-- `Sys_ShowOpenFileDialog` (lines 318-445) from the call of `GetOpenFileNameW`
on: `dialog` is `none` when the call returns 0, else the memory behind
`fileNameBuffer.data()` after it.  The result is the returned value and
`OutResult` after the call. -/
def Sys_ShowOpenFileDialog (PATH_SEPARATOR : WString) (dialog : Option (List Char))
    (OutResult : OpenFileDialogResult) : Option (Bool × OpenFileDialogResult) :=
  match dialog with
  | none => some (false, OutResult)
  | some buf =>
    match parseFileNames buf with
    | none => none
    | some parts => some (true, { OutResult with files := pushFiles PATH_SEPARATOR parts OutResult.files })

/-- The block `Get selected format` of `Sys_ShowSaveFileDialog` (lines 532-540):
the value of `OutResult.selectedFormat` after it. -/
def Sys_ShowSaveFileDialog.selectedFormat (fileNameFilters : List FileNameFilter)
    (nFilterIndex : Nat) (OutResult : SaveFileDialogResult) : FileNameFilter :=
  if nFilterIndex ≠ 0 ∧ nFilterIndex ≤ fileNameFilters.length then
    fileNameFilters.getD (nFilterIndex - 1) OutResult.selectedFormat
  else if !fileNameFilters.isEmpty then fileNameFilters.headD OutResult.selectedFormat
  else OutResult.selectedFormat

/-- `Sys_ShowSaveFileDialog` (lines 452-588) from the call of `GetSaveFileNameW`
on: `dialog` is `none` when the call returns 0, else the memory behind
`fileNameBuffer.data()` and `fileDialogSettings.nFilterIndex` after it. -/
def Sys_ShowSaveFileDialog (PATH_SEPARATOR : WString) (fileNameFilters : List FileNameFilter)
    (dialog : Option (List Char × Nat)) (OutResult : SaveFileDialogResult) :
    Option (Bool × SaveFileDialogResult) :=
  match dialog with
  | none => some (false, OutResult)
  | some (buf, nFilterIndex) =>
    match parseFileNames buf with
    | none => none
    | some parts =>
      some (true,
        { files := pushFiles PATH_SEPARATOR parts OutResult.files
          selectedFormat :=
            Sys_ShowSaveFileDialog.selectedFormat fileNameFilters nFilterIndex OutResult })

/-- The memory a dialog leaves for the selected names: each name with its
terminator, then the empty string, then whatever follows. -/
def dialogBuffer (names : List WString) (rest : List Char) : List Char :=
  (names.map (fun p => p ++ [NUL])).flatten ++ NUL :: rest

/-! ## Editor selection (`World.cpp`, lines 338-453)

`IsSelected` and `SetSelected` read and write the actor's selected flag. -/

/-- `actor->SetSelected( value )` on the actor objects. -/
def SetSelected (objects : ActorStore) (actor : ActorRef) (value : Bool) : ActorStore :=
  Function.update objects actor { objects actor with isSelected := value }

/-- `CWorld::SelectActor` (lines 338-350). -/
def CWorld.SelectActor (w : CWorld) (InActor : ActorRef) : CWorld :=
  if (w.objects InActor).isSelected then w
  else
    { w with
      objects := SetSelected w.objects InActor true
      selectedActors := w.selectedActors ++ [InActor]
      log := w.log ++ [WorldEvent.onActorsSelected [InActor]] }

/-- The body of the loop of `CWorld::SelectActors` (lines 388-394); the second
component is `bNeedBroadcast`. -/
def CWorld.selectOne (actor : ActorRef) (s : CWorld × Bool) : CWorld × Bool :=
  if !(s.1.objects actor).isSelected then
    ({ s.1 with
       objects := SetSelected s.1.objects actor true
       selectedActors := s.1.selectedActors ++ [actor] }, true)
  else s

/-- `CWorld::SelectActors` (lines 383-401). -/
def CWorld.SelectActors (w : CWorld) (InActors : List ActorRef) : CWorld :=
  let s := forIndex (fun index (s : CWorld × Bool) =>
    match InActors.get? index with
    | none => s
    | some actor => CWorld.selectOne actor s)
    InActors.length 0 (w, false)
  if s.2 then { s.1 with log := s.1.log ++ [WorldEvent.onActorsSelected InActors] } else s.1

/-- The body of the outer loop of `CWorld::UnselectActors` (lines 413-429); the
second component is `unselectedActors`.  The inner loop looks for the actor in
`selectedActors` and, when it is there, calls
`selectedActors.erase( selectedActors.begin() + index )` with the position
`index` of the outer loop; erasing at or behind the end has no defined result. -/
def CWorld.unselectOne (index : Nat) (actor : ActorRef) (s : CWorld × List ActorRef) :
    Option (CWorld × List ActorRef) :=
  if (s.1.objects actor).isSelected then
    let w1 := { s.1 with objects := SetSelected s.1.objects actor false }
    let unselectedActors := s.2 ++ [actor]
    if actor ∈ w1.selectedActors then
      if index < w1.selectedActors.length then
        some ({ w1 with selectedActors := w1.selectedActors.eraseIdx index }, unselectedActors)
      else none
    else some (w1, unselectedActors)
  else some s

/-- `CWorld::UnselectActors` (lines 408-436). -/
def CWorld.UnselectActors (w : CWorld) (InActors : List ActorRef) : Option CWorld :=
  let r := forIndex (fun index (r : Option (CWorld × List ActorRef)) =>
    match r with
    | none => none
    | some s =>
      match InActors.get? index with
      | none => some s
      | some actor => CWorld.unselectOne index actor s)
    InActors.length 0 (some (w, []))
  match r with
  | none => none
  | some s =>
    if !s.2.isEmpty then
      some { s.1 with log := s.1.log ++ [WorldEvent.onActorsUnselected s.2] }
    else some s.1

/-- The body of the loop of `CWorld::UnselectAllActors` (line 447):
`selectedActors[ index ]->SetSelected( false )`. -/
def CWorld.clearSelected (actor : ActorRef) (w : CWorld) : CWorld :=
  { w with objects := SetSelected w.objects actor false }

/-- `CWorld::UnselectAllActors` (lines 443-453). -/
def CWorld.UnselectAllActors (w : CWorld) : CWorld :=
  let w1 := forIndex (fun index (w : CWorld) =>
    match w.selectedActors.get? index with
    | none => w
    | some actor => w.clearSelected actor)
    w.selectedActors.length 0 w
  { w1 with
    selectedActors := []
    log := w1.log ++ [WorldEvent.onActorsUnselected w1.selectedActors] }

/-- Selection consistency: `selectedActors` holds, without duplicates, exactly
the actors whose selected flag is set. -/
def SelectionConsistent (w : CWorld) : Prop :=
  w.selectedActors.Nodup ∧ ∀ a, a ∈ w.selectedActors ↔ (w.objects a).isSelected = true

/-- The sample world with the actors 1 and 2 selected, in this order. -/
def selectionWorld : CWorld :=
  { sampleWorld with
    selectedActors := [1, 2]
    objects := fun a =>
      { isPendingKill := false, isPlaying := true, isSelected := a == 1 || a == 2 } }

/-! ## Archives (`Archive.h`)

A `std::string` is the list of its bytes. -/

/-- The enumeration `EArchiveType` (lines 24-32). -/
inductive EArchiveType where
  | AT_TextFile
  | AT_ShaderCache
  | AT_TextureCache
  | AT_World
  | AT_Package
  | AT_BinaryFile
  deriving DecidableEq, Repr

/-- An archive on a file: the field `arType`, whether the object is the reading
or the writing class of `WindowsArchive.h`, the bytes of the file and the
position of the next byte read. -/
structure CArchive where
  arType : EArchiveType
  loading : Bool
  bytes : List Nat
  position : Nat
  deriving DecidableEq, Repr

/-- `CArchive::Type` (lines 136-139). -/
def CArchive.Type (a : CArchive) : EArchiveType := a.arType

/-- `IsLoading` as the reading class overrides it. -/
def CArchive.IsLoading (a : CArchive) : Bool := a.loading

/-- `IsSaving` as the writing class overrides it. -/
def CArchive.IsSaving (a : CArchive) : Bool := !a.loading

/-- Modelled from the spec: the bodies of `CWindowsArchiveWriter::Serialize` and
`CWindowsArchiveReading::Serialize` are not at hand.  Saving appends the first
`InSize` bytes of the buffer to the file; loading copies the next `InSize`
bytes of the file over the first `InSize` bytes of the buffer.  The result is
the archive and the buffer after the call; a buffer shorter than `InSize` or a
file that ends early has no defined result. -/
def CArchive.Serialize (a : CArchive) (InBuffer : List Nat) (InSize : Nat) :
    Option (CArchive × List Nat) :=
  if InBuffer.length < InSize then none
  else if a.loading then
    if a.position + InSize ≤ a.bytes.length then
      some ({ a with position := a.position + InSize },
        (a.bytes.drop a.position).take InSize ++ InBuffer.drop InSize)
    else none
  else some ({ a with bytes := a.bytes ++ InBuffer.take InSize }, InBuffer)

/-- The four bytes of a `uint32` in memory, low byte first. -/
def uint32Bytes (n : Nat) : List Nat :=
  [n % 256, n / 256 % 256, n / 65536 % 256, n / 16777216 % 256]

/-- The `uint32` that four bytes in memory hold. -/
def uint32OfBytes (b : List Nat) : Nat :=
  b.getD 0 0 + 256 * b.getD 1 0 + 65536 * b.getD 2 0 + 16777216 * b.getD 3 0

/-- `operator<<( CArchive&, uint32& )` (lines 240-244): the archive and the
value of the variable after the call. -/
def CArchive.serializeUInt32 (a : CArchive) (InValue : Nat) : Option (CArchive × Nat) :=
  match a.Serialize (uint32Bytes InValue) 4 with
  | none => none
  | some (a1, buffer) => some (a1, uint32OfBytes buffer)

/-- `std::string::resize( n )`: cut to `n` bytes or filled up with zero bytes. -/
def resize (s : List Nat) (n : Nat) : List Nat :=
  s.take n ++ List.replicate (n - s.length) 0

/-- `operator<<( CArchive&, std::string& )` (lines 384-409): the archive and the
string after the call. -/
def CArchive.serializeString (a : CArchive) (InValue : List Nat) :
    Option (CArchive × List Nat) :=
  if a.Type = EArchiveType.AT_TextFile then a.Serialize InValue InValue.length
  else
    let stringSize := InValue.length % 4294967296
    match a.serializeUInt32 stringSize with
    | none => none
    | some (a1, stringSize) =>
      if stringSize > 0 then
        let InValue := if a1.IsLoading then resize InValue stringSize else InValue
        a1.Serialize InValue stringSize
      else some (a1, InValue)

/-- `operator<<( CArchive&, const std::string& )` (lines 411-433): the archive
after the call; a failed `Assert` aborts. -/
def CArchive.serializeConstString (a : CArchive) (InValue : List Nat) : Option CArchive :=
  if !a.IsSaving then none
  else if a.Type = EArchiveType.AT_TextFile then
    match a.Serialize InValue InValue.length with
    | none => none
    | some (a1, _) => some a1
  else
    let stringSize := InValue.length % 4294967296
    match a.serializeUInt32 stringSize with
    | none => none
    | some (a1, _) =>
      if stringSize > 0 then
        match a1.Serialize InValue stringSize with
        | none => none
        | some (a2, _) => some a2
      else some a1

/-- A writing archive on a file that holds `pre` so far. -/
def writerOn (arType : EArchiveType) (pre : List Nat) : CArchive :=
  { arType := arType, loading := false, bytes := pre, position := 0 }

/-- A reading archive on a file, `position` bytes of it read so far. -/
def readerOn (arType : EArchiveType) (bytes : List Nat) (position : Nat) : CArchive :=
  { arType := arType, loading := true, bytes := bytes, position := position }

/-- What the rendering thread can have done between two states: it has executed
some of the oldest commands, each of which leaves the heap, the windows'
viewports and cursors and the payload of every slot alone and at most turns
the flag of a slot to Free. -/
def EngineState.ReleasedFrom (st st1 : EngineState) : Prop :=
  st1.heap = st.heap ∧ st1.windows.length = st.windows.length ∧
  (∃ n, st1.queue = st.queue.drop n) ∧
  ∀ i w, st.windows.get? i = some w →
    ∃ w1, st1.windows.get? i = some w1 ∧ w1.imguiViewport = w.imguiViewport ∧
      w1.indexCurrentBuffer = w.indexCurrentBuffer ∧
      w1.drawDataBuffers.length = w.drawDataBuffers.length ∧
      ∀ k d, w.drawDataBuffers.get? k = some d →
        ∃ d1, w1.drawDataBuffers.get? k = some d1 ∧ d1.drawData = d.drawData ∧
          (d.isFree = true → d1.isFree = true)

/-- A slot that has held an empty frame: its array of list pointers is at
address `arr`. -/
def usedSlot (isFree : Bool) (arr : Addr) : CImGUIDrawData :=
  { isFree := isFree, drawData := { emptyFrame with CmdLists := some arr } }

/-- A state of one main window showing empty frames: the addresses of the
arrays on the heap, the ring, the cursor, and the slots the queued commands
hold, oldest first. -/
def ringState (arrays : List Addr) (slots : List CImGUIDrawData) (cursor : Nat)
    (held : List Nat) : EngineState :=
  { heap := { cells := arrays.map fun a => (a, HeapObj.listArray []) }
    windows := [{ imguiViewport := mainViewport, drawDataBuffers := slots
                  indexCurrentBuffer := cursor }]
    queue := held.map fun k => RenderCommand.MainWindow_DrawImGUICommand ⟨0, k⟩ }

/-- A freshly constructed main window with three slots. -/
def ringFresh : EngineState :=
  ringState [] [CImGUIDrawData.new, CImGUIDrawData.new, CImGUIDrawData.new] 0 []

/-- The state `ringFresh` after one `Tick`. -/
def ringOne : EngineState :=
  ringState [1] [usedSlot false 1, CImGUIDrawData.new, CImGUIDrawData.new] 1 [0]

/-- The state `ringFresh` after two `Tick` calls. -/
def ringTwo : EngineState :=
  ringState [2, 1] [usedSlot false 1, usedSlot false 2, CImGUIDrawData.new] 2 [0, 1]

/-- The state `ringFresh` after three `Tick` calls: every slot is Busy. -/
def ringFull : EngineState :=
  ringState [3, 2, 1] [usedSlot false 1, usedSlot false 2, usedSlot false 3] 0 [0, 1, 2]

/-- A rendering thread that finishes the two oldest commands between the second
and the third `IsFree()` read of a `Tick`. -/
def fifoPace : Nat → Nat := fun t => if 2 ≤ t then 2 else 0

/-- The state a `Tick` entered in `ringFull` leaves under `fifoPace`: the
search saw slot 0 Busy, then slot 1 Free, and took slot 1 although slot 0 had
been released as well. -/
def ringOvertaken : EngineState :=
  ringState [4, 3, 1] [usedSlot true 1, usedSlot false 4, usedSlot false 3] 2 [2, 1]

/-- A draw data is well formed on a heap when its lists can be read, its array
of list pointers is live unless the pointer is null, and the lists it points to
are distinct objects. -/
def ImDrawData.WellFormed (h : Heap) (dd : ImDrawData) : Prop :=
  (∃ ls, dd.readLists h = some ls) ∧
  (dd.CmdLists = none ∨
    ∃ arr ptrs, dd.CmdLists = some arr ∧ h.read arr = some (HeapObj.listArray ptrs) ∧
      (ptrs.take (toUInt32 dd.CmdListsCount)).Nodup)

/-- The memory of a state is in order when the payload of every slot is well
formed, no two slots share an object, and every window's viewport shows a
valid, well formed draw data, with a count in the range of `int`, that shares
no object with a slot. -/
def MemoryOK (st : EngineState) : Prop :=
  (∀ r d, st.slotAt r = some d → d.drawData.WellFormed st.heap) ∧
  (∀ r r' d d', r ≠ r' → st.slotAt r = some d → st.slotAt r' = some d' →
    ∀ a, a ∈ d.drawData.addrs st.heap → a ∉ d'.drawData.addrs st.heap) ∧
  (∀ i w, st.windows.get? i = some w →
    ∃ src, w.imguiViewport.DrawData = some src ∧ src.Valid = true ∧
      0 ≤ src.CmdListsCount ∧ src.CmdListsCount < 2147483648 ∧ src.WellFormed st.heap ∧
      ∀ r d, st.slotAt r = some d →
        ∀ a, a ∈ src.addrs st.heap → a ∉ d.drawData.addrs st.heap)

/-- A main viewport showing the draw data stored in `sourceHeap`. -/
def paintedViewport : ImGuiViewport :=
  { Flags := 0, DrawData := some sourceFrame, ViewportRHI := none }

/-- A rendering thread that does nothing during a `Tick`. -/
def idlePace : Nat → Nat := fun _ => 0

/-- A rendering thread that finishes six commands between the first and the
second `IsFree()` read of a `Tick`. -/
def drainPace : Nat → Nat := fun t => if 1 ≤ t then 6 else 0

/-- Two freshly constructed windows with two slots each, a main window showing
`sourceFrame` and a child window showing an empty frame; nothing queued. -/
def twoFresh : EngineState :=
  { heap := sourceHeap
    windows := [paintedViewport, childViewport].map (ImGUIWindow.new 2)
    queue := [] }

/-- A slot holding a copy of `sourceFrame` whose array of lists is at `arr`. -/
def paintedSlot (isFree : Bool) (arr : Addr) : CImGUIDrawData :=
  { isFree := isFree, drawData := { sourceFrame with CmdLists := some arr } }

/-- What one `SetDrawData( sourceFrame )` leaves on the heap when the array goes
to `arr` and the clone of the list to `arr + 1`. -/
def paintedCells (arr : Addr) : List (Addr × HeapObj) :=
  [(arr, HeapObj.listArray [some (arr + 1)]),
   (arr + 1, HeapObj.drawList sourceList.CloneOutput),
   (arr, HeapObj.listArray [none])]

/-- The state `twoFresh` after one `EndDraw` with the rendering thread idle. -/
def twoHalf : EngineState :=
  { heap := { cells := (14, HeapObj.listArray []) :: paintedCells 12 ++ sourceHeap.cells }
    windows :=
      [{ imguiViewport := paintedViewport
         drawDataBuffers := [paintedSlot false 12, CImGUIDrawData.new]
         indexCurrentBuffer := 1 },
       { imguiViewport := childViewport
         drawDataBuffers := [usedSlot false 14, CImGUIDrawData.new]
         indexCurrentBuffer := 1 }]
    queue := [RenderCommand.MainWindow_DrawImGUICommand ⟨0, 0⟩,
              RenderCommand.ChildWindow_DrawImGUICommand ⟨1, 0⟩ 7 true] }

/-- The state `twoFresh` after two `EndDraw` calls with the rendering thread
idle: every slot of both windows is Busy and four commands are queued. -/
def twoFull : EngineState :=
  { heap := { cells := (17, HeapObj.listArray []) :: paintedCells 15 ++
                (14, HeapObj.listArray []) :: paintedCells 12 ++ sourceHeap.cells }
    windows :=
      [{ imguiViewport := paintedViewport
         drawDataBuffers := [paintedSlot false 12, paintedSlot false 15]
         indexCurrentBuffer := 0 },
       { imguiViewport := childViewport
         drawDataBuffers := [usedSlot false 14, usedSlot false 17]
         indexCurrentBuffer := 0 }]
    queue := [RenderCommand.MainWindow_DrawImGUICommand ⟨0, 0⟩,
              RenderCommand.ChildWindow_DrawImGUICommand ⟨1, 0⟩ 7 true,
              RenderCommand.MainWindow_DrawImGUICommand ⟨0, 1⟩,
              RenderCommand.ChildWindow_DrawImGUICommand ⟨1, 1⟩ 7 true] }

/-- The state an `EndDraw` entered in `twoFull` leaves under `drainPace`: the
rendering thread released every slot during the first `Tick`, the payloads of
the two slots 0 were torn down and replaced, and two commands are queued. -/
def twoNext : EngineState :=
  { heap := { cells := (20, HeapObj.listArray []) :: paintedCells 18 ++
                (17, HeapObj.listArray []) :: paintedCells 15 ++ sourceHeap.cells }
    windows :=
      [{ imguiViewport := paintedViewport
         drawDataBuffers := [paintedSlot false 18, paintedSlot true 15]
         indexCurrentBuffer := 1 },
       { imguiViewport := childViewport
         drawDataBuffers := [usedSlot false 20, usedSlot true 17]
         indexCurrentBuffer := 1 }]
    queue := [RenderCommand.MainWindow_DrawImGUICommand ⟨0, 0⟩,
              RenderCommand.ChildWindow_DrawImGUICommand ⟨1, 0⟩ 7 true] }

/-! # Theorems -/

/-! ## Slot search -/

theorem forLoop_time_le (N : Nat) (obs : Nat → Nat → Bool) (r : Nat) (s : ScanState) :
    s.time ≤ (forLoop N obs r s).time := by
  induction r generalizing s with
  | zero => simp [forLoop]
  | succ r ih =>
    simp only [forLoop]
    split
    · simp
    · exact Nat.le_trans (Nat.le_succ _) (ih { time := s.time + 1, indexCurrentBuffer := (s.indexCurrentBuffer + 1) % N, currentBuffer := s.indexCurrentBuffer, visited := s.visited ++ [s.indexCurrentBuffer] })

theorem forLoop_bounds (N : Nat) (hN : 0 < N) (obs : Nat → Nat → Bool) (r : Nat) (s : ScanState)
    (hi : s.indexCurrentBuffer < N) (hc : s.currentBuffer < N) :
    (forLoop N obs r s).indexCurrentBuffer < N ∧ (forLoop N obs r s).currentBuffer < N := by
  induction r generalizing s with
  | zero => exact ⟨hi, hc⟩
  | succ r ih =>
    simp only [forLoop]
    split
    · exact ⟨hi, hi⟩
    · exact ih _ (Nat.mod_lt _ hN) hi

theorem whileLoop_sound (N : Nat) (obs : Nat → Nat → Bool) (fuel : Nat) (s s' : ScanState)
    (h : whileLoop N obs fuel s = some s') : obs s'.time s'.currentBuffer = true := by
  induction fuel generalizing s with
  | zero =>
    simp only [whileLoop] at h
    split at h
    · cases h; assumption
    · cases h
  | succ f ih =>
    simp only [whileLoop] at h
    split at h
    · cases h; assumption
    · exact ih _ h

theorem whileLoop_bounds (N : Nat) (hN : 0 < N) (obs : Nat → Nat → Bool) (fuel : Nat)
    (s s' : ScanState) (hi : s.indexCurrentBuffer < N) (hc : s.currentBuffer < N)
    (h : whileLoop N obs fuel s = some s') :
    s'.indexCurrentBuffer < N ∧ s'.currentBuffer < N := by
  induction fuel generalizing s with
  | zero =>
    simp only [whileLoop] at h
    split at h
    · cases h; exact ⟨hi, hc⟩
    · cases h
  | succ f ih =>
    simp only [whileLoop] at h
    split at h
    · cases h; exact ⟨hi, hc⟩
    · have hb := forLoop_bounds N hN obs N { s with time := s.time + 1 } hi hc
      exact ih _ hb.1 hb.2 h

theorem obs_mono_le (obs : Nat → Nat → Bool)
    (hmono : ∀ t i, obs t i = true → obs (t + 1) i = true) (i t t' : Nat) (hle : t ≤ t')
    (h : obs t i = true) : obs t' i = true := by
  induction hle with
  | refl => exact h
  | step _ ih => exact hmono _ _ ih

theorem mod_succ_add (N c j : Nat) : ((c + 1) % N + j) % N = (c + (j + 1)) % N := by
  rw [Nat.mod_add_mod]; congr 1; omega

/-- Running the `for` loop over `j` busy slots is the same as starting it `j`
slots further on. -/
theorem forLoop_skip_busy (N : Nat) (obs : Nat → Nat → Bool) (j r : Nat) (s : ScanState)
    (hi : s.indexCurrentBuffer < N)
    (hbusy : ∀ j', j' < j → obs (s.time + j') ((s.indexCurrentBuffer + j') % N) = false) :
    forLoop N obs (j + r) s =
      forLoop N obs r
        { time := s.time + j
          indexCurrentBuffer := (s.indexCurrentBuffer + j) % N
          currentBuffer := if j = 0 then s.currentBuffer else (s.indexCurrentBuffer + (j - 1)) % N
          visited := s.visited ++ (List.range j).map (fun j' => (s.indexCurrentBuffer + j') % N) } := by
  induction j generalizing s with
  | zero =>
    simp [Nat.mod_eq_of_lt hi]
  | succ j ih =>
    have h0 : obs s.time s.indexCurrentBuffer = false := by
      have := hbusy 0 (Nat.succ_pos _)
      simpa [Nat.mod_eq_of_lt hi] using this
    have hN : 0 < N := Nat.lt_of_le_of_lt (Nat.zero_le _) hi
    rw [show j + 1 + r = (j + r) + 1 by omega]
    simp only [forLoop, h0, Bool.false_eq_true, if_false]
    rw [ih _ (Nat.mod_lt _ hN)]
    · congr 1
      simp only [ScanState.mk.injEq]
      refine ⟨by omega, mod_succ_add N _ j, ?_, ?_⟩
      · cases j with
        | zero => simp [Nat.mod_eq_of_lt hi]
        | succ k =>
          simp only [Nat.succ_ne_zero, if_false, Nat.add_sub_cancel]
          exact mod_succ_add N _ k
      · rw [List.range_succ_eq_map, List.map_cons, List.map_map, List.append_assoc]
        simp only [List.singleton_append, Nat.add_zero, Nat.mod_eq_of_lt hi]
        congr 2
        apply List.map_congr_left
        intro a _
        exact mod_succ_add N _ a
    · intro j' hj'
      have := hbusy (j' + 1) (Nat.succ_lt_succ hj')
      simp only at this ⊢
      rw [mod_succ_add]
      rw [show s.time + 1 + j' = s.time + (j' + 1) by omega]
      exact this

theorem cyclic_inj (N c j j' : Nat) (hj : j < N) (hj' : j' < N)
    (h : (c + j) % N = (c + j') % N) : j = j' := by
  have h1 : j ≡ j' [MOD N] := Nat.ModEq.add_left_cancel' c h
  exact Nat.ModEq.eq_of_lt_of_lt h1 hj hj'

/-- The slots `c, c+1, ..., c+N-1 (mod N)` are the `N` slots, each once. -/
theorem cyclic_order_perm (N c : Nat) (hN : 0 < N) :
    ((List.range N).map (fun j => (c + j) % N)).Perm (List.range N) := by
  have hnd : ((List.range N).map (fun j => (c + j) % N)).Nodup := by
    apply List.Nodup.map_on _ (List.nodup_range N)
    intro x hx y hy hxy
    exact cyclic_inj N c x y (List.mem_range.mp hx) (List.mem_range.mp hy) hxy
  have hsub : (List.range N).map (fun j => (c + j) % N) ⊆ List.range N := by
    intro a ha
    obtain ⟨j, _, rfl⟩ := List.mem_map.mp ha
    exact List.mem_range.mpr (Nat.mod_lt _ hN)
  exact (List.subperm_of_subset hnd hsub).perm_of_length_le (by simp)

theorem cyclic_order_count (N c i : Nat) (hi : i < N) :
    ((List.range N).map (fun j => (c + j) % N)).count i = 1 := by
  have hN : 0 < N := Nat.lt_of_le_of_lt (Nat.zero_le _) hi
  rw [(cyclic_order_perm N c hN).count_eq]
  exact List.count_eq_one_of_mem (List.nodup_range N) (List.mem_range.mpr hi)

/-- A full pass of the `for` loop over a ring whose slots all read Busy. -/
theorem forLoop_all_busy (N : Nat) (obs : Nat → Nat → Bool)
    (hbusy : ∀ t i, i < N → obs t i = false) (s : ScanState) (hi : s.indexCurrentBuffer < N) :
    forLoop N obs N s =
      { time := s.time + N
        indexCurrentBuffer := s.indexCurrentBuffer
        currentBuffer := (s.indexCurrentBuffer + (N - 1)) % N
        visited := s.visited ++ (List.range N).map (fun j => (s.indexCurrentBuffer + j) % N) } := by
  have hN : 0 < N := Nat.lt_of_le_of_lt (Nat.zero_le _) hi
  have h := forLoop_skip_busy N obs N 0 s hi (fun j' _ => hbusy _ _ (Nat.mod_lt _ hN))
  rw [Nat.add_zero] at h
  rw [h]
  simp only [forLoop, ScanState.mk.injEq, true_and]
  refine ⟨?_, ?_, trivial⟩
  · rw [Nat.add_mod_right]; exact Nat.mod_eq_of_lt hi
  · rw [if_neg (Nat.pos_iff_ne_zero.mp hN)]

theorem whileLoop_all_busy (N : Nat) (obs : Nat → Nat → Bool)
    (hbusy : ∀ t i, i < N → obs t i = false) (fuel : Nat) (s : ScanState)
    (hi : s.indexCurrentBuffer < N) (hc : s.currentBuffer < N) :
    whileLoop N obs fuel s = none := by
  have hN : 0 < N := Nat.lt_of_le_of_lt (Nat.zero_le _) hi
  induction fuel generalizing s with
  | zero => simp [whileLoop, hbusy _ _ hc]
  | succ f ih =>
    simp only [whileLoop, hbusy _ _ hc, Bool.false_eq_true, if_false]
    have hb := forLoop_bounds N hN obs N { s with time := s.time + 1 } hi hc
    exact ih _ hb.1 hb.2

theorem frozen_true_iff (flags : List Bool) (t i : Nat) :
    frozen flags t i = true ↔ ∃ h : i < flags.length, flags.get ⟨i, h⟩ = true := by
  unfold frozen
  constructor
  · intro h
    by_cases hi : i < flags.length
    · refine ⟨hi, ?_⟩
      rw [List.getD_eq_getElem _ _ hi] at h
      simpa using h
    · rw [List.getD_eq_default _ _ (Nat.le_of_not_lt hi)] at h
      cases h
  · rintro ⟨hi, h⟩
    rw [List.getD_eq_getElem _ _ hi]
    simpa using h

/-- C1: whenever the slot search of `ImGUIWindow::Tick` returns, the slot it
selected (the one passed to `SetDrawData`) read Free at the moment of
selection and, since the rendering thread only ever frees slots, still reads
Free at every later moment; on a ring left alone during the call the selected
slot exists and its `isFree` flag is true, so the `isFree` conjunct of the
`check` in `SetDrawData` holds. -/
theorem tick_never_selects_busy_slot (N : Nat) (obs : Nat → Nat → Bool)
    (hmono : ∀ t i, obs t i = true → obs (t + 1) i = true) (fuel cursor : Nat) (s : ScanState)
    (h : acquire N obs fuel cursor = some s) :
    (∀ t, s.time ≤ t → obs t s.currentBuffer = true) ∧
    (∀ w : ImGUIWindow, obs = frozen w.flags →
      ∃ d, w.drawDataBuffers.get? s.currentBuffer = some d ∧ d.isFree = true) := by
  have hsel : obs s.time s.currentBuffer = true := whileLoop_sound N obs fuel _ s h
  refine ⟨fun t ht => obs_mono_le obs hmono _ _ _ ht hsel, ?_⟩
  intro w hw
  rw [hw] at hsel
  obtain ⟨hlt, hget⟩ := (frozen_true_iff _ _ _).mp hsel
  have hlt' : s.currentBuffer < w.drawDataBuffers.length := by
    simpa [ImGUIWindow.flags] using hlt
  refine ⟨w.drawDataBuffers.get ⟨_, hlt'⟩, List.get?_eq_get hlt', ?_⟩
  simpa [ImGUIWindow.flags, CImGUIDrawData.IsFree] using hget

theorem tick_never_selects_busy_slot_witness :
    (∀ t, 3 ≤ t → frozen [false, true, true] t 1 = true) ∧
    (∀ w : ImGUIWindow, frozen [false, true, true] = frozen w.flags →
      ∃ d, w.drawDataBuffers.get? 1 = some d ∧ d.isFree = true) :=
  tick_never_selects_busy_slot 3 (frozen [false, true, true]) (fun _ _ h => h) 1 0
    { time := 3, indexCurrentBuffer := 1, currentBuffer := 1, visited := [0, 1] } (by decide)

/-! ## `SetDrawData` and `Tick` -/

/-- What a completed `SetDrawData` did. -/
theorem SetDrawData_some (alloc : Heap → Addr) (h h3 : Heap) (d filled : CImGUIDrawData)
    (InDrawData : Option ImDrawData)
    (hs : d.SetDrawData alloc h InDrawData = some (h3, filled)) :
    ∃ src h1 d1,
      InDrawData = some src ∧ d.isFree = true ∧ src.Valid = true ∧
      d.Clear h = some (h1, d1) ∧ 0 ≤ src.CmdListsCount ∧
      CImGUIDrawData.SetDrawData.loop alloc src.CmdLists (alloc h1)
        (toUInt32 src.CmdListsCount) 0
        (h1.write (alloc h1) (HeapObj.listArray (List.replicate src.CmdListsCount.toNat none)))
        = some h3 ∧
      filled = { isFree := false, drawData := { src with CmdLists := some (alloc h1) } } := by
  unfold CImGUIDrawData.SetDrawData at hs
  split at hs
  · cases hs
  · rename_i src
    split at hs
    · rename_i hc
      simp only [Bool.and_eq_true] at hc
      split at hs
      · cases hs
      · rename_i h1 d1 hcl
        split at hs
        · cases hs
        · rename_i hneg
          dsimp only at hs
          split at hs
          · cases hs
          · rename_i h3' hl
            simp only [Option.some.injEq, Prod.mk.injEq] at hs
            refine ⟨src, h1, d1, rfl, hc.1, hc.2, hcl, Int.not_lt.mp hneg, ?_, hs.2.symm⟩
            rw [hl, hs.1]
    · cases hs

theorem SetDrawData_flags (alloc : Heap → Addr) (h h1 : Heap) (d filled : CImGUIDrawData)
    (src : Option ImDrawData) (hs : d.SetDrawData alloc h src = some (h1, filled)) :
    d.isFree = true ∧ filled.isFree = false := by
  obtain ⟨_, _, _, _, hf, _, _, _, _, rfl⟩ := SetDrawData_some alloc h h1 d filled src hs
  exact ⟨hf, rfl⟩

/-- What a completed `Tick` did. -/
theorem Tick_some (N : Nat) (alloc : Heap → Addr) (noClear fuel this : Nat)
    (st st1 : EngineState) (h : ImGUIWindow.Tick N alloc noClear fuel this st = some st1) :
    ∃ w s d heap1 filled,
      st.windows.get? this = some w ∧
      acquire N (frozen w.flags) fuel w.indexCurrentBuffer = some s ∧
      w.drawDataBuffers.get? s.currentBuffer = some d ∧
      d.SetDrawData alloc st.heap w.imguiViewport.DrawData = some (heap1, filled) ∧
      st1 = { heap := heap1
              windows := st.windows.set this
                { w with
                  drawDataBuffers := w.drawDataBuffers.set s.currentBuffer filled
                  indexCurrentBuffer := advance N s.indexCurrentBuffer }
              queue := st.queue ++ [ImGUIWindow.drawCommand noClear w ⟨this, s.currentBuffer⟩] } := by
  unfold ImGUIWindow.Tick at h
  split at h
  · cases h
  · rename_i w hw
    split at h
    · cases h
    · rename_i s hs
      split at h
      · cases h
      · rename_i d hd
        split at h
        · cases h
        · rename_i heap1 filled hf
          simp only [Option.some.injEq] at h
          exact ⟨w, s, d, heap1, filled, hw, hs, hd, hf, h.symm⟩

/-- The effect of a completed `Tick` on the window, the other windows and the
queue. -/
theorem Tick_window (N : Nat) (alloc : Heap → Addr) (noClear fuel this : Nat)
    (st st1 : EngineState) (w : ImGUIWindow) (hw : st.windows.get? this = some w)
    (h : ImGUIWindow.Tick N alloc noClear fuel this st = some st1) :
    ∃ s d filled,
      acquire N (frozen w.flags) fuel w.indexCurrentBuffer = some s ∧
      w.drawDataBuffers.get? s.currentBuffer = some d ∧
      d.isFree = true ∧ filled.isFree = false ∧
      st1.windows.get? this = some
        { w with
          drawDataBuffers := w.drawDataBuffers.set s.currentBuffer filled
          indexCurrentBuffer := advance N s.indexCurrentBuffer } ∧
      st1.windows.length = st.windows.length ∧
      (∀ i, i ≠ this → st1.windows.get? i = st.windows.get? i) ∧
      st1.queue = st.queue ++ [ImGUIWindow.drawCommand noClear w ⟨this, s.currentBuffer⟩] := by
  obtain ⟨w', s, d, heap1, filled, hw', hs, hd, hf, rfl⟩ := Tick_some N alloc noClear fuel this st st1 h
  rw [hw] at hw'
  cases hw'
  obtain ⟨hfree, hbusy⟩ := SetDrawData_flags alloc _ _ _ _ _ hf
  have hlt : this < st.windows.length := by
    rw [List.get?_eq_getElem?] at hw
    exact (List.getElem?_eq_some_iff.mp hw).1
  refine ⟨s, d, filled, hs, hd, hfree, hbusy, ?_, ?_, ?_, rfl⟩
  · simp [List.getElem?_set, hlt]
  · simp
  · intro i hi
    simp [List.getElem?_set, Ne.symm hi]

theorem count_false_set (flags : List Bool) (k : Nat) (hk : k < flags.length)
    (hfree : flags.get ⟨k, hk⟩ = true) :
    (flags.set k false).count false = flags.count false + 1 := by
  rw [List.count_set false false flags k hk]
  have : flags[k] = true := hfree
  simp [this]

theorem tickRepeat_bound (N : Nat) (alloc : Heap → Addr) (noClear this : Nat)
    (fuels : List Nat) (st st1 : EngineState) (w : ImGUIWindow)
    (hw : st.windows.get? this = some w)
    (h : ImGUIWindow.tickRepeat N alloc noClear this fuels st = some st1) :
    fuels.length + w.flags.count false ≤ w.drawDataBuffers.length := by
  induction fuels generalizing st w with
  | nil =>
    have := List.count_le_length false w.flags
    simpa [ImGUIWindow.flags] using this
  | cons fuel rest ih =>
    simp only [ImGUIWindow.tickRepeat] at h
    split at h
    · cases h
    · rename_i st2 ht
      obtain ⟨s, d, filled, _, hd, hfree, hbusy, hw1, _, _, _⟩ :=
        Tick_window N alloc noClear fuel this st st2 w hw ht
      have hk : s.currentBuffer < w.drawDataBuffers.length := by
        rw [List.get?_eq_getElem?] at hd
        exact (List.getElem?_eq_some_iff.mp hd).1
      have hdk : w.drawDataBuffers[s.currentBuffer] = d := by
        rw [List.get?_eq_getElem?] at hd
        exact (List.getElem?_eq_some_iff.mp hd).2
      have := ih st2 _ hw1 h
      have hflags : ImGUIWindow.flags
          { w with
            drawDataBuffers := w.drawDataBuffers.set s.currentBuffer filled
            indexCurrentBuffer := advance N s.indexCurrentBuffer }
          = w.flags.set s.currentBuffer false := by
        simp [ImGUIWindow.flags, List.map_set, CImGUIDrawData.IsFree, hbusy]
      rw [hflags] at this
      have hk' : s.currentBuffer < w.flags.length := by simpa [ImGUIWindow.flags] using hk
      rw [count_false_set w.flags _ hk' (by
        simp [ImGUIWindow.flags, CImGUIDrawData.IsFree, hdk, hfree])] at this
      simp only [List.length_set, List.length_cons] at this ⊢
      omega

/-- C2: on a ring whose `N` slots all read Busy and stay so, one pass of the
scan in `ImGUIWindow::Tick` reads the slots `c, c+1, ..., c+N-1 (mod N)`, which
is each of the `N` slots exactly once, and leaves the cursor at its starting
value `c`; the search selects no slot however long it runs, so `Tick` does not
reach `SetDrawData`.  Hence `Tick` calls that complete with nothing released
in between number at most the free slots: together with the slots already Busy
they never exceed `N`. -/
theorem all_busy_ring_blocks (N : Nat) (obs : Nat → Nat → Bool)
    (hbusy : ∀ t i, i < N → obs t i = false) (cursor : Nat) (hc : cursor < N) :
    (∀ s : ScanState, s.indexCurrentBuffer = cursor →
      (forLoop N obs N s).indexCurrentBuffer = cursor ∧
      (forLoop N obs N s).visited
        = s.visited ++ (List.range N).map (fun j => (cursor + j) % N)) ∧
    (∀ i, i < N → ((List.range N).map (fun j => (cursor + j) % N)).count i = 1) ∧
    (∀ fuel, acquire N obs fuel cursor = none) ∧
    (∀ (alloc : Heap → Addr) (noClear fuel this : Nat) (st : EngineState) (w : ImGUIWindow),
      st.windows.get? this = some w → frozen w.flags = obs → w.indexCurrentBuffer = cursor →
      ImGUIWindow.Tick N alloc noClear fuel this st = none) ∧
    (∀ (alloc : Heap → Addr) (noClear this : Nat) (fuels : List Nat) (st st1 : EngineState)
      (w : ImGUIWindow),
      st.windows.get? this = some w → w.drawDataBuffers.length = N →
      ImGUIWindow.tickRepeat N alloc noClear this fuels st = some st1 →
      fuels.length + w.flags.count false ≤ N) := by
  refine ⟨?_, fun i hi => cyclic_order_count N cursor i hi, ?_, ?_, ?_⟩
  · intro s hs
    subst hs
    rw [forLoop_all_busy N obs hbusy s hc]
    exact ⟨rfl, rfl⟩
  · intro fuel
    exact whileLoop_all_busy N obs hbusy fuel _ hc hc
  · intro alloc noClear fuel this st w hw hobs hcur
    unfold ImGUIWindow.Tick
    rw [hw]
    simp only
    rw [hobs, hcur]
    have : acquire N obs fuel cursor = none := whileLoop_all_busy N obs hbusy fuel _ hc hc
    rw [this]
  · intro alloc noClear this fuels st st1 w hw hlen h
    rw [← hlen]
    exact tickRepeat_bound N alloc noClear this fuels st st1 w hw h

theorem all_busy_ring_blocks_witness :
    (∀ s : ScanState, s.indexCurrentBuffer = 1 →
      (forLoop 3 (frozen [false, false, false]) 3 s).indexCurrentBuffer = 1 ∧
      (forLoop 3 (frozen [false, false, false]) 3 s).visited
        = s.visited ++ (List.range 3).map (fun j => (1 + j) % 3)) ∧
    (∀ i, i < 3 → ((List.range 3).map (fun j => (1 + j) % 3)).count i = 1) ∧
    (∀ fuel, acquire 3 (frozen [false, false, false]) fuel 1 = none) ∧
    (∀ (alloc : Heap → Addr) (noClear fuel this : Nat) (st : EngineState) (w : ImGUIWindow),
      st.windows.get? this = some w → frozen w.flags = frozen [false, false, false] →
      w.indexCurrentBuffer = 1 →
      ImGUIWindow.Tick 3 alloc noClear fuel this st = none) ∧
    (∀ (alloc : Heap → Addr) (noClear this : Nat) (fuels : List Nat) (st st1 : EngineState)
      (w : ImGUIWindow),
      st.windows.get? this = some w → w.drawDataBuffers.length = 3 →
      ImGUIWindow.tickRepeat 3 alloc noClear this fuels st = some st1 →
      fuels.length + w.flags.count false ≤ 3) :=
  all_busy_ring_blocks 3 (frozen [false, false, false])
    (fun t i hi => by
      have : i = 0 ∨ i = 1 ∨ i = 2 := by omega
      rcases this with rfl | rfl | rfl <;> rfl)
    1 (by decide)

/-- The `for` loop stops at the first slot that reads Free. -/
theorem forLoop_finds (N : Nat) (obs : Nat → Nat → Bool) (j r : Nat) (s : ScanState)
    (hi : s.indexCurrentBuffer < N)
    (hbusy : ∀ j', j' < j → obs (s.time + j') ((s.indexCurrentBuffer + j') % N) = false)
    (hfree : obs (s.time + j) ((s.indexCurrentBuffer + j) % N) = true) :
    forLoop N obs (j + (r + 1)) s =
      { time := s.time + j + 1
        indexCurrentBuffer := (s.indexCurrentBuffer + j) % N
        currentBuffer := (s.indexCurrentBuffer + j) % N
        visited := s.visited ++ (List.range (j + 1)).map (fun j' => (s.indexCurrentBuffer + j') % N) } := by
  rw [forLoop_skip_busy N obs j (r + 1) s hi hbusy]
  simp only [forLoop, hfree, if_true, ScanState.mk.injEq, true_and]
  rw [List.range_succ, List.map_append, List.append_assoc]
  simp

theorem cyclic_offset (N c i : Nat) (hc : c < N) (hi : i < N) :
    (i + N - c) % N < N ∧ (c + (i + N - c) % N) % N = i := by
  have hN : 0 < N := Nat.lt_of_le_of_lt (Nat.zero_le _) hi
  refine ⟨Nat.mod_lt _ hN, ?_⟩
  rw [Nat.add_mod_mod, show c + (i + N - c) = i + N by omega, Nat.add_mod_right]
  exact Nat.mod_eq_of_lt hi

/-- With a Free slot in a ring left alone, the search returns the first Free
slot in cyclic order from the cursor, and the cursor rests on it. -/
theorem acquire_first_free (N : Nat) (flags : List Bool) (cursor : Nat) (hc : cursor < N)
    (fuel : Nat) (hfuel : 0 < fuel) (j : Nat) (hj : j < N)
    (hfree : frozen flags 0 ((cursor + j) % N) = true)
    (hbusy : ∀ j', j' < j → frozen flags 0 ((cursor + j') % N) = false) :
    ∃ s, acquire N (frozen flags) fuel cursor = some s ∧
      s.currentBuffer = (cursor + j) % N ∧ s.indexCurrentBuffer = (cursor + j) % N := by
  obtain ⟨f, rfl⟩ : ∃ f, fuel = f + 1 := ⟨fuel - 1, by omega⟩
  unfold acquire
  by_cases h0 : frozen flags 0 cursor = true
  · have hj0 : j = 0 := by
      by_contra hne
      have := hbusy 0 (Nat.pos_of_ne_zero hne)
      rw [Nat.add_zero, Nat.mod_eq_of_lt hc, h0] at this
      cases this
    subst hj0
    refine ⟨_, by simp only [whileLoop]; rw [if_pos h0], ?_, ?_⟩ <;>
      simp [Nat.mod_eq_of_lt hc]
  · simp only [whileLoop]
    rw [if_neg h0]
    obtain ⟨r, hr⟩ : ∃ r, N = j + (r + 1) := ⟨N - j - 1, by omega⟩
    have hfind := forLoop_finds N (frozen flags) j r
      { time := 0 + 1, indexCurrentBuffer := cursor, currentBuffer := cursor, visited := [] }
      hc (fun j' hj' => hbusy j' hj') hfree
    rw [← hr] at hfind
    rw [hfind]
    refine ⟨{ time := 0 + 1 + j + 1
              indexCurrentBuffer := (cursor + j) % N
              currentBuffer := (cursor + j) % N
              visited := [] ++ (List.range (j + 1)).map (fun j' => (cursor + j') % N) },
      ?_, rfl, rfl⟩
    cases f with
    | zero => simp only [whileLoop]; exact if_pos hfree
    | succ f => simp only [whileLoop]; exact if_pos hfree

/-- On a ring left alone with a Free slot, the search returns the first Free
slot in cyclic order from the cursor. -/
theorem acquire_frozen_total (N : Nat) (flags : List Bool) (cursor : Nat)
    (hc : cursor < N) (i : Nat) (hi : i < N) (hfree : frozen flags 0 i = true)
    (fuel : Nat) (hfuel : 0 < fuel) :
    ∃ s j, acquire N (frozen flags) fuel cursor = some s ∧ j < N ∧
      s.currentBuffer = (cursor + j) % N ∧ s.indexCurrentBuffer = s.currentBuffer ∧
      flags.getD s.currentBuffer false = true ∧
      (∀ j', j' < j → flags.getD ((cursor + j') % N) false = false) := by
  obtain ⟨hj0, hj0i⟩ := cyclic_offset N cursor i hc hi
  have hex : ∃ j, j < N ∧ frozen flags 0 ((cursor + j) % N) = true :=
    ⟨_, hj0, by rw [hj0i]; exact hfree⟩
  obtain ⟨hjN, hjfree⟩ := Nat.find_spec hex
  have hbusy : ∀ j', j' < Nat.find hex → frozen flags 0 ((cursor + j') % N) = false := by
    intro j' hj'
    have hnot := Nat.find_min hex hj'
    have hj'N : j' < N := Nat.lt_trans hj' hjN
    cases hb : frozen flags 0 ((cursor + j') % N) with
    | false => rfl
    | true => exact absurd ⟨hj'N, hb⟩ hnot
  obtain ⟨s, hs, hcur, hidx⟩ :=
    acquire_first_free N flags cursor hc fuel hfuel (Nat.find hex) hjN hjfree hbusy
  refine ⟨s, Nat.find hex, hs, hjN, hcur, by rw [hidx, hcur], ?_, hbusy⟩
  rw [hcur]; exact hjfree

/-- Whenever the search on a ring left alone returns, it returns the first Free
slot in cyclic order from the cursor and the cursor rests on it. -/
theorem acquire_frozen_some (N : Nat) (flags : List Bool) (cursor fuel : Nat)
    (hc : cursor < N) (s : ScanState) (h : acquire N (frozen flags) fuel cursor = some s) :
    ∃ j, j < N ∧ s.currentBuffer = (cursor + j) % N ∧ s.indexCurrentBuffer = s.currentBuffer ∧
      flags.getD s.currentBuffer false = true ∧
      (∀ j', j' < j → flags.getD ((cursor + j') % N) false = false) := by
  have hN : 0 < N := Nat.lt_of_le_of_lt (Nat.zero_le _) hc
  have hsel : frozen flags 0 s.currentBuffer = true := whileLoop_sound N _ fuel _ s h
  have hb := whileLoop_bounds N hN _ fuel _ s hc hc h
  cases fuel with
  | zero =>
    simp only [acquire, whileLoop] at h
    split at h
    · cases h
      rename_i h0
      exact ⟨0, hN, by simp [Nat.mod_eq_of_lt hc], rfl, h0, fun j' hj' => absurd hj' (Nat.not_lt_zero _)⟩
    · cases h
  | succ f =>
    obtain ⟨s', j, hs', hj, h1, h2, h3, h4⟩ :=
      acquire_frozen_total N flags cursor hc s.currentBuffer hb.2 hsel (f + 1) (Nat.succ_pos _)
    rw [h] at hs'
    cases hs'
    exact ⟨j, hj, h1, h2, h3, h4⟩

/-- C7 fails as stated.  On the ring `[Busy, Free, Free]` with the cursor on
slot 0, `Tick` completes, fills slot 1 (not the slot under the cursor) and
leaves the cursor at 2, not at `(0 + 1) mod 3`.  The same happens to a search
pending on an all-Busy ring when the rendering thread frees slots 0 and 1
between two reads: the search takes slot 1 although slot 0 is Free. -/
theorem tick_round_robin_counterexample :
    (∃ st1, ImGUIWindow.Tick 3 Heap.fresh 0 1 0 skipState = some st1 ∧
      skipState.windows.map (fun w => w.indexCurrentBuffer) = [0] ∧
      st1.windows.map (fun w => w.indexCurrentBuffer) = [2] ∧
      st1.windows.map (fun w => w.flags) = [[false, false, true]] ∧
      st1.queue = [RenderCommand.MainWindow_DrawImGUICommand ⟨0, 1⟩]) ∧
    (∃ s, acquire 3 fifoRelease 1 0 = some s ∧ s.currentBuffer = 1 ∧
      advance 3 s.indexCurrentBuffer = 2 ∧ fifoRelease s.time 0 = true) ∧
    (0 + 1) % 3 ≠ 2 := by
  refine ⟨⟨_, rfl, ?_, ?_, ?_, ?_⟩, ⟨_, rfl, ?_, ?_, ?_⟩, ?_⟩ <;> decide

/-- C7 as amended: when `Tick` completes on a ring left alone during the call,
the slot it fills (the one its command holds, Free before and Busy after) is
the first Free slot in cyclic order from the cursor on entry, every slot before
it in that order being Busy and skipped, and the cursor after the call is that
slot's index plus one modulo `N`; when the slot under the cursor is Free on
entry it is the one filled and the cursor advances by exactly one. -/
theorem tick_cursor_follows_filled_slot (N : Nat) (alloc : Heap → Addr)
    (noClear fuel this : Nat) (st st1 : EngineState) (w : ImGUIWindow)
    (hw : st.windows.get? this = some w) (hc : w.indexCurrentBuffer < N)
    (h : ImGUIWindow.Tick N alloc noClear fuel this st = some st1) :
    ∃ j w1, j < N ∧ st1.windows.get? this = some w1 ∧
      st1.queue = st.queue ++
        [ImGUIWindow.drawCommand noClear w ⟨this, (w.indexCurrentBuffer + j) % N⟩] ∧
      w.flags.getD ((w.indexCurrentBuffer + j) % N) false = true ∧
      w1.flags.getD ((w.indexCurrentBuffer + j) % N) true = false ∧
      (∀ j', j' < j → w.flags.getD ((w.indexCurrentBuffer + j') % N) false = false) ∧
      w1.indexCurrentBuffer = ((w.indexCurrentBuffer + j) % N + 1) % N ∧
      (w.flags.getD w.indexCurrentBuffer false = true →
        j = 0 ∧ w1.indexCurrentBuffer = (w.indexCurrentBuffer + 1) % N) := by
  obtain ⟨s, d, filled, hs, hd, _, hbusy, hw1, _, _, hq⟩ :=
    Tick_window N alloc noClear fuel this st st1 w hw h
  obtain ⟨j, hj, hcur, hidx, hfree, hbefore⟩ :=
    acquire_frozen_some N w.flags w.indexCurrentBuffer fuel hc s hs
  have hk : s.currentBuffer < w.drawDataBuffers.length := by
    rw [List.get?_eq_getElem?] at hd
    exact (List.getElem?_eq_some_iff.mp hd).1
  refine ⟨j, _, hj, hw1, ?_, ?_, ?_, hbefore, ?_, ?_⟩
  · rw [hq, hcur]
  · rw [← hcur]; exact hfree
  · rw [← hcur]
    simp [ImGUIWindow.flags, List.getElem?_set, hk, CImGUIDrawData.IsFree, hbusy]
  · simp only [advance, hidx, hcur]
  · intro h0
    have hj0 : j = 0 := by
      by_contra hne
      have := hbefore 0 (Nat.pos_of_ne_zero hne)
      rw [Nat.add_zero, Nat.mod_eq_of_lt hc, h0] at this
      cases this
    subst hj0
    refine ⟨rfl, ?_⟩
    simp only [advance, hidx, hcur, Nat.add_zero, Nat.mod_eq_of_lt hc]

theorem tick_cursor_follows_filled_slot_witness :
    skipState.windows.get? 0 = some skipWindow ∧ skipWindow.indexCurrentBuffer < 3 ∧
    ImGUIWindow.Tick 3 Heap.fresh 0 1 0 skipState = some skipStateAfter ∧
    ∃ j w1, j < 3 ∧ skipStateAfter.windows.get? 0 = some w1 ∧
      skipStateAfter.queue = skipState.queue ++
        [ImGUIWindow.drawCommand 0 skipWindow ⟨0, (skipWindow.indexCurrentBuffer + j) % 3⟩] ∧
      skipWindow.flags.getD ((skipWindow.indexCurrentBuffer + j) % 3) false = true ∧
      w1.flags.getD ((skipWindow.indexCurrentBuffer + j) % 3) true = false ∧
      (∀ j', j' < j →
        skipWindow.flags.getD ((skipWindow.indexCurrentBuffer + j') % 3) false = false) ∧
      w1.indexCurrentBuffer = ((skipWindow.indexCurrentBuffer + j) % 3 + 1) % 3 ∧
      (skipWindow.flags.getD skipWindow.indexCurrentBuffer false = true →
        j = 0 ∧ w1.indexCurrentBuffer = (skipWindow.indexCurrentBuffer + 1) % 3) :=
  ⟨rfl, by decide, by decide,
    tick_cursor_follows_filled_slot 3 Heap.fresh 0 1 0 skipState skipStateAfter skipWindow
      rfl (by decide) (by decide)⟩

/-! ## Rings and queue -/

/-- Replacing one slot of one window changes what that reference sees and
nothing else. -/
theorem slotAt_set (st st1 : EngineState) (i0 k0 : Nat) (w w1 : ImGUIWindow)
    (x : CImGUIDrawData) (hw : st.windows.get? i0 = some w)
    (hk : k0 < w.drawDataBuffers.length)
    (hw1 : w1.drawDataBuffers = w.drawDataBuffers.set k0 x)
    (hst1 : st1.windows = st.windows.set i0 w1) (r : SlotRef) :
    st1.slotAt r = if r = ⟨i0, k0⟩ then some x else st.slotAt r := by
  obtain ⟨i, k⟩ := r
  have hi0 : i0 < st.windows.length := by
    rw [List.get?_eq_getElem?] at hw
    exact (List.getElem?_eq_some_iff.mp hw).1
  unfold EngineState.slotAt
  simp only [hst1, List.get?_eq_getElem?, SlotRef.mk.injEq]
  by_cases hi : i = i0
  · subst hi
    rw [List.get?_eq_getElem?] at hw
    simp only [List.getElem?_set_self hi0, hw, hw1, true_and]
    by_cases hkk : k = k0
    · subst hkk
      simp [List.getElem?_set_self hk]
    · simp [hkk, List.getElem?_set_ne (Ne.symm hkk)]
  · simp [hi, List.getElem?_set_ne (Ne.symm hi)]

theorem refCount_append (queue : List RenderCommand) (cmd : RenderCommand) (r : SlotRef) :
    refCount (queue ++ [cmd]) r = refCount queue r + if cmd.slot = r then 1 else 0 := by
  unfold refCount
  rw [List.map_append, List.count_append]
  simp only [List.map_cons, List.map_nil, List.count_cons, List.count_nil, Nat.zero_add]
  congr 1
  by_cases h : cmd.slot = r <;> simp [h]

theorem refCount_cons (rest : List RenderCommand) (cmd : RenderCommand) (r : SlotRef) :
    refCount (cmd :: rest) r = refCount rest r + if cmd.slot = r then 1 else 0 := by
  unfold refCount
  simp only [List.map_cons, List.count_cons]
  congr 1
  by_cases h : cmd.slot = r <;> simp [h]

theorem drawCommand_slot (noClear : Nat) (w : ImGUIWindow) (r : SlotRef) :
    (ImGUIWindow.drawCommand noClear w r).slot = r := by
  unfold ImGUIWindow.drawCommand
  split <;> rfl

/-- What executing a draw command does to the state: it releases the slot the
command holds. -/
theorem Execute_some (cmd : RenderCommand) (st st1 : EngineState) (trace : List RHICall)
    (h : cmd.Execute st = some (trace, st1)) :
    ∃ d, st.slotAt cmd.slot = some d ∧ st1 = st.markFree cmd.slot := by
  cases cmd with
  | MainWindow_DrawImGUICommand r =>
    simp only [RenderCommand.Execute] at h
    split at h
    · cases h
    · rename_i d hd
      simp only [Option.some.injEq, Prod.mk.injEq] at h
      exact ⟨d, hd, h.2.symm⟩
  | ChildWindow_DrawImGUICommand r v c =>
    simp only [RenderCommand.Execute] at h
    split at h
    · cases h
    · rename_i d hd
      simp only [Option.some.injEq, Prod.mk.injEq] at h
      exact ⟨d, hd, h.2.symm⟩

/-- A command whose slot exists can be executed. -/
theorem Execute_enabled (cmd : RenderCommand) (st : EngineState) (d : CImGUIDrawData)
    (hd : st.slotAt cmd.slot = some d) :
    ∃ trace, cmd.Execute st = some (trace, st.markFree cmd.slot) := by
  cases cmd with
  | MainWindow_DrawImGUICommand r =>
    simp only [RenderCommand.slot] at hd
    simp only [RenderCommand.Execute, hd, RenderCommand.slot]
    exact ⟨_, rfl⟩
  | ChildWindow_DrawImGUICommand r v c =>
    simp only [RenderCommand.slot] at hd
    simp only [RenderCommand.Execute, hd, RenderCommand.slot]
    exact ⟨_, rfl⟩

theorem slotAt_markFree (st : EngineState) (r0 : SlotRef) (d : CImGUIDrawData)
    (hd : st.slotAt r0 = some d) (r : SlotRef) :
    (st.markFree r0).slotAt r = if r = r0 then some d.MarkFree else st.slotAt r := by
  obtain ⟨i0, k0⟩ := r0
  unfold EngineState.slotAt at hd
  simp only at hd
  split at hd
  · cases hd
  · rename_i w hw
    have hk : k0 < w.drawDataBuffers.length := by
      rw [List.get?_eq_getElem?] at hd
      exact (List.getElem?_eq_some_iff.mp hd).1
    apply slotAt_set st _ i0 k0 w
      { w with drawDataBuffers := w.drawDataBuffers.set k0 d.MarkFree } d.MarkFree hw hk rfl
    unfold EngineState.markFree
    simp only [hw, hd]

theorem RingInvariant_init (N : Nat) (heap : Heap) (viewports : List ImGuiViewport) :
    RingInvariant
      { heap := heap, windows := viewports.map (ImGUIWindow.new N), queue := [] } := by
  constructor
  · intro r d hd
    have hfree : d.isFree = true := by
      unfold EngineState.slotAt at hd
      simp only [List.get?_eq_getElem?, List.getElem?_map] at hd
      split at hd
      · cases hd
      · rename_i w hw
        obtain ⟨v, _, rfl⟩ := Option.map_eq_some'.mp hw
        simp only [ImGUIWindow.new] at hd
        have := List.getElem?_eq_some_iff.mp hd
        obtain ⟨hlt, heq⟩ := this
        rw [List.getElem_replicate] at heq
        rw [← heq]; rfl
    simp [refCount, hfree]
  · intro r _
    simp [refCount]

theorem markFree_queue (st : EngineState) (r : SlotRef) : (st.markFree r).queue = st.queue := by
  unfold EngineState.markFree
  split
  · rfl
  · split <;> rfl

theorem slotAt_of_window (st : EngineState) (this k : Nat) (w : ImGUIWindow)
    (hw : st.windows.get? this = some w) :
    st.slotAt ⟨this, k⟩ = w.drawDataBuffers.get? k := by
  simp only [EngineState.slotAt, hw]

/-- A completed `Tick` fills a slot that was Free and held by no queued
command. -/
theorem Tick_fills_unreferenced (N : Nat) (alloc : Heap → Addr) (noClear fuel this : Nat)
    (st st1 : EngineState) (hinv : RingInvariant st)
    (h : ImGUIWindow.Tick N alloc noClear fuel this st = some st1) :
    ∃ k d filled w, st.slotAt ⟨this, k⟩ = some d ∧ d.isFree = true ∧
      refCount st.queue ⟨this, k⟩ = 0 ∧ filled.isFree = false ∧
      st1.queue = st.queue ++ [ImGUIWindow.drawCommand noClear w ⟨this, k⟩] ∧
      (∀ r, st1.slotAt r = if r = ⟨this, k⟩ then some filled else st.slotAt r) := by
  obtain ⟨w, s, d, heap1, filled, hw, _, hd, hf, rfl⟩ :=
    Tick_some N alloc noClear fuel this st st1 h
  obtain ⟨hfree, hbusy⟩ := SetDrawData_flags alloc _ _ _ _ _ hf
  have hslot : st.slotAt ⟨this, s.currentBuffer⟩ = some d := by
    rw [slotAt_of_window st this _ w hw, hd]
  have hk : s.currentBuffer < w.drawDataBuffers.length := by
    rw [List.get?_eq_getElem?] at hd
    exact (List.getElem?_eq_some_iff.mp hd).1
  obtain ⟨hiff, hle⟩ := hinv.1 _ d hslot
  have hzero : refCount st.queue ⟨this, s.currentBuffer⟩ = 0 := by
    have hne : refCount st.queue ⟨this, s.currentBuffer⟩ ≠ 1 := by
      intro h1
      have := hiff.mpr h1
      rw [hfree] at this
      cases this
    omega
  refine ⟨s.currentBuffer, d, filled, w, hslot, hfree, hzero, hbusy, rfl, ?_⟩
  intro r
  exact slotAt_set st _ this s.currentBuffer w _ filled hw hk rfl rfl r

theorem RingInvariant_produce (N : Nat) (alloc : Heap → Addr) (noClear fuel this : Nat)
    (st st1 : EngineState) (hinv : RingInvariant st)
    (h : ImGUIWindow.Tick N alloc noClear fuel this st = some st1) : RingInvariant st1 := by
  obtain ⟨k, d, filled, w, _, _, hzero, hbusy, hq, hslots⟩ :=
    Tick_fills_unreferenced N alloc noClear fuel this st st1 hinv h
  have hcount : ∀ r, refCount st1.queue r
      = refCount st.queue r + if (⟨this, k⟩ : SlotRef) = r then 1 else 0 := by
    intro r
    rw [hq, refCount_append, drawCommand_slot]
  constructor
  · intro r d1 hd1
    rw [hslots r] at hd1
    rw [hcount r]
    by_cases hr : r = ⟨this, k⟩
    · subst hr
      rw [if_pos rfl] at hd1
      cases hd1
      simp [hzero, hbusy]
    · rw [if_neg hr] at hd1
      rw [if_neg (Ne.symm hr), Nat.add_zero]
      exact hinv.1 r d1 hd1
  · intro r hnone
    rw [hslots r] at hnone
    rw [hcount r]
    by_cases hr : r = ⟨this, k⟩
    · rw [if_pos hr] at hnone
      cases hnone
    · rw [if_neg hr] at hnone
      rw [if_neg (Ne.symm hr), Nat.add_zero]
      exact hinv.2 r hnone

/-- The oldest queued command holds a Busy slot, and executing it frees that
slot and no other. -/
theorem consume_releases_busy (st : EngineState) (cmd : RenderCommand)
    (rest : List RenderCommand) (hinv : RingInvariant st) (hq : st.queue = cmd :: rest) :
    ∃ d, st.slotAt cmd.slot = some d ∧ d.isFree = false ∧ refCount rest cmd.slot = 0 := by
  have hcount := refCount_cons rest cmd cmd.slot
  rw [← hq, if_pos rfl] at hcount
  cases hd : st.slotAt cmd.slot with
  | none =>
    have := hinv.2 _ hd
    omega
  | some d =>
    obtain ⟨hiff, hle⟩ := hinv.1 _ d hd
    refine ⟨d, rfl, hiff.mpr (by omega), by omega⟩

theorem RingInvariant_consume (st st1 : EngineState) (cmd : RenderCommand)
    (rest : List RenderCommand) (trace : List RHICall) (hinv : RingInvariant st)
    (hq : st.queue = cmd :: rest)
    (h : cmd.Execute { st with queue := rest } = some (trace, st1)) : RingInvariant st1 := by
  obtain ⟨d, hd, _, hzero⟩ := consume_releases_busy st cmd rest hinv hq
  obtain ⟨d', hd', rfl⟩ := Execute_some cmd _ st1 trace h
  have hd'' : EngineState.slotAt { st with queue := rest } cmd.slot = some d := hd
  have hslots := slotAt_markFree { st with queue := rest } cmd.slot d hd''
  have hqueue : (EngineState.markFree { st with queue := rest } cmd.slot).queue = rest :=
    markFree_queue _ _
  have hcount : ∀ r, refCount st.queue r = refCount rest r + if cmd.slot = r then 1 else 0 := by
    intro r
    rw [hq, refCount_cons]
  constructor
  · intro r d1 hd1
    rw [hslots r] at hd1
    rw [hqueue]
    by_cases hr : r = cmd.slot
    · subst hr
      rw [if_pos rfl] at hd1
      cases hd1
      simp [hzero, CImGUIDrawData.MarkFree]
    · rw [if_neg hr] at hd1
      have hd2 : st.slotAt r = some d1 := hd1
      have := hinv.1 r d1 hd2
      rw [hcount r, if_neg (Ne.symm hr), Nat.add_zero] at this
      exact this
  · intro r hnone
    rw [hslots r] at hnone
    rw [hqueue]
    by_cases hr : r = cmd.slot
    · rw [if_pos hr] at hnone
      cases hnone
    · rw [if_neg hr] at hnone
      have hn2 : st.slotAt r = none := hnone
      have := hinv.2 r hn2
      rw [hcount r, if_neg (Ne.symm hr), Nat.add_zero] at this
      exact this

theorem slotAt_frame (st st1 : EngineState)
    (hw : st1.windows.map (fun w => (w.drawDataBuffers, w.indexCurrentBuffer))
      = st.windows.map (fun w => (w.drawDataBuffers, w.indexCurrentBuffer))) (r : SlotRef) :
    st1.slotAt r = st.slotAt r := by
  have h := congrArg (fun l => l.get? r.window) hw
  simp only [List.get?_eq_getElem?, List.getElem?_map] at h
  unfold EngineState.slotAt
  simp only [List.get?_eq_getElem?]
  cases h1 : st1.windows[r.window]? with
  | none =>
    cases h0 : st.windows[r.window]? with
    | none => rfl
    | some w0 => rw [h1, h0] at h; cases h
  | some w1 =>
    cases h0 : st.windows[r.window]? with
    | none => rw [h1, h0] at h; cases h
    | some w0 =>
      rw [h1, h0] at h
      simp only [Option.map_some', Option.some.injEq, Prod.mk.injEq] at h
      simp only [h.1]

/-! ## The draw commands -/

/-- C6: executing either draw command (main-window or child-window shape)
performs, in this order, some graphics calls, the `DrawImGUI` that reads the
payload of the slot the command holds (as it is before the release), further
graphics calls, and `MarkFree` on that same slot as the last action; no other
`MarkFree` occurs, so the slot is released exactly once, and afterwards it is
Free. -/
theorem draw_command_draws_then_frees (cmd : RenderCommand) (st st1 : EngineState)
    (trace : List RHICall) (h : cmd.Execute st = some (trace, st1)) :
    ∃ d before between,
      st.slotAt cmd.slot = some d ∧
      trace = before ++ [RHICall.DrawImGUI cmd.slot d.drawData (d.readPayload st.heap)]
        ++ between ++ [RHICall.MarkFree cmd.slot] ∧
      (∀ a, a ∈ before ++ between → ∀ r, a ≠ RHICall.MarkFree r) ∧
      (∀ a, a ∈ before ++ between → ∀ r dd pl, a ≠ RHICall.DrawImGUI r dd pl) ∧
      trace.getLast? = some (RHICall.MarkFree cmd.slot) ∧
      trace.count (RHICall.MarkFree cmd.slot) = 1 ∧
      st1 = st.markFree cmd.slot ∧
      st1.slotAt cmd.slot = some d.MarkFree ∧ d.MarkFree.isFree = true := by
  obtain ⟨d, hd, hst1⟩ := Execute_some cmd st st1 trace h
  have hfree : st1.slotAt cmd.slot = some d.MarkFree := by
    rw [hst1, slotAt_markFree st cmd.slot d hd, if_pos rfl]
  cases cmd with
  | MainWindow_DrawImGUICommand r =>
    simp only [RenderCommand.slot] at hd hfree ⊢
    simp only [RenderCommand.Execute, hd, Option.some.injEq, Prod.mk.injEq] at h
    refine ⟨d, [], [], hd, ?_, ?_, ?_, ?_, ?_, hst1, hfree, rfl⟩
    · rw [← h.1]; rfl
    · intro a ha; simp at ha
    · intro a ha; simp at ha
    · rw [← h.1]; rfl
    · rw [← h.1]; simp
  | ChildWindow_DrawImGUICommand r v c =>
    simp only [RenderCommand.slot] at hd hfree ⊢
    simp only [RenderCommand.Execute, hd, Option.some.injEq, Prod.mk.injEq] at h
    refine ⟨d, [RHICall.BeginDrawingViewport v]
        ++ (if c then [RHICall.ClearSurface v Color.black] else []),
      [RHICall.EndDrawingViewport v true false], hd, ?_, ?_, ?_, ?_, ?_, hst1, hfree, rfl⟩
    · rw [← h.1]; simp
    · intro a ha r'
      cases c <;> simp at ha <;> rcases ha with rfl | rfl | rfl <;> simp
    · intro a ha r' dd pl
      cases c <;> simp at ha <;> rcases ha with rfl | rfl | rfl <;> simp
    · rw [← h.1]; cases c <;> simp
    · rw [← h.1]; cases c <;> simp

theorem draw_command_draws_then_frees_witness :
    (RenderCommand.MainWindow_DrawImGUICommand ⟨0, 0⟩).Execute tickedState
      = some ([RHICall.DrawImGUI ⟨0, 0⟩ { emptyFrame with CmdLists := some 1 } (some []),
               RHICall.MarkFree ⟨0, 0⟩],
              tickedState.markFree ⟨0, 0⟩) ∧
    ∃ d before between,
      tickedState.slotAt ⟨0, 0⟩ = some d ∧
      [RHICall.DrawImGUI ⟨0, 0⟩ { emptyFrame with CmdLists := some 1 } (some []),
        RHICall.MarkFree ⟨0, 0⟩]
        = before ++ [RHICall.DrawImGUI ⟨0, 0⟩ d.drawData (d.readPayload tickedState.heap)]
          ++ between ++ [RHICall.MarkFree ⟨0, 0⟩] ∧
      d.MarkFree.isFree = true :=
  have h : (RenderCommand.MainWindow_DrawImGUICommand ⟨0, 0⟩).Execute tickedState
      = some ([RHICall.DrawImGUI ⟨0, 0⟩ { emptyFrame with CmdLists := some 1 } (some []),
               RHICall.MarkFree ⟨0, 0⟩],
              tickedState.markFree ⟨0, 0⟩) := by decide
  let ⟨d, before, between, hd, ht, _, _, _, _, _, _, hf⟩ :=
    draw_command_draws_then_frees _ tickedState _ _ h
  ⟨h, d, before, between, hd, ht, hf⟩

/-- C9: executing the child-window draw command for viewport `v` performs
exactly the calls `BeginDrawingViewport(v)`, then `ClearSurface(v's surface,
black)` if and only if `isNeedClear`, then `DrawImGUI` of the slot's payload,
then `EndDrawingViewport(v, true, false)`, and last the release of the slot:
one begin and one end, both for `v`, with clear and draw between them.  The
command `Tick` builds for a window whose `ViewportRHI` is `v` has `isNeedClear`
true exactly when the viewport's flags lack `ImGuiViewportFlags_NoRendererClear`. -/
theorem child_command_call_order (r : SlotRef) (v : Nat) (isNeedClear : Bool)
    (st st1 : EngineState) (trace : List RHICall)
    (h : (RenderCommand.ChildWindow_DrawImGUICommand r v isNeedClear).Execute st
      = some (trace, st1)) :
    (∃ d, st.slotAt r = some d ∧
      trace = [RHICall.BeginDrawingViewport v]
        ++ (if isNeedClear then [RHICall.ClearSurface v Color.black] else [])
        ++ [RHICall.DrawImGUI r d.drawData (d.readPayload st.heap),
            RHICall.EndDrawingViewport v true false,
            RHICall.MarkFree r]) ∧
    trace.head? = some (RHICall.BeginDrawingViewport v) ∧
    (∀ v', trace.count (RHICall.BeginDrawingViewport v') = if v' = v then 1 else 0) ∧
    (∀ v' p l, trace.count (RHICall.EndDrawingViewport v' p l)
      = if v' = v ∧ p = true ∧ l = false then 1 else 0) ∧
    (∀ v' c, trace.count (RHICall.ClearSurface v' c)
      = if v' = v ∧ c = Color.black ∧ isNeedClear = true then 1 else 0) ∧
    (∀ (noClear : Nat) (w : ImGUIWindow), w.imguiViewport.ViewportRHI = some v →
      ImGUIWindow.drawCommand noClear w r
        = RenderCommand.ChildWindow_DrawImGUICommand r v
            (decide (w.imguiViewport.Flags &&& noClear = 0))) := by
  simp only [RenderCommand.Execute] at h
  split at h
  · cases h
  · rename_i d hd
    simp only [Option.some.injEq, Prod.mk.injEq] at h
    obtain ⟨ht, _⟩ := h
    subst ht
    refine ⟨⟨d, hd, rfl⟩, rfl, ?_, ?_, ?_, ?_⟩
    · intro v'
      by_cases hv : v' = v
      · subst hv; cases isNeedClear <;> simp
      · cases isNeedClear <;> simp [hv, Ne.symm hv]
    · intro v' p l
      by_cases hv : v' = v ∧ p = true ∧ l = false
      · obtain ⟨rfl, rfl, rfl⟩ := hv
        cases isNeedClear <;> simp
      · rw [if_neg hv]
        apply List.count_eq_zero.mpr
        intro hmem
        cases isNeedClear <;> simp at hmem <;> exact hv hmem
    · intro v' c
      cases isNeedClear
      · simp
      · by_cases hv : v' = v ∧ c = Color.black
        · obtain ⟨rfl, rfl⟩ := hv
          simp
        · have : ¬(v' = v ∧ c = Color.black ∧ true = true) := fun hh => hv ⟨hh.1, hh.2.1⟩
          rw [if_neg this]
          apply List.count_eq_zero.mpr
          intro hmem
          simp at hmem
          exact hv hmem
    · intro noClear w hw
      simp only [ImGUIWindow.drawCommand, hw]
      congr 1

theorem child_command_call_order_witness :
    (RenderCommand.ChildWindow_DrawImGUICommand ⟨0, 0⟩ 7 true).Execute childState
      = some ([RHICall.BeginDrawingViewport 7, RHICall.ClearSurface 7 Color.black,
               RHICall.DrawImGUI ⟨0, 0⟩ { emptyFrame with CmdLists := some 1 } (some []),
               RHICall.EndDrawingViewport 7 true false, RHICall.MarkFree ⟨0, 0⟩],
              childState.markFree ⟨0, 0⟩) ∧
    ImGUIWindow.drawCommand 256
        { imguiViewport := childViewport, drawDataBuffers := [], indexCurrentBuffer := 0 } ⟨0, 0⟩
      = RenderCommand.ChildWindow_DrawImGUICommand ⟨0, 0⟩ 7 (decide (0 &&& 256 = 0)) :=
  have h : (RenderCommand.ChildWindow_DrawImGUICommand ⟨0, 0⟩ 7 true).Execute childState
      = some ([RHICall.BeginDrawingViewport 7, RHICall.ClearSurface 7 Color.black,
               RHICall.DrawImGUI ⟨0, 0⟩ { emptyFrame with CmdLists := some 1 } (some []),
               RHICall.EndDrawingViewport 7 true false, RHICall.MarkFree ⟨0, 0⟩],
              childState.markFree ⟨0, 0⟩) := by decide
  ⟨h, (child_command_call_order ⟨0, 0⟩ 7 true childState _ _ h).2.2.2.2.2 256
    { imguiViewport := childViewport, drawDataBuffers := [], indexCurrentBuffer := 0 } rfl⟩

/-! ## What a `Tick` on a ring left alone changes -/

/-- Everything a completed `Tick` changes: one slot of its own window goes from
Free to Busy and one command holding that slot is appended to the queue. -/
theorem Tick_effect (N : Nat) (alloc : Heap → Addr) (noClear fuel this : Nat)
    (st st1 : EngineState) (h : ImGUIWindow.Tick N alloc noClear fuel this st = some st1) :
    ∃ w k d filled, st.windows.get? this = some w ∧
      st.slotAt ⟨this, k⟩ = some d ∧ d.isFree = true ∧ filled.isFree = false ∧
      st1.queue = st.queue ++ [ImGUIWindow.drawCommand noClear w ⟨this, k⟩] ∧
      (∀ r, st1.slotAt r = if r = ⟨this, k⟩ then some filled else st.slotAt r) ∧
      (∀ i, i ≠ this → st1.windows.get? i = st.windows.get? i) := by
  obtain ⟨w, s, d, heap1, filled, hw, _, hd, hf, rfl⟩ :=
    Tick_some N alloc noClear fuel this st st1 h
  obtain ⟨hfree, hbusy⟩ := SetDrawData_flags alloc _ _ _ _ _ hf
  have hslot : st.slotAt ⟨this, s.currentBuffer⟩ = some d := by
    rw [slotAt_of_window st this _ w hw, hd]
  have hk : s.currentBuffer < w.drawDataBuffers.length := by
    rw [List.get?_eq_getElem?] at hd
    exact (List.getElem?_eq_some_iff.mp hd).1
  refine ⟨w, s.currentBuffer, d, filled, hw, hslot, hfree, hbusy, rfl, ?_, ?_⟩
  · intro r
    exact slotAt_set st _ this s.currentBuffer w _ filled hw hk rfl rfl r
  · intro i hi
    simp [List.getElem?_set, Ne.symm hi]

/-! ## Heap -/

theorem Heap.read_write (h : Heap) (a b : Addr) (o : HeapObj) :
    (h.write a o).read b = if b = a then some o else h.read b := by
  unfold Heap.read Heap.write
  simp only [List.find?_cons]
  by_cases hb : b = a
  · subst hb; simp
  · have : (a == b) = false := by simpa using Ne.symm hb
    simp [this, hb]

theorem Heap.read_free (h : Heap) (a b : Addr) :
    (h.free a).read b = if b = a then none else h.read b := by
  obtain ⟨cells⟩ := h
  unfold Heap.read Heap.free
  simp only
  induction cells with
  | nil => simp
  | cons c cs ih =>
    simp only [List.filter_cons]
    by_cases hca : c.1 = a
    · have h1 : (!(c.1 == a)) = false := by simp [hca]
      rw [h1]
      simp only [Bool.false_eq_true, if_false]
      rw [ih]
      by_cases hb : b = a
      · simp [hb]
      · have : (c.1 == b) = false := by
          rw [hca]; simpa using Ne.symm hb
        simp [hb, List.find?_cons, this]
    · have h1 : (!(c.1 == a)) = true := by simp [hca]
      rw [h1]
      simp only [if_true, List.find?_cons]
      by_cases hcb : c.1 = b
      · have : (c.1 == b) = true := by simp [hcb]
        rw [this]
        have hba : b ≠ a := by rw [← hcb]; exact hca
        simp [hba]
      · have : (c.1 == b) = false := by simpa using hcb
        rw [this]
        exact ih

/-- The sample allocator returns an address that is not in use. -/
theorem Heap.fresh_unused (h : Heap) : h.read h.fresh = none := by
  have hbound : ∀ (cells : List (Addr × HeapObj)) (c : Addr × HeapObj), c ∈ cells →
      c.1 ≤ (cells.map Prod.fst).foldr max 0 := by
    intro cells
    induction cells with
    | nil => intro c hc; cases hc
    | cons x xs ih =>
      intro c hc
      simp only [List.map_cons, List.foldr_cons]
      rcases List.mem_cons.mp hc with rfl | hc'
      · exact Nat.le_max_left _ _
      · exact Nat.le_trans (ih c hc') (Nat.le_max_right _ _)
  unfold Heap.read
  cases hf : h.cells.find? (fun c => c.1 == h.fresh) with
  | none => rfl
  | some c =>
    have hmem := List.mem_of_find?_eq_some hf
    have heq := List.find?_some hf
    have hle := hbound h.cells c hmem
    have heq' : c.1 = (h.cells.map Prod.fst).foldr max 0 + 1 := by
      simpa [Heap.fresh] using heq
    rw [heq'] at hle
    exact absurd hle (Nat.not_succ_le_self _)

/-! ## Deep copy -/

/-- The loop of `Clear` only releases objects. -/
theorem Clear_loop_only_frees (arr : Addr) (r index : Nat) (h h1 : Heap)
    (hl : CImGUIDrawData.Clear.loop arr r index h = some h1) (a : Addr) (o : HeapObj)
    (ha : h1.read a = some o) : h.read a = some o := by
  induction r generalizing index h with
  | zero =>
    simp only [CImGUIDrawData.Clear.loop, Option.some.injEq] at hl
    rw [hl]; exact ha
  | succ r ih =>
    simp only [CImGUIDrawData.Clear.loop] at hl
    split at hl
    · split at hl
      · cases hl
      · exact ih _ _ hl
      · split at hl
        · have := ih _ _ hl
          rw [Heap.read_free] at this
          split at this
          · cases this
          · exact this
        · cases hl
    · cases hl

/-- `Clear` only releases objects: what is on the heap afterwards was there
before, unchanged. -/
theorem Clear_only_frees (h h1 : Heap) (d d1 : CImGUIDrawData)
    (hc : d.Clear h = some (h1, d1)) (a : Addr) (o : HeapObj) (ha : h1.read a = some o) :
    h.read a = some o := by
  unfold CImGUIDrawData.Clear at hc
  split at hc
  · split at hc
    · split at hc
      · rename_i h2 hloop
        split at hc
        · simp only [Option.some.injEq, Prod.mk.injEq] at hc
          rw [← hc.1, Heap.read_free] at ha
          split at ha
          · cases ha
          · exact Clear_loop_only_frees _ _ 0 h h2 hloop a o ha
        · cases hc
      · cases hc
    · simp only [Option.some.injEq, Prod.mk.injEq] at hc
      rw [← hc.1] at ha
      exact ha
  · cases hc

/-- Reading draw lists succeeds exactly when every pointer on the way is live,
and then returns the lists pointed to. -/
theorem readLoop_eq_some_iff (h : Heap) (arr : Option Addr) (r index : Nat)
    (ls : List ImDrawList) :
    ImDrawData.readLoop h arr r index = some ls ↔
      ls.length = r ∧ ∀ i, i < r → ∃ a ptrs p l, arr = some a ∧
        h.read a = some (HeapObj.listArray ptrs) ∧ ptrs.get? (index + i) = some (some p) ∧
        h.read p = some (HeapObj.drawList l) ∧ ls.get? i = some l := by
  induction r generalizing index ls with
  | zero =>
    simp only [ImDrawData.readLoop, Option.some.injEq]
    constructor
    · intro hh; subst hh; exact ⟨rfl, fun i hi => absurd hi (Nat.not_lt_zero _)⟩
    · intro hh; exact (List.length_eq_zero.mp hh.1).symm
  | succ r ih =>
    constructor
    · intro hh
      simp only [ImDrawData.readLoop] at hh
      split at hh
      · cases hh
      · rename_i a
        split at hh
        · rename_i ptrs hptrs
          split at hh
          · rename_i p hp
            split at hh
            · rename_i l hl
              split at hh
              · rename_i ls' hls'
                simp only [Option.some.injEq] at hh
                subst hh
                obtain ⟨hlen, hall⟩ := (ih (index + 1) ls').mp hls'
                refine ⟨by simp [hlen], ?_⟩
                intro i hi
                cases i with
                | zero => exact ⟨a, ptrs, p, l, rfl, hptrs, hp, hl, rfl⟩
                | succ i =>
                  obtain ⟨a', ptrs', p', l', h1, h2, h3, h4, h5⟩ :=
                    hall i (Nat.lt_of_succ_lt_succ hi)
                  refine ⟨a', ptrs', p', l', h1, h2, ?_, h4, ?_⟩
                  · rw [show index + (i + 1) = index + 1 + i by omega]; exact h3
                  · simpa using h5
              · cases hh
            · cases hh
          · cases hh
        · cases hh
    · rintro ⟨hlen, hall⟩
      obtain ⟨a, ptrs, p, l, harr, hptrs, hp, hl, hl0⟩ := hall 0 (Nat.succ_pos _)
      cases ls with
      | nil => simp at hlen
      | cons l0 ls' =>
        simp only [List.get?_cons_zero, Option.some.injEq] at hl0
        subst hl0
        have hrest : ImDrawData.readLoop h arr r (index + 1) = some ls' := by
          apply (ih (index + 1) ls').mpr
          refine ⟨by simpa using hlen, ?_⟩
          intro i hi
          obtain ⟨a', ptrs', p', l', h1, h2, h3, h4, h5⟩ := hall (i + 1) (Nat.succ_lt_succ hi)
          refine ⟨a', ptrs', p', l', h1, h2, ?_, h4, ?_⟩
          · rw [show index + 1 + i = index + (i + 1) by omega]; exact h3
          · simpa using h5
        subst harr
        rw [Nat.add_zero] at hp
        simp only [ImDrawData.readLoop, hptrs, hp, hl, hrest]

/-- The copy loop of `SetDrawData` runs to its end when the source lists are
live and apart from the new array; it stores at each index a pointer to a
newly allocated clone of the source list at that index, and it changes no
object that existed before except the new array. -/
theorem SetDrawData_loop_total (alloc : Heap → Addr)
    (hfresh : ∀ h : Heap, h.read (alloc h) = none) (src : Option Addr) (arr : Addr)
    (ls : List ImDrawList) (r index : Nat) (h : Heap) (dptrs : List (Option Addr))
    (harr : h.read arr = some (HeapObj.listArray dptrs)) (hlen : index + r = dptrs.length)
    (hsrc : ∀ i, index ≤ i → i < index + r → ∃ sa sptrs p l, src = some sa ∧ sa ≠ arr ∧
      h.read sa = some (HeapObj.listArray sptrs) ∧ sptrs.get? i = some (some p) ∧ p ≠ arr ∧
      h.read p = some (HeapObj.drawList l) ∧ ls.get? i = some l) :
    ∃ hfinal dptrs1, CImGUIDrawData.SetDrawData.loop alloc src arr r index h = some hfinal ∧
      hfinal.read arr = some (HeapObj.listArray dptrs1) ∧ dptrs1.length = dptrs.length ∧
      (∀ i, i < index → dptrs1.get? i = dptrs.get? i) ∧
      (∀ i, index ≤ i → i < index + r → ∃ q l, ls.get? i = some l ∧
        dptrs1.get? i = some (some q) ∧ q ≠ arr ∧
        hfinal.read q = some (HeapObj.drawList l.CloneOutput) ∧ h.read q = none) ∧
      (∀ a o, h.read a = some o → a ≠ arr → hfinal.read a = some o) := by
  induction r generalizing index h dptrs with
  | zero =>
    exact ⟨h, dptrs, rfl, harr, rfl, fun _ _ => rfl,
      fun i h1 h2 => absurd h2 (by omega), fun a o ha _ => ha⟩
  | succ r ih =>
    obtain ⟨sa, sptrs, p, l, hsa, hsaarr, hsptrs, hp, hparr, hl, hls⟩ :=
      hsrc index (Nat.le_refl _) (by omega)
    have hq : h.read (alloc h) = none := hfresh h
    have hqarr : alloc h ≠ arr := by
      intro heq; rw [heq, harr] at hq; cases hq
    have hidx : index < dptrs.length := by omega
    have hnew : ∀ a o, h.read a = some o → a ≠ arr →
        ((h.write (alloc h) (HeapObj.drawList l.CloneOutput)).write arr
          (HeapObj.listArray (dptrs.set index (some (alloc h))))).read a = some o := by
      intro a o ha hne
      have haq : a ≠ alloc h := by
        intro heq; rw [heq, hq] at ha; cases ha
      rw [Heap.read_write, if_neg hne, Heap.read_write, if_neg haq]
      exact ha
    obtain ⟨hfinal, dptrs1, hloop, harr1, hlen1, hpre, hnewer, hframe⟩ :=
      ih (index + 1)
        ((h.write (alloc h) (HeapObj.drawList l.CloneOutput)).write arr
          (HeapObj.listArray (dptrs.set index (some (alloc h)))))
        (dptrs.set index (some (alloc h)))
        (by rw [Heap.read_write, if_pos rfl])
        (by simp only [List.length_set]; omega)
        (by
          intro i hi1 hi2
          obtain ⟨sa', sptrs', p', l', h1, h2, h3, h4, h5, h6, h7⟩ :=
            hsrc i (by omega) (by omega)
          exact ⟨sa', sptrs', p', l', h1, h2, hnew _ _ h3 h2, h4, h5, hnew _ _ h6 h5, h7⟩)
    refine ⟨hfinal, dptrs1, ?_, harr1, by rw [hlen1, List.length_set], ?_, ?_, ?_⟩
    · subst hsa
      have harr' : (h.write (alloc h) (HeapObj.drawList l.CloneOutput)).read arr
          = some (HeapObj.listArray dptrs) := by
        rw [Heap.read_write, if_neg (Ne.symm hqarr)]; exact harr
      simp only [CImGUIDrawData.SetDrawData.loop, hsptrs, hp, hl, harr', hidx, if_true]
      exact hloop
    · intro i hi
      rw [hpre i (by omega)]
      simp only [List.get?_eq_getElem?]
      rw [List.getElem?_set_ne (by omega)]
    · intro i hi1 hi2
      by_cases hi : i = index
      · subst hi
        refine ⟨alloc h, l, hls, ?_, hqarr, ?_, hq⟩
        · rw [hpre i (by omega)]
          simp only [List.get?_eq_getElem?]
          rw [List.getElem?_set_self hidx]
        · apply hframe _ _ _ hqarr
          rw [Heap.read_write, if_neg hqarr, Heap.read_write, if_pos rfl]
      · obtain ⟨q', l', h1, h2, h3, h4, h5⟩ := hnewer i (by omega) (by omega)
        refine ⟨q', l', h1, h2, h3, h4, ?_⟩
        rw [Heap.read_write, if_neg h3, Heap.read_write] at h5
        split at h5
        · cases h5
        · exact h5
    · intro a o ha hne
      exact hframe a o (hnew a o ha hne) hne

theorem toUInt32_of_int (c : Int) (h0 : 0 ≤ c) (h1 : c < 2147483648) :
    toUInt32 c = c.toNat := by
  unfold toUInt32
  rw [Int.emod_eq_of_lt h0 (by omega)]

/-- Every address of a readable draw data is live. -/
theorem addrs_live (h : Heap) (src : ImDrawData) (ls : List ImDrawList)
    (hsrc : src.readLists h = some ls) (a : Addr) (ha : a ∈ src.addrs h) :
    ∃ o, h.read a = some o := by
  unfold ImDrawData.addrs at ha
  split at ha
  · cases ha
  · rename_i sa hsa
    split at ha
    · rename_i sptrs hsptrs
      rcases List.mem_cons.mp ha with rfl | hmem
      · exact ⟨_, hsptrs⟩
      · obtain ⟨x, hx, hxa⟩ := List.mem_filterMap.mp hmem
        simp only [id] at hxa
        subst hxa
        obtain ⟨i, hi, hget⟩ := List.mem_take_iff_getElem.mp hx
        obtain ⟨_, hall⟩ := (readLoop_eq_some_iff h _ _ 0 ls).mp hsrc
        obtain ⟨a', ptrs', p, l, h1, h2, h3, h4, _⟩ := hall i (by omega)
        rw [hsa] at h1
        cases h1
        rw [hsptrs] at h2
        cases h2
        rw [Nat.zero_add, List.get?_eq_getElem?, List.getElem?_eq_getElem (by omega)] at h3
        rw [hget] at h3
        cases h3
        exact ⟨_, h4⟩
    · cases ha

/-- The pointers a successful read goes through are addresses of the draw
data. -/
theorem addrs_of_read (h : Heap) (src : ImDrawData) (sa : Addr)
    (sptrs : List (Option Addr)) (hsa : src.CmdLists = some sa)
    (hsptrs : h.read sa = some (HeapObj.listArray sptrs)) :
    sa ∈ src.addrs h ∧
    ∀ i p, i < toUInt32 src.CmdListsCount → sptrs.get? i = some (some p) → p ∈ src.addrs h := by
  unfold ImDrawData.addrs
  simp only [hsa, hsptrs]
  refine ⟨List.mem_cons_self _ _, ?_⟩
  intro i p hi hp
  apply List.mem_cons_of_mem
  apply List.mem_filterMap.mpr
  refine ⟨some p, ?_, rfl⟩
  rw [List.get?_eq_getElem?] at hp
  obtain ⟨hlt, hget⟩ := List.getElem?_eq_some_iff.mp hp
  exact List.mem_take_iff_getElem.mpr ⟨i, by omega, hget⟩

/-- C5 (deep-copy isolation): let the source draw data be valid, with a count
in the range of `int` and all its lists readable, and let the release of the
slot's previous payload leave the source's memory alone.  Then
`SetDrawData(src)` on a Free slot completes; the slot becomes Busy and holds
the source's `CmdListsCount`; its list array is a newly allocated one, not the
source's; what the consumer reads through the slot is, list by list, the
`CloneOutput` of the source's lists as they were at the call; and it reads the
very same from every later heap that differs from the one `SetDrawData` left
only at addresses of the source, that is after any mutation or release of the
source's array and lists. -/
theorem set_draw_data_deep_copy (alloc : Heap → Addr)
    (hfresh : ∀ h : Heap, h.read (alloc h) = none) (h h1 : Heap) (d d1 : CImGUIDrawData)
    (src : ImDrawData) (ls : List ImDrawList)
    (hfree : d.isFree = true) (hvalid : src.Valid = true)
    (hcount : 0 ≤ src.CmdListsCount) (hint : src.CmdListsCount < 2147483648)
    (hsrc : src.readLists h = some ls)
    (hclear : d.Clear h = some (h1, d1))
    (hkeep : ∀ a, a ∈ src.addrs h → h1.read a = h.read a) :
    ∃ h3 filled, d.SetDrawData alloc h (some src) = some (h3, filled) ∧
      filled.isFree = false ∧
      filled.drawData.CmdListsCount = src.CmdListsCount ∧
      (ls.length : Int) = src.CmdListsCount ∧
      filled.drawData.CmdLists = some (alloc h1) ∧
      alloc h1 ∉ src.addrs h ∧
      filled.readPayload h3 = some (ls.map ImDrawList.CloneOutput) ∧
      (∀ h4 : Heap, (∀ a, a ∉ src.addrs h → h4.read a = h3.read a) →
        filled.readPayload h4 = some (ls.map ImDrawList.CloneOutput)) := by
  have hn : toUInt32 src.CmdListsCount = src.CmdListsCount.toNat :=
    toUInt32_of_int _ hcount hint
  obtain ⟨hlen, hall⟩ := (readLoop_eq_some_iff h _ _ 0 ls).mp hsrc
  rw [hn] at hlen hall
  have hlive1 : ∀ a, a ∈ src.addrs h → ∃ o, h1.read a = some o := by
    intro a ha
    rw [hkeep a ha]
    exact addrs_live h src ls hsrc a ha
  have harrfresh : h1.read (alloc h1) = none := hfresh h1
  have harrsrc : alloc h1 ∉ src.addrs h := by
    intro hmem
    obtain ⟨o, ho⟩ := hlive1 _ hmem
    rw [harrfresh] at ho
    cases ho
  -- the heap the copy loop starts from
  have hstart : ∀ a, a ∈ src.addrs h →
      (h1.write (alloc h1)
        (HeapObj.listArray (List.replicate src.CmdListsCount.toNat none))).read a
        = h.read a := by
    intro a ha
    have hne : a ≠ alloc h1 := fun heq => harrsrc (heq ▸ ha)
    rw [Heap.read_write, if_neg hne, hkeep a ha]
  obtain ⟨h3, dptrs1, hloop, harr3, _, _, hclones, _⟩ :=
    SetDrawData_loop_total alloc hfresh src.CmdLists (alloc h1) ls src.CmdListsCount.toNat 0
      (h1.write (alloc h1)
        (HeapObj.listArray (List.replicate src.CmdListsCount.toNat none)))
      (List.replicate src.CmdListsCount.toNat none)
      (by rw [Heap.read_write, if_pos rfl])
      (by simp)
      (by
        intro i _ hi
        rw [Nat.zero_add] at hi
        obtain ⟨sa, sptrs, p, l, h1', h2, h3', h4, h5⟩ := hall i hi
        rw [Nat.zero_add] at h3'
        obtain ⟨hsa_mem, hp_mem⟩ := addrs_of_read h src sa sptrs h1' h2
        have hp := hp_mem i p (by rw [hn]; exact hi) h3'
        refine ⟨sa, sptrs, p, l, h1', fun heq => harrsrc (heq ▸ hsa_mem), ?_, h3',
          fun heq => harrsrc (heq ▸ hp), ?_, h5⟩
        · rw [hstart sa hsa_mem]; exact h2
        · rw [hstart p hp]; exact h4)
  have hpayload : ∀ hX : Heap, hX.read (alloc h1) = h3.read (alloc h1) →
      (∀ i, i < src.CmdListsCount.toNat → ∀ q, dptrs1.get? i = some (some q) →
        hX.read q = h3.read q) →
      ImDrawData.readLoop hX (some (alloc h1)) src.CmdListsCount.toNat 0
        = some (ls.map ImDrawList.CloneOutput) := by
    intro hX hXarr hXq
    apply (readLoop_eq_some_iff hX _ _ 0 _).mpr
    refine ⟨by simp [hlen], ?_⟩
    intro i hi
    obtain ⟨q, l, hl, hq, _, hq3, _⟩ := hclones i (Nat.zero_le _) (by omega)
    refine ⟨alloc h1, dptrs1, q, l.CloneOutput, rfl, by rw [hXarr, harr3], ?_, ?_, ?_⟩
    · rw [Nat.zero_add]; exact hq
    · rw [hXq i hi q hq]; exact hq3
    · simp only [List.get?_eq_getElem?, List.getElem?_map] at hl ⊢
      rw [hl]; rfl
  refine ⟨h3, { isFree := false, drawData := { src with CmdLists := some (alloc h1) } },
    ?_, rfl, rfl, ?_, rfl, harrsrc, ?_, ?_⟩
  · unfold CImGUIDrawData.SetDrawData
    simp only [hfree, hvalid, Bool.and_self, if_true, hclear, Int.not_lt.mpr hcount, if_false]
    rw [hn, hloop]
  · rw [hlen]; exact Int.toNat_of_nonneg hcount
  · unfold CImGUIDrawData.readPayload ImDrawData.readLists
    simp only [hn]
    exact hpayload h3 rfl (fun _ _ _ _ => rfl)
  · intro h4 hsame
    unfold CImGUIDrawData.readPayload ImDrawData.readLists
    simp only [hn]
    apply hpayload h4 (hsame _ harrsrc)
    intro i hi q hq
    apply hsame
    intro hmem
    obtain ⟨q', l, _, hq', hqarr, _, hqfresh⟩ := hclones i (Nat.zero_le _) (by omega)
    rw [hq] at hq'
    cases hq'
    rw [hstart q hmem] at hqfresh
    obtain ⟨o, ho⟩ := addrs_live h src ls hsrc q hmem
    rw [hqfresh] at ho
    cases ho

theorem set_draw_data_deep_copy_witness :
    sourceFrame.readLists sourceHeap = some [sourceList] ∧
    CImGUIDrawData.new.Clear sourceHeap = some (sourceHeap, CImGUIDrawData.new) ∧
    ∃ h3 filled,
      CImGUIDrawData.new.SetDrawData Heap.fresh sourceHeap (some sourceFrame)
        = some (h3, filled) ∧
      filled.isFree = false ∧
      filled.drawData.CmdListsCount = sourceFrame.CmdListsCount ∧
      (([sourceList].length : Nat) : Int) = sourceFrame.CmdListsCount ∧
      filled.drawData.CmdLists = some (Heap.fresh sourceHeap) ∧
      Heap.fresh sourceHeap ∉ sourceFrame.addrs sourceHeap ∧
      filled.readPayload h3 = some ([sourceList].map ImDrawList.CloneOutput) ∧
      (∀ h4 : Heap, (∀ a, a ∉ sourceFrame.addrs sourceHeap → h4.read a = h3.read a) →
        filled.readPayload h4 = some ([sourceList].map ImDrawList.CloneOutput)) :=
  ⟨by decide, by decide,
    set_draw_data_deep_copy Heap.fresh Heap.fresh_unused sourceHeap sourceHeap
      CImGUIDrawData.new CImGUIDrawData.new sourceFrame [sourceList]
      rfl rfl (by decide) (by decide) (by decide) (by decide) (fun _ _ => rfl)⟩

/-! ## The render command queue -/

theorem executeNext_log {Cmd : Type} (rt : RenderThread Cmd) :
    rt.executeNext.executed ++ rt.executeNext.queue = rt.executed ++ rt.queue := by
  unfold RenderThread.executeNext
  cases hq : rt.queue with
  | nil => simp [hq]
  | cons c rest => simp

theorem run_log {Cmd : Type} (events : List (QueueEvent Cmd)) (rt : RenderThread Cmd) :
    (RenderThread.run events rt).executed ++ (RenderThread.run events rt).queue
      = rt.executed ++ rt.queue ++ QueueEvent.enqueued events := by
  induction events generalizing rt with
  | nil => simp [RenderThread.run, QueueEvent.enqueued]
  | cons e rest ih =>
    cases e with
    | enqueue c =>
      simp only [RenderThread.run, QueueEvent.enqueued]
      rw [ih]
      simp [RenderThread.enqueue]
    | execute =>
      simp only [RenderThread.run, QueueEvent.enqueued]
      rw [ih, executeNext_log]

theorem drainLoop_enough {Cmd : Type} (fuel : Nat) (rt : RenderThread Cmd)
    (hfuel : rt.queue.length ≤ fuel) :
    RenderThread.drainLoop fuel rt = { queue := [], executed := rt.executed ++ rt.queue } := by
  induction fuel generalizing rt with
  | zero =>
    have hq : rt.queue = [] := List.length_eq_zero.mp (Nat.le_zero.mp hfuel)
    obtain ⟨q, e⟩ := rt
    simp only at hq
    subst hq
    simp [RenderThread.drainLoop]
  | succ f ih =>
    obtain ⟨q, e⟩ := rt
    cases q with
    | nil => simp [RenderThread.drainLoop]
    | cons c rest =>
      simp only [RenderThread.drainLoop, RenderThread.executeNext]
      rw [ih _ (by simpa using hfuel)]
      simp

theorem run_enqueue_all {Cmd : Type} (cmds : List Cmd) (rt : RenderThread Cmd) :
    cmds.foldl RenderThread.enqueue rt = { rt with queue := rt.queue ++ cmds } := by
  induction cmds generalizing rt with
  | nil => simp
  | cons c rest ih =>
    simp only [List.foldl_cons]
    rw [ih]
    simp [RenderThread.enqueue]

/-- C10 (FIFO): for every interleaving of enqueues by the producer and turns of
the rendering thread, the commands executed so far followed by those still
queued are the enqueued commands in enqueue order; once the queue is drained
(one turn per queued command is enough) the execution order equals the enqueue
order, nothing skipped, repeated or reordered.  In particular enqueueing any
`n >= 0` commands and draining executes exactly those commands in that
order. -/
theorem render_commands_execute_in_enqueue_order {Cmd : Type}
    (events : List (QueueEvent Cmd)) :
    (RenderThread.run events (RenderThread.start Cmd)).executed
        ++ (RenderThread.run events (RenderThread.start Cmd)).queue
      = QueueEvent.enqueued events ∧
    (∀ fuel, (RenderThread.run events (RenderThread.start Cmd)).queue.length ≤ fuel →
      (RenderThread.drainLoop fuel (RenderThread.run events (RenderThread.start Cmd))).executed
        = QueueEvent.enqueued events ∧
      (RenderThread.drainLoop fuel (RenderThread.run events (RenderThread.start Cmd))).queue
        = []) ∧
    (RenderThread.run events (RenderThread.start Cmd)).drain_and_execute.executed
      = QueueEvent.enqueued events ∧
    (∀ cmds : List Cmd,
      (cmds.foldl RenderThread.enqueue (RenderThread.start Cmd)).drain_and_execute
        = { queue := [], executed := cmds }) := by
  have hlog := run_log events (RenderThread.start Cmd)
  simp only [RenderThread.start, List.append_nil, List.nil_append] at hlog
  refine ⟨hlog, ?_, ?_, ?_⟩
  · intro fuel hfuel
    rw [drainLoop_enough fuel _ hfuel]
    exact ⟨hlog, rfl⟩
  · unfold RenderThread.drain_and_execute
    rw [drainLoop_enough _ _ (Nat.le_refl _)]
    exact hlog
  · intro cmds
    unfold RenderThread.drain_and_execute
    rw [drainLoop_enough _ _ (Nat.le_refl _), run_enqueue_all]
    simp [RenderThread.start]

/-! ## Flush and shutdown -/

theorem run_from_start_log {Cmd : Type} (events : List (QueueEvent Cmd)) :
    (RenderThread.run events (RenderThread.start Cmd)).executed
        ++ (RenderThread.run events (RenderThread.start Cmd)).queue
      = QueueEvent.enqueued events := by
  have h := run_log events (RenderThread.start Cmd)
  simpa [RenderThread.start] using h

/-- The wait of `flush()` ends at the barrier: everything queued ahead of it has
been executed, in order, and what was queued behind it is still queued. -/
theorem flushLoop_reaches_barrier {α : Type} [DecidableEq α] (ticket : Nat)
    (ahead behind : List (Command α)) (fuel : Nat) (rt : RenderThread (Command α))
    (hq : rt.queue = ahead ++ Command.barrier ticket :: behind)
    (hfresh : Command.barrier ticket ∉ ahead) (hfuel : ahead.length < fuel) :
    RenderThread.flushLoop ticket fuel rt
      = some { queue := behind, executed := rt.executed ++ ahead ++ [Command.barrier ticket] } := by
  induction ahead generalizing fuel rt with
  | nil =>
    obtain ⟨f, rfl⟩ : ∃ f, fuel = f + 1 := ⟨fuel - 1, by simp at hfuel; omega⟩
    obtain ⟨q, e⟩ := rt
    simp only [List.nil_append] at hq
    subst hq
    simp [RenderThread.flushLoop, RenderThread.executeNext]
  | cons c rest ih =>
    obtain ⟨f, rfl⟩ : ∃ f, fuel = f + 1 := ⟨fuel - 1, by simp at hfuel; omega⟩
    obtain ⟨q, e⟩ := rt
    simp only [List.cons_append] at hq
    subst hq
    have hc : c ≠ Command.barrier ticket := fun h => hfresh (h ▸ List.mem_cons_self _ _)
    simp only [RenderThread.flushLoop, if_neg hc, RenderThread.executeNext]
    rw [ih f _ rfl (fun h => hfresh (List.mem_cons_of_mem _ h)) (by simpa using hfuel)]
    simp

theorem counter_of_ordinary {α : Type} (bodies : List α) (rest : List (Command α))
    (ticket : Nat) :
    RenderThread.counter
      { queue := rest, executed := bodies.map Command.ordinary ++ [Command.barrier ticket] }
      = bodies.length := by
  unfold RenderThread.counter
  simp only [List.filter_append]
  have h1 : ∀ l : List α, (List.filter (fun command : Command α =>
      match command with
      | Command.ordinary _ => true
      | _ => false) (l.map Command.ordinary)) = l.map Command.ordinary := by
    intro l
    induction l with
    | nil => rfl
    | cons x xs ih => simp [List.filter_cons, ih]
  rw [h1]
  simp

/-- C11 (flush completeness): let any interleaving of enqueues and rendering
turns have happened, none of them enqueueing this flush's barrier.  Then
`flush()` returns (one turn per pending command and one for the barrier are
enough), and when it returns every command enqueued before the call has been
executed, in enqueue order, and nothing is left pending; so a counter
incremented by each of the `K` ordinary commands enqueued before the flush
equals `K`.  Also when other producers enqueue while the flush waits, at the
moment the barrier has executed the executed commands start with all those
enqueued before the flush call, followed by the barrier. -/
theorem flush_completes_prior_commands {α : Type} [DecidableEq α]
    (events : List (QueueEvent (Command α))) (ticket : Nat)
    (hfresh : Command.barrier ticket ∉ QueueEvent.enqueued events) :
    (∀ fuel, (RenderThread.run events (RenderThread.start (Command α))).queue.length < fuel →
      RenderThread.flush fuel ticket (RenderThread.run events (RenderThread.start (Command α)))
        = some { queue := []
                 executed := QueueEvent.enqueued events ++ [Command.barrier ticket] }) ∧
    (∀ (bodies : List α) (fuel : Nat),
      QueueEvent.enqueued events = bodies.map Command.ordinary →
      (RenderThread.run events (RenderThread.start (Command α))).queue.length < fuel →
      (RenderThread.flush fuel ticket
        (RenderThread.run events (RenderThread.start (Command α)))).map RenderThread.counter
        = some bodies.length) ∧
    (∀ later : List (QueueEvent (Command α)),
      Command.barrier ticket ∈ (RenderThread.run later
        ((RenderThread.run events (RenderThread.start (Command α))).enqueue
          (Command.barrier ticket))).executed →
      ∃ rest, (RenderThread.run later
        ((RenderThread.run events (RenderThread.start (Command α))).enqueue
          (Command.barrier ticket))).executed
        = QueueEvent.enqueued events ++ Command.barrier ticket :: rest) := by
  have hlog := run_from_start_log events
  have hflush : ∀ fuel,
      (RenderThread.run events (RenderThread.start (Command α))).queue.length < fuel →
      RenderThread.flush fuel ticket (RenderThread.run events (RenderThread.start (Command α)))
        = some { queue := []
                 executed := QueueEvent.enqueued events ++ [Command.barrier ticket] } := by
    intro fuel hfuel
    unfold RenderThread.flush
    rw [flushLoop_reaches_barrier ticket
      (RenderThread.run events (RenderThread.start (Command α))).queue [] fuel _ rfl
      (fun hmem => hfresh (by rw [← hlog]; exact List.mem_append_right _ hmem)) hfuel]
    simp only [RenderThread.enqueue, hlog]
  refine ⟨hflush, ?_, ?_⟩
  · intro bodies fuel hb hfuel
    rw [hflush fuel hfuel, hb]
    simp only [Option.map_some', Option.some.injEq]
    exact counter_of_ordinary bodies [] ticket
  · intro later hmem
    have hl := run_log later
      ((RenderThread.run events (RenderThread.start (Command α))).enqueue
        (Command.barrier ticket))
    simp only [RenderThread.enqueue] at hl hmem ⊢
    rw [← List.append_assoc, hlog] at hl
    have hp1 : (RenderThread.run later
        { queue := (RenderThread.run events (RenderThread.start (Command α))).queue
            ++ [Command.barrier ticket]
          executed := (RenderThread.run events (RenderThread.start (Command α))).executed
          }).executed
        <+: QueueEvent.enqueued events ++ [Command.barrier ticket]
          ++ QueueEvent.enqueued later := ⟨_, hl⟩
    have hp2 : QueueEvent.enqueued events ++ [Command.barrier ticket]
        <+: QueueEvent.enqueued events ++ [Command.barrier ticket]
          ++ QueueEvent.enqueued later := List.prefix_append _ _
    rcases List.prefix_or_prefix_of_prefix hp1 hp2 with h1 | h2
    · rcases List.prefix_concat_iff.mp h1 with heq | hpre
      · exact ⟨[], by rw [heq]⟩
      · exact absurd (hpre.mem hmem) hfresh
    · obtain ⟨rest, hrest⟩ := h2
      exact ⟨rest, by rw [← hrest]; simp⟩

theorem flush_completes_prior_commands_witness :
    Command.barrier 7 ∉ QueueEvent.enqueued
      [QueueEvent.enqueue (Command.ordinary 1), QueueEvent.execute,
       QueueEvent.enqueue (Command.ordinary 2)] ∧
    RenderThread.flush 2 7
        (RenderThread.run
          [QueueEvent.enqueue (Command.ordinary 1), QueueEvent.execute,
           QueueEvent.enqueue (Command.ordinary 2)]
          (RenderThread.start (Command Nat)))
      = some { queue := []
               executed := [Command.ordinary 1, Command.ordinary 2, Command.barrier 7] } :=
  ⟨by decide,
    (flush_completes_prior_commands
      [QueueEvent.enqueue (Command.ordinary 1), QueueEvent.execute,
       QueueEvent.enqueue (Command.ordinary 2)] 7 (by decide)).1 2 (by decide)⟩

/-- The rendering thread executes everything queued ahead of the terminal
command, in order, then exits and leaves what was queued behind it. -/
theorem threadLoop_exits_at_terminal {α : Type} (ahead behind : List (Command α))
    (fuel : Nat) (rt : RenderThread (Command α))
    (hq : rt.queue = ahead ++ Command.terminal :: behind)
    (hno : Command.terminal ∉ ahead) (hfuel : ahead.length < fuel) :
    RenderThread.threadLoop fuel rt
      = some { queue := behind, executed := rt.executed ++ ahead } := by
  induction ahead generalizing fuel rt with
  | nil =>
    obtain ⟨f, rfl⟩ : ∃ f, fuel = f + 1 := ⟨fuel - 1, by simp at hfuel; omega⟩
    obtain ⟨q, e⟩ := rt
    simp only [List.nil_append] at hq
    subst hq
    simp [RenderThread.threadLoop]
  | cons c rest ih =>
    obtain ⟨f, rfl⟩ : ∃ f, fuel = f + 1 := ⟨fuel - 1, by simp at hfuel; omega⟩
    obtain ⟨q, e⟩ := rt
    simp only [List.cons_append] at hq
    subst hq
    have hc : c ≠ Command.terminal := fun h => hno (h ▸ List.mem_cons_self _ _)
    have hstep : RenderThread.threadLoop (f + 1)
        { queue := c :: (rest ++ Command.terminal :: behind), executed := e }
        = RenderThread.threadLoop f
            { queue := rest ++ Command.terminal :: behind, executed := e ++ [c] } := by
      cases c with
      | ordinary b => simp [RenderThread.threadLoop]
      | barrier t => simp [RenderThread.threadLoop]
      | terminal => exact absurd rfl hc
    rw [hstep, ih f _ rfl (fun h => hno (List.mem_cons_of_mem _ h)) (by simpa using hfuel)]
    simp

theorem ordinary_not_terminal {α : Type} (bodies : List α) :
    (Command.terminal : Command α) ∉ bodies.map Command.ordinary := by
  intro h
  obtain ⟨b, _, hb⟩ := List.mem_map.mp h
  cases hb

theorem counter_all_ordinary {α : Type} (bodies : List α) (rest : List (Command α)) :
    RenderThread.counter { queue := rest, executed := bodies.map Command.ordinary }
      = bodies.length := by
  unfold RenderThread.counter
  simp only
  induction bodies with
  | nil => rfl
  | cons b bs ih => simp [List.filter_cons, ih]

/-- C12 (shutdown drains fully): enqueueing `K` ordinary commands followed by
the shutdown command makes the rendering thread execute exactly those `K`
commands, in enqueue order, and then exit (`K + 1` turns are enough).  The same
holds after any interleaving of enqueues and rendering turns that enqueued no
terminal command: at exit the executed commands are exactly the enqueued ones
in enqueue order; commands enqueued behind the terminal command are left on
the queue. -/
theorem shutdown_drains_queue {α : Type} (bodies : List α)
    (events : List (QueueEvent (Command α))) (behind : List (Command α))
    (hno : Command.terminal ∉ QueueEvent.enqueued events) :
    (∀ fuel, bodies.length < fuel →
      RenderThread.threadLoop fuel
        ((bodies.map Command.ordinary).foldl RenderThread.enqueue
          (RenderThread.start (Command α))).shutdown
        = some { queue := [], executed := bodies.map Command.ordinary }) ∧
    (∀ fuel, bodies.length < fuel →
      (RenderThread.threadLoop fuel
        ((bodies.map Command.ordinary).foldl RenderThread.enqueue
          (RenderThread.start (Command α))).shutdown).map RenderThread.counter
        = some bodies.length) ∧
    (∀ fuel, (RenderThread.run events (RenderThread.start (Command α))).queue.length < fuel →
      RenderThread.threadLoop fuel
        (behind.foldl RenderThread.enqueue
          (RenderThread.run events (RenderThread.start (Command α))).shutdown)
        = some { queue := behind, executed := QueueEvent.enqueued events }) := by
  have hfirst : ∀ fuel, bodies.length < fuel →
      RenderThread.threadLoop fuel
        ((bodies.map Command.ordinary).foldl RenderThread.enqueue
          (RenderThread.start (Command α))).shutdown
        = some { queue := [], executed := bodies.map Command.ordinary } := by
    intro fuel hfuel
    rw [threadLoop_exits_at_terminal (bodies.map Command.ordinary) [] fuel _
      (by rw [run_enqueue_all]; simp [RenderThread.shutdown, RenderThread.enqueue,
            RenderThread.start])
      (ordinary_not_terminal bodies) (by simpa using hfuel)]
    rw [run_enqueue_all]
    simp [RenderThread.shutdown, RenderThread.enqueue, RenderThread.start]
  refine ⟨hfirst, ?_, ?_⟩
  · intro fuel hfuel
    rw [hfirst fuel hfuel]
    simp only [Option.map_some', Option.some.injEq]
    exact counter_all_ordinary bodies []
  · intro fuel hfuel
    have hlog := run_from_start_log events
    rw [threadLoop_exits_at_terminal
      (RenderThread.run events (RenderThread.start (Command α))).queue behind fuel _
      (by rw [run_enqueue_all]; simp [RenderThread.shutdown, RenderThread.enqueue])
      (fun hmem => hno (by rw [← hlog]; exact List.mem_append_right _ hmem)) hfuel]
    rw [run_enqueue_all]
    simp only [RenderThread.shutdown, RenderThread.enqueue, hlog]

theorem shutdown_drains_queue_witness :
    Command.terminal ∉ QueueEvent.enqueued
      [QueueEvent.enqueue (Command.ordinary 1), QueueEvent.execute,
       QueueEvent.enqueue (Command.barrier 3)] ∧
    RenderThread.threadLoop 3
        (([4, 5].map Command.ordinary).foldl RenderThread.enqueue
          (RenderThread.start (Command Nat))).shutdown
      = some { queue := [], executed := [Command.ordinary 4, Command.ordinary 5] } :=
  ⟨by decide,
    (shutdown_drains_queue [4, 5]
      [QueueEvent.enqueue (Command.ordinary 1), QueueEvent.execute,
       QueueEvent.enqueue (Command.barrier 3)] [Command.ordinary 9] (by decide)).1 3
      (by decide)⟩

/-! ## The world -/

/-- A counted loop over the elements of a list that the body does not change
is a fold over the list. -/
theorem forIndex_eq_foldl {σ β : Type} (body : Nat → σ → σ) (getList : σ → List β)
    (f : β → σ → σ)
    (hbody : ∀ index s x, (getList s).get? index = some x → body index s = f x s)
    (hkeep : ∀ x s, getList (f x s) = getList s) (r index : Nat) (s : σ)
    (h : index + r = (getList s).length) :
    forIndex body r index s = ((getList s).drop index).foldl (fun s x => f x s) s := by
  induction r generalizing index s with
  | zero =>
    rw [List.drop_of_length_le (by omega)]
    rfl
  | succ r ih =>
    have hlt : index < (getList s).length := by omega
    have hget : (getList s).get? index = some ((getList s)[index]) := by
      rw [List.get?_eq_getElem?]; exact List.getElem?_eq_getElem hlt
    rw [forIndex, hbody index s _ hget, List.drop_eq_getElem_cons hlt, List.foldl_cons]
    rw [ih (index + 1) _ (by rw [hkeep]; omega), hkeep]

/-- A fold whose steps only append to the log appends the steps' records in
order. -/
theorem foldl_log (f : ActorRef → CWorld → CWorld) (g : ActorRef → List WorldEvent)
    (hlog : ∀ a w, (f a w).log = w.log ++ g a) (l : List ActorRef) (w : CWorld) :
    (l.foldl (fun w a => f a w) w).log = w.log ++ (l.map g).flatten := by
  induction l generalizing w with
  | nil => simp
  | cons a rest ih =>
    rw [List.foldl_cons, ih, hlog]
    simp

/-- A fold whose steps keep a field keeps it. -/
theorem foldl_keeps {β : Type} (f : ActorRef → CWorld → CWorld) (field : CWorld → β)
    (hkeep : ∀ a w, field (f a w) = field w) (l : List ActorRef) (w : CWorld) :
    field (l.foldl (fun w a => f a w) w) = field w := by
  induction l generalizing w with
  | nil => rfl
  | cons a rest ih => rw [List.foldl_cons, ih, hkeep]

/-- A loop over `actors` whose body leaves `actors` alone is a fold. -/
theorem actors_loop_eq_foldl (f : ActorRef → CWorld → CWorld)
    (hkeep : ∀ a w, (f a w).actors = w.actors) (w : CWorld) :
    forIndex (fun index (w : CWorld) =>
      match w.actors.get? index with
      | none => w
      | some actor => f actor w) w.actors.length 0 w
      = w.actors.foldl (fun w a => f a w) w := by
  have h := forIndex_eq_foldl
    (fun index (w : CWorld) =>
      match w.actors.get? index with
      | none => w
      | some actor => f actor w)
    CWorld.actors f (fun index s x hx => by simp only [hx]) hkeep w.actors.length 0 w
    (by simp)
  rw [h, List.drop_zero]

/-- The record and the lists left by `EndPlay` on a world that is playing. -/
theorem EndPlay_playing (m : ActorMethods) (w : CWorld) (hplay : w.isBeginPlay = true) :
    (w.EndPlay m).log = w.log
      ++ (w.actors.map fun a => [WorldEvent.ActorEndPlay a, WorldEvent.ActorTermPhysics a]).flatten
      ++ [WorldEvent.CameraManagerEndPlay] ∧
    (w.EndPlay m).actors = w.actors ∧ (w.EndPlay m).actorsToDestroy = w.actorsToDestroy ∧
    (w.EndPlay m).isBeginPlay = false := by
  unfold CWorld.EndPlay
  simp only [hplay, Bool.not_true, Bool.false_eq_true, if_false]
  rw [actors_loop_eq_foldl (CWorld.endPlayActor m) (fun _ _ => rfl)]
  refine ⟨?_, ?_, ?_, trivial⟩
  · rw [foldl_log (CWorld.endPlayActor m)
      (fun a => [WorldEvent.ActorEndPlay a, WorldEvent.ActorTermPhysics a]) (fun _ _ => rfl)]
  · exact foldl_keeps (CWorld.endPlayActor m) CWorld.actors (fun _ _ => rfl) _ _
  · exact foldl_keeps (CWorld.endPlayActor m) CWorld.actorsToDestroy (fun _ _ => rfl) _ _

/-- What `CleanupWorld` does once `EndPlay` is over. -/
theorem afterEndPlay_spec (m : ActorMethods) (WITH_EDITOR : Bool) (w1 : CWorld) :
    (CWorld.CleanupWorld.afterEndPlay m WITH_EDITOR w1).log = w1.log
      ++ [WorldEvent.FlushRenderingCommands]
      ++ (w1.actors.map WorldEvent.ActorDestroyed
          ++ (if WITH_EDITOR && !w1.actors.isEmpty then [WorldEvent.onActorsDestroyed w1.actors]
              else [])
          ++ [WorldEvent.RemoveAllBodies, WorldEvent.SceneClear, WorldEvent.actorsClear,
              WorldEvent.actorsToDestroyClear]) ∧
    (CWorld.CleanupWorld.afterEndPlay m WITH_EDITOR w1).actors = [] ∧
    (CWorld.CleanupWorld.afterEndPlay m WITH_EDITOR w1).actorsToDestroy = [] ∧
    (CWorld.CleanupWorld.afterEndPlay m WITH_EDITOR w1).isBeginPlay = w1.isBeginPlay := by
  have hloop : ∀ w2 : CWorld,
      (w2.actors.foldl (fun w a => CWorld.destroyedActor m a w) w2).log
        = w2.log ++ w2.actors.map WorldEvent.ActorDestroyed := by
    intro w2
    rw [foldl_log (CWorld.destroyedActor m) (fun a => [WorldEvent.ActorDestroyed a])
      (fun _ _ => rfl)]
    congr 1
    induction w2.actors with
    | nil => rfl
    | cons a rest ih => simp [ih]
  have hact : ∀ w2 : CWorld,
      (w2.actors.foldl (fun w a => CWorld.destroyedActor m a w) w2).actors = w2.actors :=
    fun w2 => foldl_keeps (CWorld.destroyedActor m) CWorld.actors (fun _ _ => rfl) _ _
  have hplay : ∀ w2 : CWorld,
      (w2.actors.foldl (fun w a => CWorld.destroyedActor m a w) w2).isBeginPlay
        = w2.isBeginPlay :=
    fun w2 => foldl_keeps (CWorld.destroyedActor m) CWorld.isBeginPlay (fun _ _ => rfl) _ _
  have hfold := actors_loop_eq_foldl (CWorld.destroyedActor m) (fun _ _ => rfl)
    { w1 with log := w1.log ++ [WorldEvent.FlushRenderingCommands] }
  have hl := hloop { w1 with log := w1.log ++ [WorldEvent.FlushRenderingCommands] }
  have ha := hact { w1 with log := w1.log ++ [WorldEvent.FlushRenderingCommands] }
  have hp := hplay { w1 with log := w1.log ++ [WorldEvent.FlushRenderingCommands] }
  simp only at hfold hl ha hp
  unfold CWorld.CleanupWorld.afterEndPlay
  simp only
  rw [hfold]
  cases WITH_EDITOR
  · simp only [Bool.false_and, Bool.false_eq_true, if_false, hl, hp, List.append_nil,
      List.append_assoc, and_self]
  · simp only [Bool.true_and, if_true, ha]
    cases hempty : w1.actors.isEmpty
    · simp only [Bool.not_false, if_true, hl, hp, List.append_assoc, and_self]
    · simp only [Bool.not_true, Bool.false_eq_true, if_false, hl, hp, List.append_nil,
        List.append_assoc, and_self]

/-- C13: `CWorld::CleanupWorld` does, in this order and nothing else: the calls
of `EndPlay` (for each actor `EndPlay` and `TermPhysics`, then the camera
manager) when the world was playing; `FlushRenderingCommands`, once; then
`Destroyed()` on each actor in list order, the editor broadcast, the removal of
the physics bodies, `scene->Clear()` and the clearing of `actors` and
`actorsToDestroy`.  So the flush comes after everything of `EndPlay` and before
each of the others; afterwards both lists are empty and the world is not
playing. -/
theorem cleanup_flushes_before_destroying (m : ActorMethods) (WITH_EDITOR : Bool)
    (w : CWorld) :
    (w.CleanupWorld m WITH_EDITOR).log = w.log
      ++ (if w.isBeginPlay then
            (w.actors.map fun a =>
              [WorldEvent.ActorEndPlay a, WorldEvent.ActorTermPhysics a]).flatten
            ++ [WorldEvent.CameraManagerEndPlay]
          else [])
      ++ [WorldEvent.FlushRenderingCommands]
      ++ (w.actors.map WorldEvent.ActorDestroyed
          ++ (if WITH_EDITOR && !w.actors.isEmpty then [WorldEvent.onActorsDestroyed w.actors]
              else [])
          ++ [WorldEvent.RemoveAllBodies, WorldEvent.SceneClear, WorldEvent.actorsClear,
              WorldEvent.actorsToDestroyClear]) ∧
    (∀ e, e ∈ (if w.isBeginPlay then
            (w.actors.map fun a =>
              [WorldEvent.ActorEndPlay a, WorldEvent.ActorTermPhysics a]).flatten
            ++ [WorldEvent.CameraManagerEndPlay]
          else []) →
      (∃ a, e = WorldEvent.ActorEndPlay a) ∨ (∃ a, e = WorldEvent.ActorTermPhysics a) ∨
        e = WorldEvent.CameraManagerEndPlay) ∧
    (w.CleanupWorld m WITH_EDITOR).actors = [] ∧
    (w.CleanupWorld m WITH_EDITOR).actorsToDestroy = [] ∧
    (w.CleanupWorld m WITH_EDITOR).isBeginPlay = false := by
  obtain ⟨hlog, hact, hdest, hplay⟩ :=
    afterEndPlay_spec m WITH_EDITOR (if w.isBeginPlay then w.EndPlay m else w)
  have hfirst :
      (if w.isBeginPlay then w.EndPlay m else w).log = w.log
        ++ (if w.isBeginPlay then
              (w.actors.map fun a =>
                [WorldEvent.ActorEndPlay a, WorldEvent.ActorTermPhysics a]).flatten
              ++ [WorldEvent.CameraManagerEndPlay]
            else []) ∧
      (if w.isBeginPlay then w.EndPlay m else w).actors = w.actors ∧
      (if w.isBeginPlay then w.EndPlay m else w).isBeginPlay = false := by
    cases hp : w.isBeginPlay with
    | true =>
      simp only [if_true]
      obtain ⟨h1, h2, _, h4⟩ := EndPlay_playing m w hp
      exact ⟨by rw [h1, List.append_assoc], h2, h4⟩
    | false =>
      simp only [Bool.false_eq_true, if_false, List.append_nil, true_and]
      exact hp
  obtain ⟨hlog1, hactors1, hplay1⟩ := hfirst
  refine ⟨?_, ?_, hact, hdest, by rw [← hplay1]; exact hplay⟩
  · unfold CWorld.CleanupWorld
    rw [hlog, hlog1, hactors1]
  · intro e he
    cases hp : w.isBeginPlay with
    | false => rw [hp] at he; simp at he
    | true =>
      rw [hp] at he
      simp only [if_true, List.mem_append, List.mem_flatten, List.mem_map,
        List.mem_singleton] at he
      rcases he with ⟨l, ⟨a, _, rfl⟩, hel⟩ | rfl
      · simp only [List.mem_cons, List.mem_singleton, List.not_mem_nil, or_false] at hel
        rcases hel with rfl | rfl
        · exact Or.inl ⟨a, rfl⟩
        · exact Or.inr (Or.inl ⟨a, rfl⟩)
      · exact Or.inr (Or.inr rfl)

theorem UnselectActor_keeps (w : CWorld) (x : ActorRef) :
    (w.UnselectActor x).actors = w.actors ∧
    (w.UnselectActor x).actorsToDestroy = w.actorsToDestroy ∧
    ∀ y, ((w.UnselectActor x).objects y).isPendingKill = (w.objects y).isPendingKill := by
  unfold CWorld.UnselectActor
  split
  · exact ⟨rfl, rfl, fun _ => rfl⟩
  · refine ⟨rfl, rfl, ?_⟩
    intro y
    by_cases hy : y = x
    · subst hy; simp
    · simp [Function.update, hy]

/-- An immediate `DestroyActor` never touches `actorsToDestroy`; it erases the
actor from `actors` unless the actor is pending kill, and it leaves the
pending-kill flag of every other actor as it was. -/
theorem DestroyActor_now (m : ActorMethods) (WITH_EDITOR : Bool) (w : CWorld) (x : ActorRef)
    (hDestroyed : ∀ x s y, y ≠ x →
      (m.Destroyed x s y).isPendingKill = (s y).isPendingKill) :
    (w.DestroyActor m WITH_EDITOR x true).actorsToDestroy = w.actorsToDestroy ∧
    (w.DestroyActor m WITH_EDITOR x true).actors
      = (if (w.objects x).isPendingKill then w.actors else w.actors.erase x) ∧
    ∀ y, y ≠ x →
      ((w.DestroyActor m WITH_EDITOR x true).objects y).isPendingKill
        = (w.objects y).isPendingKill := by
  unfold CWorld.DestroyActor
  cases hp : (w.objects x).isPendingKill
  · simp only [Bool.false_eq_true, if_false, Bool.not_true, Bool.false_and]
    obtain ⟨hu1, hu2, hu3⟩ := UnselectActor_keeps w x
    cases WITH_EDITOR
    · simp only [Bool.false_eq_true, if_false]
      exact ⟨by first | rfl | trivial, by first | rfl | trivial, fun y hy => hDestroyed x _ y hy⟩
    · simp only [if_true]
      cases hs : (w.objects x).isSelected
      · simp only [Bool.false_eq_true, if_false]
        exact ⟨by first | rfl | trivial, by first | rfl | trivial, fun y hy => hDestroyed x _ y hy⟩
      · simp only [if_true]
        refine ⟨hu2, by rw [hu1], ?_⟩
        intro y hy
        rw [hDestroyed x _ y hy]
        exact hu3 y
  · simp only [if_true]
    exact ⟨by first | rfl | trivial, by first | rfl | trivial, fun _ _ => by first | rfl | trivial⟩

/-- The destruction loop of `Tick`: it only erases actors, never an actor that
is not scheduled, and it does erase a scheduled actor that is not pending
kill. -/
theorem destroy_fold (m : ActorMethods) (WITH_EDITOR : Bool)
    (hDestroyed : ∀ x s y, y ≠ x →
      (m.Destroyed x s y).isPendingKill = (s y).isPendingKill)
    (a : ActorRef) (scheduled : List ActorRef) (w : CWorld) (hnodup : w.actors.Nodup) :
    (scheduled.foldl (fun w x => w.DestroyActor m WITH_EDITOR x true) w).actorsToDestroy
      = w.actorsToDestroy ∧
    (scheduled.foldl (fun w x => w.DestroyActor m WITH_EDITOR x true) w).actors.Sublist
      w.actors ∧
    (∀ b, b ∈ w.actors → b ∉ scheduled →
      b ∈ (scheduled.foldl (fun w x => w.DestroyActor m WITH_EDITOR x true) w).actors) ∧
    ((a ∉ w.actors ∨ (a ∈ scheduled ∧ (w.objects a).isPendingKill = false)) →
      a ∉ (scheduled.foldl (fun w x => w.DestroyActor m WITH_EDITOR x true) w).actors) := by
  induction scheduled generalizing w with
  | nil =>
    refine ⟨rfl, List.Sublist.refl _, fun b hb _ => hb, ?_⟩
    rintro (h | ⟨h, _⟩)
    · exact h
    · cases h
  | cons x rest ih =>
    obtain ⟨h1, h2, h3⟩ := DestroyActor_now m WITH_EDITOR w x hDestroyed
    have hsub : (w.DestroyActor m WITH_EDITOR x true).actors.Sublist w.actors := by
      rw [h2]; split
      · exact List.Sublist.refl _
      · exact List.erase_sublist _ _
    have hnd : (w.DestroyActor m WITH_EDITOR x true).actors.Nodup := hsub.nodup hnodup
    obtain ⟨i1, i2, i3, i4⟩ := ih (w.DestroyActor m WITH_EDITOR x true) hnd
    simp only [List.foldl_cons]
    refine ⟨by rw [i1, h1], i2.trans hsub, ?_, ?_⟩
    · intro b hb hbs
      apply i3 b
      · rw [h2]; split
        · exact hb
        · exact (List.mem_erase_of_ne
            (fun h => hbs (by rw [h]; exact List.mem_cons_self _ _))).mpr hb
      · exact fun h => hbs (List.mem_cons_of_mem _ h)
    · intro ha
      apply i4
      rcases ha with hnot | ⟨hmem, hpend⟩
      · exact Or.inl (fun h => hnot (hsub.subset h))
      · by_cases hax : a = x
        · subst hax
          left
          rw [h2, hpend]
          simp only [Bool.false_eq_true, if_false]
          exact hnodup.not_mem_erase
        · right
          refine ⟨?_, by rw [h3 a hax]; exact hpend⟩
          rcases List.mem_cons.mp hmem with h | h
          · exact absurd h hax
          · exact h

theorem tick_fold_pending (m : ActorMethods)
    (hTick : ∀ x s y, (m.Tick x s y).isPendingKill = (s y).isPendingKill)
    (hSync : ∀ x s y, (m.SyncPhysics x s y).isPendingKill = (s y).isPendingKill)
    (l : List ActorRef) (w : CWorld) (y : ActorRef) :
    ((l.foldl (fun w a => CWorld.tickActor m a w) w).objects y).isPendingKill
      = (w.objects y).isPendingKill := by
  induction l generalizing w with
  | nil => rfl
  | cons a rest ih =>
    rw [List.foldl_cons, ih]
    simp only [CWorld.tickActor]
    rw [hSync, hTick]

/-- What `CWorld::Tick` does to the lists when actors are scheduled for
destruction. -/
theorem Tick_destroys_scheduled (m : ActorMethods) (WITH_EDITOR : Bool) (w : CWorld)
    (a : ActorRef)
    (hTick : ∀ x s y, (m.Tick x s y).isPendingKill = (s y).isPendingKill)
    (hSync : ∀ x s y, (m.SyncPhysics x s y).isPendingKill = (s y).isPendingKill)
    (hDestroyed : ∀ x s y, y ≠ x →
      (m.Destroyed x s y).isPendingKill = (s y).isPendingKill)
    (hnodup : w.actors.Nodup) (hmem : a ∈ w.actorsToDestroy)
    (hpend : (w.objects a).isPendingKill = false) :
    a ∉ (w.Tick m WITH_EDITOR).actors ∧
    (w.Tick m WITH_EDITOR).actors.Sublist w.actors ∧
    (∀ b, b ∈ w.actors → b ∉ w.actorsToDestroy → b ∈ (w.Tick m WITH_EDITOR).actors) ∧
    (w.Tick m WITH_EDITOR).actorsToDestroy = [] := by
  have hfold1 := actors_loop_eq_foldl (CWorld.tickActor m) (fun _ _ => rfl) w
  have hact1 : (w.actors.foldl (fun w a => CWorld.tickActor m a w) w).actors = w.actors :=
    foldl_keeps (CWorld.tickActor m) CWorld.actors (fun _ _ => rfl) _ _
  have hdes1 : (w.actors.foldl (fun w a => CWorld.tickActor m a w) w).actorsToDestroy
      = w.actorsToDestroy :=
    foldl_keeps (CWorld.tickActor m) CWorld.actorsToDestroy (fun _ _ => rfl) _ _
  have hpend1 := tick_fold_pending m hTick hSync w.actors w a
  have hfold2 := forIndex_eq_foldl
    (fun index (w : CWorld) =>
      match w.actorsToDestroy.get? index with
      | none => w
      | some actor => w.DestroyActor m WITH_EDITOR actor true)
    CWorld.actorsToDestroy (fun x w => w.DestroyActor m WITH_EDITOR x true)
    (fun index s x hx => by simp only [hx])
    (fun x s => (DestroyActor_now m WITH_EDITOR s x hDestroyed).1)
    (w.actors.foldl (fun w a => CWorld.tickActor m a w) w).actorsToDestroy.length 0
    (w.actors.foldl (fun w a => CWorld.tickActor m a w) w) (by simp)
  rw [List.drop_zero] at hfold2
  obtain ⟨_, f2, f3, f4⟩ := destroy_fold m WITH_EDITOR hDestroyed a
    (w.actors.foldl (fun w a => CWorld.tickActor m a w) w).actorsToDestroy
    (w.actors.foldl (fun w a => CWorld.tickActor m a w) w) (by rw [hact1]; exact hnodup)
  have hne : (w.actors.foldl (fun w a => CWorld.tickActor m a w) w).actorsToDestroy.isEmpty
      = false := by
    rw [hdes1]
    cases hl : w.actorsToDestroy with
    | nil => rw [hl] at hmem; cases hmem
    | cons _ _ => rfl
  unfold CWorld.Tick
  simp only
  rw [hfold1]
  simp only [hne, Bool.false_eq_true, if_false]
  rw [hfold2]
  refine ⟨?_, ?_, ?_, ?_⟩
  · exact f4 (Or.inr ⟨by rw [hdes1]; exact hmem, by rw [hpend1]; exact hpend⟩)
  · rw [hact1] at f2; exact f2
  · intro b hb hbs
    exact f3 b (by rw [hact1]; exact hb) (by rw [hdes1]; exact hbs)
  · trivial

/-- C16 (deferred destruction): let the actors of the world be distinct
objects and let the actors' `Tick`, `SyncPhysics` and `Destroyed` not raise the
pending-kill flag of another actor.  For an actor `a` that is playing and not
pending kill, `DestroyActor(a, false)` leaves `actors` unchanged and appends
`a` to `actorsToDestroy`; after the following `CWorld::Tick`, `a` is no longer
in `actors`, the remaining actors are a sublist of the former list (same
relative order), every actor that was not scheduled is still there, and
`actorsToDestroy` is empty. -/
theorem deferred_destroy_removes_after_tick (m : ActorMethods) (WITH_EDITOR : Bool)
    (w : CWorld) (a : ActorRef)
    (hTick : ∀ x s y, (m.Tick x s y).isPendingKill = (s y).isPendingKill)
    (hSync : ∀ x s y, (m.SyncPhysics x s y).isPendingKill = (s y).isPendingKill)
    (hDestroyed : ∀ x s y, y ≠ x →
      (m.Destroyed x s y).isPendingKill = (s y).isPendingKill)
    (hnodup : w.actors.Nodup)
    (hplaying : (w.objects a).isPlaying = true)
    (hpend : (w.objects a).isPendingKill = false) :
    (w.DestroyActor m WITH_EDITOR a false).actors = w.actors ∧
    (w.DestroyActor m WITH_EDITOR a false).actorsToDestroy = w.actorsToDestroy ++ [a] ∧
    a ∉ ((w.DestroyActor m WITH_EDITOR a false).Tick m WITH_EDITOR).actors ∧
    ((w.DestroyActor m WITH_EDITOR a false).Tick m WITH_EDITOR).actors.Sublist w.actors ∧
    (∀ b, b ∈ w.actors → b ∉ w.actorsToDestroy → b ≠ a →
      b ∈ ((w.DestroyActor m WITH_EDITOR a false).Tick m WITH_EDITOR).actors) ∧
    ((w.DestroyActor m WITH_EDITOR a false).Tick m WITH_EDITOR).actorsToDestroy = [] := by
  have hdefer : w.DestroyActor m WITH_EDITOR a false
      = { w with actorsToDestroy := w.actorsToDestroy ++ [a] } := by
    unfold CWorld.DestroyActor
    simp [hpend, hplaying]
  rw [hdefer]
  obtain ⟨t1, t2, t3, t4⟩ := Tick_destroys_scheduled m WITH_EDITOR
    { w with actorsToDestroy := w.actorsToDestroy ++ [a] } a hTick hSync hDestroyed hnodup
    (by simp) hpend
  refine ⟨rfl, rfl, t1, t2, ?_, t4⟩
  intro b hb hbs hba
  apply t3 b hb
  simp only [List.mem_append, List.mem_singleton, not_or]
  exact ⟨hbs, hba⟩

theorem deferred_destroy_removes_after_tick_witness :
    sampleWorld.actors.Nodup ∧
    (sampleWorld.objects 2).isPlaying = true ∧ (sampleWorld.objects 2).isPendingKill = false ∧
    (sampleWorld.DestroyActor sampleMethods true 2 false).actors = sampleWorld.actors ∧
    (sampleWorld.DestroyActor sampleMethods true 2 false).actorsToDestroy
      = sampleWorld.actorsToDestroy ++ [2] ∧
    2 ∉ ((sampleWorld.DestroyActor sampleMethods true 2 false).Tick sampleMethods true).actors ∧
    ((sampleWorld.DestroyActor sampleMethods true 2 false).Tick sampleMethods true).actors.Sublist
      sampleWorld.actors ∧
    (∀ b, b ∈ sampleWorld.actors → b ∉ sampleWorld.actorsToDestroy → b ≠ 2 →
      b ∈ ((sampleWorld.DestroyActor sampleMethods true 2 false).Tick
        sampleMethods true).actors) ∧
    ((sampleWorld.DestroyActor sampleMethods true 2 false).Tick
      sampleMethods true).actorsToDestroy = [] :=
  ⟨by decide, rfl, rfl,
    deferred_destroy_removes_after_tick sampleMethods true sampleWorld 2
      (fun _ _ _ => rfl) (fun _ _ _ => rfl)
      (fun x s y hy => by simp [sampleMethods, Function.update, hy])
      (by decide) rfl rfl⟩

/-! ## The level viewport window -/

/-- C14: on a left-mouse-button release over a hovered level viewport with no
gizmo in use (and hit proxies compiled in), `ProcessEvent` calls, after the
widget and the viewport client have seen the event, `UpdateHitProxiesId`,
`DrawHitProxies`, `FlushRenderingCommands` and `GetHitProxyId` in exactly that
order, each once, and only then the selection calls: everything after
`GetHitProxyId` is `UnselectAllActors`, `UnselectActor`, `SelectActor` or a log
line, and nothing before it is. -/
theorem click_reads_hit_proxy_after_flush (input : ViewportInput)
    (InWindowEvent : SWindowEvent)
    (hproxy : input.ENABLE_HITPROXY = true) (hhover : input.isHovered = true)
    (hgizmo : input.bGuizmoUsing = false)
    (htype : InWindowEvent.type = EventType.T_MouseReleased)
    (hbutton : InWindowEvent.mouseButtonCode = ButtonCode.BC_MouseLeft) :
    ∃ selection,
      CLevelViewportWindow.ProcessEvent input InWindowEvent
        = [ViewportCall.viewportWidgetProcessEvent, ViewportCall.viewportClientProcessEvent,
           ViewportCall.UpdateHitProxiesId, ViewportCall.DrawHitProxies,
           ViewportCall.FlushRenderingCommands, ViewportCall.GetHitProxyId] ++ selection ∧
      ∀ c, c ∈ selection →
        c = ViewportCall.UnselectAllActors ∨ (∃ a, c = ViewportCall.UnselectActor a) ∨
        (∃ a, c = ViewportCall.SelectActor a) ∨ (∃ a, c = ViewportCall.LE_LOG a) := by
  refine ⟨(if !(input.isLControlDown || input.isRControlDown) then
        [ViewportCall.UnselectAllActors] else [])
      ++ (match input.hitProxyIndex with
          | none => []
          | some index =>
            if (input.isLControlDown || input.isRControlDown)
                && input.isSelected (if index > 0 then index - 1 else index) then
              [ViewportCall.UnselectActor (if index > 0 then index - 1 else index),
               ViewportCall.LE_LOG (if index > 0 then index - 1 else index)]
            else
              [ViewportCall.SelectActor (if index > 0 then index - 1 else index),
               ViewportCall.LE_LOG (if index > 0 then index - 1 else index)]), ?_, ?_⟩
  · simp [CLevelViewportWindow.ProcessEvent, CLevelViewportWindow.ProcessEvent.mouseReleased,
      hproxy, hhover, hgizmo, htype, hbutton]
  · intro c hc
    rcases List.mem_append.mp hc with h1 | h2
    · split at h1
      · simp only [List.mem_singleton] at h1
        exact Or.inl h1
      · cases h1
    · cases hidx : input.hitProxyIndex with
      | none => rw [hidx] at h2; cases h2
      | some index =>
        rw [hidx] at h2
        simp only at h2
        generalize (if index > 0 then index - 1 else index) = actor at h2
        by_cases hcond : ((input.isLControlDown || input.isRControlDown)
            && input.isSelected actor) = true
        · rw [if_pos hcond] at h2
          rcases List.mem_cons.mp h2 with rfl | h3
          · exact Or.inr (Or.inl ⟨_, rfl⟩)
          · rcases List.mem_cons.mp h3 with rfl | h4
            · exact Or.inr (Or.inr (Or.inr ⟨_, rfl⟩))
            · cases h4
        · rw [if_neg hcond] at h2
          rcases List.mem_cons.mp h2 with rfl | h3
          · exact Or.inr (Or.inr (Or.inl ⟨_, rfl⟩))
          · rcases List.mem_cons.mp h3 with rfl | h4
            · exact Or.inr (Or.inr (Or.inr ⟨_, rfl⟩))
            · cases h4

theorem click_reads_hit_proxy_after_flush_witness :
    ∃ selection,
      CLevelViewportWindow.ProcessEvent sampleClick
          { type := EventType.T_MouseReleased, mouseButtonCode := ButtonCode.BC_MouseLeft
            keyCode := ButtonCode.other 0 }
        = [ViewportCall.viewportWidgetProcessEvent, ViewportCall.viewportClientProcessEvent,
           ViewportCall.UpdateHitProxiesId, ViewportCall.DrawHitProxies,
           ViewportCall.FlushRenderingCommands, ViewportCall.GetHitProxyId] ++ selection ∧
      ∀ c, c ∈ selection →
        c = ViewportCall.UnselectAllActors ∨ (∃ a, c = ViewportCall.UnselectActor a) ∨
        (∃ a, c = ViewportCall.SelectActor a) ∨ (∃ a, c = ViewportCall.LE_LOG a) :=
  click_reads_hit_proxy_after_flush sampleClick
    { type := EventType.T_MouseReleased, mouseButtonCode := ButtonCode.BC_MouseLeft
      keyCode := ButtonCode.other 0 }
    rfl rfl rfl rfl rfl

/-! ## Tearing a slot down -/

/-- The release loop of `Clear` runs to its end when the lists are live and
distinct; it releases exactly the lists the entries point to. -/
theorem Clear_loop_total (arr : Addr) (ptrs : List (Option Addr)) (r index : Nat) (h : Heap)
    (harr : h.read arr = some (HeapObj.listArray ptrs))
    (hlive : ∀ i, index ≤ i → i < index + r →
      ∃ p l, ptrs.get? i = some (some p) ∧ h.read p = some (HeapObj.drawList l))
    (hdist : ∀ i j, index ≤ i → i < j → j < index + r → ptrs.get? i ≠ ptrs.get? j) :
    ∃ h1, CImGUIDrawData.Clear.loop arr r index h = some h1 ∧
      h1.read arr = some (HeapObj.listArray ptrs) ∧
      (∀ i p, index ≤ i → i < index + r → ptrs.get? i = some (some p) → h1.read p = none) ∧
      (∀ a, (∀ i, index ≤ i → i < index + r → ptrs.get? i ≠ some (some a)) →
        h1.read a = h.read a) := by
  induction r generalizing index h with
  | zero =>
    exact ⟨h, rfl, harr, fun i p h1 h2 => absurd h2 (by omega), fun _ _ => rfl⟩
  | succ r ih =>
    obtain ⟨p, l, hp, hl⟩ := hlive index (Nat.le_refl _) (by omega)
    have hparr : p ≠ arr := by
      intro heq; rw [heq, harr] at hl; cases hl
    have hlater : ∀ i, index + 1 ≤ i → i < index + 1 + r → ptrs.get? i ≠ some (some p) := by
      intro i hi1 hi2 heq
      exact hdist index i (Nat.le_refl _) (by omega) (by omega) (by rw [hp, heq])
    obtain ⟨h1, hloop, harr1, hfreed, hkept⟩ := ih (index + 1) (h.free p)
      (by rw [Heap.read_free, if_neg (Ne.symm hparr)]; exact harr)
      (by
        intro i hi1 hi2
        obtain ⟨q, lq, hq, hlq⟩ := hlive i (by omega) (by omega)
        refine ⟨q, lq, hq, ?_⟩
        have hqp : q ≠ p := fun heq => hlater i hi1 hi2 (by rw [hq, heq])
        rw [Heap.read_free, if_neg hqp]
        exact hlq)
      (fun i j hi hij hj => hdist i j (by omega) hij (by omega))
    refine ⟨h1, ?_, harr1, ?_, ?_⟩
    · simp only [CImGUIDrawData.Clear.loop, harr, hp, hl]
      exact hloop
    · intro i q hi1 hi2 hq
      by_cases hi : i = index
      · subst hi
        rw [hp] at hq
        cases hq
        rw [hkept p hlater, Heap.read_free, if_pos rfl]
      · exact hfreed i q (by omega) (by omega) hq
    · intro a ha
      have hap : a ≠ p := fun heq => ha index (Nat.le_refl _) (by omega) (by rw [hp, heq])
      rw [hkept a (fun i hi1 hi2 => ha i (by omega) (by omega)), Heap.read_free, if_neg hap]

/-- C15. `CImGUIDrawData::Clear`, and with it the destructor, aborts on a Busy
slot (`check( isFree )`).  On a Free slot with no array it only empties the
draw data.  On a Free slot whose array and `CmdListsCount` lists are live and
distinct objects it releases the array and every one of the lists, touches
nothing else on the heap, and leaves the slot Free with the empty draw data
(`CmdLists` null). -/
theorem clear_aborts_busy_releases_free (h : Heap) (d : CImGUIDrawData) :
    (d.isFree = false → d.Clear h = none ∧ d.Destructor h = none) ∧
    (d.isFree = true → d.drawData.CmdLists = none →
      d.Clear h = some (h, { isFree := true, drawData := ImDrawData.Clear }) ∧
      d.Destructor h = some h) ∧
    (d.isFree = true → ∀ (arr : Addr) (ptrs : List (Option Addr)) (ls : List ImDrawList),
      d.drawData.CmdLists = some arr → h.read arr = some (HeapObj.listArray ptrs) →
      d.readPayload h = some ls →
      (ptrs.take (toUInt32 d.drawData.CmdListsCount)).Nodup →
      ∃ h1, d.Clear h = some (h1, { isFree := true, drawData := ImDrawData.Clear }) ∧
        d.Destructor h = some h1 ∧
        (∀ a, a ∈ d.drawData.addrs h → h1.read a = none) ∧
        (∀ a, a ∉ d.drawData.addrs h → h1.read a = h.read a)) := by
  refine ⟨?_, ?_, ?_⟩
  · intro hbusy
    have hc : d.Clear h = none := by
      unfold CImGUIDrawData.Clear
      rw [hbusy]
      rfl
    exact ⟨hc, by unfold CImGUIDrawData.Destructor; rw [hc]⟩
  · intro hfree hnull
    have hc : d.Clear h = some (h, { isFree := true, drawData := ImDrawData.Clear }) := by
      unfold CImGUIDrawData.Clear
      rw [hfree, hnull]
      rfl
    exact ⟨hc, by unfold CImGUIDrawData.Destructor; rw [hc]⟩
  · intro hfree arr ptrs ls harr hptrs hpay hdist
    obtain ⟨_, hall⟩ := (readLoop_eq_some_iff h d.drawData.CmdLists
      (toUInt32 d.drawData.CmdListsCount) 0 ls).mp hpay
    have hlive : ∀ i, 0 ≤ i → i < 0 + toUInt32 d.drawData.CmdListsCount →
        ∃ p l, ptrs.get? i = some (some p) ∧ h.read p = some (HeapObj.drawList l) := by
      intro i _ hi
      obtain ⟨a, ptrs1, p, l, h1, h2, h3, h4, _⟩ := hall i (by omega)
      rw [harr] at h1
      cases h1
      rw [hptrs] at h2
      cases h2
      rw [Nat.zero_add] at h3
      exact ⟨p, l, h3, h4⟩
    have hneq : ∀ i j, 0 ≤ i → i < j → j < 0 + toUInt32 d.drawData.CmdListsCount →
        ptrs.get? i ≠ ptrs.get? j := by
      intro i j _ hij hj
      obtain ⟨pj, _, hpj, _⟩ := hlive j (Nat.zero_le _) hj
      have hjlen : j < ptrs.length := by
        rcases Nat.lt_or_ge j ptrs.length with hlt | hge
        · exact hlt
        · rw [List.get?_eq_none.mpr hge] at hpj
          cases hpj
      have hnd := List.nodup_iff_getElem?_ne_getElem?.mp hdist i j hij
        (by rw [List.length_take]; omega)
      rw [List.getElem?_take, List.getElem?_take, if_pos (by omega), if_pos (by omega)] at hnd
      simpa [List.get?_eq_getElem?] using hnd
    obtain ⟨h1, hloop, harr1, hfreed, hkept⟩ :=
      Clear_loop_total arr ptrs (toUInt32 d.drawData.CmdListsCount) 0 h hptrs hlive hneq
    have hc : d.Clear h = some (h1.free arr, { isFree := true, drawData := ImDrawData.Clear }) := by
      unfold CImGUIDrawData.Clear
      rw [hfree, harr]
      simp only [if_true, hloop, harr1]
    have haddrs : d.drawData.addrs h =
        arr :: (ptrs.take (toUInt32 d.drawData.CmdListsCount)).filterMap id := by
      unfold ImDrawData.addrs
      rw [harr]
      simp only [hptrs]
    refine ⟨h1.free arr, hc, by unfold CImGUIDrawData.Destructor; rw [hc], ?_, ?_⟩
    · intro a ha
      rw [haddrs] at ha
      rw [Heap.read_free]
      split
      · rfl
      · rcases List.mem_cons.mp ha with heq | hmem
        · rename_i hne; exact absurd heq hne
        · obtain ⟨o, ho, hoa⟩ := List.mem_filterMap.mp hmem
          simp only [id] at hoa
          subst hoa
          obtain ⟨i, hi, hget⟩ := List.mem_iff_getElem.mp ho
          rw [List.length_take] at hi
          rw [List.getElem_take] at hget
          exact hfreed i a (Nat.zero_le _) (by omega)
            (by rw [List.get?_eq_getElem?, List.getElem?_eq_getElem (by omega), hget])
    · intro a ha
      rw [haddrs] at ha
      have hne : a ≠ arr := fun heq => ha (by rw [heq]; exact List.mem_cons_self _ _)
      rw [Heap.read_free, if_neg hne]
      apply hkept
      intro i _ hi hget
      apply ha
      apply List.mem_cons_of_mem
      apply List.mem_filterMap.mpr
      refine ⟨some a, ?_, rfl⟩
      rw [List.get?_eq_getElem?] at hget
      rw [List.mem_take_iff_getElem]
      obtain ⟨hlen, hg⟩ := List.getElem?_eq_some_iff.mp hget
      exact ⟨i, by omega, hg⟩

/-- C15 at a concrete slot: tearing down `filledSlot` releases both of its
objects, and the Busy version of the same slot aborts. -/
theorem clear_aborts_busy_releases_free_witness :
    ({ filledSlot with isFree := false } : CImGUIDrawData).Clear filledHeap = none ∧
    ∃ h1, filledSlot.Clear filledHeap = some (h1, { isFree := true, drawData := ImDrawData.Clear }) ∧
      filledSlot.Destructor filledHeap = some h1 ∧
      (∀ a, a ∈ filledSlot.drawData.addrs filledHeap → h1.read a = none) ∧
      (∀ a, a ∉ filledSlot.drawData.addrs filledHeap → h1.read a = filledHeap.read a) :=
  ⟨((clear_aborts_busy_releases_free filledHeap { filledSlot with isFree := false }).1 rfl).1,
   (clear_aborts_busy_releases_free filledHeap filledSlot).2.2 rfl 20 [some 21]
     [sourceList.CloneOutput] rfl rfl rfl (by decide)⟩

/-! ## File names -/

/-- No position is found when no character of the string is looked for. -/
theorem find_last_of_none (s chars : WString) (hs : ∀ c, c ∈ s → c ∉ chars) :
    WString.find_last_of s chars = none := by
  induction s with
  | nil => rfl
  | cons c s ih =>
    simp only [WString.find_last_of]
    rw [ih (fun x hx => hs x (List.mem_cons_of_mem _ hx))]
    simp only
    rw [if_neg (hs c (List.mem_cons_self _ _))]

/-- The position found is the one of the last character looked for. -/
theorem find_last_of_append (s r chars : WString) (c : Char) (hc : c ∈ chars)
    (hr : ∀ x, x ∈ r → x ∉ chars) :
    WString.find_last_of (s ++ c :: r) chars = some s.length := by
  induction s with
  | nil =>
    simp only [List.nil_append, WString.find_last_of, find_last_of_none r chars hr]
    rw [if_pos hc]
    rfl
  | cons d s ih =>
    show (match WString.find_last_of (s ++ c :: r) chars with
      | some i => some (i + 1)
      | none => if d ∈ chars then some 0 else none) = some (s.length + 1)
    rw [ih]

/-- Erasing from a position to the end keeps what stands before it. -/
theorem erase_to_end (x y : WString) (n : Nat) (hn : y.length ≤ n) :
    WString.erase (x ++ y) x.length n = x := by
  unfold WString.erase
  rw [List.take_left, List.drop_eq_nil_of_le (by rw [List.length_append]; omega),
    List.append_nil]

/-- Erasing a leading part keeps what stands after it. -/
theorem erase_front (x y : WString) : WString.erase (x ++ y) 0 x.length = y := by
  unfold WString.erase
  rw [List.take_zero, Nat.zero_add, List.drop_left, List.nil_append]

/-- `GetPath` of `D + sep + B + "." + E` is `D + sep`: the separator stays. -/
theorem GetPath_of_form (sep : Char) (D B E : WString) (hdot : sep ≠ '.')
    (hB : sep ∉ B) (hE : sep ∉ E) :
    CFilename.GetPath [sep] { path := D ++ [sep] ++ B ++ ['.'] ++ E } = D ++ [sep] := by
  have hpath : D ++ [sep] ++ B ++ ['.'] ++ E = D ++ sep :: (B ++ '.' :: E) := by simp
  have hfind : WString.find_last_of (D ++ sep :: (B ++ '.' :: E)) [sep] = some D.length := by
    apply find_last_of_append _ _ _ _ (List.mem_singleton.mpr rfl)
    intro x hx hxs
    rw [List.mem_singleton] at hxs
    subst hxs
    rcases List.mem_append.mp hx with h1 | h1
    · exact hB h1
    · rcases List.mem_cons.mp h1 with h2 | h2
      · exact hdot h2
      · exact hE h2
  unfold CFilename.GetPath
  simp only [hpath, hfind]
  rw [if_pos (by rw [List.length_append, List.length_cons]; omega)]
  have h2 : D ++ sep :: (B ++ '.' :: E) = (D ++ [sep]) ++ (B ++ '.' :: E) := by simp
  have h3 : D.length + 1 = (D ++ [sep]).length := by simp
  rw [h3]
  conv_lhs => arg 1; rw [h2]
  apply erase_to_end
  simp only [List.length_append, List.length_cons, List.length_nil]
  omega

/-- `GetBaseFilename` of `D + sep + B + "." + E` is `B`. -/
theorem GetBaseFilename_of_form (sep : Char) (D B E : WString) (hdot : sep ≠ '.')
    (hB : sep ∉ B) (hE : sep ∉ E) (hEdot : '.' ∉ E) :
    CFilename.GetBaseFilename [sep] { path := D ++ [sep] ++ B ++ ['.'] ++ E } = B := by
  have hpath : D ++ [sep] ++ B ++ ['.'] ++ E = D ++ sep :: (B ++ '.' :: E) := by simp
  have hfind : WString.find_last_of (D ++ sep :: (B ++ '.' :: E)) [sep] = some D.length := by
    apply find_last_of_append _ _ _ _ (List.mem_singleton.mpr rfl)
    intro x hx hxs
    rw [List.mem_singleton] at hxs
    subst hxs
    rcases List.mem_append.mp hx with h1 | h1
    · exact hB h1
    · rcases List.mem_cons.mp h1 with h2 | h2
      · exact hdot h2
      · exact hE h2
  have h2 : D ++ sep :: (B ++ '.' :: E) = (D ++ [sep]) ++ (B ++ '.' :: E) := by simp
  have herase : WString.erase (D ++ sep :: (B ++ '.' :: E)) 0 (D.length + 1) = B ++ '.' :: E := by
    have h3 : D.length + 1 = (D ++ [sep]).length := by simp
    rw [h3, h2]
    exact erase_front _ _
  have hfind2 : WString.find_last_of (B ++ '.' :: E) ['.'] = some B.length := by
    apply find_last_of_append _ _ _ _ (List.mem_singleton.mpr rfl)
    intro x hx hxs
    rw [List.mem_singleton] at hxs
    subst hxs
    exact hEdot hx
  unfold CFilename.GetBaseFilename
  simp only [hpath, hfind, herase, hfind2]
  apply erase_to_end
  rw [List.length_append, List.length_cons]
  omega

/-- `GetExtension( true )` of a path ending in `"." + E` is `"." + E`, and
`GetExtension( false )` is `E`. -/
theorem GetExtension_of_form (X E : WString) (hEdot : '.' ∉ E) :
    CFilename.GetExtension { path := X ++ ['.'] ++ E } true = '.' :: E ∧
    CFilename.GetExtension { path := X ++ ['.'] ++ E } false = E := by
  have hpath : X ++ ['.'] ++ E = X ++ '.' :: E := by simp
  have hfind : WString.find_last_of (X ++ '.' :: E) ['.'] = some X.length := by
    apply find_last_of_append _ _ _ _ (List.mem_singleton.mpr rfl)
    intro x hx hxs
    rw [List.mem_singleton] at hxs
    subst hxs
    exact hEdot hx
  unfold CFilename.GetExtension
  simp only [hpath, hfind]
  constructor
  · exact erase_front X ('.' :: E)
  · have h2 : X ++ '.' :: E = (X ++ ['.']) ++ E := by simp
    have h3 : X.length + 1 = (X ++ ['.']).length := by simp
    rw [if_neg (by simp), h3, h2]
    exact erase_front _ _

/-- C17. For a path `D + sep + B + "." + E` (`B` and `E` free of the separator,
`E` free of dots) `GetLocalizedFilename( L )` returns
`D + sep + sep + B + "_" + L + "." + E`, with `INT` for an empty `L`: `GetPath`
keeps the separator and `GetLocalizedFilename` appends a second one, so the
result is never the name `D + sep + B + "_" + L + "." + E`. -/
theorem localized_filename_doubles_separator (sep : Char) (D B E L : WString)
    (hdot : sep ≠ '.') (hB : sep ∉ B) (hE : sep ∉ E) (hEdot : '.' ∉ E) :
    CFilename.GetLocalizedFilename [sep] { path := D ++ [sep] ++ B ++ ['.'] ++ E } L =
      D ++ [sep] ++ [sep] ++ B ++ ['_'] ++ (if L.isEmpty then ['I', 'N', 'T'] else L) ++
        ['.'] ++ E ∧
    CFilename.GetLocalizedFilename [sep] { path := D ++ [sep] ++ B ++ ['.'] ++ E } L ≠
      D ++ [sep] ++ B ++ ['_'] ++ (if L.isEmpty then ['I', 'N', 'T'] else L) ++ ['.'] ++ E := by
  have hval : CFilename.GetLocalizedFilename [sep] { path := D ++ [sep] ++ B ++ ['.'] ++ E } L =
      D ++ [sep] ++ [sep] ++ B ++ ['_'] ++ (if L.isEmpty then ['I', 'N', 'T'] else L) ++
        ['.'] ++ E := by
    have hext := (GetExtension_of_form (D ++ [sep] ++ B) E hEdot).1
    unfold CFilename.GetLocalizedFilename
    simp only [GetPath_of_form sep D B E hdot hB hE,
      GetBaseFilename_of_form sep D B E hdot hB hE hEdot, hext]
    simp
  refine ⟨hval, ?_⟩
  rw [hval]
  intro heq
  have hlen := congrArg List.length heq
  simp only [List.length_append, List.length_cons, List.length_nil] at hlen
  omega

/-- C17 at `a/b.txt` with the language `RUS`: the result is `a//b_RUS.txt`. -/
theorem localized_filename_doubles_separator_witness :
    CFilename.GetLocalizedFilename ['/'] { path := ['a'] ++ ['/'] ++ ['b'] ++ ['.'] ++ ['t', 'x', 't'] }
        ['R', 'U', 'S'] =
      ['a'] ++ ['/'] ++ ['/'] ++ ['b'] ++ ['_'] ++
        (if ['R', 'U', 'S'].isEmpty then ['I', 'N', 'T'] else ['R', 'U', 'S']) ++ ['.'] ++
        ['t', 'x', 't'] ∧
    CFilename.GetLocalizedFilename ['/'] { path := ['a'] ++ ['/'] ++ ['b'] ++ ['.'] ++ ['t', 'x', 't'] }
        ['R', 'U', 'S'] ≠
      ['a'] ++ ['/'] ++ ['b'] ++ ['_'] ++
        (if ['R', 'U', 'S'].isEmpty then ['I', 'N', 'T'] else ['R', 'U', 'S']) ++ ['.'] ++
        ['t', 'x', 't'] :=
  localized_filename_doubles_separator '/' ['a'] ['b'] ['t', 'x', 't'] ['R', 'U', 'S']
    (by decide) (by decide) (by decide) (by decide)

/-! ## Math -/

theorem roundHalfEven_int (n : ℤ) : roundHalfEven (n : ℚ) = n := by
  unfold roundHalfEven
  rw [Int.floor_intCast]
  simp

theorem roundHalfEven_ge (x : ℚ) (n : ℤ) (h : (n : ℚ) ≤ x) : n ≤ roundHalfEven x := by
  have hf : n ≤ ⌊x⌋ := Int.le_floor.mpr h
  unfold roundHalfEven
  split
  · exact hf
  · split
    · omega
    · split <;> omega

theorem roundHalfEven_lt (x : ℚ) (n : ℤ) (h : x < (n : ℚ) - 1 / 2) : roundHalfEven x < n := by
  have hf : ⌊x⌋ < n := by
    rw [Int.floor_lt]
    linarith
  have hfl : (⌊x⌋ : ℚ) ≤ x := Int.floor_le x
  have hup : ¬ x - ⌊x⌋ < 1 / 2 → ⌊x⌋ + 1 < n := by
    intro hge
    have : ((⌊x⌋ + 1 : ℤ) : ℚ) < (n : ℚ) := by
      push_cast
      linarith
    exact_mod_cast this
  unfold roundHalfEven
  split
  · exact hf
  · rename_i hge
    split
    · exact hup hge
    · split
      · exact hf
      · exact hup hge

theorem roundHalfEven_near (x : ℚ) (n : ℤ) (h : |x - n| < 1 / 2) : roundHalfEven x = n := by
  rw [abs_lt] at h
  have h1 : n ≤ roundHalfEven x + 0 ∨ True := Or.inr trivial
  have hlt : roundHalfEven x < n + 1 := by
    apply roundHalfEven_lt
    push_cast
    linarith
  by_cases hx : (n : ℚ) ≤ x
  · have := roundHalfEven_ge x n hx
    omega
  · -- x < n: floor is n - 1 and the fraction exceeds 1/2
    have hfloor : ⌊x⌋ = n - 1 := by
      rw [Int.floor_eq_iff]
      push_cast
      constructor <;> linarith
    unfold roundHalfEven
    rw [hfloor]
    push_cast
    rw [if_neg (by linarith), if_pos (by linarith)]
    omega


/-- The unit in the last place is a power of two. -/
theorem ulp32_pos (x : ℚ) : 0 < ulp32 x := by
  unfold ulp32
  positivity

/-- A value that is a whole number of units in the last place, below the
overflow threshold, is a `float`: rounding returns it. -/
theorem fl32_of_whole (x : ℚ) (n : ℤ) (hn : x / ulp32 x = n) (hfin : |x| < 2 ^ 128) :
    fl32 x = some x := by
  have hr : ((roundHalfEven (x / ulp32 x) : ℤ) : ℚ) * ulp32 x = x := by
    rw [hn, roundHalfEven_int, ← hn]
    field_simp [(ulp32_pos x).ne']
  unfold fl32
  simp only [hr, hfin, if_true]

theorem fl32_zero : fl32 0 = some 0 :=
  fl32_of_whole 0 0 (by simp) (by norm_num)

/-- The exponent of a nonzero value below `2 ^ E`. -/
theorem log_lt_of_lt (x : ℚ) (E : ℤ) (hx : x ≠ 0) (h : |x| < 2 ^ E) : Int.log 2 |x| < E := by
  have hpos : 0 < |x| := abs_pos.mpr hx
  exact (Int.lt_zpow_iff_log_lt (by norm_num) hpos).mp (by exact_mod_cast h)

/-- Values `m * 2 ^ t` with `|m| < 2 ^ 24` and `-149 ≤ t ≤ 104` are `float`s. -/
theorem fl32_exact (m t : ℤ) (hm : |m| < 16777216) (ht1 : -149 ≤ t) (ht2 : t ≤ 104) :
    fl32 ((m : ℚ) * 2 ^ t) = some ((m : ℚ) * 2 ^ t) := by
  by_cases hm0 : m = 0
  · subst hm0
    simp only [Int.cast_zero, zero_mul]
    exact fl32_zero
  have h2 : (0 : ℚ) < 2 ^ t := by positivity
  have hx0 : (m : ℚ) * 2 ^ t ≠ 0 := mul_ne_zero (by exact_mod_cast hm0) h2.ne'
  have hmq : |(m : ℚ)| < 16777216 := by exact_mod_cast hm
  have habs : |(m : ℚ) * 2 ^ t| < 2 ^ (24 + t) := by
    rw [abs_mul, abs_of_pos h2, zpow_add₀ (by norm_num : (2 : ℚ) ≠ 0)]
    have : ((2 : ℚ) ^ (24 : ℤ)) = 16777216 := by norm_num
    rw [this]
    exact mul_lt_mul_of_pos_right hmq h2
  have hlog := log_lt_of_lt _ (24 + t) hx0 habs
  -- the exponent of the unit in the last place is at most `t`
  obtain ⟨j, hj⟩ : ∃ j : ℕ, t = (max (Int.log 2 |(m : ℚ) * 2 ^ t|) (-126) - 23) + j := by
    refine ⟨(t - (max (Int.log 2 |(m : ℚ) * 2 ^ t|) (-126) - 23)).toNat, ?_⟩
    rw [Int.toNat_of_nonneg]
    · ring
    · have : max (Int.log 2 |(m : ℚ) * 2 ^ t|) (-126) ≤ t + 23 := max_le (by omega) (by omega)
      omega
  apply fl32_of_whole _ (m * 2 ^ j)
  · unfold ulp32
    have hne : (2 : ℚ) ^ (max (Int.log 2 |(m : ℚ) * 2 ^ t|) (-126) - 23) ≠ 0 := by positivity
    rw [div_eq_iff hne]
    push_cast
    rw [mul_assoc, ← zpow_natCast, ← zpow_add₀ (by norm_num : (2 : ℚ) ≠ 0), add_comm, ← hj]
  · calc |(m : ℚ) * 2 ^ t| < 2 ^ (24 + t) := habs
      _ ≤ 2 ^ (128 : ℤ) := zpow_le_zpow_right₀ (by norm_num) (by omega)
      _ = 2 ^ 128 := by norm_num


/-- Rounding a value of magnitude below `2 ^ 24` does not reach the next whole
number when the value stays more than half a unit in the last place below
it: the rounded value has the same floor. -/
theorem fl32_floor (x : ℚ) (hx : |x| < 16777216)
    (hgap : (2 : ℚ) ^ (max (Int.log 2 |x|) (-126) - 24) < ⌊x⌋ + 1 - x) :
    ∃ q, fl32 x = some q ∧ ⌊q⌋ = ⌊x⌋ := by
  have hlog : Int.log 2 |x| ≤ 23 := by
    by_cases hx0 : x = 0
    · subst hx0
      simp
    · have := log_lt_of_lt x 24 hx0 (by
        have : ((2 : ℚ) ^ (24 : ℤ)) = 16777216 := by norm_num
        rw [this]; exact hx)
      omega
  obtain ⟨j, hj⟩ : ∃ j : ℕ, max (Int.log 2 |x|) (-126) = 23 - j := by
    refine ⟨(23 - max (Int.log 2 |x|) (-126)).toNat, ?_⟩
    rw [Int.toNat_of_nonneg]
    · ring
    · have : max (Int.log 2 |x|) (-126) ≤ 23 := max_le hlog (by omega)
      omega
  have hpow : (0 : ℚ) < 2 ^ j := by positivity
  have hulp : ulp32 x = 1 / 2 ^ j := by
    unfold ulp32
    rw [hj, show (23 : ℤ) - j - 23 = -(j : ℤ) by ring, zpow_neg, zpow_natCast, one_div]
  have hy : x / ulp32 x = x * 2 ^ j := by
    rw [hulp]
    field_simp
  have hhalf : (2 : ℚ) ^ (max (Int.log 2 |x|) (-126) - 24) * 2 ^ j = 1 / 2 := by
    rw [hj, ← zpow_natCast, ← zpow_add₀ (by norm_num : (2 : ℚ) ≠ 0),
      show (23 : ℤ) - j - 24 + j = -1 by ring]
    norm_num
  have hfl : (⌊x⌋ : ℚ) ≤ x := Int.floor_le x
  have hlo : ⌊x⌋ * 2 ^ j ≤ roundHalfEven (x / ulp32 x) := by
    apply roundHalfEven_ge
    rw [hy]
    push_cast
    exact mul_le_mul_of_nonneg_right hfl hpow.le
  have hhi : roundHalfEven (x / ulp32 x) < (⌊x⌋ + 1) * 2 ^ j := by
    apply roundHalfEven_lt
    rw [hy]
    push_cast
    have := mul_lt_mul_of_pos_right hgap hpow
    rw [hhalf] at this
    linarith
  obtain ⟨R, hR⟩ : ∃ R : ℤ, roundHalfEven (x / ulp32 x) = R := ⟨_, rfl⟩
  rw [hR] at hlo hhi
  have hloq : (⌊x⌋ : ℚ) ≤ (R : ℚ) * ulp32 x := by
    rw [hulp, mul_one_div, le_div_iff₀ hpow]
    exact_mod_cast hlo
  have hhiq : (R : ℚ) * ulp32 x < (⌊x⌋ : ℚ) + 1 := by
    rw [hulp, mul_one_div, div_lt_iff₀ hpow]
    exact_mod_cast hhi
  have hfloorabs : |(⌊x⌋ : ℚ)| ≤ 16777216 := by
    rw [abs_lt] at hx
    rw [abs_le]
    constructor
    · have : (-16777216 : ℤ) ≤ ⌊x⌋ := Int.le_floor.mpr (by push_cast; linarith)
      exact_mod_cast this
    · linarith
  refine ⟨(R : ℚ) * ulp32 x, ?_, ?_⟩
  · unfold fl32
    have hfin : |(R : ℚ) * ulp32 x| < 2 ^ 128 := by
      rw [abs_le] at hfloorabs
      rw [abs_lt]
      constructor
      · have : (-(2 : ℚ) ^ 128) < -16777216 := by norm_num
        linarith
      · have : (16777216 : ℚ) + 1 < 2 ^ 128 := by norm_num
        linarith
    simp only [hR, hfin, if_true]
  · rw [Int.floor_eq_iff]
    exact ⟨hloq, hhiq⟩


/-- The whole number nearest to `a / b` from the formula of `GridSnap` is within
half a grid step of `a`. -/
theorem snap_near (a b : ℤ) (hb : b ≠ 0) :
    |(⌊(a : ℚ) / b + 1 / 2⌋ : ℚ) * b - a| ≤ |(b : ℚ)| / 2 := by
  have hbq : (b : ℚ) ≠ 0 := by exact_mod_cast hb
  have hlo : ((⌊(a : ℚ) / b + 1 / 2⌋ : ℤ) : ℚ) ≤ (a : ℚ) / b + 1 / 2 := Int.floor_le _
  have hhi : (a : ℚ) / b + 1 / 2 < (⌊(a : ℚ) / b + 1 / 2⌋ : ℚ) + 1 := Int.lt_floor_add_one _
  have heq : (⌊(a : ℚ) / b + 1 / 2⌋ : ℚ) * b - a =
      b * ((⌊(a : ℚ) / b + 1 / 2⌋ : ℚ) - (a : ℚ) / b) := by
    field_simp
  rw [heq, abs_mul]
  have habs : |(⌊(a : ℚ) / b + 1 / 2⌋ : ℚ) - (a : ℚ) / b| ≤ 1 / 2 := by
    rw [abs_le]
    constructor <;> linarith
  calc |(b : ℚ)| * |(⌊(a : ℚ) / b + 1 / 2⌋ : ℚ) - (a : ℚ) / b|
      ≤ |(b : ℚ)| * (1 / 2) := mul_le_mul_of_nonneg_left habs (abs_nonneg _)
    _ = |(b : ℚ)| / 2 := by ring

/-- `GridSnap` on values that share a binary scale: for `value = a * 2 ^ t` and
`grid = b * 2 ^ t` with whole `a`, `b ≠ 0` and `2 |a| + |b| < 2 ^ 24`, no
operation of the formula rounds across a whole number, and the result is
`floor( a / b + 1/2 ) * grid`. -/
theorem GridSnap_dyadic (a b t : ℤ) (hb : b ≠ 0) (hdom : 2 * |a| + |b| < 16777216)
    (ht1 : -148 ≤ t) (ht2 : t ≤ 104) :
    Math.GridSnap ((a : ℚ) * 2 ^ t) ((b : ℚ) * 2 ^ t)
      = some ((⌊(a : ℚ) / b + 1 / 2⌋ : ℚ) * ((b : ℚ) * 2 ^ t)) := by
  have hbq : (b : ℚ) ≠ 0 := by exact_mod_cast hb
  have hu : (0 : ℚ) < 2 ^ t := by positivity
  have hg : (b : ℚ) * 2 ^ t ≠ 0 := mul_ne_zero hbq hu.ne'
  have hpow : (2 : ℚ) ^ (t - 1) = 2 ^ t / 2 := by
    rw [zpow_sub_one₀ (by norm_num : (2 : ℚ) ≠ 0)]
    rfl
  have habs_a : 0 ≤ |a| := abs_nonneg a
  have habs_b : 0 < |b| := abs_pos.mpr hb
  -- 0.5f * InGrid
  have hhalf : fl32 (0.5 * ((b : ℚ) * 2 ^ t)) = some ((b : ℚ) * 2 ^ (t - 1)) := by
    have h := fl32_exact b (t - 1) (by omega) (by omega) (by omega)
    have he : (0.5 : ℚ) * ((b : ℚ) * 2 ^ t) = (b : ℚ) * 2 ^ (t - 1) := by
      rw [hpow]; norm_num; ring
    rw [he]; exact h
  -- InValue + 0.5f * InGrid
  have hsum : fl32 ((a : ℚ) * 2 ^ t + (b : ℚ) * 2 ^ (t - 1))
      = some (((2 * a + b : ℤ) : ℚ) * 2 ^ (t - 1)) := by
    have h2ab : |2 * a + b| < 16777216 := by
      have := abs_add (2 * a) b
      rw [abs_mul] at this
      simp only [abs_two] at this
      omega
    have h := fl32_exact (2 * a + b) (t - 1) h2ab (by omega) (by omega)
    have he : (a : ℚ) * 2 ^ t + (b : ℚ) * 2 ^ (t - 1) = ((2 * a + b : ℤ) : ℚ) * 2 ^ (t - 1) := by
      rw [hpow]; push_cast; ring
    rw [he]; exact h
  -- ( ... ) / InGrid
  have hquot : ((2 * a + b : ℤ) : ℚ) * 2 ^ (t - 1) / ((b : ℚ) * 2 ^ t) = (a : ℚ) / b + 1 / 2 := by
    rw [hpow]; push_cast; field_simp; ring
  have hq : ∃ q, fl32 ((a : ℚ) / b + 1 / 2) = some q ∧ ⌊q⌋ = ⌊(a : ℚ) / b + 1 / 2⌋ := by
    have hx2 : ((a : ℚ) / b + 1 / 2) * (2 * b) = ((2 * a + b : ℤ) : ℚ) := by
      push_cast; field_simp; ring
    have h2abq : |((2 * a + b : ℤ) : ℚ)| < 16777216 := by
      have := abs_add (2 * a) b
      rw [abs_mul] at this
      simp only [abs_two] at this
      have h3 : |2 * a + b| < 16777216 := by omega
      exact_mod_cast h3
    have hbabs : (1 : ℚ) ≤ |(b : ℚ)| := by
      have : (1 : ℤ) ≤ |b| := habs_b
      exact_mod_cast this
    have hxabs : |(a : ℚ) / b + 1 / 2| * (2 * |(b : ℚ)|) = |((2 * a + b : ℤ) : ℚ)| := by
      rw [← hx2, abs_mul, abs_mul, abs_two]
    apply fl32_floor
    · have : |(a : ℚ) / b + 1 / 2| ≤ |(a : ℚ) / b + 1 / 2| * (2 * |(b : ℚ)|) := by
        have h0 := abs_nonneg ((a : ℚ) / b + 1 / 2)
        nlinarith
      linarith
    · by_cases hx0 : (a : ℚ) / b + 1 / 2 = 0
      · rw [hx0]
        norm_num
      -- the distance to the next whole number is at least 1 / (2 |b|)
      have hgappos : (0 : ℚ) < ⌊(a : ℚ) / b + 1 / 2⌋ + 1 - ((a : ℚ) / b + 1 / 2) := by
        have := Int.lt_floor_add_one ((a : ℚ) / b + 1 / 2)
        linarith
      have hgapint : (⌊(a : ℚ) / b + 1 / 2⌋ + 1 - ((a : ℚ) / b + 1 / 2)) * (2 * b)
          = (((⌊(a : ℚ) / b + 1 / 2⌋ + 1) * (2 * b) - (2 * a + b) : ℤ) : ℚ) := by
        have hx2c := hx2
        push_cast at hx2c ⊢
        linear_combination (-1 : ℚ) * hx2c
      have hgap1 : (1 : ℚ) ≤ (⌊(a : ℚ) / b + 1 / 2⌋ + 1 - ((a : ℚ) / b + 1 / 2)) * (2 * |(b : ℚ)|) := by
        have hne : ((⌊(a : ℚ) / b + 1 / 2⌋ + 1) * (2 * b) - (2 * a + b) : ℤ) ≠ 0 := by
          intro h0
          rw [h0] at hgapint
          simp only [Int.cast_zero, mul_eq_zero] at hgapint
          rcases hgapint with h | h
          · linarith
          · rcases h with h | h
            · norm_num at h
            · exact hbq h
        have h1 : (1 : ℤ) ≤ |(⌊(a : ℚ) / b + 1 / 2⌋ + 1) * (2 * b) - (2 * a + b)| :=
          Int.one_le_abs hne
        have h1q : (1 : ℚ) ≤ |(((⌊(a : ℚ) / b + 1 / 2⌋ + 1) * (2 * b) - (2 * a + b) : ℤ) : ℚ)| := by
          exact_mod_cast h1
        rw [← hgapint, abs_mul, abs_mul, abs_two, abs_of_pos hgappos] at h1q
        exact h1q
      -- half a unit in the last place is below 1 / (2 |b|)
      have hulp : (2 : ℚ) ^ (max (Int.log 2 |(a : ℚ) / b + 1 / 2|) (-126) - 24) * (2 * |(b : ℚ)|) < 1 := by
        have hbq24 : |(b : ℚ)| < 16777216 := by
          have : |b| < 16777216 := by omega
          exact_mod_cast this
        rcases max_cases (Int.log 2 |(a : ℚ) / b + 1 / 2|) (-126) with ⟨hmax, _⟩ | ⟨hmax, _⟩
        · rw [hmax]
          · have hle := Int.zpow_log_le_self (b := 2) (by norm_num) (abs_pos.mpr hx0)
            rw [zpow_sub₀ (by norm_num : (2 : ℚ) ≠ 0)]
            have h24 : ((2 : ℚ) ^ (24 : ℤ)) = 16777216 := by norm_num
            rw [h24, div_mul_eq_mul_div, div_lt_one (by norm_num)]
            have hle' : (2 : ℚ) ^ Int.log 2 |(a : ℚ) / b + 1 / 2| ≤ |(a : ℚ) / b + 1 / 2| := by
              exact_mod_cast hle
            calc (2 : ℚ) ^ Int.log 2 |(a : ℚ) / b + 1 / 2| * (2 * |(b : ℚ)|)
                ≤ |(a : ℚ) / b + 1 / 2| * (2 * |(b : ℚ)|) :=
                  mul_le_mul_of_nonneg_right hle' (by positivity)
              _ = |((2 * a + b : ℤ) : ℚ)| := hxabs
              _ < 16777216 := h2abq
        · rw [hmax]
          have : ((2 : ℚ) ^ ((-126 : ℤ) - 24)) ≤ 1 / 33554432 := by
            rw [show ((-126 : ℤ) - 24) = -150 by norm_num]
            rw [show (1 : ℚ) / 33554432 = 2 ^ (-25 : ℤ) by norm_num]
            exact zpow_le_zpow_right₀ (by norm_num) (by norm_num)
          have hb2 : (0 : ℚ) ≤ 2 * |(b : ℚ)| := by positivity
          calc (2 : ℚ) ^ ((-126 : ℤ) - 24) * (2 * |(b : ℚ)|)
              ≤ 1 / 33554432 * (2 * |(b : ℚ)|) := mul_le_mul_of_nonneg_right this hb2
            _ < 1 := by linarith
      have hpos2b : (0 : ℚ) < 2 * |(b : ℚ)| := by positivity
      by_contra hcon
      rw [not_lt] at hcon
      have := mul_le_mul_of_nonneg_right hcon hpos2b.le
      linarith
  obtain ⟨q, hq1, hq2⟩ := hq
  -- Floor( ... ) * InGrid
  have hprod : fl32 ((⌊(a : ℚ) / b + 1 / 2⌋ : ℚ) * ((b : ℚ) * 2 ^ t))
      = some ((⌊(a : ℚ) / b + 1 / 2⌋ : ℚ) * ((b : ℚ) * 2 ^ t)) := by
    have hnear := snap_near a b hb
    have hkb : |⌊(a : ℚ) / b + 1 / 2⌋ * b| < 16777216 := by
      have h1 : |((⌊(a : ℚ) / b + 1 / 2⌋ * b : ℤ) : ℚ)| ≤ |(a : ℚ)| + |(b : ℚ)| / 2 := by
        push_cast
        have := abs_sub_abs_le_abs_sub ((⌊(a : ℚ) / b + 1 / 2⌋ : ℚ) * b) (a : ℚ)
        linarith
      have h2 : (2 : ℚ) * |((⌊(a : ℚ) / b + 1 / 2⌋ * b : ℤ) : ℚ)| < 2 * 16777216 := by
        have h3 : (2 : ℚ) * |(a : ℚ)| + |(b : ℚ)| < 16777216 := by exact_mod_cast hdom
        have h4 : (0 : ℚ) ≤ |(a : ℚ)| := abs_nonneg _
        linarith
      have h5 : |((⌊(a : ℚ) / b + 1 / 2⌋ * b : ℤ) : ℚ)| < 16777216 := by linarith
      exact_mod_cast h5
    have h := fl32_exact (⌊(a : ℚ) / b + 1 / 2⌋ * b) t hkb (by omega) ht2
    have he : (⌊(a : ℚ) / b + 1 / 2⌋ : ℚ) * ((b : ℚ) * 2 ^ t)
        = ((⌊(a : ℚ) / b + 1 / 2⌋ * b : ℤ) : ℚ) * 2 ^ t := by
      push_cast; ring
    rw [he]; exact h
  unfold Math.GridSnap
  rw [if_neg hg, hhalf]
  simp only
  rw [hsum]
  simp only
  rw [hquot, hq1]
  simp only [Math.Floor, hq2]
  exact hprod


/-- Rounding a value of known exponent to the nearest `float`, away from a
tie. -/
theorem fl32_near (x : ℚ) (e n : ℤ) (h1 : (2 : ℚ) ^ e ≤ |x|) (h2 : |x| < 2 ^ (e + 1))
    (he : -126 ≤ e) (hn : |x / 2 ^ (e - 23) - n| < 1 / 2)
    (hfin : |(n : ℚ) * 2 ^ (e - 23)| < 2 ^ 128) :
    fl32 x = some ((n : ℚ) * 2 ^ (e - 23)) := by
  have hpos : 0 < |x| := lt_of_lt_of_le (by positivity) h1
  have hx0 : x ≠ 0 := abs_pos.mp hpos
  have hlog : Int.log 2 |x| = e := by
    have hlt := log_lt_of_lt x (e + 1) hx0 h2
    have hle : e ≤ Int.log 2 |x| :=
      (Int.zpow_le_iff_le_log (by norm_num) hpos).mp (by exact_mod_cast h1)
    omega
  have hulp : ulp32 x = 2 ^ (e - 23) := by
    unfold ulp32
    rw [hlog, max_eq_left he]
  unfold fl32
  simp only [hulp, roundHalfEven_near _ n hn, hfin, if_true]

/-- `GridSnap` with a non-zero grid, operation by operation. -/
theorem GridSnap_eval (v g half sum q r : ℚ) (hg : g ≠ 0) (h1 : fl32 (0.5 * g) = some half)
    (h2 : fl32 (v + half) = some sum) (h3 : fl32 (sum / g) = some q)
    (h4 : fl32 (Math.Floor q * g) = some r) : Math.GridSnap v g = some r := by
  unfold Math.GridSnap
  rw [if_neg hg, h1]
  simp only
  rw [h2]
  simp only
  rw [h3]
  simp only
  exact h4

/-- C18, counterexamples.  `GridSnap( 16777216, 3 )` returns `16777218`, which
is `2 > 3/2` away from the value: the sum `16777217.5` is rounded to a `float`.
`GridSnap( 0.25f, 0.1f )` returns `0.3f`, which is no whole multiple of `0.1f`
and is more than half a grid step away from `0.25`: the sum and the product
are rounded. -/
theorem grid_snap_float_counterexample :
    (Math.GridSnap 16777216 3 = some 16777218 ∧
      ¬ |(16777218 : ℚ) - 16777216| ≤ |(3 : ℚ)| / 2) ∧
    (Math.GridSnap (1 / 4) (13421773 / 134217728) = some (5033165 / 16777216) ∧
      (¬ ∃ k : ℤ, (5033165 / 16777216 : ℚ) = k * (13421773 / 134217728)) ∧
      ¬ |(5033165 / 16777216 : ℚ) - 1 / 4| ≤ |(13421773 / 134217728 : ℚ)| / 2) := by
  refine ⟨⟨?_, by norm_num [abs_of_pos]⟩, ?_, ?_, ?_⟩
  · apply GridSnap_eval 16777216 3 (3 / 2) 16777218 5592406 16777218 (by norm_num)
    · have h := fl32_exact 3 (-1) (by norm_num) (by norm_num) (by norm_num)
      norm_num at h ⊢
      exact h
    · have h := fl32_near (16777216 + 3 / 2) 24 8388609 (by norm_num [abs_of_pos])
        (by norm_num [abs_of_pos]) (by norm_num) (by norm_num [abs_lt])
        (by norm_num [abs_of_pos])
      norm_num at h ⊢
      exact h
    · have h := fl32_exact 5592406 0 (by norm_num) (by norm_num) (by norm_num)
      norm_num at h ⊢
      exact h
    · have h := fl32_exact 8388609 1 (by norm_num) (by norm_num) (by norm_num)
      norm_num [Math.Floor] at h ⊢
      exact h
  · apply GridSnap_eval (1 / 4) (13421773 / 134217728) (13421773 / 268435456)
      (5033165 / 16777216) 3 (5033165 / 16777216) (by norm_num)
    · have h := fl32_exact 13421773 (-28) (by norm_num) (by norm_num) (by norm_num)
      norm_num at h ⊢
      exact h
    · have h := fl32_near (1 / 4 + 13421773 / 268435456) (-2) 10066330
        (by norm_num [abs_of_pos]) (by norm_num [abs_of_pos]) (by norm_num)
        (by norm_num [abs_lt]) (by norm_num [abs_of_pos])
      norm_num at h ⊢
      exact h
    · have h := fl32_near (5033165 / 16777216 / (13421773 / 134217728)) 1 12582912
        (by norm_num [abs_of_pos]) (by norm_num [abs_of_pos]) (by norm_num)
        (by norm_num [abs_lt]) (by norm_num [abs_of_pos])
      norm_num at h ⊢
      exact h
    · have h := fl32_near (3 * (13421773 / 134217728)) (-2) 10066330
        (by norm_num [abs_of_pos]) (by norm_num [abs_of_pos]) (by norm_num)
        (by norm_num [abs_lt]) (by norm_num [abs_of_pos])
      norm_num [Math.Floor] at h ⊢
      exact h
  · rintro ⟨k, hk⟩
    have h1 : (13421773 * k : ℚ) = 40265320 := by
      field_simp at hk
      linarith
    have h2 : 13421773 * k = 40265320 := by exact_mod_cast h1
    omega
  · norm_num [abs_of_pos]


/-- C18, as the code computes it.  `GridSnap( value, 0 )` returns `value`.  For
a value and a non-zero grid that are whole multiples `a * 2 ^ t` and
`b * 2 ^ t` of one power of two, with `|a| + |b| < 2 ^ 23`, no operation of
the formula rounds across a whole number: the result is `k * grid` for the
whole number `k = floor( a / b + 1/2 )`, it lies within `|grid| / 2` of
`value`, and snapping it again returns it. -/
theorem grid_snap_nearest_multiple (value : ℚ) (a b t : ℤ) :
    Math.GridSnap value 0 = some value ∧
    (b ≠ 0 → |a| + |b| < 8388608 → -148 ≤ t → t ≤ 104 →
      ∃ k : ℤ, k = ⌊(a : ℚ) / b + 1 / 2⌋ ∧
        Math.GridSnap ((a : ℚ) * 2 ^ t) ((b : ℚ) * 2 ^ t) = some ((k : ℚ) * ((b : ℚ) * 2 ^ t)) ∧
        |(k : ℚ) * ((b : ℚ) * 2 ^ t) - (a : ℚ) * 2 ^ t| ≤ |(b : ℚ) * 2 ^ t| / 2 ∧
        Math.GridSnap ((k : ℚ) * ((b : ℚ) * 2 ^ t)) ((b : ℚ) * 2 ^ t)
          = some ((k : ℚ) * ((b : ℚ) * 2 ^ t))) := by
  constructor
  · unfold Math.GridSnap
    rw [if_pos rfl]
  · intro hb hsmall ht1 ht2
    have hbq : (b : ℚ) ≠ 0 := by exact_mod_cast hb
    have hu : (0 : ℚ) < 2 ^ t := by positivity
    have habs_a : 0 ≤ |a| := abs_nonneg a
    have habs_b : 0 ≤ |b| := abs_nonneg b
    have hnear := snap_near a b hb
    refine ⟨⌊(a : ℚ) / b + 1 / 2⌋, rfl,
      GridSnap_dyadic a b t hb (by omega) ht1 ht2, ?_, ?_⟩
    · have heq : (⌊(a : ℚ) / b + 1 / 2⌋ : ℚ) * ((b : ℚ) * 2 ^ t) - (a : ℚ) * 2 ^ t
          = ((⌊(a : ℚ) / b + 1 / 2⌋ : ℚ) * b - a) * 2 ^ t := by ring
      rw [heq, abs_mul, abs_mul, abs_of_pos hu]
      calc |(⌊(a : ℚ) / b + 1 / 2⌋ : ℚ) * b - a| * 2 ^ t
          ≤ |(b : ℚ)| / 2 * 2 ^ t := mul_le_mul_of_nonneg_right hnear hu.le
        _ = |(b : ℚ)| * 2 ^ t / 2 := by ring
    · have hkb : 2 * |⌊(a : ℚ) / b + 1 / 2⌋ * b| + |b| < 16777216 := by
        have h1 : |((⌊(a : ℚ) / b + 1 / 2⌋ * b : ℤ) : ℚ)| ≤ |(a : ℚ)| + |(b : ℚ)| / 2 := by
          push_cast
          have := abs_sub_abs_le_abs_sub ((⌊(a : ℚ) / b + 1 / 2⌋ : ℚ) * b) (a : ℚ)
          linarith
        have h3 : |(a : ℚ)| + |(b : ℚ)| < 8388608 := by exact_mod_cast hsmall
        have h4 : (2 : ℚ) * |((⌊(a : ℚ) / b + 1 / 2⌋ * b : ℤ) : ℚ)| + |(b : ℚ)| < 16777216 := by
          linarith
        exact_mod_cast h4
      have h := GridSnap_dyadic (⌊(a : ℚ) / b + 1 / 2⌋ * b) b t hb hkb ht1 ht2
      have hfloor : ⌊(((⌊(a : ℚ) / b + 1 / 2⌋ * b : ℤ) : ℚ)) / b + 1 / 2⌋
          = ⌊(a : ℚ) / b + 1 / 2⌋ := by
        push_cast
        rw [mul_div_assoc, div_self hbq, mul_one, Int.floor_eq_iff]
        constructor <;> linarith
      rw [hfloor] at h
      have hcast : ((⌊(a : ℚ) / b + 1 / 2⌋ * b : ℤ) : ℚ) * 2 ^ t
          = (⌊(a : ℚ) / b + 1 / 2⌋ : ℚ) * ((b : ℚ) * 2 ^ t) := by
        push_cast; ring
      rw [hcast] at h
      exact h

/-- C18 at `value = 1.25`, `grid = 0.5`, that is `a = 5`, `b = 2`, `t = -2`. -/
theorem grid_snap_nearest_multiple_witness :
    Math.GridSnap (5 / 4) (1 / 2) = some (3 / 2) ∧
    ∃ k : ℤ, k = ⌊((5 : ℤ) : ℚ) / ((2 : ℤ) : ℚ) + 1 / 2⌋ ∧
      Math.GridSnap (((5 : ℤ) : ℚ) * 2 ^ (-2 : ℤ)) (((2 : ℤ) : ℚ) * 2 ^ (-2 : ℤ))
        = some ((k : ℚ) * (((2 : ℤ) : ℚ) * 2 ^ (-2 : ℤ))) ∧
      |(k : ℚ) * (((2 : ℤ) : ℚ) * 2 ^ (-2 : ℤ)) - ((5 : ℤ) : ℚ) * 2 ^ (-2 : ℤ)|
        ≤ |((2 : ℤ) : ℚ) * 2 ^ (-2 : ℤ)| / 2 ∧
      Math.GridSnap ((k : ℚ) * (((2 : ℤ) : ℚ) * 2 ^ (-2 : ℤ))) (((2 : ℤ) : ℚ) * 2 ^ (-2 : ℤ))
        = some ((k : ℚ) * (((2 : ℤ) : ℚ) * 2 ^ (-2 : ℤ))) :=
  have h := (grid_snap_nearest_multiple 0 5 2 (-2)).2 (by decide) (by decide) (by decide)
    (by decide)
  ⟨by
    obtain ⟨k, hk, hsnap, _⟩ := h
    have hk3 : k = 3 := by
      rw [hk, Int.floor_eq_iff]
      norm_num
    rw [hk3] at hsnap
    norm_num at hsnap ⊢
    exact hsnap, h⟩

/-- C19. `QuaternionToAngles` returns every angle through `RadiansToDegrees`:
in the north-pole case the returned pitch is `degrees( 0 )` and the returned
roll is `degrees( PI / 2 )`, in the regular case the returned roll is
`degrees( asin( 2 * ( x*y + z*w ) / |q|^2 ) )`.  So wherever `degrees` changes
its argument the returned roll is not the angle in radians. -/
theorem quaternion_angles_returned_in_degrees (lib : CMath) (q : Quaternion) :
    (q.x * q.y + q.z * q.w > 0.4999995 * (q.x ^ 2 + q.y ^ 2 + q.z ^ 2 + q.w ^ 2) →
      (Math.QuaternionToAngles lib q).x = lib.degrees 0 ∧
      (Math.QuaternionToAngles lib q).z = lib.degrees (PI / 2) ∧
      (lib.degrees (PI / 2) ≠ PI / 2 → (Math.QuaternionToAngles lib q).z ≠ PI / 2)) ∧
    (¬ q.x * q.y + q.z * q.w > 0.4999995 * (q.x ^ 2 + q.y ^ 2 + q.z ^ 2 + q.w ^ 2) →
      ¬ q.x * q.y + q.z * q.w < -0.4999995 * (q.x ^ 2 + q.y ^ 2 + q.z ^ 2 + q.w ^ 2) →
      (Math.QuaternionToAngles lib q).z =
        lib.degrees (lib.asinf (2 * (q.x * q.y + q.z * q.w) /
          (q.x ^ 2 + q.y ^ 2 + q.z ^ 2 + q.w ^ 2))) ∧
      (lib.degrees (lib.asinf (2 * (q.x * q.y + q.z * q.w) /
          (q.x ^ 2 + q.y ^ 2 + q.z ^ 2 + q.w ^ 2))) ≠
        lib.asinf (2 * (q.x * q.y + q.z * q.w) / (q.x ^ 2 + q.y ^ 2 + q.z ^ 2 + q.w ^ 2)) →
        (Math.QuaternionToAngles lib q).z ≠
          lib.asinf (2 * (q.x * q.y + q.z * q.w) /
            (q.x ^ 2 + q.y ^ 2 + q.z ^ 2 + q.w ^ 2)))) := by
  constructor
  · intro hnorth
    have hx : (Math.QuaternionToAngles lib q).x = lib.degrees 0 := by
      simp only [Math.QuaternionToAngles, Math.RadiansToDegrees]
      rw [if_pos hnorth]
    have hz : (Math.QuaternionToAngles lib q).z = lib.degrees (PI / 2) := by
      simp only [Math.QuaternionToAngles, Math.RadiansToDegrees]
      rw [if_pos hnorth]
    exact ⟨hx, hz, fun hne => by rw [hz]; exact hne⟩
  · intro hnorth hsouth
    have hz : (Math.QuaternionToAngles lib q).z =
        lib.degrees (lib.asinf (2 * (q.x * q.y + q.z * q.w) /
          (q.x ^ 2 + q.y ^ 2 + q.z ^ 2 + q.w ^ 2))) := by
      simp only [Math.QuaternionToAngles, Math.RadiansToDegrees, Math.ASin]
      rw [if_neg hnorth, if_neg hsouth]
    exact ⟨hz, fun hne => by rw [hz]; exact hne⟩

/-- C19 at the unit quaternion `(1/2, 1/2, 1/2, 1/2)`: the returned roll is
`PI / 2` times the degrees in a radian, more than 89, and not `PI / 2`. -/
theorem quaternion_angles_returned_in_degrees_witness :
    (Math.QuaternionToAngles poleLib poleQuaternion).x = poleLib.degrees 0 ∧
    (Math.QuaternionToAngles poleLib poleQuaternion).z = poleLib.degrees (PI / 2) ∧
    (Math.QuaternionToAngles poleLib poleQuaternion).z ≠ PI / 2 ∧
    89 < poleLib.degrees (PI / 2) := by
  have h := (quaternion_angles_returned_in_degrees poleLib poleQuaternion).1
    (by norm_num [poleQuaternion])
  exact ⟨h.1, h.2.1, h.2.2 (by norm_num [poleLib, PI]), by norm_num [poleLib, PI]⟩

/-- C20. `TranslateMatrix( InLocation, OutResult )` writes the three cells
`OutResult[ 3 ].x/y/z` and nothing else.  The origin read back is `InLocation`,
but the result is the translation matrix only when `OutResult` already held
the identity in every other cell; called on the zero matrix it leaves a zero
diagonal. -/
theorem translate_matrix_keeps_other_cells (InLocation OutOrigin : Vector) (OutResult : Matrix) :
    Math.GetOriginMatrix (Math.TranslateMatrix InLocation OutResult) OutOrigin = InLocation ∧
    (Math.TranslateMatrix InLocation OutResult).col0 = OutResult.col0 ∧
    (Math.TranslateMatrix InLocation OutResult).col1 = OutResult.col1 ∧
    (Math.TranslateMatrix InLocation OutResult).col2 = OutResult.col2 ∧
    (Math.TranslateMatrix InLocation OutResult).col3.w = OutResult.col3.w ∧
    (Math.TranslateMatrix InLocation OutResult = translationMatrixSpec InLocation ↔
      OutResult.col0 = Math.IdentityMatrix.col0 ∧ OutResult.col1 = Math.IdentityMatrix.col1 ∧
      OutResult.col2 = Math.IdentityMatrix.col2 ∧ OutResult.col3.w = 1) ∧
    Math.TranslateMatrix InLocation zeroMatrix ≠ translationMatrixSpec InLocation ∧
    (Math.TranslateMatrix InLocation zeroMatrix).col0.x = 0 := by
  have hiff : Math.TranslateMatrix InLocation OutResult = translationMatrixSpec InLocation ↔
      OutResult.col0 = Math.IdentityMatrix.col0 ∧ OutResult.col1 = Math.IdentityMatrix.col1 ∧
      OutResult.col2 = Math.IdentityMatrix.col2 ∧ OutResult.col3.w = 1 := by
    obtain ⟨c0, c1, c2, ⟨x3, y3, z3, w3⟩⟩ := OutResult
    simp only [Math.TranslateMatrix, translationMatrixSpec, Math.IdentityMatrix,
      Matrix.mk.injEq, Vector4D.mk.injEq, true_and]
  refine ⟨rfl, rfl, rfl, rfl, rfl, hiff, ?_, rfl⟩
  intro heq
  have h0 := congrArg (fun m => m.col0.x) heq
  simp only [Math.TranslateMatrix, translationMatrixSpec, Math.IdentityMatrix, zeroMatrix] at h0
  exact absurd h0 (by norm_num)

/-! ## File dialogs -/

/-- The C string read at the start of a name is the name. -/
theorem cstring_at (pre p tail : List Char) (hp : NUL ∉ p) :
    cstring (pre ++ p ++ NUL :: tail) pre.length = p := by
  unfold cstring
  rw [List.append_assoc, List.drop_left]
  induction p with
  | nil => simp [List.takeWhile]
  | cons c p ih =>
    have hc : c ≠ NUL := fun h => hp (by rw [h]; exact List.mem_cons_self _ _)
    have hp2 : NUL ∉ p := fun h => hp (List.mem_cons_of_mem _ h)
    simp only [List.cons_append, List.takeWhile_cons, bne_iff_ne, ne_eq, hc, not_false_eq_true,
      if_true]
    rw [ih hp2]

/-- Scanning one name: the loop walks to the terminator of the name, pushes the
name and sets both pointers behind the terminator. -/
theorem parseLoop_string (pre tail : List Char) (r s : List Char) (parts : List WString)
    (hnul : NUL ∉ s ++ r) (hne : s ++ r ≠ []) (fuel : Nat) (hfuel : r.length + 1 ≤ fuel) :
    parseFileNames.loop (pre ++ (s ++ r) ++ NUL :: tail) fuel (pre.length + s.length) pre.length
        parts =
      parseFileNames.loop (pre ++ (s ++ r) ++ NUL :: tail) (fuel - (r.length + 1))
        (pre.length + (s ++ r).length + 1) (pre.length + (s ++ r).length + 1)
        (parts ++ [s ++ r]) := by
  induction r generalizing s fuel with
  | nil =>
    obtain ⟨f, rfl⟩ : ∃ f, fuel = f + 1 := ⟨fuel - 1, by simp at hfuel; omega⟩
    rw [List.append_nil] at hnul hne ⊢
    have hget : (pre ++ s ++ NUL :: tail).get? (pre.length + s.length) = some NUL := by
      rw [List.get?_eq_getElem?, ← List.length_append, List.getElem?_append_right (Nat.le_refl _)]
      simp
    have hpos : ¬ pre.length + s.length = pre.length := by
      intro h
      have : s.length = 0 := by omega
      exact hne (List.length_eq_zero.mp this)
    rw [parseFileNames.loop]
    simp only [hget, if_true, if_neg hpos, cstring_at pre s tail hnul]
    rfl
  | cons c r ih =>
    obtain ⟨f, rfl⟩ : ∃ f, fuel = f + 1 := ⟨fuel - 1, by simp at hfuel; omega⟩
    have hc : c ≠ NUL := fun h => hnul (by rw [h]; simp)
    have hget : (pre ++ (s ++ c :: r) ++ NUL :: tail).get? (pre.length + s.length) = some c := by
      have : pre ++ (s ++ c :: r) ++ NUL :: tail = (pre ++ s) ++ (c :: (r ++ NUL :: tail)) := by
        simp
      rw [this, List.get?_eq_getElem?, ← List.length_append,
        List.getElem?_append_right (Nat.le_refl _)]
      simp
    have hsplit : s ++ c :: r = (s ++ [c]) ++ r := by simp
    have ih2 := ih (s ++ [c]) (by rw [← hsplit]; exact hnul) (by simp) f
      (by simp at hfuel; omega)
    rw [parseFileNames.loop]
    simp only [hget, if_neg hc]
    rw [← hsplit] at ih2
    simp only [List.length_append, List.length_cons, List.length_nil] at ih2 ⊢
    rw [show pre.length + s.length + 1 = pre.length + (s.length + (0 + 1)) by omega, ih2]
    congr 1
    omega

/-- The memory of a dialog starts with the first name and its terminator. -/
theorem dialogBuffer_cons (p : WString) (names : List WString) (rest : List Char) :
    dialogBuffer (p :: names) rest = p ++ NUL :: dialogBuffer names rest := by
  simp [dialogBuffer]

/-- Parsing the memory of a dialog returns the names in order. -/
theorem parseLoop_names (names : List WString) (rest : List Char)
    (hnames : ∀ p, p ∈ names → p ≠ [] ∧ NUL ∉ p) (pre : List Char) (parts : List WString)
    (fuel : Nat) (hfuel : (dialogBuffer names rest).length ≤ fuel + rest.length) :
    parseFileNames.loop (pre ++ dialogBuffer names rest) fuel pre.length pre.length parts =
      some (parts ++ names) := by
  induction names generalizing pre parts fuel with
  | nil =>
    obtain ⟨f, rfl⟩ : ∃ f, fuel = f + 1 := ⟨fuel - 1, by simp [dialogBuffer] at hfuel; omega⟩
    have hget : (pre ++ dialogBuffer [] rest).get? pre.length = some NUL := by
      rw [List.get?_eq_getElem?, List.getElem?_append_right (Nat.le_refl _)]
      simp [dialogBuffer]
    rw [parseFileNames.loop]
    simp only [hget, if_true, List.append_nil]
  | cons p names ih =>
    obtain ⟨hpne, hpnul⟩ := hnames p (List.mem_cons_self _ _)
    have hbuf : pre ++ dialogBuffer (p :: names) rest =
        pre ++ ([] ++ p) ++ NUL :: dialogBuffer names rest := by
      rw [dialogBuffer_cons]
      simp
    have hlen : (dialogBuffer (p :: names) rest).length =
        p.length + 1 + (dialogBuffer names rest).length := by
      rw [dialogBuffer_cons]
      simp only [List.length_append, List.length_cons]
      omega
    have hstep := parseLoop_string pre (dialogBuffer names rest) p [] parts
      (by simpa using hpnul) (by simpa using hpne) fuel
      (by
        have : 1 ≤ (dialogBuffer names rest).length - rest.length := by
          simp [dialogBuffer]
          omega
        omega)
    rw [hbuf]
    simp only [List.length_nil, Nat.add_zero] at hstep
    rw [hstep]
    have hbuf2 : pre ++ ([] ++ p) ++ NUL :: dialogBuffer names rest =
        (pre ++ p ++ [NUL]) ++ dialogBuffer names rest := by simp
    have hlen2 : pre.length + ([] ++ p).length + 1 = (pre ++ p ++ [NUL]).length := by
      simp only [List.nil_append, List.length_append, List.length_cons, List.length_nil]
    rw [hbuf2, hlen2, List.nil_append,
      ih (fun q hq => hnames q (List.mem_cons_of_mem _ hq)) (pre ++ p ++ [NUL]) (parts ++ [p])
        (fuel - (p.length + 1)) (by omega)]
    simp

/-- The block `Parse file names` on the memory of a dialog returns the names. -/
theorem parseFileNames_names (names : List WString) (rest : List Char)
    (hnames : ∀ p, p ∈ names → p ≠ [] ∧ NUL ∉ p) :
    parseFileNames (dialogBuffer names rest) = some names := by
  have h := parseLoop_names names rest hnames [] [] ((dialogBuffer names rest).length + 1)
    (by omega)
  simpa [parseFileNames] using h

/-- The loop over `parts` pushes one file per entry, in order. -/
theorem forIndex_pushFile (PATH_SEPARATOR : WString) (parts pre rest : List WString)
    (hparts : parts = pre ++ rest) (files : List WString) :
    forIndex (pushFile PATH_SEPARATOR parts) rest.length pre.length files =
      files ++ rest.map (fun p => parts.headD [] ++ PATH_SEPARATOR ++ p) := by
  induction rest generalizing pre files with
  | nil => simp [forIndex]
  | cons p rest ih =>
    have hget : parts.getD pre.length [] = p := by
      rw [hparts, List.getD_eq_getElem?_getD, List.getElem?_append_right (Nat.le_refl _)]
      simp
    have ih2 := ih (pre ++ [p]) (by rw [hparts]; simp)
      (files ++ [parts.headD [] ++ PATH_SEPARATOR ++ p])
    simp only [List.length_append, List.length_cons, List.length_nil, Nat.zero_add] at ih2
    simp only [List.length_cons, forIndex, pushFile, hget, List.map_cons]
    rw [ih2]
    simp

/-- The block `if ( !parts.empty() )` pushes the only name, or each later name
behind the first one and the separator. -/
theorem pushFiles_spec (PATH_SEPARATOR : WString) (p0 : WString) (ps files : List WString) :
    pushFiles PATH_SEPARATOR (p0 :: ps) files =
      files ++ (if ps = [] then [p0] else ps.map (fun p => p0 ++ PATH_SEPARATOR ++ p)) := by
  cases ps with
  | nil => simp [pushFiles]
  | cons p1 ps =>
    have h := forIndex_pushFile PATH_SEPARATOR (p0 :: p1 :: ps) [p0] (p1 :: ps) rfl files
    simp only [pushFiles, List.isEmpty_cons, Bool.not_false, if_true, List.length_cons]
    rw [if_neg (by omega), if_neg (by simp)]
    simpa using h

/-- C21. When the dialog leaves `k+1` non-empty names `p0, ..., pk`, each with
its terminator, followed by an empty string, `Sys_ShowOpenFileDialog` and
`Sys_ShowSaveFileDialog` return true and append to `OutResult.files` exactly
`[p0]` when `k = 0` and exactly `p0 + PATH_SEPARATOR + p1, ...,
p0 + PATH_SEPARATOR + pk` in order when `k >= 1`; memory starting with the
terminator appends nothing. -/
theorem file_dialog_appends_selected_paths (PATH_SEPARATOR p0 : WString) (ps : List WString)
    (rest : List Char) (fileNameFilters : List FileNameFilter) (nFilterIndex : Nat)
    (OutOpen : OpenFileDialogResult) (OutSave : SaveFileDialogResult)
    (hnames : ∀ p, p ∈ p0 :: ps → p ≠ [] ∧ NUL ∉ p) :
    Sys_ShowOpenFileDialog PATH_SEPARATOR (some (dialogBuffer (p0 :: ps) rest)) OutOpen =
      some (true, { files := OutOpen.files ++
        (if ps = [] then [p0] else ps.map (fun p => p0 ++ PATH_SEPARATOR ++ p)) }) ∧
    Sys_ShowSaveFileDialog PATH_SEPARATOR fileNameFilters
        (some (dialogBuffer (p0 :: ps) rest, nFilterIndex)) OutSave =
      some (true, { files := OutSave.files ++
        (if ps = [] then [p0] else ps.map (fun p => p0 ++ PATH_SEPARATOR ++ p)),
                    selectedFormat :=
                      Sys_ShowSaveFileDialog.selectedFormat fileNameFilters nFilterIndex OutSave }) ∧
    Sys_ShowOpenFileDialog PATH_SEPARATOR (some (NUL :: rest)) OutOpen = some (true, OutOpen) ∧
    Sys_ShowSaveFileDialog PATH_SEPARATOR fileNameFilters
        (some (NUL :: rest, nFilterIndex)) OutSave =
      some (true, { files := OutSave.files,
                    selectedFormat :=
                      Sys_ShowSaveFileDialog.selectedFormat fileNameFilters nFilterIndex OutSave }) := by
  have hparse := parseFileNames_names (p0 :: ps) rest hnames
  have hempty : parseFileNames (NUL :: rest) = some [] := by
    have h := parseFileNames_names [] rest (fun p hp => absurd hp (List.not_mem_nil p))
    simpa [dialogBuffer] using h
  refine ⟨?_, ?_, ?_, ?_⟩
  · simp only [Sys_ShowOpenFileDialog, hparse, pushFiles_spec]
  · simp only [Sys_ShowSaveFileDialog, hparse, pushFiles_spec]
  · simp only [Sys_ShowOpenFileDialog, hempty, pushFiles]
    rfl
  · simp only [Sys_ShowSaveFileDialog, hempty, pushFiles]
    rfl

/-- C21 at the directory `d` with the two names `a` and `b`: the files appended
are `d/a` and `d/b`. -/
theorem file_dialog_appends_selected_paths_witness :
    Sys_ShowOpenFileDialog ['/'] (some (dialogBuffer (['d'] :: [['a'], ['b']]) [])) { files := [] } =
      some (true, { files := [] ++
        (if [['a'], ['b']] = [] then [['d']]
          else [['a'], ['b']].map (fun p => ['d'] ++ ['/'] ++ p)) }) :=
  (file_dialog_appends_selected_paths ['/'] ['d'] [['a'], ['b']] [] [] 0 { files := [] }
    { files := [], selectedFormat := { description := [], filter := [] } }
    (by decide)).1

/-! ## Editor selection -/

/-- A property kept by every iteration is kept by a counted loop. -/
theorem forIndex_invariant {σ : Type} (body : Nat → σ → σ) (P : σ → Prop)
    (hbody : ∀ index s, P s → P (body index s)) (r index : Nat) (s : σ) (hs : P s) :
    P (forIndex body r index s) := by
  induction r generalizing index s with
  | zero => exact hs
  | succ r ih => exact ih (index + 1) (body index s) (hbody index s hs)

/-- The flag read after `SetSelected`. -/
theorem SetSelected_flag (objects : ActorStore) (actor : ActorRef) (value : Bool) (a : ActorRef) :
    (SetSelected objects actor value a).isSelected =
      if a = actor then value else (objects a).isSelected := by
  unfold SetSelected
  by_cases h : a = actor
  · subst h
    simp
  · simp [Function.update_noteq h, h]

/-- Selecting an unselected actor keeps the selection consistent. -/
theorem select_consistent (selectedActors : List ActorRef) (objects : ActorStore)
    (actor : ActorRef)
    (hc : selectedActors.Nodup ∧ ∀ a, a ∈ selectedActors ↔ (objects a).isSelected = true)
    (hsel : (objects actor).isSelected = false) :
    (selectedActors ++ [actor]).Nodup ∧
      ∀ a, a ∈ selectedActors ++ [actor] ↔ (SetSelected objects actor true a).isSelected = true := by
  have hnot : actor ∉ selectedActors := by
    intro hmem
    have := (hc.2 actor).mp hmem
    rw [hsel] at this
    cases this
  constructor
  · rw [List.nodup_append]
    refine ⟨hc.1, List.nodup_singleton _, ?_⟩
    intro a ha hb
    rw [List.mem_singleton] at hb
    subst hb
    exact hnot ha
  · intro a
    rw [SetSelected_flag, List.mem_append, List.mem_singleton]
    by_cases h : a = actor
    · simp [h]
    · simp only [h, or_false, if_false]
      exact hc.2 a

/-- `SelectActor` keeps the selection consistent. -/
theorem SelectActor_consistent (w : CWorld) (InActor : ActorRef) (hc : SelectionConsistent w) :
    SelectionConsistent (w.SelectActor InActor) := by
  unfold CWorld.SelectActor
  by_cases hsel : (w.objects InActor).isSelected = true
  · rw [if_pos hsel]
    exact hc
  · rw [if_neg hsel]
    exact select_consistent w.selectedActors w.objects InActor hc (by simpa using hsel)

/-- `UnselectActor` keeps the selection consistent. -/
theorem UnselectActor_consistent (w : CWorld) (InActor : ActorRef)
    (hc : SelectionConsistent w) : SelectionConsistent (w.UnselectActor InActor) := by
  unfold CWorld.UnselectActor
  by_cases hsel : (w.objects InActor).isSelected = true
  · rw [if_neg (by simp [hsel])]
    constructor
    · exact hc.1.erase InActor
    · intro a
      show a ∈ w.selectedActors.erase InActor ↔
        (SetSelected w.objects InActor false a).isSelected = true
      rw [SetSelected_flag, hc.1.mem_erase_iff]
      by_cases h : a = InActor
      · simp [h]
      · simp only [h, ne_eq, not_false_eq_true, true_and, if_false]
        exact hc.2 a
  · rw [if_pos (by simpa using hsel)]
    exact hc

/-- `SelectActors` keeps the selection consistent. -/
theorem SelectActors_consistent (w : CWorld) (InActors : List ActorRef)
    (hc : SelectionConsistent w) : SelectionConsistent (w.SelectActors InActors) := by
  have hloop := forIndex_invariant (fun index (s : CWorld × Bool) =>
      match InActors.get? index with
      | none => s
      | some actor => CWorld.selectOne actor s)
    (fun s => SelectionConsistent s.1)
    (by
      intro index s hs
      beta_reduce
      split
      · exact hs
      · rename_i actor _
        unfold CWorld.selectOne
        by_cases hsel : (s.1.objects actor).isSelected = true
        · rw [if_neg (by simp [hsel])]
          exact hs
        · rw [if_pos (by simpa using hsel)]
          exact select_consistent s.1.selectedActors s.1.objects actor hs (by simpa using hsel))
    InActors.length 0 (w, false) hc
  unfold CWorld.SelectActors
  simp only
  split
  · exact hloop
  · exact hloop

/-- Clearing the flags of a list of actors: the list of selected actors stays,
the listed actors end unselected, the other flags stay. -/
theorem foldl_clearSelected (l : List ActorRef) (w : CWorld) :
    (l.foldl (fun s x => CWorld.clearSelected x s) w).selectedActors = w.selectedActors ∧
    ∀ a, ((l.foldl (fun s x => CWorld.clearSelected x s) w).objects a).isSelected =
      if a ∈ l then false else (w.objects a).isSelected := by
  induction l generalizing w with
  | nil => exact ⟨rfl, fun a => by simp⟩
  | cons x l ih =>
    obtain ⟨h1, h2⟩ := ih (CWorld.clearSelected x w)
    refine ⟨by rw [List.foldl_cons, h1]; rfl, ?_⟩
    intro a
    rw [List.foldl_cons, h2 a]
    by_cases hl : a ∈ l
    · simp [hl]
    · simp only [hl, if_false, List.mem_cons, or_false]
      show (SetSelected w.objects x false a).isSelected = _
      rw [SetSelected_flag]

/-- `UnselectAllActors` keeps the selection consistent: nothing stays selected. -/
theorem UnselectAllActors_consistent (w : CWorld) (hc : SelectionConsistent w) :
    SelectionConsistent w.UnselectAllActors := by
  have hfold := forIndex_eq_foldl (fun index (w : CWorld) =>
      match w.selectedActors.get? index with
      | none => w
      | some actor => w.clearSelected actor)
    CWorld.selectedActors (fun x s => CWorld.clearSelected x s)
    (by intro index s x hx; simp only [hx])
    (fun _ _ => rfl) w.selectedActors.length 0 w (by omega)
  rw [List.drop_zero] at hfold
  obtain ⟨_, hflags⟩ := foldl_clearSelected w.selectedActors w
  unfold CWorld.UnselectAllActors
  simp only [hfold]
  refine ⟨List.nodup_nil, ?_⟩
  intro a
  show a ∈ ([] : List ActorRef) ↔ _
  rw [hflags a]
  by_cases hmem : a ∈ w.selectedActors
  · simp [hmem]
  · have hflag : (w.objects a).isSelected = false := by
      cases hf : (w.objects a).isSelected
      · rfl
      · exact absurd ((hc.2 a).mpr hf) hmem
    simp [hmem, hflag]

/-- C22. `SelectActor`, `UnselectActor`, `SelectActors` and `UnselectAllActors`
keep the selection consistent, `UnselectActors` does not: it erases the entry
at the position of the actor in its argument, not at the position where the
actor was found.  With actors 1 and 2 selected, `UnselectActors( [2] )` clears
the flag of actor 2 and erases actor 1: actor 2 stays in `selectedActors` and
the selected actor 1 is no longer in it. -/
theorem unselect_actors_erases_wrong_entry :
    (∀ w a, SelectionConsistent w →
      SelectionConsistent (w.SelectActor a) ∧ SelectionConsistent (w.UnselectActor a)) ∧
    (∀ w l, SelectionConsistent w → SelectionConsistent (w.SelectActors l)) ∧
    (∀ w, SelectionConsistent w → SelectionConsistent w.UnselectAllActors) ∧
    SelectionConsistent selectionWorld ∧
    ∃ w1, selectionWorld.UnselectActors [2] = some w1 ∧
      w1.selectedActors = [2] ∧
      (w1.objects 2).isSelected = false ∧
      (w1.objects 1).isSelected = true ∧
      ¬ SelectionConsistent w1 := by
  refine ⟨fun w a hc => ⟨SelectActor_consistent w a hc, UnselectActor_consistent w a hc⟩,
    SelectActors_consistent, UnselectAllActors_consistent, ?_, ?_⟩
  · refine ⟨by decide, ?_⟩
    intro a
    show a ∈ [1, 2] ↔ (a == 1 || a == 2) = true
    simp
  · refine ⟨_, rfl, rfl, rfl, rfl, ?_⟩
    intro hc
    have h2 := (hc.2 2).mp (List.mem_singleton.mpr rfl)
    exact absurd h2 (by decide)

/-! ## Archives -/

/-- The four bytes of a `uint32` hold it. -/
theorem uint32_bytes_round_trip (n : Nat) (hn : n < 4294967296) :
    uint32OfBytes (uint32Bytes n) = n := by
  simp only [uint32OfBytes, uint32Bytes, List.getD_cons_zero, List.getD_cons_succ]
  omega

/-- Saving a string of fewer than `2^32` bytes to a binary archive appends its
length as a `uint32` and then its bytes. -/
theorem save_string_bytes (arType : EArchiveType) (pre s : List Nat)
    (hty : arType ≠ EArchiveType.AT_TextFile) (hlen : s.length < 4294967296) :
    (writerOn arType pre).serializeConstString s =
      some (writerOn arType (pre ++ uint32Bytes s.length ++ s)) := by
  have hmod : s.length % 4294967296 = s.length := Nat.mod_eq_of_lt hlen
  have h4 : ¬ (uint32Bytes s.length).length < 4 := by simp [uint32Bytes]
  unfold CArchive.serializeConstString
  simp only [CArchive.IsSaving, CArchive.Type, writerOn, Bool.not_false, Bool.not_true,
    Bool.false_eq_true, if_false, if_neg hty, hmod, CArchive.serializeUInt32, CArchive.Serialize,
    if_neg h4]
  by_cases hs : s.length > 0
  · simp only [if_pos hs, Nat.lt_irrefl, if_false, List.take_length]
    simp [uint32Bytes]
  · have hnil : s = [] := List.length_eq_zero.mp (by omega)
    subst hnil
    simp [uint32Bytes]

/-- Loading into a buffer copies the next bytes of the file over its start. -/
theorem load_buffer (arType : EArchiveType) (bytes InBuffer : List Nat) (position InSize : Nat)
    (hbuf : InSize ≤ InBuffer.length) (hfile : position + InSize ≤ bytes.length) :
    (readerOn arType bytes position).Serialize InBuffer InSize =
      some (readerOn arType bytes (position + InSize),
        (bytes.drop position).take InSize ++ InBuffer.drop InSize) := by
  unfold CArchive.Serialize readerOn
  simp only [if_neg (Nat.not_lt.mpr hbuf), if_true, if_pos hfile]

/-- Loading a `uint32` reads the next four bytes of the file. -/
theorem load_uint32 (arType : EArchiveType) (bytes : List Nat) (position InValue : Nat)
    (hfile : position + 4 ≤ bytes.length) :
    (readerOn arType bytes position).serializeUInt32 InValue =
      some (readerOn arType bytes (position + 4),
        uint32OfBytes ((bytes.drop position).take 4)) := by
  unfold CArchive.serializeUInt32
  rw [load_buffer arType bytes (uint32Bytes InValue) position 4 (by simp [uint32Bytes]) hfile]
  simp [uint32Bytes]

/-- Loading a string from the bytes of a saved string `s`: the destination
becomes `s` when `s` is not empty, and keeps its content when `s` is empty. -/
theorem load_string_result (arType : EArchiveType) (pre s post t : List Nat)
    (hty : arType ≠ EArchiveType.AT_TextFile) (hlen : s.length < 4294967296) :
    (readerOn arType (pre ++ uint32Bytes s.length ++ s ++ post) pre.length).serializeString t =
      some (readerOn arType (pre ++ uint32Bytes s.length ++ s ++ post)
          (pre.length + 4 + (if s = [] then 0 else s.length)),
        if s = [] then t else s) := by
  have hfile : (pre ++ uint32Bytes s.length ++ s ++ post).length =
      pre.length + 4 + s.length + post.length := by
    simp [uint32Bytes]
    omega
  have hdrop : (pre ++ uint32Bytes s.length ++ s ++ post).drop pre.length =
      uint32Bytes s.length ++ (s ++ post) := by
    rw [List.append_assoc, List.append_assoc, List.drop_left]
  have hread : ((pre ++ uint32Bytes s.length ++ s ++ post).drop pre.length).take 4 =
      uint32Bytes s.length := by
    rw [hdrop]
    exact List.take_left' (by simp [uint32Bytes])
  have hdrop2 : (pre ++ uint32Bytes s.length ++ s ++ post).drop (pre.length + 4) = s ++ post := by
    have h : pre.length + 4 = (pre ++ uint32Bytes s.length).length := by simp [uint32Bytes]
    rw [h, List.append_assoc, List.drop_left]
  have hty2 : ¬ (readerOn arType (pre ++ uint32Bytes s.length ++ s ++ post) pre.length).Type =
      EArchiveType.AT_TextFile := hty
  unfold CArchive.serializeString
  rw [if_neg hty2]
  simp only [load_uint32 arType _ pre.length _ (by rw [hfile]; omega), hread,
    uint32_bytes_round_trip s.length hlen]
  by_cases hs : s = []
  · subst hs
    simp
  · have hpos : s.length > 0 := List.length_pos.mpr hs
    have hres : (resize t s.length).length = s.length := by
      simp only [resize, List.length_append, List.length_take, List.length_replicate]
      omega
    have hd : (resize t s.length).drop s.length = [] := by
      apply List.drop_eq_nil_of_le
      omega
    have hload : (readerOn arType (pre ++ uint32Bytes s.length ++ s ++ post) (pre.length + 4)).IsLoading
        = true := rfl
    rw [if_pos hpos, if_neg hs, if_neg hs]
    simp only [hload, if_true]
    rw [load_buffer arType _ (resize t s.length) (pre.length + 4) s.length (by omega)
      (by rw [hfile]; omega), hdrop2, hd, List.append_nil, List.take_left]

/-- C23. Saving a string `s` of fewer than `2^32` bytes to a binary archive
writes its length as a `uint32` and then its bytes.  Loading from these bytes
into a destination that holds `t` leaves `s` when `s` is not empty, but leaves
`t` when `s` is empty: the destination is resized only under
`stringSize > 0`.  So an empty `s` loaded over a non-empty `t` does not come
back. -/
theorem string_load_keeps_stale_content (arType : EArchiveType) (pre s post t : List Nat)
    (hty : arType ≠ EArchiveType.AT_TextFile) (hlen : s.length < 4294967296) :
    (writerOn arType pre).serializeConstString s =
      some (writerOn arType (pre ++ uint32Bytes s.length ++ s)) ∧
    ((readerOn arType (pre ++ uint32Bytes s.length ++ s ++ post) pre.length).serializeString
        t).map Prod.snd = some (if s = [] then t else s) ∧
    (s = [] → t ≠ [] →
      ((readerOn arType (pre ++ uint32Bytes s.length ++ s ++ post) pre.length).serializeString
        t).map Prod.snd ≠ some s) := by
  have hload := load_string_result arType pre s post t hty hlen
  refine ⟨save_string_bytes arType pre s hty hlen, by rw [hload]; rfl, ?_⟩
  intro hs ht heq
  rw [hload, Option.map_some', Option.some.injEq] at heq
  simp only [if_pos hs] at heq
  exact ht (by rw [← hs]; exact heq)

/-- C23 at the empty string saved to an empty binary file and loaded into a
destination holding the byte 120: the destination still holds it. -/
theorem string_load_keeps_stale_content_witness :
    (writerOn EArchiveType.AT_BinaryFile []).serializeConstString [] =
      some (writerOn EArchiveType.AT_BinaryFile ([] ++ uint32Bytes ([] : List Nat).length ++ [])) ∧
    ((readerOn EArchiveType.AT_BinaryFile
        ([] ++ uint32Bytes ([] : List Nat).length ++ [] ++ []) ([] : List Nat).length).serializeString
        [120]).map Prod.snd = some [120] ∧
    ((readerOn EArchiveType.AT_BinaryFile
        ([] ++ uint32Bytes ([] : List Nat).length ++ [] ++ []) ([] : List Nat).length).serializeString
        [120]).map Prod.snd ≠ some [] :=
  ⟨(string_load_keeps_stale_content EArchiveType.AT_BinaryFile [] [] [] [120] (by decide)
      (by decide)).1,
   (string_load_keeps_stale_content EArchiveType.AT_BinaryFile [] [] [] [120] (by decide)
      (by decide)).2.1,
   (string_load_keeps_stale_content EArchiveType.AT_BinaryFile [] [] [] [120] (by decide)
      (by decide)).2.2 rfl (by decide)⟩

/-! ## Path decomposition -/

/-- A string that contains a dot splits at its last dot. -/
theorem split_at_last_dot (F : WString) (hF : '.' ∈ F) :
    ∃ B E : WString, F = B ++ ['.'] ++ E ∧ '.' ∉ E := by
  have hrev : '.' ∈ F.reverse := List.mem_reverse.mpr hF
  obtain ⟨as, bs, heq, hnot⟩ := List.eq_append_cons_of_mem hrev
  refine ⟨bs.reverse, as.reverse, ?_, fun h => hnot (List.mem_reverse.mp h)⟩
  have := congrArg List.reverse heq
  simpa using this

/-- Without a separator `GetPath` and `GetBaseFilename` both return the part
before the last dot. -/
theorem GetPath_without_separator (sep : Char) (B E : WString)
    (hB : sep ∉ B) (hdot : sep ≠ '.') (hE : sep ∉ E) (hEdot : '.' ∉ E) :
    CFilename.GetPath [sep] { path := B ++ ['.'] ++ E } = B ∧
    CFilename.GetBaseFilename [sep] { path := B ++ ['.'] ++ E } = B := by
  have hpath : B ++ ['.'] ++ E = B ++ '.' :: E := by simp
  have hnone : WString.find_last_of (B ++ '.' :: E) [sep] = none := by
    apply find_last_of_none
    intro c hc hcs
    rw [List.mem_singleton] at hcs
    subst hcs
    rcases List.mem_append.mp hc with h1 | h1
    · exact hB h1
    · rcases List.mem_cons.mp h1 with h2 | h2
      · exact hdot h2
      · exact hE h2
  have hfind : WString.find_last_of (B ++ '.' :: E) ['.'] = some B.length := by
    apply find_last_of_append _ _ _ _ (List.mem_singleton.mpr rfl)
    intro x hx hxs
    rw [List.mem_singleton] at hxs
    subst hxs
    exact hEdot hx
  have herase : WString.erase (B ++ '.' :: E) B.length (B ++ '.' :: E).length = B := by
    apply erase_to_end
    simp only [List.length_append, List.length_cons]
    omega
  constructor
  · unfold CFilename.GetPath
    simp only [hpath, hnone, hfind, herase]
  · unfold CFilename.GetBaseFilename
    simp only [hpath, hnone, hfind, herase]

/-- C24. For a path `D + sep + F` whose final component `F` is free of the
separator and contains a dot, `GetPath() + GetBaseFilename() +
GetExtension( true )` is the path and `GetExtension( true )` is `"."` followed
by `GetExtension( false )`.  For the path `F` alone, without a separator, the
extensions are related in the same way, but `GetPath` returns the base
filename instead of a directory: the three parts put together are the base
filename followed by the path, which is not the path unless the base filename
is empty. -/
theorem path_round_trip_needs_separator (sep : Char) (D F : WString) (hdot : sep ≠ '.')
    (hF : sep ∉ F) (hFdot : '.' ∈ F) :
    CFilename.GetPath [sep] { path := D ++ [sep] ++ F } ++
        CFilename.GetBaseFilename [sep] { path := D ++ [sep] ++ F } ++
        CFilename.GetExtension { path := D ++ [sep] ++ F } true = D ++ [sep] ++ F ∧
    CFilename.GetExtension { path := D ++ [sep] ++ F } true =
      '.' :: CFilename.GetExtension { path := D ++ [sep] ++ F } false ∧
    CFilename.GetExtension { path := F } true = '.' :: CFilename.GetExtension { path := F } false ∧
    CFilename.GetPath [sep] { path := F } = CFilename.GetBaseFilename [sep] { path := F } ∧
    CFilename.GetPath [sep] { path := F } ++ CFilename.GetBaseFilename [sep] { path := F } ++
        CFilename.GetExtension { path := F } true =
      CFilename.GetBaseFilename [sep] { path := F } ++ F ∧
    (CFilename.GetBaseFilename [sep] { path := F } ≠ [] →
      CFilename.GetPath [sep] { path := F } ++ CFilename.GetBaseFilename [sep] { path := F } ++
        CFilename.GetExtension { path := F } true ≠ F) := by
  obtain ⟨B, E, hFeq, hEdot⟩ := split_at_last_dot F hFdot
  subst hFeq
  have hB : sep ∉ B := fun h => hF (by simp [h])
  have hE : sep ∉ E := fun h => hF (by simp [h])
  have hp : D ++ [sep] ++ (B ++ ['.'] ++ E) = D ++ [sep] ++ B ++ ['.'] ++ E := by simp
  have hpath := GetPath_of_form sep D B E hdot hB hE
  have hbase := GetBaseFilename_of_form sep D B E hdot hB hE hEdot
  have hext := GetExtension_of_form (D ++ [sep] ++ B) E hEdot
  have hext2 := GetExtension_of_form B E hEdot
  have hno := GetPath_without_separator sep B E hB hdot hE hEdot
  rw [hp, hpath, hbase, hext.1, hext.2, hext2.1, hext2.2, hno.1, hno.2]
  refine ⟨by simp, rfl, rfl, rfl, by simp, ?_⟩
  intro hne heq
  have hlen := congrArg List.length heq
  simp only [List.length_append, List.length_cons, List.length_nil] at hlen
  exact hne (List.length_eq_zero.mp (by omega))

/-- C24 at the final component `b.txt`: behind the directory `a` the three
parts give back `a/b.txt`; for `b.txt` alone `GetPath` is `b` and the three
parts do not give back `b.txt`. -/
theorem path_round_trip_needs_separator_witness :
    CFilename.GetPath ['/'] { path := ['a'] ++ ['/'] ++ ['b', '.', 't', 'x', 't'] } ++
        CFilename.GetBaseFilename ['/'] { path := ['a'] ++ ['/'] ++ ['b', '.', 't', 'x', 't'] } ++
        CFilename.GetExtension { path := ['a'] ++ ['/'] ++ ['b', '.', 't', 'x', 't'] } true =
      ['a'] ++ ['/'] ++ ['b', '.', 't', 'x', 't'] ∧
    CFilename.GetPath ['/'] { path := ['b', '.', 't', 'x', 't'] } ++
        CFilename.GetBaseFilename ['/'] { path := ['b', '.', 't', 'x', 't'] } ++
        CFilename.GetExtension { path := ['b', '.', 't', 'x', 't'] } true ≠
      ['b', '.', 't', 'x', 't'] :=
  ⟨(path_round_trip_needs_separator '/' ['a'] ['b', '.', 't', 'x', 't'] (by decide) (by decide)
      (by decide)).1,
   (path_round_trip_needs_separator '/' ['a'] ['b', '.', 't', 'x', 't'] (by decide) (by decide)
      (by decide)).2.2.2.2.2 (by decide)⟩

/-! ## The rendering thread at work -/

theorem ReleasedFrom_refl (st : EngineState) : st.ReleasedFrom st :=
  ⟨rfl, rfl, ⟨0, rfl⟩, fun _ w hw =>
    ⟨w, hw, rfl, rfl, rfl, fun _ d hd => ⟨d, hd, rfl, fun h => h⟩⟩⟩

theorem ReleasedFrom_trans (a b c : EngineState) (hab : a.ReleasedFrom b)
    (hbc : b.ReleasedFrom c) : a.ReleasedFrom c := by
  obtain ⟨h1, l1, ⟨n1, q1⟩, w1⟩ := hab
  obtain ⟨h2, l2, ⟨n2, q2⟩, w2⟩ := hbc
  refine ⟨h2.trans h1, l2.trans l1, ⟨n1 + n2, by rw [q2, q1, List.drop_drop]⟩, ?_⟩
  intro i w hw
  obtain ⟨wb, hwb, v1, c1, len1, s1⟩ := w1 i w hw
  obtain ⟨wc, hwc, v2, c2, len2, s2⟩ := w2 i wb hwb
  refine ⟨wc, hwc, v2.trans v1, c2.trans c1, len2.trans len1, ?_⟩
  intro k d hd
  obtain ⟨d1, hd1, p1, f1⟩ := s1 k d hd
  obtain ⟨d2, hd2, p2, f2⟩ := s2 k d1 hd1
  exact ⟨d2, hd2, p2.trans p1, fun h => f2 (f1 h)⟩

/-- `MarkFree` through a reference to an existing slot is a release. -/
theorem markFree_released (st : EngineState) (r : SlotRef) (d : CImGUIDrawData)
    (hd : st.slotAt r = some d) :
    (st.markFree r).heap = st.heap ∧ (st.markFree r).windows.length = st.windows.length ∧
    (st.markFree r).queue = st.queue ∧
    ∀ i w, st.windows.get? i = some w →
      ∃ w1, (st.markFree r).windows.get? i = some w1 ∧ w1.imguiViewport = w.imguiViewport ∧
        w1.indexCurrentBuffer = w.indexCurrentBuffer ∧
        w1.drawDataBuffers.length = w.drawDataBuffers.length ∧
        ∀ k d0, w.drawDataBuffers.get? k = some d0 →
          ∃ d1, w1.drawDataBuffers.get? k = some d1 ∧ d1.drawData = d0.drawData ∧
            (d0.isFree = true → d1.isFree = true) := by
  obtain ⟨i0, k0⟩ := r
  unfold EngineState.slotAt at hd
  simp only at hd
  cases hw0 : st.windows.get? i0 with
  | none => rw [hw0] at hd; cases hd
  | some w0 =>
    rw [hw0] at hd
    simp only at hd
    have hi0 : i0 < st.windows.length := by
      rw [List.get?_eq_getElem?] at hw0
      exact (List.getElem?_eq_some_iff.mp hw0).1
    have hk0 : k0 < w0.drawDataBuffers.length := by
      rw [List.get?_eq_getElem?] at hd
      exact (List.getElem?_eq_some_iff.mp hd).1
    have hmf : st.markFree ⟨i0, k0⟩ =
        { st with
          windows := st.windows.set i0
            { w0 with drawDataBuffers := w0.drawDataBuffers.set k0 d.MarkFree } } := by
      unfold EngineState.markFree
      simp only [hw0, hd]
    rw [hmf]
    refine ⟨rfl, by simp, rfl, ?_⟩
    intro i w hw
    by_cases hi : i = i0
    · subst hi
      rw [hw0] at hw
      cases hw
      refine ⟨{ w0 with drawDataBuffers := w0.drawDataBuffers.set k0 d.MarkFree }, ?_, rfl, rfl,
        by simp, ?_⟩
      · simp only [List.get?_eq_getElem?]
        rw [List.getElem?_set_self hi0]
      intro k d0 hd0
      by_cases hk : k = k0
      · subst hk
        rw [hd] at hd0
        cases hd0
        refine ⟨d.MarkFree, ?_, rfl, fun _ => rfl⟩
        simp only [List.get?_eq_getElem?]
        rw [List.getElem?_set_self hk0]
      · refine ⟨d0, ?_, rfl, fun h => h⟩
        simp only [List.get?_eq_getElem?] at hd0 ⊢
        rw [List.getElem?_set_ne (Ne.symm hk)]
        exact hd0
    · refine ⟨w, ?_, rfl, rfl, rfl, fun k d0 hd0 => ⟨d0, hd0, rfl, fun h => h⟩⟩
      simp only [List.get?_eq_getElem?] at hw ⊢
      rw [List.getElem?_set_ne (Ne.symm hi)]
      exact hw

/-- In a state that keeps the bookkeeping, the rendering thread can take its
next turn; the bookkeeping is kept and the turn is a release. -/
theorem consume_total (st : EngineState) (hinv : RingInvariant st) :
    ∃ st1, st.consume = some st1 ∧ RingInvariant st1 ∧ st.ReleasedFrom st1 := by
  unfold EngineState.consume
  cases hq : st.queue with
  | nil => exact ⟨st, rfl, hinv, ReleasedFrom_refl st⟩
  | cons cmd rest =>
    obtain ⟨d, hd, _, _⟩ := consume_releases_busy st cmd rest hinv hq
    have hd' : EngineState.slotAt { st with queue := rest } cmd.slot = some d := hd
    obtain ⟨trace, ht⟩ := Execute_enabled cmd { st with queue := rest } d hd'
    simp only [ht]
    refine ⟨_, rfl, RingInvariant_consume st _ cmd rest trace hinv hq ht, ?_⟩
    obtain ⟨h1, h2, h3, h4⟩ := markFree_released { st with queue := rest } cmd.slot d hd'
    exact ⟨h1, h2, ⟨1, by rw [h3, hq]; rfl⟩, h4⟩

/-- The same for any number of turns. -/
theorem consumeN_total (n : Nat) (st : EngineState) (hinv : RingInvariant st) :
    ∃ st1, st.consumeN n = some st1 ∧ RingInvariant st1 ∧ st.ReleasedFrom st1 := by
  induction n generalizing st with
  | zero => exact ⟨st, rfl, hinv, ReleasedFrom_refl st⟩
  | succ n ih =>
    obtain ⟨st1, h1, hinv1, hrel1⟩ := consume_total st hinv
    obtain ⟨st2, h2, hinv2, hrel2⟩ := ih st1 hinv1
    refine ⟨st2, ?_, hinv2, ReleasedFrom_trans st st1 st2 hrel1 hrel2⟩
    simp only [EngineState.consumeN, h1]
    exact h2

theorem consumeN_add (n m : Nat) (st : EngineState) :
    st.consumeN (n + m) = (st.consumeN n).bind (EngineState.consumeN m) := by
  induction n generalizing st with
  | zero => simp [EngineState.consumeN]
  | succ n ih =>
    rw [show n + 1 + m = (n + m) + 1 by omega]
    simp only [EngineState.consumeN]
    cases st.consume with
    | none => rfl
    | some st1 => exact ih st1

/-- The flags a `Tick` reads only ever turn to Free while it runs. -/
theorem observe_mono (this : Nat) (done : Nat → Nat) (st : EngineState)
    (hinv : RingInvariant st) (hdone : ∀ t, done t ≤ done (t + 1)) (t i : Nat)
    (h : ImGUIWindow.observe this done st t i = true) :
    ImGUIWindow.observe this done st (t + 1) i = true := by
  obtain ⟨m, hm⟩ : ∃ m, done (t + 1) = done t + m := ⟨done (t + 1) - done t, by
    have := hdone t
    omega⟩
  obtain ⟨st1, h1, hinv1, _⟩ := consumeN_total (done t) st hinv
  obtain ⟨st2, h2, _, hrel⟩ := consumeN_total m st1 hinv1
  have h12 : st.consumeN (done (t + 1)) = some st2 := by
    rw [hm, consumeN_add, h1]
    exact h2
  unfold ImGUIWindow.observe at h ⊢
  rw [h12]
  rw [h1] at h
  simp only at h ⊢
  cases hw : st1.windows.get? this with
  | none => rw [hw] at h; cases h
  | some w =>
    rw [hw] at h
    simp only at h
    obtain ⟨w1, hw1, _, _, _, hslots⟩ := hrel.2.2.2 this w hw
    rw [hw1]
    simp only
    have hlt : i < w.flags.length := by
      by_contra hge
      rw [List.getD_eq_default _ _ (Nat.le_of_not_lt hge)] at h
      cases h
    have hlt' : i < w.drawDataBuffers.length := by simpa [ImGUIWindow.flags] using hlt
    obtain ⟨d1, hd1, _, hfree⟩ := hslots i (w.drawDataBuffers[i]) (by
      rw [List.get?_eq_getElem?, List.getElem?_eq_getElem hlt'])
    have hdfree : (w.drawDataBuffers[i]).isFree = true := by
      rw [List.getD_eq_getElem _ _ hlt] at h
      simpa [ImGUIWindow.flags, CImGUIDrawData.IsFree] using h
    have hlt1 : i < w1.drawDataBuffers.length := by
      rw [List.get?_eq_getElem?] at hd1
      exact (List.getElem?_eq_some_iff.mp hd1).1
    have hget1 : w1.drawDataBuffers[i] = d1 := by
      rw [List.get?_eq_getElem?] at hd1
      exact (List.getElem?_eq_some_iff.mp hd1).2
    have hlt1' : i < w1.flags.length := by simpa [ImGUIWindow.flags] using hlt1
    rw [List.getD_eq_getElem _ _ hlt1']
    simp only [ImGUIWindow.flags, List.getElem_map, CImGUIDrawData.IsFree, hget1]
    exact hfree hdfree

/-! ## The search ends -/

/-- The search ends once some slot reads Free and stays so: the next pass of
the `for` loop stops on a slot that reads Free, and the `while` condition then
reads it Free again. -/
theorem whileLoop_total (N : Nat) (obs : Nat → Nat → Bool)
    (hmono : ∀ t i, obs t i = true → obs (t + 1) i = true) (f T : Nat) (hf : f < N)
    (hfree : obs T f = true) (fuel : Nat) (s : ScanState)
    (hi : s.indexCurrentBuffer < N) (hc : s.currentBuffer < N) (hfuel : T ≤ s.time + fuel) :
    ∃ s', whileLoop N obs (fuel + 1) s = some s' := by
  have hN : 0 < N := Nat.lt_of_le_of_lt (Nat.zero_le _) hf
  induction fuel generalizing s with
  | zero =>
    simp only [whileLoop]
    by_cases hcur : obs s.time s.currentBuffer = true
    · exact ⟨s, by rw [if_pos hcur]⟩
    · rw [if_neg hcur]
      obtain ⟨hjlt, hjf⟩ := cyclic_offset N s.indexCurrentBuffer f hi hf
      have hex : ∃ j, j < N ∧ obs (s.time + 1 + j) ((s.indexCurrentBuffer + j) % N) = true :=
        ⟨_, hjlt, by rw [hjf]; exact obs_mono_le obs hmono f T _ (by omega) hfree⟩
      obtain ⟨hj0, hj0free⟩ := Nat.find_spec hex
      have hbusy : ∀ j', j' < Nat.find hex →
          obs (s.time + 1 + j') ((s.indexCurrentBuffer + j') % N) = false := by
        intro j' hj'
        have hnot := Nat.find_min hex hj'
        cases hb : obs (s.time + 1 + j') ((s.indexCurrentBuffer + j') % N) with
        | false => rfl
        | true => exact absurd ⟨Nat.lt_trans hj' hj0, hb⟩ hnot
      obtain ⟨r, hr⟩ : ∃ r, N = Nat.find hex + (r + 1) := ⟨N - Nat.find hex - 1, by omega⟩
      have hfind := forLoop_finds N obs (Nat.find hex) r { s with time := s.time + 1 } hi
        hbusy hj0free
      rw [← hr] at hfind
      rw [hfind]
      have hsel : obs (s.time + 1 + Nat.find hex + 1) ((s.indexCurrentBuffer + Nat.find hex) % N)
          = true := hmono _ _ hj0free
      exact ⟨_, if_pos hsel⟩
  | succ fuel ih =>
    rw [whileLoop]
    by_cases hcur : obs s.time s.currentBuffer = true
    · exact ⟨s, by rw [if_pos hcur]⟩
    · rw [if_neg hcur]
      have hb := forLoop_bounds N hN obs N { s with time := s.time + 1 } hi hc
      have ht := forLoop_time_le N obs N { s with time := s.time + 1 }
      exact ih _ hb.1 hb.2 (by simp only at ht; omega)

/-- The search of `Tick` returns when some slot reads Free at some read `T` and
the flags only ever turn to Free, given more than `T` runs of the `while`
body. -/
theorem acquire_total (N : Nat) (obs : Nat → Nat → Bool)
    (hmono : ∀ t i, obs t i = true → obs (t + 1) i = true) (f T : Nat) (hf : f < N)
    (hfree : obs T f = true) (fuel cursor : Nat) (hc : cursor < N) (hfuel : T < fuel) :
    ∃ s, acquire N obs fuel cursor = some s ∧ s.currentBuffer < N ∧ s.indexCurrentBuffer < N ∧
      obs s.time s.currentBuffer = true := by
  have hN : 0 < N := Nat.lt_of_le_of_lt (Nat.zero_le _) hf
  obtain ⟨g, rfl⟩ : ∃ g, fuel = g + 1 := ⟨fuel - 1, by omega⟩
  obtain ⟨s, hs⟩ := whileLoop_total N obs hmono f T hf hfree g
    { time := 0, indexCurrentBuffer := cursor, currentBuffer := cursor, visited := [] }
    hc hc (by simp only; omega)
  have hb := whileLoop_bounds N hN obs _ _ s hc hc hs
  exact ⟨s, hs, hb.2, hb.1, whileLoop_sound N obs _ _ s hs⟩

/-! ## Filling the selected slot -/

/-- What a completed fill did. -/
theorem fill_some (N : Nat) (alloc : Heap → Addr) (noClear this : Nat) (s : ScanState)
    (st st1 : EngineState) (h : ImGUIWindow.fill N alloc noClear this s st = some st1) :
    ∃ w d heap1 filled,
      st.windows.get? this = some w ∧
      w.drawDataBuffers.get? s.currentBuffer = some d ∧
      d.SetDrawData alloc st.heap w.imguiViewport.DrawData = some (heap1, filled) ∧
      st1 = { heap := heap1
              windows := st.windows.set this
                { w with
                  drawDataBuffers := w.drawDataBuffers.set s.currentBuffer filled
                  indexCurrentBuffer := advance N s.indexCurrentBuffer }
              queue := st.queue ++ [ImGUIWindow.drawCommand noClear w ⟨this, s.currentBuffer⟩] } := by
  unfold ImGUIWindow.fill at h
  split at h
  · cases h
  · rename_i w hw
    split at h
    · cases h
    · rename_i d hd
      split at h
      · cases h
      · rename_i heap1 filled hf
        simp only [Option.some.injEq] at h
        exact ⟨w, d, heap1, filled, hw, hd, hf, h.symm⟩

/-- The fill succeeds when `SetDrawData` does. -/
theorem fill_total (N : Nat) (alloc : Heap → Addr) (noClear this : Nat) (s : ScanState)
    (st : EngineState) (w : ImGUIWindow) (d filled : CImGUIDrawData) (heap1 : Heap)
    (hw : st.windows.get? this = some w) (hd : w.drawDataBuffers.get? s.currentBuffer = some d)
    (hf : d.SetDrawData alloc st.heap w.imguiViewport.DrawData = some (heap1, filled)) :
    ImGUIWindow.fill N alloc noClear this s st =
      some { heap := heap1
             windows := st.windows.set this
               { w with
                 drawDataBuffers := w.drawDataBuffers.set s.currentBuffer filled
                 indexCurrentBuffer := advance N s.indexCurrentBuffer }
             queue := st.queue ++ [ImGUIWindow.drawCommand noClear w ⟨this, s.currentBuffer⟩] } := by
  unfold ImGUIWindow.fill
  simp only [hw, hd, hf]

/-- Everything a completed fill changes: the slot goes from Free to Busy and
takes its new payload, the cursor of the window moves, and one command holding
that slot is appended to the queue. -/
theorem fill_effect (N : Nat) (alloc : Heap → Addr) (noClear this : Nat) (s : ScanState)
    (st st1 : EngineState) (h : ImGUIWindow.fill N alloc noClear this s st = some st1) :
    ∃ w d filled, st.windows.get? this = some w ∧
      st.slotAt ⟨this, s.currentBuffer⟩ = some d ∧ d.isFree = true ∧ filled.isFree = false ∧
      d.SetDrawData alloc st.heap w.imguiViewport.DrawData = some (st1.heap, filled) ∧
      st1.queue = st.queue ++ [ImGUIWindow.drawCommand noClear w ⟨this, s.currentBuffer⟩] ∧
      (∀ r, st1.slotAt r = if r = ⟨this, s.currentBuffer⟩ then some filled else st.slotAt r) ∧
      (∀ i, i ≠ this → st1.windows.get? i = st.windows.get? i) ∧
      st1.windows.get? this = some
        { w with
          drawDataBuffers := w.drawDataBuffers.set s.currentBuffer filled
          indexCurrentBuffer := advance N s.indexCurrentBuffer } ∧
      st1.windows.length = st.windows.length := by
  obtain ⟨w, d, heap1, filled, hw, hd, hf, rfl⟩ := fill_some N alloc noClear this s st st1 h
  obtain ⟨hfree, hbusy⟩ := SetDrawData_flags alloc _ _ _ _ _ hf
  have hslot : st.slotAt ⟨this, s.currentBuffer⟩ = some d := by
    rw [slotAt_of_window st this _ w hw, hd]
  have hk : s.currentBuffer < w.drawDataBuffers.length := by
    rw [List.get?_eq_getElem?] at hd
    exact (List.getElem?_eq_some_iff.mp hd).1
  have hlt : this < st.windows.length := by
    rw [List.get?_eq_getElem?] at hw
    exact (List.getElem?_eq_some_iff.mp hw).1
  refine ⟨w, d, filled, hw, hslot, hfree, hbusy, hf, rfl, ?_, ?_, ?_, ?_⟩
  · intro r
    exact slotAt_set st _ this s.currentBuffer w _ filled hw hk rfl rfl r
  · intro i hi
    simp [List.getElem?_set, Ne.symm hi]
  · simp [List.getElem?_set, hlt]
  · simp

/-- A fill keeps the bookkeeping between rings and queue. -/
theorem RingInvariant_fill (N : Nat) (alloc : Heap → Addr) (noClear this : Nat) (s : ScanState)
    (st st1 : EngineState) (hinv : RingInvariant st)
    (h : ImGUIWindow.fill N alloc noClear this s st = some st1) : RingInvariant st1 := by
  obtain ⟨w, d, filled, _, hslot, hfree, hbusy, _, hq, hslots, _, _, _⟩ :=
    fill_effect N alloc noClear this s st st1 h
  obtain ⟨hiff, hle⟩ := hinv.1 _ d hslot
  have hzero : refCount st.queue ⟨this, s.currentBuffer⟩ = 0 := by
    have hne : refCount st.queue ⟨this, s.currentBuffer⟩ ≠ 1 := by
      intro h1
      have := hiff.mpr h1
      rw [hfree] at this
      cases this
    omega
  have hcount : ∀ r, refCount st1.queue r
      = refCount st.queue r + if (⟨this, s.currentBuffer⟩ : SlotRef) = r then 1 else 0 := by
    intro r
    rw [hq, refCount_append, drawCommand_slot]
  constructor
  · intro r d1 hd1
    rw [hslots r] at hd1
    rw [hcount r]
    by_cases hr : r = ⟨this, s.currentBuffer⟩
    · subst hr
      rw [if_pos rfl] at hd1
      cases hd1
      simp [hzero, hbusy]
    · rw [if_neg hr] at hd1
      rw [if_neg (Ne.symm hr), Nat.add_zero]
      exact hinv.1 r d1 hd1
  · intro r hnone
    rw [hslots r] at hnone
    rw [hcount r]
    by_cases hr : r = ⟨this, s.currentBuffer⟩
    · rw [if_pos hr] at hnone
      cases hnone
    · rw [if_neg hr] at hnone
      rw [if_neg (Ne.symm hr), Nat.add_zero]
      exact hinv.2 r hnone

/-! ## `Tick` while the rendering thread runs -/

/-- What a completed `Tick` did: the search returned, the rendering thread had
executed the commands of the schedule by the last read, and the slot the search
returned was filled in that state. -/
theorem TickConcurrent_some (N : Nat) (alloc : Heap → Addr) (noClear : Nat)
    (done : Nat → Nat) (fuel this : Nat) (st st1 : EngineState)
    (h : ImGUIWindow.TickConcurrent N alloc noClear done fuel this st = some st1) :
    ∃ w s stm, st.windows.get? this = some w ∧
      acquire N (ImGUIWindow.observe this done st) fuel w.indexCurrentBuffer = some s ∧
      st.consumeN (done s.time) = some stm ∧
      ImGUIWindow.fill N alloc noClear this s stm = some st1 := by
  unfold ImGUIWindow.TickConcurrent at h
  split at h
  · cases h
  · rename_i w hw
    split at h
    · cases h
    · rename_i s hs
      split at h
      · cases h
      · rename_i stm hm
        exact ⟨w, s, stm, hw, hs, hm, h⟩

/-- With a rendering thread that does nothing during the call, `Tick` is the
`Tick` on a ring left alone. -/
theorem TickConcurrent_frozen (N : Nat) (alloc : Heap → Addr) (noClear fuel this : Nat)
    (st : EngineState) :
    ImGUIWindow.TickConcurrent N alloc noClear (fun _ => 0) fuel this st =
      ImGUIWindow.Tick N alloc noClear fuel this st := by
  unfold ImGUIWindow.TickConcurrent ImGUIWindow.Tick
  cases hw : st.windows.get? this with
  | none => rfl
  | some w =>
    have hobs : ImGUIWindow.observe this (fun _ => 0) st = frozen w.flags := by
      funext t i
      simp only [ImGUIWindow.observe, EngineState.consumeN, hw, frozen]
    simp only [hobs]
    cases hs : acquire N (frozen w.flags) fuel w.indexCurrentBuffer with
    | none => rfl
    | some s =>
      simp only [EngineState.consumeN, ImGUIWindow.fill, hw]

/-- A completed `Tick` keeps the bookkeeping between rings and queue, whatever
the rendering thread did meanwhile. -/
theorem RingInvariant_TickConcurrent (N : Nat) (alloc : Heap → Addr) (noClear : Nat)
    (done : Nat → Nat) (fuel this : Nat) (st st1 : EngineState) (hinv : RingInvariant st)
    (h : ImGUIWindow.TickConcurrent N alloc noClear done fuel this st = some st1) :
    RingInvariant st1 := by
  obtain ⟨w, s, stm, _, _, hm, hfill⟩ :=
    TickConcurrent_some N alloc noClear done fuel this st st1 h
  obtain ⟨stm', hm', hinvm, _⟩ := consumeN_total (done s.time) st hinv
  rw [hm] at hm'
  cases hm'
  exact RingInvariant_fill N alloc noClear this s stm st1 hinvm hfill

theorem RingInvariant_reachable (N : Nat) (alloc : Heap → Addr) (noClear : Nat)
    (st : EngineState) (hr : Reachable N alloc noClear st) : RingInvariant st := by
  induction hr with
  | init heap viewports => exact RingInvariant_init N heap viewports
  | step st st1 _ hs ih =>
    cases hs with
    | produce done _ fuel this _ _ h =>
      exact RingInvariant_TickConcurrent N alloc noClear done fuel this st st1 ih h
    | consume cmd rest trace _ _ hq h => exact RingInvariant_consume st st1 cmd rest trace ih hq h
    | frame _ _ hq hw =>
      constructor
      · intro r d hd
        rw [slotAt_frame st st1 hw r] at hd
        rw [hq]
        exact ih.1 r d hd
      · intro r hn
        rw [slotAt_frame st st1 hw r] at hn
        rw [hq]
        exact ih.2 r hn

/-- C4: in every state reachable from freshly constructed windows and an empty
queue by `Tick` calls (each with the rendering thread running at any pace
during the call), executions of the oldest queued command and ImGui frames, a
slot is Busy exactly when one queued command holds it and Free exactly when
none does.  Hence a `Tick` that completes marks Busy a slot that was Free and
held by no command in the state the rendering thread had reached (and leaves
the other slots as they were there), and the oldest queued command, which can
always be executed, holds a slot that is Busy, so its `MarkFree` never hits a
slot that is not Busy. -/
theorem ring_slot_busy_iff_one_queued_command (N : Nat) (alloc : Heap → Addr) (noClear : Nat)
    (st : EngineState) (hr : Reachable N alloc noClear st) :
    (∀ r d, st.slotAt r = some d →
      (d.isFree = false ↔ refCount st.queue r = 1) ∧
      (d.isFree = true ↔ refCount st.queue r = 0)) ∧
    (∀ done fuel this st1,
      ImGUIWindow.TickConcurrent N alloc noClear done fuel this st = some st1 →
      ∃ m stm k d filled, st.consumeN m = some stm ∧
        stm.slotAt ⟨this, k⟩ = some d ∧ d.isFree = true ∧ refCount stm.queue ⟨this, k⟩ = 0 ∧
        st1.slotAt ⟨this, k⟩ = some filled ∧ filled.isFree = false ∧
        refCount st1.queue ⟨this, k⟩ = 1 ∧
        (∀ r, r ≠ ⟨this, k⟩ → st1.slotAt r = stm.slotAt r)) ∧
    (∀ cmd rest, st.queue = cmd :: rest →
      ∃ d trace, st.slotAt cmd.slot = some d ∧ d.isFree = false ∧
        cmd.Execute { st with queue := rest }
          = some (trace, EngineState.markFree { st with queue := rest } cmd.slot)) := by
  have hinv := RingInvariant_reachable N alloc noClear st hr
  refine ⟨?_, ?_, ?_⟩
  · intro r d hd
    obtain ⟨hiff, hle⟩ := hinv.1 r d hd
    refine ⟨hiff, ?_⟩
    constructor
    · intro hfree
      have hne : refCount st.queue r ≠ 1 := by
        intro h1
        have := hiff.mpr h1
        rw [hfree] at this
        cases this
      omega
    · intro h0
      cases hd' : d.isFree with
      | true => rfl
      | false =>
        have := hiff.mp hd'
        omega
  · intro done fuel this st1 h
    obtain ⟨w, s, stm, _, _, hm, hfill⟩ :=
      TickConcurrent_some N alloc noClear done fuel this st st1 h
    obtain ⟨stm', hm', hinvm, _⟩ := consumeN_total (done s.time) st hinv
    rw [hm] at hm'
    cases hm'
    have hinv1 := RingInvariant_fill N alloc noClear this s stm st1 hinvm hfill
    obtain ⟨_, d, filled, _, hslot, hfree, hbusy, _, _, hslots, _, _, _⟩ :=
      fill_effect N alloc noClear this s stm st1 hfill
    obtain ⟨hiff, hle⟩ := hinvm.1 _ d hslot
    have hzero : refCount stm.queue ⟨this, s.currentBuffer⟩ = 0 := by
      have hne : refCount stm.queue ⟨this, s.currentBuffer⟩ ≠ 1 := by
        intro h1
        have := hiff.mpr h1
        rw [hfree] at this
        cases this
      omega
    have hfilled : st1.slotAt ⟨this, s.currentBuffer⟩ = some filled := by
      rw [hslots, if_pos rfl]
    refine ⟨done s.time, stm, s.currentBuffer, d, filled, hm, hslot, hfree, hzero, hfilled,
      hbusy, (hinv1.1 _ filled hfilled).1.mp hbusy, ?_⟩
    intro r hne
    rw [hslots, if_neg hne]
  · intro cmd rest hq
    obtain ⟨d, hd, hbusy, _⟩ := consume_releases_busy st cmd rest hinv hq
    have hd' : EngineState.slotAt { st with queue := rest } cmd.slot = some d := hd
    obtain ⟨trace, ht⟩ := Execute_enabled cmd { st with queue := rest } d hd'
    exact ⟨d, trace, hd, hbusy, ht⟩

/-- C4 at a state only reached with the rendering thread at work during a
`Tick`: three `Tick` calls fill the ring, and the fourth takes slot 1 while
the two oldest commands finish. -/
theorem ring_slot_busy_iff_one_queued_command_witness :
    Reachable 3 Heap.fresh 0 ringOvertaken ∧
    (∀ r d, ringOvertaken.slotAt r = some d →
      (d.isFree = false ↔ refCount ringOvertaken.queue r = 1) ∧
      (d.isFree = true ↔ refCount ringOvertaken.queue r = 0)) ∧
    (∀ done fuel this st1,
      ImGUIWindow.TickConcurrent 3 Heap.fresh 0 done fuel this ringOvertaken = some st1 →
      ∃ m stm k d filled, ringOvertaken.consumeN m = some stm ∧
        stm.slotAt ⟨this, k⟩ = some d ∧ d.isFree = true ∧ refCount stm.queue ⟨this, k⟩ = 0 ∧
        st1.slotAt ⟨this, k⟩ = some filled ∧ filled.isFree = false ∧
        refCount st1.queue ⟨this, k⟩ = 1 ∧
        (∀ r, r ≠ ⟨this, k⟩ → st1.slotAt r = stm.slotAt r)) ∧
    (∀ cmd rest, ringOvertaken.queue = cmd :: rest →
      ∃ d trace, ringOvertaken.slotAt cmd.slot = some d ∧ d.isFree = false ∧
        cmd.Execute { ringOvertaken with queue := rest }
          = some (trace, EngineState.markFree { ringOvertaken with queue := rest } cmd.slot)) :=
  have h0 : Reachable 3 Heap.fresh 0 ringFresh := Reachable.init { cells := [] } [mainViewport]
  have h1 : Reachable 3 Heap.fresh 0 ringOne :=
    Reachable.step ringFresh ringOne h0
      (Step.produce (fun _ => 0) (fun _ => Nat.le_refl _) 1 0 ringFresh ringOne (by decide))
  have h2 : Reachable 3 Heap.fresh 0 ringTwo :=
    Reachable.step ringOne ringTwo h1
      (Step.produce (fun _ => 0) (fun _ => Nat.le_refl _) 1 0 ringOne ringTwo (by decide))
  have h3 : Reachable 3 Heap.fresh 0 ringFull :=
    Reachable.step ringTwo ringFull h2
      (Step.produce (fun _ => 0) (fun _ => Nat.le_refl _) 1 0 ringTwo ringFull (by decide))
  have h4 : Reachable 3 Heap.fresh 0 ringOvertaken :=
    Reachable.step ringFull ringOvertaken h3
      (Step.produce fifoPace (fun t => by unfold fifoPace; split <;> split <;> omega) 2 0
        ringFull ringOvertaken (by decide))
  ⟨h4, ring_slot_busy_iff_one_queued_command 3 Heap.fresh 0 ringOvertaken h4⟩

/-! ## Which slot `Tick` fills -/

/-- Every object of a well formed draw data is live. -/
theorem wellFormed_live (h : Heap) (dd : ImDrawData) (hwf : dd.WellFormed h) (a : Addr)
    (ha : a ∈ dd.addrs h) : ∃ o, h.read a = some o := by
  obtain ⟨⟨ls, hls⟩, _⟩ := hwf
  exact addrs_live h dd ls hls a ha

/-- A draw data reads the same, and is as well formed, on every heap that holds
its objects unchanged. -/
theorem wellFormed_congr (h h1 : Heap) (dd : ImDrawData) (hwf : dd.WellFormed h)
    (hsame : ∀ a, a ∈ dd.addrs h → h1.read a = h.read a) :
    dd.addrs h1 = dd.addrs h ∧ dd.readLists h1 = dd.readLists h ∧ dd.WellFormed h1 := by
  obtain ⟨⟨ls, hls⟩, harr⟩ := hwf
  rcases harr with hnone | ⟨arr, ptrs, harr, hptrs, hnd⟩
  · have haddrs : ∀ hX : Heap, dd.addrs hX = [] := by
      intro hX
      unfold ImDrawData.addrs
      rw [hnone]
    have hread : ∀ hX : Heap, dd.readLists hX = dd.readLists h := by
      intro hX
      unfold ImDrawData.readLists
      rw [hnone]
      cases toUInt32 dd.CmdListsCount with
      | zero => rfl
      | succ n => rfl
    refine ⟨by rw [haddrs, haddrs], hread h1, ⟨ls, by rw [hread h1]; exact hls⟩, Or.inl hnone⟩
  · obtain ⟨harrmem, hpmem⟩ := addrs_of_read h dd arr ptrs harr hptrs
    have hptrs1 : h1.read arr = some (HeapObj.listArray ptrs) := by
      rw [hsame arr harrmem]; exact hptrs
    have haddrs : dd.addrs h1 = dd.addrs h := by
      unfold ImDrawData.addrs
      rw [harr]
      simp only [hptrs, hptrs1]
    have hread : dd.readLists h1 = some ls := by
      obtain ⟨hlen, hall⟩ := (readLoop_eq_some_iff h _ _ 0 ls).mp hls
      apply (readLoop_eq_some_iff h1 _ _ 0 ls).mpr
      refine ⟨hlen, ?_⟩
      intro i hi
      obtain ⟨a, ptrs', p, l, e1, e2, e3, e4, e5⟩ := hall i hi
      rw [harr] at e1
      cases e1
      rw [hptrs] at e2
      cases e2
      rw [Nat.zero_add] at e3
      refine ⟨arr, ptrs, p, l, harr, hptrs1, by rw [Nat.zero_add]; exact e3, ?_, e5⟩
      rw [hsame p (hpmem i p hi e3)]
      exact e4
    exact ⟨haddrs, by rw [hread, hls], ⟨ls, hread⟩, Or.inr ⟨arr, ptrs, harr, hptrs1, hnd⟩⟩

/-- `Clear` on a Free slot with a well formed payload completes: it releases
the objects of the payload and nothing else, and leaves the empty draw data. -/
theorem Clear_total (h : Heap) (d : CImGUIDrawData) (hfree : d.isFree = true)
    (hwf : d.drawData.WellFormed h) :
    ∃ h1, d.Clear h = some (h1, { isFree := true, drawData := ImDrawData.Clear }) ∧
      (∀ a, a ∈ d.drawData.addrs h → h1.read a = none) ∧
      (∀ a, a ∉ d.drawData.addrs h → h1.read a = h.read a) := by
  obtain ⟨⟨ls, hpay⟩, harr⟩ := hwf
  rcases harr with hnull | ⟨arr, ptrs, harr, hptrs, hdist⟩
  · refine ⟨h, ?_, ?_, fun _ _ => rfl⟩
    · unfold CImGUIDrawData.Clear
      rw [hfree, hnull]
      rfl
    · intro a ha
      unfold ImDrawData.addrs at ha
      rw [hnull] at ha
      cases ha
  · obtain ⟨_, hall⟩ := (readLoop_eq_some_iff h d.drawData.CmdLists
      (toUInt32 d.drawData.CmdListsCount) 0 ls).mp hpay
    have hlive : ∀ i, 0 ≤ i → i < 0 + toUInt32 d.drawData.CmdListsCount →
        ∃ p l, ptrs.get? i = some (some p) ∧ h.read p = some (HeapObj.drawList l) := by
      intro i _ hi
      obtain ⟨a, ptrs1, p, l, h1, h2, h3, h4, _⟩ := hall i (by omega)
      rw [harr] at h1
      cases h1
      rw [hptrs] at h2
      cases h2
      rw [Nat.zero_add] at h3
      exact ⟨p, l, h3, h4⟩
    have hneq : ∀ i j, 0 ≤ i → i < j → j < 0 + toUInt32 d.drawData.CmdListsCount →
        ptrs.get? i ≠ ptrs.get? j := by
      intro i j _ hij hj
      obtain ⟨pj, _, hpj, _⟩ := hlive j (Nat.zero_le _) hj
      have hjlen : j < ptrs.length := by
        rcases Nat.lt_or_ge j ptrs.length with hlt | hge
        · exact hlt
        · rw [List.get?_eq_none.mpr hge] at hpj
          cases hpj
      have hnd := List.nodup_iff_getElem?_ne_getElem?.mp hdist i j hij
        (by rw [List.length_take]; omega)
      rw [List.getElem?_take, List.getElem?_take, if_pos (by omega), if_pos (by omega)] at hnd
      simpa [List.get?_eq_getElem?] using hnd
    obtain ⟨h1, hloop, harr1, hfreed, hkept⟩ :=
      Clear_loop_total arr ptrs (toUInt32 d.drawData.CmdListsCount) 0 h hptrs hlive hneq
    have hc : d.Clear h = some (h1.free arr, { isFree := true, drawData := ImDrawData.Clear }) := by
      unfold CImGUIDrawData.Clear
      rw [hfree, harr]
      simp only [if_true, hloop, harr1]
    have haddrs : d.drawData.addrs h =
        arr :: (ptrs.take (toUInt32 d.drawData.CmdListsCount)).filterMap id := by
      unfold ImDrawData.addrs
      rw [harr]
      simp only [hptrs]
    refine ⟨h1.free arr, hc, ?_, ?_⟩
    · intro a ha
      rw [haddrs] at ha
      rw [Heap.read_free]
      split
      · rfl
      · rcases List.mem_cons.mp ha with heq | hmem
        · rename_i hne; exact absurd heq hne
        · obtain ⟨o, ho, hoa⟩ := List.mem_filterMap.mp hmem
          simp only [id] at hoa
          subst hoa
          obtain ⟨i, hi, hget⟩ := List.mem_iff_getElem.mp ho
          rw [List.length_take] at hi
          rw [List.getElem_take] at hget
          exact hfreed i a (Nat.zero_le _) (by omega)
            (by rw [List.get?_eq_getElem?, List.getElem?_eq_getElem (by omega), hget])
    · intro a ha
      rw [haddrs] at ha
      have hne : a ≠ arr := fun heq => ha (by rw [heq]; exact List.mem_cons_self _ _)
      rw [Heap.read_free, if_neg hne]
      apply hkept
      intro i _ hi hget
      apply ha
      apply List.mem_cons_of_mem
      apply List.mem_filterMap.mpr
      refine ⟨some a, ?_, rfl⟩
      rw [List.get?_eq_getElem?] at hget
      rw [List.mem_take_iff_getElem]
      obtain ⟨hlen, hg⟩ := List.getElem?_eq_some_iff.mp hget
      exact ⟨i, by omega, hg⟩


/-- The copy loop of `SetDrawData`, with the clones told apart: as
`SetDrawData_loop_total`, and the pointers the loop stores are pairwise
distinct. -/
theorem SetDrawData_loop_clones (alloc : Heap → Addr)
    (hfresh : ∀ h : Heap, h.read (alloc h) = none) (src : Option Addr) (arr : Addr)
    (ls : List ImDrawList) (r index : Nat) (h : Heap) (dptrs : List (Option Addr))
    (harr : h.read arr = some (HeapObj.listArray dptrs)) (hlen : index + r = dptrs.length)
    (hsrc : ∀ i, index ≤ i → i < index + r → ∃ sa sptrs p l, src = some sa ∧ sa ≠ arr ∧
      h.read sa = some (HeapObj.listArray sptrs) ∧ sptrs.get? i = some (some p) ∧ p ≠ arr ∧
      h.read p = some (HeapObj.drawList l) ∧ ls.get? i = some l) :
    ∃ hfinal dptrs1, CImGUIDrawData.SetDrawData.loop alloc src arr r index h = some hfinal ∧
      hfinal.read arr = some (HeapObj.listArray dptrs1) ∧ dptrs1.length = dptrs.length ∧
      (∀ i, i < index → dptrs1.get? i = dptrs.get? i) ∧
      (∀ i, index ≤ i → i < index + r → ∃ q l, ls.get? i = some l ∧
        dptrs1.get? i = some (some q) ∧ q ≠ arr ∧
        hfinal.read q = some (HeapObj.drawList l.CloneOutput) ∧ h.read q = none) ∧
      (∀ a o, h.read a = some o → a ≠ arr → hfinal.read a = some o) ∧
      (∀ i j, index ≤ i → i < j → j < index + r → dptrs1.get? i ≠ dptrs1.get? j) := by
  induction r generalizing index h dptrs with
  | zero =>
    exact ⟨h, dptrs, rfl, harr, rfl, fun _ _ => rfl,
      fun i h1 h2 => absurd h2 (by omega), fun a o ha _ => ha,
      fun i j h1 h2 h3 => absurd h3 (by omega)⟩
  | succ r ih =>
    obtain ⟨sa, sptrs, p, l, hsa, hsaarr, hsptrs, hp, hparr, hl, hls⟩ :=
      hsrc index (Nat.le_refl _) (by omega)
    have hq : h.read (alloc h) = none := hfresh h
    have hqarr : alloc h ≠ arr := by
      intro heq; rw [heq, harr] at hq; cases hq
    have hidx : index < dptrs.length := by omega
    have hnew : ∀ a o, h.read a = some o → a ≠ arr →
        ((h.write (alloc h) (HeapObj.drawList l.CloneOutput)).write arr
          (HeapObj.listArray (dptrs.set index (some (alloc h))))).read a = some o := by
      intro a o ha hne
      have haq : a ≠ alloc h := by
        intro heq; rw [heq, hq] at ha; cases ha
      rw [Heap.read_write, if_neg hne, Heap.read_write, if_neg haq]
      exact ha
    obtain ⟨hfinal, dptrs1, hloop, harr1, hlen1, hpre, hnewer, hframe, hdist⟩ :=
      ih (index + 1)
        ((h.write (alloc h) (HeapObj.drawList l.CloneOutput)).write arr
          (HeapObj.listArray (dptrs.set index (some (alloc h)))))
        (dptrs.set index (some (alloc h)))
        (by rw [Heap.read_write, if_pos rfl])
        (by simp only [List.length_set]; omega)
        (by
          intro i hi1 hi2
          obtain ⟨sa', sptrs', p', l', h1, h2, h3, h4, h5, h6, h7⟩ :=
            hsrc i (by omega) (by omega)
          exact ⟨sa', sptrs', p', l', h1, h2, hnew _ _ h3 h2, h4, h5, hnew _ _ h6 h5, h7⟩)
    have hfirst : dptrs1.get? index = some (some (alloc h)) := by
      rw [hpre index (by omega)]
      simp only [List.get?_eq_getElem?]
      rw [List.getElem?_set_self hidx]
    refine ⟨hfinal, dptrs1, ?_, harr1, by rw [hlen1, List.length_set], ?_, ?_, ?_, ?_⟩
    · subst hsa
      have harr' : (h.write (alloc h) (HeapObj.drawList l.CloneOutput)).read arr
          = some (HeapObj.listArray dptrs) := by
        rw [Heap.read_write, if_neg (Ne.symm hqarr)]; exact harr
      simp only [CImGUIDrawData.SetDrawData.loop, hsptrs, hp, hl, harr', hidx, if_true]
      exact hloop
    · intro i hi
      rw [hpre i (by omega)]
      simp only [List.get?_eq_getElem?]
      rw [List.getElem?_set_ne (by omega)]
    · intro i hi1 hi2
      by_cases hi : i = index
      · subst hi
        refine ⟨alloc h, l, hls, hfirst, hqarr, ?_, hq⟩
        apply hframe _ _ _ hqarr
        rw [Heap.read_write, if_neg hqarr, Heap.read_write, if_pos rfl]
      · obtain ⟨q', l', h1, h2, h3, h4, h5⟩ := hnewer i (by omega) (by omega)
        refine ⟨q', l', h1, h2, h3, h4, ?_⟩
        rw [Heap.read_write, if_neg h3, Heap.read_write] at h5
        split at h5
        · cases h5
        · exact h5
    · intro a o ha hne
      exact hframe a o (hnew a o ha hne) hne
    · intro i j hi hij hj
      by_cases hii : i = index
      · subst hii
        obtain ⟨q', l', _, h2, h3, _, h5⟩ := hnewer j (by omega) (by omega)
        rw [hfirst, h2]
        intro heq
        simp only [Option.some.injEq] at heq
        rw [← heq, Heap.read_write, if_neg hqarr, Heap.read_write, if_pos rfl] at h5
        cases h5
      · exact hdist i j (by omega) hij (by omega)

/-- `SetDrawData` on memory in order: called on a Free slot with a well formed
payload and a valid, well formed source that shares no object with the slot,
it completes.  The slot's new payload is well formed; every object that was
live and did not belong to the slot is unchanged; and the new payload sits at
addresses that were not in use or belonged to the slot. -/
theorem SetDrawData_memory (alloc : Heap → Addr)
    (hfresh : ∀ h : Heap, h.read (alloc h) = none) (h : Heap) (d : CImGUIDrawData)
    (src : ImDrawData) (hfree : d.isFree = true) (hvalid : src.Valid = true)
    (hcount : 0 ≤ src.CmdListsCount) (hint : src.CmdListsCount < 2147483648)
    (hdwf : d.drawData.WellFormed h) (hswf : src.WellFormed h)
    (hapart : ∀ a, a ∈ src.addrs h → a ∉ d.drawData.addrs h) :
    ∃ h3 filled, d.SetDrawData alloc h (some src) = some (h3, filled) ∧
      filled.isFree = false ∧ filled.drawData.WellFormed h3 ∧
      (∀ a o, a ∉ d.drawData.addrs h → h.read a = some o → h3.read a = some o) ∧
      (∀ a, a ∈ filled.drawData.addrs h3 → a ∈ d.drawData.addrs h ∨ h.read a = none) := by
  obtain ⟨h1, hclear, hfreed, hkept⟩ := Clear_total h d hfree hdwf
  obtain ⟨⟨ls, hsrc⟩, _⟩ := hswf
  have hn : toUInt32 src.CmdListsCount = src.CmdListsCount.toNat :=
    toUInt32_of_int _ hcount hint
  obtain ⟨hlen, hall⟩ := (readLoop_eq_some_iff h _ _ 0 ls).mp hsrc
  rw [hn] at hlen hall
  have hkeep : ∀ a, a ∈ src.addrs h → h1.read a = h.read a :=
    fun a ha => hkept a (hapart a ha)
  have harrfresh : h1.read (alloc h1) = none := hfresh h1
  have harrsrc : alloc h1 ∉ src.addrs h := by
    intro hmem
    obtain ⟨o, ho⟩ := addrs_live h src ls hsrc _ hmem
    rw [← hkeep _ hmem, harrfresh] at ho
    cases ho
  have hstart : ∀ a, a ∈ src.addrs h →
      (h1.write (alloc h1)
        (HeapObj.listArray (List.replicate src.CmdListsCount.toNat none))).read a
        = h.read a := by
    intro a ha
    have hne : a ≠ alloc h1 := fun heq => harrsrc (heq ▸ ha)
    rw [Heap.read_write, if_neg hne, hkeep a ha]
  obtain ⟨h3, dptrs1, hloop, harr3, hlen3, _, hclones, hframe, hdist⟩ :=
    SetDrawData_loop_clones alloc hfresh src.CmdLists (alloc h1) ls src.CmdListsCount.toNat 0
      (h1.write (alloc h1)
        (HeapObj.listArray (List.replicate src.CmdListsCount.toNat none)))
      (List.replicate src.CmdListsCount.toNat none)
      (by rw [Heap.read_write, if_pos rfl])
      (by simp)
      (by
        intro i _ hi
        rw [Nat.zero_add] at hi
        obtain ⟨sa, sptrs, p, l, h1', h2, h3', h4, h5⟩ := hall i hi
        rw [Nat.zero_add] at h3'
        obtain ⟨hsa_mem, hp_mem⟩ := addrs_of_read h src sa sptrs h1' h2
        have hp := hp_mem i p (by rw [hn]; exact hi) h3'
        refine ⟨sa, sptrs, p, l, h1', fun heq => harrsrc (heq ▸ hsa_mem), ?_, h3',
          fun heq => harrsrc (heq ▸ hp), ?_, h5⟩
        · rw [hstart sa hsa_mem]; exact h2
        · rw [hstart p hp]; exact h4)
  have hlen3 : dptrs1.length = src.CmdListsCount.toNat := by
    rw [hlen3, List.length_replicate]
  have hset : d.SetDrawData alloc h (some src)
      = some (h3, { isFree := false, drawData := { src with CmdLists := some (alloc h1) } }) := by
    unfold CImGUIDrawData.SetDrawData
    simp only [hfree, hvalid, Bool.and_self, if_true, hclear, Int.not_lt.mpr hcount, if_false]
    rw [hn, hloop]
  have hnone : ∀ a, h1.read a = none → a ∈ d.drawData.addrs h ∨ h.read a = none := by
    intro a ha
    by_cases hmem : a ∈ d.drawData.addrs h
    · exact Or.inl hmem
    · right; rw [← hkept a hmem]; exact ha
  refine ⟨h3, _, hset, rfl, ⟨⟨ls.map ImDrawList.CloneOutput, ?_⟩, Or.inr ⟨alloc h1, dptrs1, rfl, harr3, ?_⟩⟩, ?_, ?_⟩
  · unfold ImDrawData.readLists
    simp only [hn]
    apply (readLoop_eq_some_iff h3 _ _ 0 _).mpr
    refine ⟨by simp [hlen], ?_⟩
    intro i hi
    obtain ⟨q, l, hl, hq, _, hq3, _⟩ := hclones i (Nat.zero_le _) (by omega)
    refine ⟨alloc h1, dptrs1, q, l.CloneOutput, rfl, harr3, by rw [Nat.zero_add]; exact hq,
      hq3, ?_⟩
    simp only [List.get?_eq_getElem?, List.getElem?_map] at hl ⊢
    rw [hl]; rfl
  · simp only [hn]
    apply List.nodup_iff_getElem?_ne_getElem?.mpr
    intro i j hij hj
    rw [List.length_take] at hj
    rw [List.getElem?_take, List.getElem?_take, if_pos (by omega), if_pos (by omega)]
    have := hdist i j (Nat.zero_le _) hij (by omega)
    simpa [List.get?_eq_getElem?] using this
  · intro a o ha hlive
    have h1a : h1.read a = some o := by rw [hkept a ha]; exact hlive
    have hne : a ≠ alloc h1 := by
      intro heq; rw [heq, harrfresh] at h1a; cases h1a
    apply hframe a o _ hne
    rw [Heap.read_write, if_neg hne]
    exact h1a
  · intro a ha
    unfold ImDrawData.addrs at ha
    simp only [harr3, hn] at ha
    rcases List.mem_cons.mp ha with rfl | hmem
    · exact hnone _ harrfresh
    · obtain ⟨x, hx, hxa⟩ := List.mem_filterMap.mp hmem
      simp only [id] at hxa
      subst hxa
      obtain ⟨i, hi, hget⟩ := List.mem_take_iff_getElem.mp hx
      obtain ⟨q, l, _, hq, hqarr, _, hqnone⟩ := hclones i (Nat.zero_le _) (by omega)
      rw [List.get?_eq_getElem?, List.getElem?_eq_getElem (by omega), hget] at hq
      cases hq
      rw [Heap.read_write, if_neg hqarr] at hqnone
      exact hnone _ hqnone


/-! ## Releases and memory -/

/-- A turn of the rendering thread is a release and takes the oldest command
off the queue. -/
theorem consume_released (st st1 : EngineState) (h : st.consume = some st1) :
    st.ReleasedFrom st1 ∧ st1.queue = st.queue.drop 1 := by
  unfold EngineState.consume at h
  cases hq : st.queue with
  | nil =>
    rw [hq] at h
    simp only [Option.some.injEq] at h
    subst h
    exact ⟨ReleasedFrom_refl st, by rw [hq]; rfl⟩
  | cons cmd rest =>
    rw [hq] at h
    simp only at h
    split at h
    · cases h
    · rename_i trace st2 hex
      simp only [Option.some.injEq] at h
      subst h
      obtain ⟨d, hd, rfl⟩ := Execute_some cmd _ _ trace hex
      obtain ⟨h1, h2, h3, h4⟩ := markFree_released { st with queue := rest } cmd.slot d hd
      exact ⟨⟨h1, h2, ⟨1, by rw [h3, hq]; rfl⟩, h4⟩, by rw [h3]; rfl⟩

/-- Any number of turns of the rendering thread is a release and takes that
many commands off the queue. -/
theorem consumeN_released (n : Nat) (st st1 : EngineState) (h : st.consumeN n = some st1) :
    st.ReleasedFrom st1 ∧ st1.queue = st.queue.drop n := by
  induction n generalizing st with
  | zero =>
    simp only [EngineState.consumeN, Option.some.injEq] at h
    subst h
    exact ⟨ReleasedFrom_refl st, rfl⟩
  | succ n ih =>
    simp only [EngineState.consumeN] at h
    split at h
    · cases h
    · rename_i st2 h2
      obtain ⟨hr1, hq1⟩ := consume_released st st2 h2
      obtain ⟨hr2, hq2⟩ := ih st2 h
      refine ⟨ReleasedFrom_trans st st2 st1 hr1 hr2, ?_⟩
      rw [hq2, hq1, List.drop_drop, Nat.add_comm]

/-- A release keeps every window in place, with its viewport, cursor and ring
length. -/
theorem ReleasedFrom_window_back (st st1 : EngineState) (hrel : st.ReleasedFrom st1) (i : Nat)
    (w1 : ImGUIWindow) (hw1 : st1.windows.get? i = some w1) :
    ∃ w, st.windows.get? i = some w ∧ w1.imguiViewport = w.imguiViewport ∧
      w1.indexCurrentBuffer = w.indexCurrentBuffer ∧
      w1.drawDataBuffers.length = w.drawDataBuffers.length ∧
      ∀ k d, w.drawDataBuffers.get? k = some d →
        ∃ d1, w1.drawDataBuffers.get? k = some d1 ∧ d1.drawData = d.drawData ∧
          (d.isFree = true → d1.isFree = true) := by
  obtain ⟨_, hlen, _, hwin⟩ := hrel
  have hi : i < st.windows.length := by
    rw [← hlen]
    rw [List.get?_eq_getElem?] at hw1
    exact (List.getElem?_eq_some_iff.mp hw1).1
  have hw : st.windows.get? i = some (st.windows[i]) := by
    rw [List.get?_eq_getElem?, List.getElem?_eq_getElem hi]
  obtain ⟨w2, hw2, hrest⟩ := hwin i _ hw
  rw [hw1] at hw2
  cases hw2
  exact ⟨_, hw, hrest⟩

/-- A release keeps the payload of every slot. -/
theorem ReleasedFrom_slot_back (st st1 : EngineState) (hrel : st.ReleasedFrom st1) (r : SlotRef)
    (d1 : CImGUIDrawData) (hd1 : st1.slotAt r = some d1) :
    ∃ d, st.slotAt r = some d ∧ d1.drawData = d.drawData := by
  unfold EngineState.slotAt at hd1
  split at hd1
  · cases hd1
  · rename_i w1 hw1
    obtain ⟨w, hw, _, _, hlen, hslots⟩ := ReleasedFrom_window_back st st1 hrel r.window w1 hw1
    have hk : r.index < w.drawDataBuffers.length := by
      rw [← hlen]
      rw [List.get?_eq_getElem?] at hd1
      exact (List.getElem?_eq_some_iff.mp hd1).1
    have hd : w.drawDataBuffers.get? r.index = some (w.drawDataBuffers[r.index]) := by
      rw [List.get?_eq_getElem?, List.getElem?_eq_getElem hk]
    obtain ⟨d2, hd2, hpay, _⟩ := hslots r.index _ hd
    rw [hd1] at hd2
    cases hd2
    refine ⟨_, ?_, hpay⟩
    unfold EngineState.slotAt
    simp only [hw, hd]

/-- A release leaves the memory in order. -/
theorem MemoryOK_released (st st1 : EngineState) (hrel : st.ReleasedFrom st1)
    (hmem : MemoryOK st) : MemoryOK st1 := by
  obtain ⟨hwf, hapart, hsrc⟩ := hmem
  have hheap : st1.heap = st.heap := hrel.1
  refine ⟨?_, ?_, ?_⟩
  · intro r d1 hd1
    obtain ⟨d, hd, hpay⟩ := ReleasedFrom_slot_back st st1 hrel r d1 hd1
    rw [hheap, hpay]
    exact hwf r d hd
  · intro r r' d1 d1' hne hd1 hd1'
    obtain ⟨d, hd, hpay⟩ := ReleasedFrom_slot_back st st1 hrel r d1 hd1
    obtain ⟨d', hd', hpay'⟩ := ReleasedFrom_slot_back st st1 hrel r' d1' hd1'
    rw [hheap, hpay, hpay']
    exact hapart r r' d d' hne hd hd'
  · intro i w1 hw1
    obtain ⟨w, hw, hv, _, _, _⟩ := ReleasedFrom_window_back st st1 hrel i w1 hw1
    obtain ⟨src, h1, h2, h3, h4, h5, h6⟩ := hsrc i w hw
    refine ⟨src, by rw [hv]; exact h1, h2, h3, h4, by rw [hheap]; exact h5, ?_⟩
    intro r d1 hd1
    obtain ⟨d, hd, hpay⟩ := ReleasedFrom_slot_back st st1 hrel r d1 hd1
    rw [hheap, hpay]
    exact h6 r d hd

/-- A fill leaves the memory in order. -/
theorem MemoryOK_fill (N : Nat) (alloc : Heap → Addr)
    (hfresh : ∀ h : Heap, h.read (alloc h) = none) (noClear this : Nat) (s : ScanState)
    (st st1 : EngineState) (hmem : MemoryOK st)
    (h : ImGUIWindow.fill N alloc noClear this s st = some st1) : MemoryOK st1 := by
  obtain ⟨w, d, filled, hw, hslot, hfree, _, hset, _, hslots, hothers, hthis, _⟩ :=
    fill_effect N alloc noClear this s st st1 h
  obtain ⟨hwf, hapart, hsrc⟩ := hmem
  obtain ⟨src, hdd, hvalid, hcount, hint, hswf, hsapart⟩ := hsrc this w hw
  rw [hdd] at hset
  obtain ⟨h3, filled', hset', _, hfwf, hkeep, hnew⟩ :=
    SetDrawData_memory alloc hfresh st.heap d src hfree hvalid hcount hint (hwf _ d hslot) hswf
      (fun a ha => hsapart _ d hslot a ha)
  rw [hset] at hset'
  simp only [Option.some.injEq, Prod.mk.injEq] at hset'
  obtain ⟨hh, hf⟩ := hset'
  subst hf
  rw [← hh] at hfwf hkeep hnew
  -- a payload apart from the filled slot reads as before
  have hsame : ∀ dd : ImDrawData, dd.WellFormed st.heap →
      (∀ a, a ∈ dd.addrs st.heap → a ∉ d.drawData.addrs st.heap) →
      dd.addrs st1.heap = dd.addrs st.heap ∧ dd.WellFormed st1.heap := by
    intro dd hddwf hddapart
    have := wellFormed_congr st.heap st1.heap dd hddwf (by
      intro a ha
      obtain ⟨o, ho⟩ := wellFormed_live st.heap dd hddwf a ha
      rw [hkeep a o (hddapart a ha) ho, ho])
    exact ⟨this.1, this.2.2⟩
  have hfar : ∀ dd : ImDrawData, dd.WellFormed st.heap →
      (∀ a, a ∈ dd.addrs st.heap → a ∉ d.drawData.addrs st.heap) →
      ∀ a, a ∈ dd.addrs st.heap → a ∉ filled.drawData.addrs st1.heap := by
    intro dd hddwf hddapart a ha hmem
    obtain ⟨o, ho⟩ := wellFormed_live st.heap dd hddwf a ha
    rcases hnew a hmem with hin | hnone
    · exact hddapart a ha hin
    · rw [hnone] at ho
      cases ho
  have hold : ∀ r d1, r ≠ (⟨this, s.currentBuffer⟩ : SlotRef) → st1.slotAt r = some d1 →
      st.slotAt r = some d1 := by
    intro r d1 hr hd1
    rw [hslots r, if_neg hr] at hd1
    exact hd1
  have hnewslot : ∀ d1, st1.slotAt ⟨this, s.currentBuffer⟩ = some d1 → d1 = filled := by
    intro d1 hd1
    rw [hslots _, if_pos rfl] at hd1
    exact (Option.some.inj hd1).symm
  refine ⟨?_, ?_, ?_⟩
  · intro r d1 hd1
    by_cases hr : r = ⟨this, s.currentBuffer⟩
    · subst hr
      rw [hnewslot d1 hd1]
      exact hfwf
    · have hd := hold r d1 hr hd1
      exact (hsame d1.drawData (hwf r d1 hd) (hapart r _ d1 d hr hd hslot)).2
  · intro r r' d1 d1' hne hd1 hd1'
    by_cases hr : r = ⟨this, s.currentBuffer⟩
    · subst hr
      have hr' : r' ≠ ⟨this, s.currentBuffer⟩ := Ne.symm hne
      have hd' := hold r' d1' hr' hd1'
      rw [hnewslot d1 hd1]
      rw [(hsame d1'.drawData (hwf r' d1' hd') (hapart r' _ d1' d hr' hd' hslot)).1]
      intro a ha ha'
      exact hfar d1'.drawData (hwf r' d1' hd') (hapart r' _ d1' d hr' hd' hslot) a ha' ha
    · have hd := hold r d1 hr hd1
      rw [(hsame d1.drawData (hwf r d1 hd) (hapart r _ d1 d hr hd hslot)).1]
      by_cases hr' : r' = ⟨this, s.currentBuffer⟩
      · subst hr'
        rw [hnewslot d1' hd1']
        exact hfar d1.drawData (hwf r d1 hd) (hapart r _ d1 d hr hd hslot)
      · have hd' := hold r' d1' hr' hd1'
        rw [(hsame d1'.drawData (hwf r' d1' hd') (hapart r' _ d1' d hr' hd' hslot)).1]
        exact hapart r r' d1 d1' hne hd hd'
  · intro i w1 hw1
    have hview : ∃ w0, st.windows.get? i = some w0 ∧ w1.imguiViewport = w0.imguiViewport := by
      by_cases hi : i = this
      · subst hi
        rw [hthis] at hw1
        cases hw1
        exact ⟨w, hw, rfl⟩
      · rw [hothers i hi] at hw1
        exact ⟨w1, hw1, rfl⟩
    obtain ⟨w0, hw0, hv⟩ := hview
    obtain ⟨src0, g1, g2, g3, g4, g5, g6⟩ := hsrc i w0 hw0
    have hs0 := hsame src0 g5 (fun a ha => g6 _ d hslot a ha)
    refine ⟨src0, by rw [hv]; exact g1, g2, g3, g4, hs0.2, ?_⟩
    intro r d1 hd1
    rw [hs0.1]
    by_cases hr : r = ⟨this, s.currentBuffer⟩
    · subst hr
      rw [hnewslot d1 hd1]
      exact hfar src0 g5 (fun a ha => g6 _ d hslot a ha)
    · have hd := hold r d1 hr hd1
      rw [(hsame d1.drawData (hwf r d1 hd) (hapart r _ d1 d hr hd hslot)).1]
      exact g6 r d1 hd

/-- A completed `Tick` leaves the memory in order, whatever the rendering
thread did meanwhile. -/
theorem MemoryOK_TickConcurrent (N : Nat) (alloc : Heap → Addr)
    (hfresh : ∀ h : Heap, h.read (alloc h) = none) (noClear : Nat)
    (done : Nat → Nat) (fuel this : Nat) (st st1 : EngineState) (hmem : MemoryOK st)
    (h : ImGUIWindow.TickConcurrent N alloc noClear done fuel this st = some st1) :
    MemoryOK st1 := by
  obtain ⟨w, s, stm, _, _, hm, hfill⟩ :=
    TickConcurrent_some N alloc noClear done fuel this st st1 h
  obtain ⟨hrel, _⟩ := consumeN_released (done s.time) st stm hm
  exact MemoryOK_fill N alloc hfresh noClear this s stm st1
    (MemoryOK_released st stm hrel hmem) hfill


/-! ## `Tick` returns -/

/-- A flag that reads Free belongs to a slot that exists and is Free. -/
theorem flag_true_slot (w : ImGUIWindow) (i : Nat) (h : w.flags.getD i false = true) :
    ∃ d, w.drawDataBuffers.get? i = some d ∧ d.isFree = true := by
  have hlt : i < w.flags.length := by
    by_contra hge
    rw [List.getD_eq_default _ _ (Nat.le_of_not_lt hge)] at h
    cases h
  have hlt' : i < w.drawDataBuffers.length := by simpa [ImGUIWindow.flags] using hlt
  refine ⟨w.drawDataBuffers[i], by rw [List.get?_eq_getElem?, List.getElem?_eq_getElem hlt'], ?_⟩
  rw [List.getD_eq_getElem _ _ hlt] at h
  simpa [ImGUIWindow.flags, CImGUIDrawData.IsFree] using h

/-- A slot that exists and is Free reads Free. -/
theorem slot_flag_true (w : ImGUIWindow) (i : Nat) (d : CImGUIDrawData)
    (hd : w.drawDataBuffers.get? i = some d) (hfree : d.isFree = true) :
    w.flags.getD i false = true := by
  rw [List.get?_eq_getElem?] at hd
  obtain ⟨hlt, hget⟩ := List.getElem?_eq_some_iff.mp hd
  have hlt' : i < w.flags.length := by simpa [ImGUIWindow.flags] using hlt
  rw [List.getD_eq_getElem _ _ hlt']
  simp only [ImGUIWindow.flags, List.getElem_map, CImGUIDrawData.IsFree, hget]
  exact hfree

/-- A flag that reads Free still reads Free after a release. -/
theorem released_flag (st st1 : EngineState) (hrel : st.ReleasedFrom st1) (this : Nat)
    (w : ImGUIWindow) (hw : st.windows.get? this = some w) (i : Nat)
    (h : w.flags.getD i false = true) :
    ∃ w1, st1.windows.get? this = some w1 ∧ w1.flags.getD i false = true := by
  obtain ⟨w1, hw1, _, _, _, hslots⟩ := hrel.2.2.2 this w hw
  obtain ⟨d, hd, hfree⟩ := flag_true_slot w i h
  obtain ⟨d1, hd1, _, hf⟩ := hslots i d hd
  exact ⟨w1, hw1, slot_flag_true w1 i d1 hd1 (hf hfree)⟩

/-- `Tick` returns.  Let the bookkeeping between rings and queue hold and the
memory be in order, let the window's ring have `N` slots and its cursor be in
range, and let the rendering thread never undo work (`done` does not
decrease).  If a slot of the window is Free on entry, or the rendering thread
has executed every queued command by some read `T` that the fuel covers, then
the call completes. -/
theorem TickConcurrent_total (N : Nat) (alloc : Heap → Addr)
    (hfresh : ∀ h : Heap, h.read (alloc h) = none) (noClear : Nat)
    (done : Nat → Nat) (hdone : ∀ t, done t ≤ done (t + 1)) (fuel this : Nat)
    (st : EngineState) (w : ImGUIWindow) (hinv : RingInvariant st) (hmem : MemoryOK st)
    (hw : st.windows.get? this = some w) (hlen : w.drawDataBuffers.length = N)
    (hc : w.indexCurrentBuffer < N) (hfuel : 0 < fuel)
    (hlive : (∃ k, w.flags.getD k false = true) ∨ ∃ T, T < fuel ∧ st.queue.length ≤ done T) :
    ∃ st1, ImGUIWindow.TickConcurrent N alloc noClear done fuel this st = some st1 := by
  have hmono := observe_mono this done st hinv hdone
  -- some slot reads Free at some read that the fuel covers
  have hsome : ∃ f T, f < N ∧ T < fuel ∧ ImGUIWindow.observe this done st T f = true := by
    rcases hlive with ⟨k, hk⟩ | ⟨T, hT, hq⟩
    · obtain ⟨st0, h0, _, hrel0⟩ := consumeN_total (done 0) st hinv
      obtain ⟨w0, hw0, hflag⟩ := released_flag st st0 hrel0 this w hw k hk
      obtain ⟨d, hd, _⟩ := flag_true_slot w k hk
      have hkN : k < N := by
        rw [← hlen]
        rw [List.get?_eq_getElem?] at hd
        exact (List.getElem?_eq_some_iff.mp hd).1
      refine ⟨k, 0, hkN, hfuel, ?_⟩
      unfold ImGUIWindow.observe
      simp only [h0, hw0]
      exact hflag
    · obtain ⟨stT, hT1, hinvT, hrelT⟩ := consumeN_total (done T) st hinv
      obtain ⟨_, hqT⟩ := consumeN_released (done T) st stT hT1
      have hempty : stT.queue = [] := by
        rw [hqT]
        exact List.drop_eq_nil_of_le hq
      obtain ⟨wT, hwT, _, _, hlenT, _⟩ := hrelT.2.2.2 this w hw
      have hcT : w.indexCurrentBuffer < wT.drawDataBuffers.length := by
        rw [hlenT, hlen]; exact hc
      have hdT : wT.drawDataBuffers.get? w.indexCurrentBuffer
          = some (wT.drawDataBuffers[w.indexCurrentBuffer]) := by
        rw [List.get?_eq_getElem?, List.getElem?_eq_getElem hcT]
      have hslot : stT.slotAt ⟨this, w.indexCurrentBuffer⟩
          = some (wT.drawDataBuffers[w.indexCurrentBuffer]) := by
        rw [slotAt_of_window stT this _ wT hwT, hdT]
      obtain ⟨hiff, _⟩ := hinvT.1 _ _ hslot
      have hfree : (wT.drawDataBuffers[w.indexCurrentBuffer]).isFree = true := by
        cases hb : (wT.drawDataBuffers[w.indexCurrentBuffer]).isFree with
        | true => rfl
        | false =>
          have := hiff.mp hb
          rw [hempty] at this
          simp [refCount] at this
      refine ⟨w.indexCurrentBuffer, T, hc, hT, ?_⟩
      unfold ImGUIWindow.observe
      simp only [hT1, hwT]
      exact slot_flag_true wT _ _ hdT hfree
  obtain ⟨f, T, hf, hT, hobs⟩ := hsome
  obtain ⟨s, hs, hsN, _, hsfree⟩ :=
    acquire_total N (ImGUIWindow.observe this done st) hmono f T hf hobs fuel
      w.indexCurrentBuffer hc hT
  obtain ⟨stm, hm, _, hrelm⟩ := consumeN_total (done s.time) st hinv
  have hmemm := MemoryOK_released st stm hrelm hmem
  unfold ImGUIWindow.observe at hsfree
  simp only [hm] at hsfree
  cases hwm : stm.windows.get? this with
  | none =>
    rw [hwm] at hsfree
    cases hsfree
  | some wm =>
    rw [hwm] at hsfree
    simp only at hsfree
    obtain ⟨d, hd, hdfree⟩ := flag_true_slot wm s.currentBuffer hsfree
    have hslot : stm.slotAt ⟨this, s.currentBuffer⟩ = some d := by
      rw [slotAt_of_window stm this _ wm hwm, hd]
    obtain ⟨src, hdd, hvalid, hcount, hint, hswf, hsapart⟩ := hmemm.2.2 this wm hwm
    obtain ⟨h3, filled, hset, _⟩ :=
      SetDrawData_memory alloc hfresh stm.heap d src hdfree hvalid hcount hint
        (hmemm.1 _ d hslot) hswf (fun a ha => hsapart _ d hslot a ha)
    rw [← hdd] at hset
    have hfill := fill_total N alloc noClear this s stm wm d filled h3 hwm hd hset
    have htick : ImGUIWindow.TickConcurrent N alloc noClear done fuel this st
        = ImGUIWindow.fill N alloc noClear this s stm := by
      unfold ImGUIWindow.TickConcurrent
      simp only [hw, hs, hm]
    exact ⟨_, htick.trans hfill⟩

/-- What a completed `Tick` leaves of the windows and the queue: the windows
stay in place with their viewports and ring lengths, the queue grows by at
most one command, the cursor of the ticked window is in range, and the other
windows keep their cursor and every flag that read Free. -/
theorem TickConcurrent_frame (N : Nat) (hN : 0 < N) (alloc : Heap → Addr) (noClear : Nat)
    (done : Nat → Nat) (fuel this : Nat) (st st1 : EngineState)
    (h : ImGUIWindow.TickConcurrent N alloc noClear done fuel this st = some st1) :
    st1.windows.length = st.windows.length ∧ st1.queue.length ≤ st.queue.length + 1 ∧
    ∀ j w1, st1.windows.get? j = some w1 →
      ∃ w, st.windows.get? j = some w ∧ w1.imguiViewport = w.imguiViewport ∧
        w1.drawDataBuffers.length = w.drawDataBuffers.length ∧
        (j = this → w1.indexCurrentBuffer < N) ∧
        (j ≠ this → w1.indexCurrentBuffer = w.indexCurrentBuffer ∧
          ∀ k, w.flags.getD k false = true → w1.flags.getD k false = true) := by
  obtain ⟨w, s, stm, hw, _, hm, hfill⟩ :=
    TickConcurrent_some N alloc noClear done fuel this st st1 h
  obtain ⟨hrel, hqm⟩ := consumeN_released (done s.time) st stm hm
  obtain ⟨wm, d, filled, hwm, _, _, _, _, hq, _, hothers, hthis, hlen1⟩ :=
    fill_effect N alloc noClear this s stm st1 hfill
  refine ⟨by rw [hlen1, hrel.2.1], ?_, ?_⟩
  · rw [hq, hqm]
    simp only [List.length_append, List.length_drop, List.length_cons, List.length_nil]
    omega
  · intro j w1 hw1
    by_cases hj : j = this
    · subst hj
      rw [hthis] at hw1
      cases hw1
      obtain ⟨w0, hw0, hv, _, hl, _⟩ := ReleasedFrom_window_back st stm hrel j wm hwm
      refine ⟨w0, hw0, hv, by simp only [List.length_set]; exact hl, ?_, fun hne => absurd rfl hne⟩
      intro _
      exact Nat.mod_lt _ hN
    · rw [hothers j hj] at hw1
      obtain ⟨w0, hw0, hv, hcur, hl, hslots⟩ := ReleasedFrom_window_back st stm hrel j w1 hw1
      refine ⟨w0, hw0, hv, hl, fun he => absurd he hj, fun _ => ⟨hcur, ?_⟩⟩
      intro k hk
      obtain ⟨d0, hd0, hfree0⟩ := flag_true_slot w0 k hk
      obtain ⟨d1, hd1, _, hf⟩ := hslots k d0 hd0
      exact slot_flag_true w1 k d1 hd1 (hf hfree0)


/-! ## `EndDraw` while the rendering thread runs -/

/-- Everything a completed `Tick` changes.  The rendering thread has executed
`m` commands by the last read; in the state it left, the slot the search
returned was Free; the call stores the viewport's draw data in that slot, which
turns Busy, leaves every other slot alone and appends one command holding the
slot. -/
theorem TickConcurrent_effect (N : Nat) (alloc : Heap → Addr) (noClear : Nat)
    (done : Nat → Nat) (fuel this : Nat) (st st1 : EngineState)
    (h : ImGUIWindow.TickConcurrent N alloc noClear done fuel this st = some st1) :
    ∃ w m stm k d filled,
      st.windows.get? this = some w ∧ st.consumeN m = some stm ∧
      stm.queue = st.queue.drop m ∧
      stm.slotAt ⟨this, k⟩ = some d ∧ d.isFree = true ∧
      d.SetDrawData alloc stm.heap w.imguiViewport.DrawData = some (st1.heap, filled) ∧
      filled.isFree = false ∧
      (∀ r, st1.slotAt r = if r = ⟨this, k⟩ then some filled else stm.slotAt r) ∧
      st1.queue = stm.queue ++ [ImGUIWindow.drawCommand noClear w ⟨this, k⟩] := by
  obtain ⟨w, s, stm, hw, _, hm, hfill⟩ :=
    TickConcurrent_some N alloc noClear done fuel this st st1 h
  obtain ⟨hrel, hqm⟩ := consumeN_released (done s.time) st stm hm
  obtain ⟨wm, d, filled, hwm, hslot, hfree, hbusy, hset, hq, hslots, _, _, _⟩ :=
    fill_effect N alloc noClear this s stm st1 hfill
  obtain ⟨w0, hw0, hv, _, _, _⟩ := ReleasedFrom_window_back st stm hrel this wm hwm
  rw [hw] at hw0
  cases hw0
  have hcmd : ∀ r, ImGUIWindow.drawCommand noClear wm r = ImGUIWindow.drawCommand noClear w r := by
    intro r
    unfold ImGUIWindow.drawCommand
    rw [hv]
  rw [hv] at hset
  rw [hcmd] at hq
  exact ⟨w, done s.time, stm, s.currentBuffer, d, filled, hw, hm, hqm, hslot, hfree, hset,
    hbusy, hslots, hq⟩

/-- The loop of `EndDraw` keeps the bookkeeping and the memory in order. -/
theorem EndDraw_loop_keeps (N : Nat) (alloc : Heap → Addr)
    (hfresh : ∀ h : Heap, h.read (alloc h) = none) (noClear fuel : Nat)
    (pace : Nat → Nat → Nat) (r index : Nat) (st st1 : EngineState)
    (hinv : RingInvariant st) (hmem : MemoryOK st)
    (h : ImGUIEngine.EndDraw.loop N alloc noClear fuel pace r index st = some st1) :
    RingInvariant st1 ∧ MemoryOK st1 := by
  induction r generalizing index st with
  | zero =>
    simp only [ImGUIEngine.EndDraw.loop, Option.some.injEq] at h
    subst h
    exact ⟨hinv, hmem⟩
  | succ r ih =>
    simp only [ImGUIEngine.EndDraw.loop] at h
    split at h
    · cases h
    · rename_i st2 ht
      exact ih (index + 1) st2
        (RingInvariant_TickConcurrent N alloc noClear (pace index) fuel index st st2 hinv ht)
        (MemoryOK_TickConcurrent N alloc hfresh noClear (pace index) fuel index st st2 hmem ht) h

/-- The loop of `EndDraw` runs to its end: every `Tick` of it returns, when each
window still to be ticked has a Free slot or the rendering thread empties the
queue (at most `B + L` commands) at some read of that `Tick`. -/
theorem EndDraw_loop_total (N : Nat) (alloc : Heap → Addr)
    (hfresh : ∀ h : Heap, h.read (alloc h) = none) (noClear fuel : Nat) (hfuel : 0 < fuel)
    (pace : Nat → Nat → Nat) (hpace : ∀ i t, pace i t ≤ pace i (t + 1)) (B L : Nat)
    (r index : Nat) (st : EngineState) (hL : index + r = L) (hlen : st.windows.length = L)
    (hinv : RingInvariant st) (hmem : MemoryOK st)
    (hring : ∀ j w, st.windows.get? j = some w →
      w.drawDataBuffers.length = N ∧ w.indexCurrentBuffer < N)
    (hq : st.queue.length ≤ B + index)
    (hlive : ∀ j w, index ≤ j → st.windows.get? j = some w →
      (∃ k, w.flags.getD k false = true) ∨ ∃ T, T < fuel ∧ B + L ≤ pace j T) :
    ∃ st1, ImGUIEngine.EndDraw.loop N alloc noClear fuel pace r index st = some st1 := by
  induction r generalizing index st with
  | zero => exact ⟨st, rfl⟩
  | succ r ih =>
    have hidx : index < st.windows.length := by omega
    have hw : st.windows.get? index = some (st.windows[index]) := by
      rw [List.get?_eq_getElem?, List.getElem?_eq_getElem hidx]
    obtain ⟨hwlen, hwc⟩ := hring index _ hw
    have hN : 0 < N := Nat.lt_of_le_of_lt (Nat.zero_le _) hwc
    have hlive0 : (∃ k, (st.windows[index]).flags.getD k false = true) ∨
        ∃ T, T < fuel ∧ st.queue.length ≤ pace index T := by
      rcases hlive index _ (Nat.le_refl _) hw with hk | ⟨T, hT, hp⟩
      · exact Or.inl hk
      · exact Or.inr ⟨T, hT, by omega⟩
    obtain ⟨st2, ht⟩ := TickConcurrent_total N alloc hfresh noClear (pace index) (hpace index)
      fuel index st _ hinv hmem hw hwlen hwc hfuel hlive0
    obtain ⟨hlen2, hq2, hwin2⟩ :=
      TickConcurrent_frame N hN alloc noClear (pace index) fuel index st st2 ht
    obtain ⟨st1, h1⟩ := ih (index + 1) st2 (by omega) (by rw [hlen2]; exact hlen)
      (RingInvariant_TickConcurrent N alloc noClear (pace index) fuel index st st2 hinv ht)
      (MemoryOK_TickConcurrent N alloc hfresh noClear (pace index) fuel index st st2 hmem ht)
      (by
        intro j w2 hw2
        obtain ⟨w0, hw0, _, hl, hthis, hother⟩ := hwin2 j w2 hw2
        obtain ⟨hl0, hc0⟩ := hring j w0 hw0
        refine ⟨by rw [hl]; exact hl0, ?_⟩
        by_cases hj : j = index
        · exact hthis hj
        · rw [(hother hj).1]; exact hc0)
      (by omega)
      (by
        intro j w2 hj hw2
        obtain ⟨w0, hw0, _, _, _, hother⟩ := hwin2 j w2 hw2
        rcases hlive j w0 (by omega) hw0 with ⟨k, hk⟩ | hT
        · exact Or.inl ⟨k, (hother (by omega)).2 k hk⟩
        · exact Or.inr hT)
    refine ⟨st1, ?_⟩
    simp only [ImGUIEngine.EndDraw.loop, ht]
    exact h1

/-- The loop of `EndDraw` is a chain of `Tick` calls, one per position in
increasing order.  A window keeps its viewport and cursor until its own `Tick`,
and the commands the loop enqueues hold, in order, slots of the windows at the
positions the loop went through. -/
theorem EndDraw_loop_chain (N : Nat) (alloc : Heap → Addr) (noClear fuel : Nat)
    (pace : Nat → Nat → Nat) (r index : Nat) (st st1 : EngineState)
    (h : ImGUIEngine.EndDraw.loop N alloc noClear fuel pace r index st = some st1) :
    ∃ chain : List EngineState, chain.length = r + 1 ∧ chain.head? = some st ∧
      chain.getLast? = some st1 ∧
      (∃ n cmds, st1.queue = (st.queue ++ cmds).drop n ∧
        cmds.map (fun c => c.slot.window) = List.range' index r) ∧
      ∀ i, i < r → ∃ a b, chain.get? i = some a ∧ chain.get? (i + 1) = some b ∧
        ImGUIWindow.TickConcurrent N alloc noClear (pace (index + i)) fuel (index + i) a
          = some b ∧
        (∀ j wa, index + i ≤ j → a.windows.get? j = some wa →
          ∃ w0, st.windows.get? j = some w0 ∧ wa.imguiViewport = w0.imguiViewport ∧
            wa.indexCurrentBuffer = w0.indexCurrentBuffer) := by
  induction r generalizing index st with
  | zero =>
    simp only [ImGUIEngine.EndDraw.loop, Option.some.injEq] at h
    subst h
    exact ⟨[st], rfl, rfl, rfl, ⟨0, [], by simp, rfl⟩, fun i hi => absurd hi (Nat.not_lt_zero _)⟩
  | succ r ih =>
    simp only [ImGUIEngine.EndDraw.loop] at h
    split at h
    · cases h
    · rename_i st2 ht
      obtain ⟨chain, hlen, hhead, hlast, ⟨n, cmds, hq, hcmds⟩, hsteps⟩ := ih (index + 1) st2 h
      obtain ⟨w, m, stm, k, d, filled, hw, hm, hqm, _, _, _, _, _, hq2⟩ :=
        TickConcurrent_effect N alloc noClear (pace index) fuel index st st2 ht
      obtain ⟨w2, s2, stm2, _, _, hm2, hfill2⟩ :=
        TickConcurrent_some N alloc noClear (pace index) fuel index st st2 ht
      obtain ⟨hrel2, _⟩ := consumeN_released _ st stm2 hm2
      obtain ⟨_, _, _, _, _, _, _, _, _, _, hothers2, _, _⟩ :=
        fill_effect N alloc noClear index s2 stm2 st2 hfill2
      -- the queue after the first call
      have hq2' : st2.queue
          = (st.queue ++ [ImGUIWindow.drawCommand noClear w ⟨index, k⟩]).drop
              (min m st.queue.length) := by
        rw [hq2, hqm, List.drop_append_of_le_length (Nat.min_le_right _ _)]
        congr 1
        rcases Nat.le_total m st.queue.length with hle | hge
        · rw [Nat.min_eq_left hle]
        · rw [Nat.min_eq_right hge, List.drop_eq_nil_of_le hge, List.drop_eq_nil_of_le (Nat.le_refl _)]
      refine ⟨st :: chain, by simp [hlen], rfl, ?_, ?_, ?_⟩
      · cases chain with
        | nil => simp at hlen
        | cons c cs => rw [List.getLast?_cons_cons]; exact hlast
      · refine ⟨min m st.queue.length + n,
          ImGUIWindow.drawCommand noClear w ⟨index, k⟩ :: cmds, ?_, ?_⟩
        · rw [hq, hq2', ← List.drop_append_of_le_length (by
            simp only [List.length_append, List.length_cons, List.length_nil]
            exact Nat.le_trans (Nat.min_le_right _ _) (Nat.le_succ _)),
            List.drop_drop, List.append_assoc]
          rfl
        · simp only [List.map_cons, drawCommand_slot, hcmds, List.range']
      · intro i hi
        cases i with
        | zero =>
          refine ⟨st, st2, rfl, ?_, ht, fun j wa _ hwa => ⟨wa, hwa, rfl, rfl⟩⟩
          cases chain with
          | nil => simp at hlen
          | cons c cs =>
            simp only [List.head?_cons, Option.some.injEq] at hhead
            subst hhead
            rfl
        | succ i =>
          obtain ⟨a, b, ha, hb, hab, hwin⟩ := hsteps i (Nat.lt_of_succ_lt_succ hi)
          refine ⟨a, b, ha, hb, ?_, ?_⟩
          · rw [show index + (i + 1) = index + 1 + i by omega]; exact hab
          · intro j wa hj hwa
            obtain ⟨w1, hw1, hv1, hc1⟩ := hwin j wa (by omega) hwa
            rw [hothers2 j (by omega)] at hw1
            obtain ⟨w0, hw0, hv0, hc0, _, _⟩ :=
              ReleasedFrom_window_back st stm2 hrel2 j w1 hw1
            exact ⟨w0, hw0, hv1.trans hv0, hc1.trans hc0⟩

/-- Freshly constructed windows over valid, well formed draw data have their
memory in order. -/
theorem MemoryOK_init (N : Nat) (heap : Heap) (viewports : List ImGuiViewport)
    (hsrc : ∀ v, v ∈ viewports → ∃ src, v.DrawData = some src ∧ src.Valid = true ∧
      0 ≤ src.CmdListsCount ∧ src.CmdListsCount < 2147483648 ∧ src.WellFormed heap) :
    MemoryOK { heap := heap, windows := viewports.map (ImGUIWindow.new N), queue := [] } := by
  have hnew : ∀ r d,
      EngineState.slotAt
        { heap := heap, windows := viewports.map (ImGUIWindow.new N), queue := [] } r = some d →
      d = CImGUIDrawData.new := by
    intro r d hd
    unfold EngineState.slotAt at hd
    simp only [List.get?_eq_getElem?, List.getElem?_map] at hd
    split at hd
    · cases hd
    · rename_i w hw
      obtain ⟨v, _, rfl⟩ := Option.map_eq_some'.mp hw
      simp only [ImGUIWindow.new] at hd
      obtain ⟨hlt, heq⟩ := List.getElem?_eq_some_iff.mp hd
      rw [List.getElem_replicate] at heq
      exact heq.symm
  have hempty : ∀ hX : Heap, CImGUIDrawData.new.drawData.addrs hX = [] := fun _ => rfl
  refine ⟨?_, ?_, ?_⟩
  · intro r d hd
    rw [hnew r d hd]
    exact ⟨⟨[], rfl⟩, Or.inl rfl⟩
  · intro r r' d d' _ hd _ a ha
    rw [hnew r d hd, hempty] at ha
    cases ha
  · intro i w hw
    simp only [List.get?_eq_getElem?, List.getElem?_map] at hw
    obtain ⟨v, hv, rfl⟩ := Option.map_eq_some'.mp hw
    obtain ⟨hlt, heq⟩ := List.getElem?_eq_some_iff.mp hv
    obtain ⟨src, h1, h2, h3, h4, h5⟩ := hsrc v (List.mem_iff_getElem.mpr ⟨i, hlt, heq⟩)
    refine ⟨src, h1, h2, h3, h4, h5, ?_⟩
    intro r d hd a _ ha
    rw [hnew r d hd, hempty] at ha
    cases ha


/-- C8: `ImGUIEngine::EndDraw` over `k` open windows, with the rendering thread
running at any pace.  A completed call is a chain of exactly `k` `Tick` calls,
the `i`-th on the window at position `i` of the list, which still has the
viewport and cursor it had when the loop started.  Each `Tick` takes one slot
of its own window that is Free in the state the rendering thread has reached,
stores the viewport's draw data in it, which turns it Busy, leaves every other
slot of every window alone, and appends exactly one draw command, which holds
that same slot: the main-window command if and only if the viewport's
`ViewportRHI` is null, otherwise the child-window command for that viewport.
In total `k` commands are enqueued, holding slots of the windows `0, ..., k-1`
in this order.  And the call does complete: with an allocator that returns
unused addresses, rings of `N` slots with cursors in range, the bookkeeping
between rings and queue and the memory in order, and a rendering thread that
does not undo work, every `Tick` returns when its window has a Free slot or the
rendering thread empties the queue at some read that the fuel covers. -/
theorem end_draw_ticks_every_window (N : Nat) (alloc : Heap → Addr) (noClear fuel : Nat)
    (pace : Nat → Nat → Nat) (imguiRender : EngineState → EngineState) (st : EngineState) :
    (∀ st1, ImGUIEngine.EndDraw N alloc noClear fuel pace imguiRender st = some st1 →
      ∃ chain : List EngineState,
        chain.length = (imguiRender st).windows.length + 1 ∧
        chain.head? = some (imguiRender st) ∧ chain.getLast? = some st1 ∧
        (∃ n cmds, st1.queue = ((imguiRender st).queue ++ cmds).drop n ∧
          cmds.map (fun c => c.slot.window) = List.range (imguiRender st).windows.length) ∧
        ∀ i, i < (imguiRender st).windows.length →
          ∃ a b w0 w m stm k d filled,
            chain.get? i = some a ∧ chain.get? (i + 1) = some b ∧
            ImGUIWindow.TickConcurrent N alloc noClear (pace i) fuel i a = some b ∧
            (imguiRender st).windows.get? i = some w0 ∧ a.windows.get? i = some w ∧
            w.imguiViewport = w0.imguiViewport ∧
            w.indexCurrentBuffer = w0.indexCurrentBuffer ∧
            a.consumeN m = some stm ∧ stm.queue = a.queue.drop m ∧
            stm.slotAt ⟨i, k⟩ = some d ∧ d.isFree = true ∧
            d.SetDrawData alloc stm.heap w.imguiViewport.DrawData = some (b.heap, filled) ∧
            b.slotAt ⟨i, k⟩ = some filled ∧ filled.isFree = false ∧
            (∀ r, r ≠ ⟨i, k⟩ → b.slotAt r = stm.slotAt r) ∧
            b.queue = stm.queue ++ [ImGUIWindow.drawCommand noClear w ⟨i, k⟩] ∧
            (ImGUIWindow.drawCommand noClear w ⟨i, k⟩).slot = ⟨i, k⟩ ∧
            (ImGUIWindow.drawCommand noClear w ⟨i, k⟩
                = RenderCommand.MainWindow_DrawImGUICommand ⟨i, k⟩
              ↔ w.imguiViewport.ViewportRHI = none) ∧
            (∀ v, w.imguiViewport.ViewportRHI = some v →
              ImGUIWindow.drawCommand noClear w ⟨i, k⟩
                = RenderCommand.ChildWindow_DrawImGUICommand ⟨i, k⟩ v
                    (decide (w.imguiViewport.Flags &&& noClear = 0)))) ∧
    ((∀ h : Heap, h.read (alloc h) = none) → 0 < fuel →
      (∀ i t, pace i t ≤ pace i (t + 1)) →
      (∀ w, w ∈ (imguiRender st).windows →
        w.drawDataBuffers.length = N ∧ w.indexCurrentBuffer < N) →
      RingInvariant (imguiRender st) → MemoryOK (imguiRender st) →
      (∀ i w, (imguiRender st).windows.get? i = some w →
        (∃ k, w.flags.getD k false = true) ∨
        ∃ T, T < fuel ∧
          (imguiRender st).queue.length + (imguiRender st).windows.length ≤ pace i T) →
      ∃ st1, ImGUIEngine.EndDraw N alloc noClear fuel pace imguiRender st = some st1) := by
  constructor
  · intro st1 h
    unfold ImGUIEngine.EndDraw at h
    simp only at h
    obtain ⟨chain, hlen, hhead, hlast, ⟨n, cmds, hq, hcmds⟩, hsteps⟩ :=
      EndDraw_loop_chain N alloc noClear fuel pace _ 0 _ st1 h
    refine ⟨chain, hlen, hhead, hlast, ⟨n, cmds, hq, by rw [hcmds, List.range_eq_range']⟩, ?_⟩
    intro i hi
    obtain ⟨a, b, ha, hb, hab, hwin⟩ := hsteps i hi
    rw [Nat.zero_add] at hab
    obtain ⟨w, m, stm, k, d, filled, hw, hm, hqm, hd, hfree, hset, hbusy, hslots, hqb⟩ :=
      TickConcurrent_effect N alloc noClear (pace i) fuel i a b hab
    obtain ⟨w0, hw0, hv0, hc0⟩ := hwin i w (by omega) hw
    refine ⟨a, b, w0, w, m, stm, k, d, filled, ha, hb, hab, hw0, hw, hv0, hc0, hm, hqm, hd,
      hfree, hset, ?_, hbusy, ?_, hqb, drawCommand_slot noClear w _, ?_, ?_⟩
    · rw [hslots, if_pos rfl]
    · intro r hr
      rw [hslots, if_neg hr]
    · unfold ImGUIWindow.drawCommand
      cases hv : w.imguiViewport.ViewportRHI with
      | none => simp
      | some v => simp
    · intro v hv
      simp only [ImGUIWindow.drawCommand, hv]
      congr 1
  · intro hfresh hfuel hpace hring hinv hmem hlive
    unfold ImGUIEngine.EndDraw
    simp only
    apply EndDraw_loop_total N alloc hfresh noClear fuel hfuel pace hpace
      (imguiRender st).queue.length (imguiRender st).windows.length _ 0 _
      (Nat.zero_add _) rfl hinv hmem
    · intro j w hw
      apply hring w
      rw [List.get?_eq_getElem?] at hw
      obtain ⟨hlt, heq⟩ := List.getElem?_eq_some_iff.mp hw
      exact List.mem_iff_getElem.mpr ⟨j, hlt, heq⟩
    · exact Nat.le_refl _
    · intro j w _ hw
      exact hlive j w hw


/-- C8 at two windows, a main window showing `sourceFrame` and a child window,
with rings of two slots.  Two `EndDraw` calls with the rendering thread idle
fill both rings; a third call does not return while the rendering thread stays
idle, and returns, having ticked both windows in order, when the rendering
thread empties the queue during the first `Tick`. -/
theorem end_draw_ticks_every_window_witness :
    ImGUIEngine.EndDraw 2 Heap.fresh 0 1 (fun _ => idlePace) id twoFresh = some twoHalf ∧
    ImGUIEngine.EndDraw 2 Heap.fresh 0 1 (fun _ => idlePace) id twoHalf = some twoFull ∧
    (∀ w, w ∈ twoFull.windows → w.flags = [false, false]) ∧
    ImGUIEngine.EndDraw 2 Heap.fresh 0 5 (fun _ => idlePace) id twoFull = none ∧
    ImGUIEngine.EndDraw 2 Heap.fresh 0 2 (fun _ => drainPace) id twoFull = some twoNext ∧
    (∃ st1, ImGUIEngine.EndDraw 2 Heap.fresh 0 2 (fun _ => drainPace) id twoFull = some st1) ∧
    ∃ chain : List EngineState,
      chain.length = twoFull.windows.length + 1 ∧
      chain.head? = some twoFull ∧ chain.getLast? = some twoNext ∧
      ∃ n cmds, twoNext.queue = (twoFull.queue ++ cmds).drop n ∧
        cmds.map (fun c => c.slot.window) = List.range twoFull.windows.length :=
  have h1 : ImGUIEngine.EndDraw 2 Heap.fresh 0 1 (fun _ => idlePace) id twoFresh
      = some twoHalf := by decide
  have h2 : ImGUIEngine.EndDraw 2 Heap.fresh 0 1 (fun _ => idlePace) id twoHalf
      = some twoFull := by decide
  have h3 : ImGUIEngine.EndDraw 2 Heap.fresh 0 2 (fun _ => drainPace) id twoFull
      = some twoNext := by decide
  have hsrc : ∀ v, v ∈ [paintedViewport, childViewport] → ∃ src, v.DrawData = some src ∧
      src.Valid = true ∧ 0 ≤ src.CmdListsCount ∧ src.CmdListsCount < 2147483648 ∧
      src.WellFormed sourceHeap := by
    intro v hv
    rcases List.mem_cons.mp hv with rfl | hv
    · exact ⟨sourceFrame, rfl, rfl, by decide, by decide, ⟨[sourceList], by decide⟩,
        Or.inr ⟨10, [some 11], rfl, by decide, by decide⟩⟩
    · rcases List.mem_cons.mp hv with rfl | hv
      · exact ⟨emptyFrame, rfl, rfl, by decide, by decide, ⟨[], by decide⟩, Or.inl rfl⟩
      · cases hv
  have hhalf := EndDraw_loop_keeps 2 Heap.fresh Heap.fresh_unused 0 1 (fun _ => idlePace) 2 0
    twoFresh twoHalf (RingInvariant_init 2 sourceHeap [paintedViewport, childViewport])
    (MemoryOK_init 2 sourceHeap [paintedViewport, childViewport] hsrc) h1
  have hfull := EndDraw_loop_keeps 2 Heap.fresh Heap.fresh_unused 0 1 (fun _ => idlePace) 2 0
    twoHalf twoFull hhalf.1 hhalf.2 h2
  have hthm := end_draw_ticks_every_window 2 Heap.fresh 0 2 (fun _ => drainPace) id twoFull
  have hprod := hthm.2 Heap.fresh_unused (by decide)
    (fun _ t => by unfold drainPace; split <;> split <;> omega)
    (by decide) hfull.1 hfull.2 (fun _ _ _ => Or.inr ⟨1, by decide, by decide⟩)
  let ⟨chain, c1, c2, c3, c4, _⟩ := hthm.1 twoNext h3
  ⟨h1, h2, by decide, by decide, h3, hprod, chain, c1, c2, c3, c4⟩

end LifeEngine
